import Mathlib

/-!
# Crescendo database engine: the disk B-tree index (`DiskBTreeMulti.h`)

Shallow embedding of `diskbtree::DiskBTree<TRAITS>`.

* A node on disk (`NodeDiskGeneric`) holds `isLeaf`, the key count `n`, the arrays
  `keys[]`/`pages[]` and the child offsets `children[]`.  Here a node is a value:
  the pair `(keys[i], pages[i])` for `i < n` is the `i`-th element of `entries`
  (so `n = entries.length`), and a child offset is replaced by the node stored at
  that offset (`read_node`).  Every node is referenced by exactly one parent and
  `alloc_node` only appends fresh nodes, so writing a node back at its offset is
  the same as replacing the subtree in its parent.
* Keys are the raw stored keys, ordered by `TRAITS::cmp_mem`; the development is
  generic in a linearly ordered key type (`KeyInt`: signed comparison, `KeyChar32`:
  `memcmp`, `KeyFloat` without NaN).  Values (`pages[]`, row ids) are integers.
* An access the source never performs on a well-formed file (a child slot that
  does not exist, `keys[-1]`) makes the operation fail with `none`.
* Recursive procedures take a recursion budget; the public operations supply the
  depth of the tree, which is always enough (the totality theorems below).
-/

namespace diskbtree

/-- Interleaving of separators and blocks: `f0 ++ e0 :: f1 ++ e1 :: …`. -/
def inorder {α : Type} : List α → List (List α) → List α
  | [], [] => []
  | [], f :: _ => f
  | e :: es, [] => e :: inorder es []
  | e :: es, f :: fs => f ++ e :: inorder es fs

/-- The struct `NodeDiskGeneric`: a leaf (`isLeaf = 1`) or an internal node (`isLeaf = 0`). -/
inductive NodeDisk (K : Type) where
  | leaf (entries : List (K × Int))
  | inner (entries : List (K × Int)) (children : List (NodeDisk K))

namespace NodeDisk

variable {K : Type}

/-- The live `(keys[i], pages[i])` slots, `i < n`. -/
def entries : NodeDisk K → List (K × Int)
  | .leaf es => es
  | .inner es _ => es

/-- The child slots of a node (none in a leaf). -/
def children : NodeDisk K → List (NodeDisk K)
  | .leaf _ => []
  | .inner _ cs => cs

/-- The flag `isLeaf`. -/
def isLeaf : NodeDisk K → Bool
  | .leaf _ => true
  | .inner _ _ => false

/-- The key count `n`. -/
def n (x : NodeDisk K) : Nat := x.entries.length

/-- Writing child slot `i` of an internal node. -/
def setChild : NodeDisk K → Nat → NodeDisk K → NodeDisk K
  | .leaf es, _, _ => .leaf es
  | .inner es cs, i, c => .inner es (cs.set i c)

mutual
/-- Number of levels below and including this node (longest path). -/
def depth : NodeDisk K → Nat
  | .leaf _ => 1
  | .inner _ cs => depthList cs + 1
/-- Largest `depth` in a list of nodes. -/
def depthList : List (NodeDisk K) → Nat
  | [] => 0
  | c :: cs => max (depth c) (depthList cs)
end

mutual
/-- In-order listing of every entry stored in the subtree:
`children[0], entry 0, children[1], entry 1, …, children[n]`. -/
def flat : NodeDisk K → List (K × Int)
  | .leaf es => es
  | .inner es cs => inorder es (flatList cs)
/-- The in-order listings of a list of nodes. -/
def flatList : List (NodeDisk K) → List (List (K × Int))
  | [] => []
  | c :: cs => flat c :: flatList cs
end

end NodeDisk

/-- Header of an index file (`FileHeader`): the minimum degree `t` and the root
(`root_off`, where offset `0` means that the tree is empty). -/
structure DiskBTree (K : Type) where
  t : Nat
  root : Option (NodeDisk K)

section ops

variable {K : Type} [LinearOrder K]

/-- Comparator `TRAITS::cmp_mem`: `-1`, `0` or `1`. -/
def cmp_mem (a b : K) : Int :=
  if a < b then -1 else if b < a then 1 else 0

/-- Forward scan `i = 0; while (i < n && cmp_mem(keys[i], k) < 0) ++i`. -/
def scan_lt (es : List (K × Int)) (k : K) : Nat :=
  (es.takeWhile (fun e => decide (cmp_mem e.1 k < 0))).length

/-- Backward scan `i = n-1; while (i >= 0 && cmp_mem(keys[i], k) > 0) --i; ++i`. -/
def scan_gt (es : List (K × Int)) (k : K) : Nat :=
  (es.rdropWhile (fun e => decide (cmp_mem e.1 k > 0))).length

/-- Procedure `search_rec`. -/
def search_rec : Nat → NodeDisk K → K → Option Int
  | 0, _, _ => none
  | fuel + 1, x, k =>
    let i := scan_lt x.entries k
    match x.entries[i]? with
    | some e =>
      if cmp_mem e.1 k = 0 then some e.2
      else if x.isLeaf then some (-1)
      else x.children[i]?.bind (fun c => search_rec fuel c k)
    | none =>
      if x.isLeaf then some (-1)
      else x.children[i]?.bind (fun c => search_rec fuel c k)

/-- Procedure `split_child(x, i, y)` with `y = x.children[i]`, returning the new `x`
(whose child `i` is the shrunk `y` and whose child `i+1` is the new node `z`).
Both callers invoke it only when `y.n = 2*T()-1`. -/
def split_child (t : Nat) (x : NodeDisk K) (i : Nat) : Option (NodeDisk K) :=
  match x with
  | .leaf _ => none
  | .inner xes xcs =>
    match xcs[i]? with
    | none => none
    | some y =>
      match y.entries[t - 1]? with
      | none => none
      | some m =>
        let z : NodeDisk K := match y with
          | .leaf yes => .leaf ((yes.drop t).take (t - 1))
          | .inner yes ycs => .inner ((yes.drop t).take (t - 1)) ((ycs.drop t).take t)
        let y2 : NodeDisk K := match y with
          | .leaf yes => .leaf (yes.take (t - 1))
          | .inner yes ycs => .inner (yes.take (t - 1)) (ycs.take t)
        some (.inner (xes.insertIdx i m) ((xcs.set i y2).insertIdx (i + 1) z))

/-- Procedure `insert_non_full`, returning the new subtree. -/
def insert_non_full (t : Nat) : Nat → NodeDisk K → K → Int → Option (NodeDisk K)
  | 0, _, _, _ => none
  | _ + 1, .leaf es, k, v => some (.leaf (es.insertIdx (scan_gt es k) (k, v)))
  | fuel + 1, .inner es cs, k, v =>
    let i := scan_gt es k
    match cs[i]? with
    | none => none
    | some child =>
      if child.n = 2 * t - 1 then
        match split_child t (.inner es cs) i with
        | none => none
        | some x2 =>
          match x2.entries[i]? with
          | none => none
          | some m =>
            let j := if cmp_mem m.1 k < 0 then i + 1 else i
            match x2.children[j]? with
            | none => none
            | some c =>
              match insert_non_full t fuel c k v with
              | none => none
              | some c2 => some (x2.setChild j c2)
      else
        match insert_non_full t fuel child k v with
        | none => none
        | some c2 => some (.inner es (cs.set i c2))

/-- Method `insert(key, value)`. -/
def insert (bt : DiskBTree K) (k : K) (v : Int) : Option (DiskBTree K) :=
  match bt.root with
  | none => some { bt with root := some (.leaf [(k, v)]) }
  | some root =>
    if root.n = 2 * bt.t - 1 then
      match split_child bt.t (.inner [] [root]) 0 with
      | none => none
      | some s =>
        match s.entries[0]? with
        | none => none
        | some m =>
          let i := if cmp_mem m.1 k < 0 then 1 else 0
          match s.children[i]? with
          | none => none
          | some c =>
            match insert_non_full bt.t root.depth c k v with
            | none => none
            | some c2 => some { bt with root := some (s.setChild i c2) }
    else
      match insert_non_full bt.t root.depth root k v with
      | none => none
      | some r2 => some { bt with root := some r2 }

/-- Method `search_get_value`. -/
def search_get_value (bt : DiskBTree K) (k : K) : Option Int :=
  match bt.root with
  | none => some (-1)
  | some root => search_rec root.depth root k

/-- Leaf loop of `range_rec_values`: skip keys below `a`, stop at the first key
above `b`, emit `pages[i]` otherwise. -/
def range_leaf (a b : K) : List (K × Int) → List Int
  | [] => []
  | e :: es =>
    if cmp_mem e.1 a < 0 then range_leaf a b es
    else if cmp_mem e.1 b > 0 then []
    else e.2 :: range_leaf a b es

/-- Last loop of `range_rec_values` on an internal node:
`while (i < n && cmp_mem(keys[i], b) <= 0) { emit pages[i]; rec(children[i+1]); ++i; }`,
run over the entries from `i` on and the children from `i+1` on. -/
def range_tail (rec : NodeDisk K → Option (List Int)) (b : K) :
    List (K × Int) → List (NodeDisk K) → Option (List Int)
  | [], _ => some []
  | e :: es, cs =>
    if cmp_mem e.1 b ≤ 0 then
      match cs with
      | [] => none
      | c :: cs2 =>
        match rec c, range_tail rec b es cs2 with
        | some r, some rest => some (e.2 :: r ++ rest)
        | _, _ => none
    else some []

/-- First loop of `range_rec_values` on an internal node: the recursive calls on
`children[0], …, children[i-1]`. -/
def range_head (rec : NodeDisk K → Option (List Int)) :
    Nat → List (NodeDisk K) → Option (List Int)
  | 0, _ => some []
  | _ + 1, [] => none
  | i + 1, c :: cs =>
    match rec c, range_head rec i cs with
    | some r, some rest => some (r ++ rest)
    | _, _ => none

/-- Procedure `range_rec_values`; the result is what the call appends to `out`. -/
def range_rec_values : Nat → NodeDisk K → K → K → Option (List Int)
  | 0, _, _, _ => none
  | _ + 1, .leaf es, a, b => some (range_leaf a b es)
  | fuel + 1, .inner es cs, a, b =>
    let i := scan_lt es a
    match range_head (fun c => range_rec_values fuel c a b) i cs with
    | none => none
    | some p1 =>
      match (if i < es.length then cs[i]?.bind (fun c => range_rec_values fuel c a b)
             else some []) with
      | none => none
      | some p2 =>
        match range_tail (fun c => range_rec_values fuel c a b) b (es.drop i) (cs.drop (i + 1)) with
        | none => none
        | some p3 => some (p1 ++ p2 ++ p3)

/-- Method `range_search_values`. -/
def range_search_values (bt : DiskBTree K) (a_in b_in : K) : Option (List Int) :=
  let a := if cmp_mem a_in b_in > 0 then b_in else a_in
  let b := if cmp_mem a_in b_in > 0 then a_in else b_in
  match bt.root with
  | none => some []
  | some root => range_rec_values root.depth root a b

/-- Procedure `remove_from_leaf`. -/
def remove_from_leaf (x : NodeDisk K) (idx : Nat) : NodeDisk K :=
  match x with
  | .leaf es => .leaf (es.eraseIdx idx)
  | .inner es cs => .inner (es.eraseIdx idx) cs

/-- Procedure `get_predecessor`: the last entry of the rightmost leaf. -/
def get_predecessor : Nat → NodeDisk K → Option (K × Int)
  | 0, _ => none
  | _ + 1, .leaf es => es.getLast?
  | fuel + 1, .inner es cs => cs[es.length]?.bind (get_predecessor fuel)

/-- Procedure `get_successor`: the first entry of the leftmost leaf. -/
def get_successor : Nat → NodeDisk K → Option (K × Int)
  | 0, _ => none
  | _ + 1, .leaf es => es.head?
  | fuel + 1, .inner _ cs => cs[0]?.bind (get_successor fuel)

/-- Procedure `merge(x, idx)`: child `idx`, separator `idx` and child `idx+1` become
one node in slot `idx`.  The separator is written at `c.keys[T()-1]`, which is the
end of `c` because both callers merge only children with `T()-1` keys. -/
def merge (x : NodeDisk K) (idx : Nat) : Option (NodeDisk K) :=
  match x with
  | .leaf _ => none
  | .inner xes xcs =>
    match xcs[idx]?, xcs[idx + 1]?, xes[idx]? with
    | some c, some s, some sep =>
      let c2 : NodeDisk K := match c with
        | .leaf ces => .leaf (ces ++ sep :: s.entries)
        | .inner ces ccs => .inner (ces ++ sep :: s.entries) (ccs ++ s.children)
      some (.inner (xes.eraseIdx idx) ((xcs.set idx c2).eraseIdx (idx + 1)))
    | _, _, _ => none

/-- Procedure `borrow_from_prev(x, idx)`. -/
def borrow_from_prev (x : NodeDisk K) (idx : Nat) : Option (NodeDisk K) :=
  match x with
  | .leaf _ => none
  | .inner xes xcs =>
    match xcs[idx]?, xcs[idx - 1]?, xes[idx - 1]? with
    | some child, some sib, some down =>
      match sib.entries.getLast? with
      | none => none
      | some up =>
        let sib2 : NodeDisk K := match sib with
          | .leaf ses => .leaf ses.dropLast
          | .inner ses scs => .inner ses.dropLast (scs.take ses.length)
        let child2 : Option (NodeDisk K) := match child with
          | .leaf ces => some (.leaf (down :: ces))
          | .inner ces ccs => (sib.children[sib.n]?).map (fun g => .inner (down :: ces) (g :: ccs))
        child2.map (fun c2 => .inner (xes.set (idx - 1) up) ((xcs.set idx c2).set (idx - 1) sib2))
    | _, _, _ => none

/-- Procedure `borrow_from_next(x, idx)`. -/
def borrow_from_next (x : NodeDisk K) (idx : Nat) : Option (NodeDisk K) :=
  match x with
  | .leaf _ => none
  | .inner xes xcs =>
    match xcs[idx]?, xcs[idx + 1]?, xes[idx]? with
    | some child, some sib, some down =>
      match sib.entries.head? with
      | none => none
      | some up =>
        let sib2 : NodeDisk K := match sib with
          | .leaf ses => .leaf ses.tail
          | .inner ses scs => .inner ses.tail scs.tail
        let child2 : Option (NodeDisk K) := match child with
          | .leaf ces => some (.leaf (ces ++ [down]))
          | .inner ces ccs => (sib.children[0]?).map (fun g => .inner (ces ++ [down]) (ccs ++ [g]))
        child2.map (fun c2 => .inner (xes.set idx up) ((xcs.set idx c2).set (idx + 1) sib2))
    | _, _, _ => none

/-- Second half of `fill(x, idx)`, reached when the left sibling cannot lend a key:
borrow from the right sibling, else merge with the right sibling (with the left one
for the last child). -/
def fill_right (t : Nat) (x : NodeDisk K) (idx : Nat) : Option (NodeDisk K) :=
  if idx ≠ x.n then
    match x.children[idx + 1]? with
    | none => none
    | some right => if right.n ≥ t then borrow_from_next x idx else merge x idx
  else merge x (idx - 1)

/-- Procedure `fill(x, idx)`: borrow from the left sibling when it has at least `T()`
keys, otherwise continue with `fill_right`. -/
def fill (t : Nat) (x : NodeDisk K) (idx : Nat) : Option (NodeDisk K) :=
  if idx ≠ 0 then
    match x.children[idx - 1]? with
    | none => none
    | some left => if left.n ≥ t then borrow_from_prev x idx else fill_right t x idx
  else fill_right t x idx

/-- Procedure `remove_from_non_leaf(x, idx)`; `rec` is the recursive `remove_rec`
one level down and `fuel` bounds the walks of `get_predecessor`/`get_successor`. -/
def remove_from_non_leaf (rec : NodeDisk K → K → Option (NodeDisk K)) (fuel t : Nat)
    (x : NodeDisk K) (idx : Nat) : Option (NodeDisk K) :=
  match x.children[idx]?, x.children[idx + 1]?, x.entries[idx]? with
  | some y, some z, some e =>
    if y.n ≥ t then
      match get_predecessor fuel y with
      | none => none
      | some pred =>
        match rec y pred.1 with
        | none => none
        | some y2 => some (.inner (x.entries.set idx pred) (x.children.set idx y2))
    else if z.n ≥ t then
      match get_successor fuel z with
      | none => none
      | some succ =>
        match rec z succ.1 with
        | none => none
        | some z2 => some (.inner (x.entries.set idx succ) (x.children.set (idx + 1) z2))
    else
      match merge x idx with
      | none => none
      | some x2 =>
        match x2.children[idx]? with
        | none => none
        | some merged =>
          match rec merged e.1 with
          | none => none
          | some m2 => some (x2.setChild idx m2)
  | _, _, _ => none

/-- Procedure `remove_rec`, returning the new subtree. -/
def remove_rec (t : Nat) : Nat → NodeDisk K → K → Option (NodeDisk K)
  | 0, _, _ => none
  | fuel + 1, x, k =>
    let idx := scan_lt x.entries k
    if (x.entries[idx]?.map (fun e => decide (cmp_mem e.1 k = 0))) = some true then
      if x.isLeaf then some (remove_from_leaf x idx)
      else remove_from_non_leaf (remove_rec t fuel) fuel t x idx
    else
      if x.isLeaf then some x
      else
        let flag := decide (idx = x.n)
        match x.children[idx]? with
        | none => none
        | some child =>
          match (if child.n < t then fill t x idx else some x) with
          | none => none
          | some x2 =>
            let j := if flag ∧ idx > x2.n then idx - 1 else idx
            match x2.children[j]? with
            | none => none
            | some ch =>
              match remove_rec t fuel ch k with
              | none => none
              | some ch2 => some (x2.setChild j ch2)

/-- Method `remove_key`. -/
def remove_key (bt : DiskBTree K) (k : K) : Option (DiskBTree K) :=
  match bt.root with
  | none => some bt
  | some root =>
    match remove_rec bt.t root.depth root k with
    | none => none
    | some r2 =>
      if r2.n = 0 then
        some { bt with root := if r2.isLeaf then none else r2.children[0]? }
      else some { bt with root := some r2 }

/-- The compile-time constant `MAX_T`. -/
def MAX_T : Nat := 128

/-- Constructor `DiskBTree(path, t, create_new = true)`: throws for `t < 2` and for
`t > MAX_T`, otherwise writes a header with `root_off = 0`. -/
def DiskBTree.create (t : Nat) : Option (DiskBTree K) :=
  if t < 2 then none
  else if t > MAX_T then none
  else some { t := t, root := none }

/-- Method `empty`: the header's root offset is 0. -/
def DiskBTree.empty (bt : DiskBTree K) : Bool := bt.root.isNone

/-- Every entry stored in the index, in in-order. -/
def DiskBTree.stored (bt : DiskBTree K) : List (K × Int) :=
  match bt.root with
  | none => []
  | some r => r.flat

/-- Number of stored entries whose key is `k`. -/
def DiskBTree.keyCount (bt : DiskBTree K) (k : K) : Nat :=
  (bt.stored.filter (fun e => decide (e.1 = k))).length

/-- A call of the public mutating interface of an index. -/
inductive Op (K : Type) where
  | insert (k : K) (v : Int)
  | remove (k : K)

/-- Performing one call. -/
def Op.apply (bt : DiskBTree K) : Op K → Option (DiskBTree K)
  | .insert k v => diskbtree.insert bt k v
  | .remove k => remove_key bt k

/-- Performing a sequence of calls, first to last. -/
def runFrom (bt : DiskBTree K) : List (Op K) → Option (DiskBTree K)
  | [] => some bt
  | op :: ops => (op.apply bt).bind (fun b => runFrom b ops)

/-- The index obtained from a new file of minimum degree `t` by a sequence of
`insert` and `remove_key` calls. -/
def run (t : Nat) (ops : List (Op K)) : Option (DiskBTree K) :=
  (DiskBTree.create t).bind (fun b => runFrom b ops)

/-- The `(key, value)` pairs passed to `insert` in a sequence of calls. -/
def inserted : List (Op K) → List (K × Int)
  | [] => []
  | .insert k v :: ops => (k, v) :: inserted ops
  | .remove _ :: ops => inserted ops

end ops

section invariants

variable {K : Type} [LinearOrder K]

/-- Sortedness of an entry list by key (non-decreasing: duplicates are allowed). -/
def Ord (l : List (K × Int)) : Prop := l.Pairwise (fun a b => a.1 ≤ b.1)

/-- In-order listing of the entries before a child: `L0, a0, L1, a1, …`. -/
def pre (A : List (K × Int)) (L : List (NodeDisk K)) : List (K × Int) :=
  inorder A (L.map NodeDisk.flat)

/-- In-order listing of the entries after a child: `b0, R0, b1, R1, …`. -/
def post (B : List (K × Int)) (R : List (NodeDisk K)) : List (K × Int) :=
  inorder B ([] :: R.map NodeDisk.flat)

/-- Shape of a subtree all of whose leaves are `h` levels below its top node:
internal nodes have `n + 1` children and every node below the top node holds
between `t - 1` and `2t - 1` keys. -/
def WF (t : Nat) : Nat → NodeDisk K → Prop
  | 0, x => x.isLeaf = true
  | h + 1, x => x.isLeaf = false ∧ x.children.length = x.n + 1 ∧
      ∀ c ∈ x.children, WF t h c ∧ t - 1 ≤ c.n ∧ c.n ≤ 2 * t - 1

/-- A well-shaped non-root node. -/
def Good (t h : Nat) (c : NodeDisk K) : Prop :=
  WF t h c ∧ t - 1 ≤ c.n ∧ c.n ≤ 2 * t - 1

/-- Outcome of `fill` on the node `x = inner (A ++ B) (L ++ c :: R)` at child
`idx = A.length`: the new node, focused on the child the descent continues into. -/
def FillPost (t h : Nat) (x : NodeDisk K) (idx : Nat) (A B : List (K × Int))
    (L R : List (NodeDisk K)) (res : Option (NodeDisk K)) : Prop :=
  ∃ A2 B2 L2 c2 R2, res = some (.inner (A2 ++ B2) (L2 ++ c2 :: R2)) ∧
    L2.length = A2.length ∧ R2.length = B2.length ∧
    WF t (h + 1) (.inner (A2 ++ B2) (L2 ++ c2 :: R2)) ∧
    (NodeDisk.inner (A2 ++ B2) (L2 ++ c2 :: R2)).flat = x.flat ∧ t ≤ c2.n ∧
    (if idx = x.n ∧ idx > (A2 ++ B2).length then idx - 1 else idx) = A2.length ∧
    x.n - 1 ≤ (A2 ++ B2).length ∧ (A2 ++ B2).length ≤ x.n ∧
    (∀ p ∈ pre A2 L2, p ∈ pre A L) ∧ (∀ q ∈ post B2 R2, q ∈ post B R)

/-- Outcome of `remove_rec` on the subtree `x` (of height `h`) for the key `k`:
the new subtree `x2` is well shaped and sorted, its top node lost at most one key,
its entries are entries of `x`, one key `k` is gone if `k` was stored, and the
listing is unchanged if it was not. -/
def RemPost (t h : Nat) (x : NodeDisk K) (k : K) (x2 : NodeDisk K) : Prop :=
  WF t h x2 ∧ x.n - 1 ≤ x2.n ∧ x2.n ≤ x.n ∧ Ord x2.flat ∧
  (∀ e ∈ x2.flat, e ∈ x.flat) ∧
  ((∃ w, (k, w) ∈ x.flat) → (k :: x2.flat.map Prod.fst).Perm (x.flat.map Prod.fst)) ∧
  ((∀ w, (k, w) ∉ x.flat) → x2.flat = x.flat)

/-- Invariant of an index file: the root is absent (empty tree) or is the top of
a well-shaped sorted tree and holds between `1` and `2t - 1` keys. -/
def RootInv (bt : DiskBTree K) : Prop :=
  match bt.root with
  | none => True
  | some r => ∃ h, WF bt.t h r ∧ 1 ≤ r.n ∧ r.n ≤ 2 * bt.t - 1 ∧ Ord r.flat

/-- Node `x` occurs in the tree with top node `r`, `d` levels below `r`. -/
inductive AtDepth : NodeDisk K → Nat → NodeDisk K → Prop
  | here (r : NodeDisk K) : AtDepth r 0 r
  | child (es : List (K × Int)) (cs : List (NodeDisk K)) (c : NodeDisk K) (d : Nat)
      (x : NodeDisk K) : c ∈ cs → AtDepth c d x → AtDepth (.inner es cs) (d + 1) x

end invariants

/-- Four insertions into a new index of minimum degree 2 (the fourth one splits
the full root). -/
def exOps : List (Op Int) := [.insert 1 10, .insert 2 20, .insert 3 30, .insert 4 40]

/-- The index built by `exOps`: root `[2]` over the leaves `[1]` and `[3, 4]`. -/
def exTree : DiskBTree Int :=
  { t := 2, root := some (.inner [(2, 20)] [.leaf [(1, 10)], .leaf [(3, 30), (4, 40)]]) }

/-- Two insertions of the same key with different values. -/
def dupOps : List (Op Int) := [.insert 5 1, .insert 5 2]

/-- The index built by `dupOps`: a single leaf holding the key 5 twice. -/
def dupTree : DiskBTree Int := { t := 2, root := some (.leaf [(5, 1), (5, 2)]) }

end diskbtree

/-!
# The fixed-width row store (`GenericFixedTable.h`)

A table is its schema (`cols`, loaded once), the bytes of the `.tbl` file and the
bytes of the `.tbl.del` sidecar.  Bytes are natural numbers below 256; a FLOAT32
value is carried as its 32-bit pattern (it is only copied, never compared here).
An operation that throws in the source returns `none`.
-/

namespace gft

/-- Column types (`enum class ColType`). -/
inductive ColType where
  | INT32
  | FLOAT32
  | CHAR
  deriving DecidableEq, Repr

/-- The struct `Value`: a tag and the three payload fields, all of them present. -/
structure Value where
  t : ColType
  i : Int := 0
  f : Nat := 0
  s : List Nat := []
  deriving DecidableEq, Repr

/-- Constructor `Value::Int`. -/
def Value.Int (v : Int) : Value := { t := .INT32, i := v }
/-- Constructor `Value::Flt` (the float is given by its bit pattern). -/
def Value.Flt (bits : Nat) : Value := { t := .FLOAT32, f := bits }
/-- Constructor `Value::Chr`. -/
def Value.Chr (s : List Nat) : Value := { t := .CHAR, s := s }

instance : Inhabited Value := ⟨{ t := .INT32 }⟩

/-- Column descriptor (`ColMetaDisk`) with a valid type tag. -/
structure ColMetaDisk where
  name : String
  type : ColType
  width : Nat
  offset : Nat
  deriving DecidableEq, Repr

/-- An open table: the schema, the row size `hdr.row_size`, the bytes of the table
file and the bytes of the tombstone file; `hdr.ncols` is `cols.length`. -/
structure GenericFixedTable where
  cols : List ColMetaDisk
  row_size : Nat
  file : List Nat
  del : List Nat
  deriving DecidableEq, Repr

/-- The members of the struct `FileHeader` with their sizes in bytes: `char magic[8]`,
`char table_name[32]` and three `int32_t`. -/
def FileHeader_fields : List (String × Nat) :=
  [("magic", 8), ("table_name", 32), ("ncols", 4), ("row_size", 4), ("reserved", 4)]

/-- The members of the struct `ColMetaDisk` on disk with their sizes in bytes:
`char name[32]` and three `int32_t`. -/
def ColMetaDisk_fields : List (String × Nat) :=
  [("name", 32), ("type", 4), ("width", 4), ("offset", 4)]

/-- The value of `sizeof` for a struct declared under `#pragma pack(push,1)`: the sum
of the sizes of its members, without padding. -/
def sizeof_packed (fields : List (String × Nat)) : Nat := (fields.map Prod.snd).sum

/-- Little-endian bytes of a 32-bit word. -/
def le32 (u : Nat) : List Nat :=
  [u % 256, u / 256 % 256, u / 65536 % 256, u / 16777216 % 256]

/-- The 4 bytes `memcpy` reads from an `int32_t` (two's complement, little endian). -/
def int32_bytes (i : Int) : List Nat := le32 (i % 4294967296).toNat

/-- The 32-bit word stored in (up to) 4 little-endian bytes. -/
def word_of_bytes (bs : List Nat) : Nat :=
  bs.getD 0 0 + 256 * bs.getD 1 0 + 65536 * bs.getD 2 0 + 16777216 * bs.getD 3 0

/-- The `int32_t` that `memcpy` writes from 4 bytes. -/
def int32_of_bytes (bs : List Nat) : Int :=
  let u := word_of_bytes bs
  if u ≥ 2147483648 then (u : Int) - 4294967296 else (u : Int)

/-- Reading `len` bytes at offset `off` (short at the end of the buffer). -/
def readAt (buf : List Nat) (off len : Nat) : List Nat := (buf.drop off).take len

/-- Writing `bytes` at offset `off`; a gap after the end is filled with zeros. -/
def writeAt (buf : List Nat) (off : Nat) (bytes : List Nat) : List Nat :=
  buf.take off ++ List.replicate (off - buf.length) 0 ++ bytes ++ buf.drop (off + bytes.length)

/-- The bytes `pack_row` copies to `dst + c.offset` for one column; `none` when the
value's tag is not the column's type (`std::invalid_argument`). -/
def pack_col (c : ColMetaDisk) (v : Value) : Option (List Nat) :=
  match c.type with
  | .INT32 => if v.t ≠ .INT32 then none else some (int32_bytes v.i)
  | .FLOAT32 => if v.t ≠ .FLOAT32 then none else some (le32 v.f)
  | .CHAR =>
    if v.t ≠ .CHAR then none
    else
      let k := min v.s.length (c.width - 1)
      some (v.s.take k ++ List.replicate (c.width - k) 0)

/-- Procedure `pack_row`: the loop over the columns, each writing at its offset. -/
def pack_row : List ColMetaDisk → List Value → List Nat → Option (List Nat)
  | [], _, buf => some buf
  | _ :: _, [], _ => none
  | c :: cs, v :: vs, buf =>
    match pack_col c v with
    | none => none
    | some bytes => pack_row cs vs (writeAt buf c.offset bytes)

/-- The value `unpack_row` builds for one column. -/
def unpack_col (c : ColMetaDisk) (src : List Nat) : Value :=
  match c.type with
  | .INT32 => Value.Int (int32_of_bytes (readAt src c.offset 4))
  | .FLOAT32 => Value.Flt (word_of_bytes (readAt src c.offset 4))
  | .CHAR => Value.Chr ((readAt src c.offset c.width).takeWhile (fun b => b != 0))

/-- Procedure `unpack_row`. -/
def unpack_row (cols : List ColMetaDisk) (src : List Nat) : List Value :=
  cols.map (fun c => unpack_col c src)

/-- A row valid under the schema: as many values as columns, each value tagged with
its column's type. -/
def row_valid : List ColMetaDisk → List Value → Bool
  | [], [] => true
  | c :: cs, v :: vs => decide (v.t = c.type) && row_valid cs vs
  | _, _ => false

/-- The payload fields hold what their C++ types hold: an `int32_t`, a 32-bit float
pattern and a string of bytes. -/
def Value.wf (v : Value) : Bool :=
  decide (-2147483648 ≤ v.i) && decide (v.i < 2147483648) && decide (v.f < 4294967296) &&
    v.s.all (fun b => decide (b < 256))

/-- Two values with the same tag and the same payload for that tag (FLOAT32 payloads
by bit pattern). -/
def same_value (a b : Value) : Bool :=
  decide (a.t = b.t) &&
    (match a.t with
     | .INT32 => decide (a.i = b.i)
     | .FLOAT32 => decide (a.f = b.f)
     | .CHAR => decide (a.s = b.s))

/-- Rows of the same length whose values are pairwise the same. -/
def same_row : List Value → List Value → Bool
  | [], [] => true
  | a :: as, b :: bs => same_value a b && same_row as bs
  | _, _ => false

/-- A value that its column stores without loss: the tag is the column's type and a
CHAR value is shorter than the column's width and has no NUL byte. -/
def storable (c : ColMetaDisk) (v : Value) : Bool :=
  decide (v.t = c.type) &&
    (match c.type with
     | .CHAR => decide (v.s.length < c.width) && v.s.all (fun b => b != 0)
     | _ => true)

/-- A row each of whose values its column stores without loss. -/
def row_storable : List ColMetaDisk → List Value → Bool
  | [], [] => true
  | c :: cs, v :: vs => storable c v && row_storable cs vs
  | _, _ => false

/-- A byte string without its trailing NUL bytes. -/
def strip_trailing_nuls (bs : List Nat) : List Nat := bs.rdropWhile (fun b => b == 0)

/-- Widths that `init_schema` gives: 4 for INT32 and FLOAT32, at least 1 for CHAR. -/
def width_ok (c : ColMetaDisk) : Bool :=
  match c.type with
  | .INT32 => c.width == 4
  | .FLOAT32 => c.width == 4
  | .CHAR => decide (1 ≤ c.width)

/-- Offsets that `init_schema` gives: the columns follow each other from `start`
on and end at `total`. -/
def layout_ok : List ColMetaDisk → Nat → Nat → Bool
  | [], start, total => start == total
  | c :: cs, start, total => c.offset == start && width_ok c && layout_ok cs (start + c.width) total

namespace GenericFixedTable

/-- A schema as `init_schema` writes it: offsets are the running sums of the widths
and `row_size` is their total. -/
def SchemaOk (t : GenericFixedTable) : Prop := layout_ok t.cols 0 t.row_size = true

/-- Two table states with the same schema and the same table file. -/
def Same (t t2 : GenericFixedTable) : Prop :=
  t2.cols = t.cols ∧ t2.row_size = t.row_size ∧ t2.file = t.file

/-- Method `data_offset`: `sizeof(FileHeader) + sizeof(ColMetaDisk) * ncols`. -/
def data_offset (t : GenericFixedTable) : Nat :=
  sizeof_packed FileHeader_fields + sizeof_packed ColMetaDisk_fields * t.cols.length

/-- Method `Count`. -/
def Count (t : GenericFixedTable) : Int :=
  if t.file.length < t.data_offset then 0
  else ((t.file.length - t.data_offset) / t.row_size : Nat)

/-- Method `col_index` (`-1` is `none`). -/
def col_index (t : GenericFixedTable) (name : String) : Option Nat :=
  t.cols.findIdx? (fun c => c.name == name)

/-- Method `ensure_del_size`. -/
def ensure_del_size (t : GenericFixedTable) (needed : Int) : GenericFixedTable :=
  if (t.del.length : Int) ≥ needed then t
  else { t with del := t.del ++ List.replicate (needed.toNat - t.del.length) 0 }

/-- Method `set_del_flag`; a seek to a negative position fails and nothing is written. -/
def set_del_flag (t : GenericFixedTable) (pid : Int) (flag : Nat) : GenericFixedTable :=
  if pid < 0 then t else { t with del := writeAt t.del pid.toNat [flag] }

/-- Method `IsDeleted`, with the table after the call (the sidecar may have grown). -/
def IsDeleted (t : GenericFixedTable) (pageID : Int) : Bool × GenericFixedTable :=
  let t2 := t.ensure_del_size (pageID + 1)
  if pageID < 0 then (false, t2)
  else
    match t2.del[pageID.toNat]? with
    | none => (false, t2)
    | some b => (b != 0, t2)

/-- Method `MarkDeleted`. -/
def MarkDeleted (t : GenericFixedTable) (pageID : Int) : GenericFixedTable :=
  (t.ensure_del_size (pageID + 1)).set_del_flag pageID 1

/-- Method `WriteRowInDisk`: whether it returned (`false` when it throws:
`row.size != ncols`, or a value whose tag is not its column's type) and the table
after the call.  Both throws come before the first write.  A failed seek (negative
offset) only prints. -/
def WriteRowInDisk (t : GenericFixedTable) (pageID : Int) (row : List Value) :
    Bool × GenericFixedTable :=
  if row.length ≠ t.cols.length then (false, t)
  else
    match pack_row t.cols row (List.replicate t.row_size 0) with
    | none => (false, t)
    | some buf =>
      let off : Int := (t.data_offset : Int) + pageID * (t.row_size : Int)
      let t2 : GenericFixedTable :=
        if off < 0 then t else { t with file := writeAt t.file off.toNat (buf.take t.row_size) }
      (true, (t2.ensure_del_size (pageID + 1)).set_del_flag pageID 0)

/-- Method `AppendRow`: the new page id (`none` when `WriteRowInDisk` throws) and the
table after the call. -/
def AppendRow (t : GenericFixedTable) (row : List Value) : Option Int × GenericFixedTable :=
  let pid := t.Count
  let w := t.WriteRowInDisk pid row
  if w.1 then (some pid, (w.2.ensure_del_size (pid + 1)).set_del_flag pid 0)
  else (none, w.2)

/-- Method `ReadRowByPageID`: the row (`none` for `false`) and the table after the
call. -/
def ReadRowByPageID (t : GenericFixedTable) (pageID : Int) :
    Option (List Value) × GenericFixedTable :=
  if pageID < 0 ∨ pageID ≥ t.Count then (none, t)
  else
    let r := t.IsDeleted pageID
    if r.1 then (none, r.2)
    else
      let buf := readAt r.2.file (t.data_offset + pageID.toNat * t.row_size) t.row_size
      if buf.length < t.row_size then (none, r.2)
      else (some (unpack_row t.cols buf), r.2)

/-- Method `ReadInt`: `none` when it throws (unknown column, column not INT32, row
deleted or out of range). -/
def ReadInt (t : GenericFixedTable) (pid : Int) (colname : String) :
    Option Int × GenericFixedTable :=
  match t.col_index colname with
  | none => (none, t)
  | some idx =>
    if (t.cols.get? idx).map (fun c => c.type) ≠ some ColType.INT32 then (none, t)
    else
      let r := t.ReadRowByPageID pid
      match r.1 with
      | none => (none, r.2)
      | some row => (some (row.getD idx default).i, r.2)

/-- Method `ReadFloat` (the bit pattern of the field): `none` when it throws. -/
def ReadFloat (t : GenericFixedTable) (pid : Int) (colname : String) :
    Option Nat × GenericFixedTable :=
  match t.col_index colname with
  | none => (none, t)
  | some idx =>
    if (t.cols.get? idx).map (fun c => c.type) ≠ some ColType.FLOAT32 then (none, t)
    else
      let r := t.ReadRowByPageID pid
      match r.1 with
      | none => (none, r.2)
      | some row => (some (row.getD idx default).f, r.2)

/-- Method `ReadChar`: `none` when it throws. -/
def ReadChar (t : GenericFixedTable) (pid : Int) (colname : String) :
    Option (List Nat) × GenericFixedTable :=
  match t.col_index colname with
  | none => (none, t)
  | some idx =>
    if (t.cols.get? idx).map (fun c => c.type) ≠ some ColType.CHAR then (none, t)
    else
      let r := t.ReadRowByPageID pid
      match r.1 with
      | none => (none, r.2)
      | some row => (some (row.getD idx default).s, r.2)

/-- Two states of a table that every read tells apart in nothing: same schema, same
table file and the same tombstone bytes, a missing byte counting as 0. -/
def SameRows (t t2 : GenericFixedTable) : Prop :=
  t2.cols = t.cols ∧ t2.row_size = t.row_size ∧ t2.file = t.file ∧
    ∀ q : Nat, t2.del.getD q 0 = t.del.getD q 0

end GenericFixedTable

end gft

/-!
# Creating a table (`GenericFixedTable::init_schema`)
-/

namespace gft

/-- Column definition handed to the constructor (`struct ColumnDef`). -/
structure ColumnDef where
  name : String
  type : ColType
  char_len : Int := 0
  deriving DecidableEq, Repr

/-- The value of an `int` after two's-complement wrap-around. -/
def int_wrap (i : Int) : Int := (i + 2147483648) % 4294967296 - 2147483648

/-- The width `init_schema` gives a column: 4 for INT32 and FLOAT32, `char_len` for
CHAR; `none` when it throws (`CHAR requiere char_len > 0`). -/
def init_width (d : ColumnDef) : Option Int :=
  match d.type with
  | .INT32 => some 4
  | .FLOAT32 => some 4
  | .CHAR => if d.char_len ≤ 0 then none else some d.char_len

/-- The loop of `init_schema` over the definitions still to come, with the running
`int offset`: the descriptors and the final offset, `none` when a definition throws.
`strncpy` keeps 31 characters of the name.  Descriptor fields are naturals. -/
def init_schema_loop : List ColumnDef → Int → Option (List ColMetaDisk × Int)
  | [], offset => some ([], offset)
  | d :: ds, offset =>
    match init_width d with
    | none => none
    | some w =>
      match init_schema_loop ds (int_wrap (offset + w)) with
      | none => none
      | some (cs, total) =>
        some ({ name := d.name.take 31, type := d.type, width := w.toNat,
                offset := offset.toNat } :: cs, total)

/-- Method `init_schema` on a fresh (truncated) file: the open table, or `none` when
it throws.  The header and the descriptors are written at offset 0; they are carried
as zero bytes, since no modelled operation reads them back. -/
def init_schema (defs : List ColumnDef) : Option GenericFixedTable :=
  if defs.isEmpty then none
  else if defs.length > 64 then none
  else
    match init_schema_loop defs 0 with
    | none => none
    | some (cs, total) =>
      some { cols := cs, row_size := total.toNat,
             file := List.replicate
               (sizeof_packed FileHeader_fields + sizeof_packed ColMetaDisk_fields * cs.length) 0,
             del := [] }

/-- The width the specification gives a column definition: 4 for INT32, 4 for
FLOAT32 and `n` for CHAR(n). -/
def decl_width (d : ColumnDef) : Nat :=
  match d.type with
  | .INT32 => 4
  | .FLOAT32 => 4
  | .CHAR => d.char_len.toNat

end gft

/-!
# A sample table

The table `t(id INT32, qty INT32)` with the rows `(1, 10)`, `(2, 10)`, `(3, 20)` and
an index on `qty`.  The header and the two column descriptors take
`52 + 44 * 2 = 140` bytes; the modelled operations use only their length, so they
are kept as zero bytes.
-/

namespace minidb

open gft diskbtree

/-- Schema of the sample table. -/
def exCols : List ColMetaDisk :=
  [{ name := "id", type := .INT32, width := 4, offset := 0 },
   { name := "qty", type := .INT32, width := 4, offset := 4 }]

/-- The sample table right after `Create`: no rows, no tombstone bytes. -/
def exEmpty : GenericFixedTable :=
  { cols := exCols, row_size := 8, file := List.replicate 140 0, del := [] }

/-- The rows appended to the sample table, in order. -/
def exRows : List (List Value) :=
  [[Value.Int 1, Value.Int 10], [Value.Int 2, Value.Int 10], [Value.Int 3, Value.Int 20]]

/-- Calling `AppendRow` for each row of a list. -/
def append_all : GenericFixedTable → List (List Value) → Option GenericFixedTable
  | t, [] => some t
  | t, r :: rs =>
    let a := t.AppendRow r
    match a.1 with
    | none => none
    | some _ => append_all a.2 rs

/-- The sample table with its three rows. -/
def exTable : GenericFixedTable :=
  { cols := exCols, row_size := 8,
    file := List.replicate 140 0 ++
      [1, 0, 0, 0, 10, 0, 0, 0, 2, 0, 0, 0, 10, 0, 0, 0, 3, 0, 0, 0, 20, 0, 0, 0],
    del := [0, 0, 0] }

/-- The index on `qty` after `insert(10, 0)`, `insert(10, 1)`, `insert(20, 2)` with
`t = 8`: one leaf. -/
def exIndex : DiskBTree Int :=
  { t := 8, root := some (.leaf [(10, 0), (10, 1), (20, 2)]) }

/-- A table `(name CHAR(4))` right after `Create`: one column descriptor after the
header, `52 + 44 = 96` bytes. -/
def exCharEmpty : GenericFixedTable :=
  { cols := [{ name := "name", type := .CHAR, width := 4, offset := 0 }], row_size := 4,
    file := List.replicate 96 0, del := [] }

/-- A name of 35 bytes: `A` to `Z`, then `a` to `i`. -/
def exLongA : List Nat :=
  [65, 66, 67, 68, 69, 70, 71, 72, 73, 74, 75, 76, 77, 78, 79, 80, 81, 82, 83, 84, 85, 86, 87,
   88, 89, 90, 97, 98, 99, 100, 101, 102, 103, 104, 105]

/-- Another name of 35 bytes with the same first 31 bytes: `A` to `Z`, `a` to `e`, then
`0000`. -/
def exLongB : List Nat :=
  [65, 66, 67, 68, 69, 70, 71, 72, 73, 74, 75, 76, 77, 78, 79, 80, 81, 82, 83, 84, 85, 86, 87,
   88, 89, 90, 97, 98, 99, 100, 101, 48, 48, 48, 48]

end minidb

/-!
# The database layer (`MiniDatabase.h`) and the executor (`MiniDBSQL.h`)

The state of one table inside `MiniDatabase` is `TablaInfo`: the table with its
INT32, FLOAT32 and CHAR indexes.  The state space of this model is a table whose index
files are all loaded (`ensure_indices_loaded` has run).  The keys of a FLOAT32 index
are taken from a linearly ordered type `F`, with the decoding `of_bits` of a bit
pattern as a parameter (values that are not NaN); the keys of a CHAR index are the
32-byte images `KeyChar32::put` makes, compared by `memcmp`, that is lexicographically.
-/

namespace minidb

open gft diskbtree

/-- The struct `TablaInfo`: the open table, its loaded indexes by column, one map for
each key kind, and the cache of column types. -/
structure TablaInfo (F : Type) where
  tabla : GenericFixedTable
  idx_int : List (String × DiskBTree Int)
  idx_float : List (String × DiskBTree F) := []
  idx_char : List (String × DiskBTree (List Nat)) := []
  col_tipos : List (String × ColType) := []

/-- Function `KeyChar32::put`: the first `KEY_BYTES - 1 = 31` bytes of the string,
padded with NUL to 32 bytes. -/
def KeyChar32_put (s : List Nat) : List Nat :=
  s.take 31 ++ List.replicate (32 - (s.take 31).length) 0

/-- Function `KeyChar32::get`: the bytes of the key up to the first NUL. -/
def KeyChar32_get (k : List Nat) : List Nat := (k.take 32).takeWhile (fun b => b != 0)

/-- The key an INT32 index gets for a row: `tbl.ReadInt(pid, columna)`. -/
def get_int (columna : String) (t : GenericFixedTable) (pid : Int) :
    Option Int × GenericFixedTable := t.ReadInt pid columna

/-- The key a FLOAT32 index gets for a row: `tbl.ReadFloat(pid, columna)`. -/
def get_float {F : Type} (of_bits : Nat → F) (columna : String) (t : GenericFixedTable)
    (pid : Int) : Option F × GenericFixedTable :=
  ((t.ReadFloat pid columna).1.map of_bits, (t.ReadFloat pid columna).2)

/-- The key a CHAR index gets for a row: `tbl.ReadChar(pid, columna)`, as the key
bytes the index stores. -/
def get_char (columna : String) (t : GenericFixedTable) (pid : Int) :
    Option (List Nat) × GenericFixedTable :=
  ((t.ReadChar pid columna).1.map KeyChar32_put, (t.ReadChar pid columna).2)

/-- The loop `for (auto& kv : ti.idx_int) try { v = ReadInt(pid, col);
kv.second->remove_key(v); } catch(...) {}` of `borrar_por_pageid`: an index whose
update throws is left as it was. -/
def remove_from_indexes (pid : Int) :
    GenericFixedTable → List (String × DiskBTree Int) →
      List (String × DiskBTree Int) × GenericFixedTable
  | tbl, [] => ([], tbl)
  | tbl, (col, idx) :: rest =>
    let r := tbl.ReadInt pid col
    let idx2 : DiskBTree Int :=
      match r.1 with
      | none => idx
      | some v =>
        match remove_key idx v with
        | none => idx
        | some i2 => i2
    let rr := remove_from_indexes pid r.2 rest
    ((col, idx2) :: rr.1, rr.2)

/-- The loops `for (auto& kv : ti.idx_float) try { v = ReadFloat(pid, col);
kv.second->remove_key(v); } catch(...) {}` and the same over `ti.idx_char` with
`ReadChar` of `borrar_por_pageid`, with the getter `get` of the key kind. -/
def remove_from_indexes_of {K : Type} [LinearOrder K]
    (get : String → GenericFixedTable → Int → Option K × GenericFixedTable) (pid : Int) :
    GenericFixedTable → List (String × DiskBTree K) →
      List (String × DiskBTree K) × GenericFixedTable
  | tbl, [] => ([], tbl)
  | tbl, (col, idx) :: rest =>
    let r := get col tbl pid
    let idx2 : DiskBTree K :=
      match r.1 with
      | none => idx
      | some v =>
        match remove_key idx v with
        | none => idx
        | some i2 => i2
    let rr := remove_from_indexes_of get pid r.2 rest
    ((col, idx2) :: rr.1, rr.2)

/-- Method `borrar_por_pageid`: the returned flag and the state after the call;
`none` when `WriteRowInDisk` throws. -/
def borrar_por_pageid {F : Type} [LinearOrder F] (of_bits : Nat → F) (ti : TablaInfo F)
    (pid : Int) : Option (Bool × TablaInfo F) :=
  let r := ti.tabla.ReadRowByPageID pid
  match r.1 with
  | none => some (false, { ti with tabla := r.2 })
  | some row =>
    let id_idx := r.2.col_index "id"
    let gone : Bool :=
      match id_idx with
      | some i => (row.getD i default).i == -1
      | none => false
    if gone then some (false, { ti with tabla := r.2 })
    else
      let rr := remove_from_indexes pid r.2 ti.idx_int
      let rf := remove_from_indexes_of (get_float of_bits) pid rr.2 ti.idx_float
      let rc := remove_from_indexes_of get_char pid rf.2 ti.idx_char
      let row2 : List Value :=
        match id_idx with
        | some i => row.set i (Value.Int (-1))
        | none => row
      let w := rc.2.WriteRowInDisk pid row2
      if w.1 then
        some (true, { ti with tabla := w.2, idx_int := rr.1, idx_float := rf.1,
                              idx_char := rc.1 })
      else none

end minidb

namespace sqlmini

open gft diskbtree minidb

/-- Comparison operators (`enum class Cmp`). -/
inductive Cmp where
  | EQ
  | GE
  | LE
  | GT
  | LT
  | NE
  deriving DecidableEq, Repr

/-- A parsed predicate `col op literal`. -/
structure Pred where
  col : String
  cmp : Cmp
  lit : String

/-- A parsed WHERE expression: `op` is the string AND, OR or empty. -/
structure Where where
  p1 : Option Pred
  p2 : Option Pred
  op : String

/-- The C function `isspace` in the C locale. -/
def isspace (c : Char) : Bool :=
  c == ' ' || c == '\t' || c == '\n' || c == '\r' || c.toNat == 11 || c.toNat == 12

/-- The library call `std::stoi`: leading white space, an optional sign, decimal
digits; `none` when it throws (no digits, or a value outside `int`). -/
def stoi (s : String) : Option Int :=
  let cs := s.toList.dropWhile isspace
  let neg : Bool := cs.head? == some '-'
  let ds := if cs.head? == some '-' || cs.head? == some '+' then cs.tail else cs
  let digits := ds.takeWhile Char.isDigit
  if digits.isEmpty then none
  else
    let n : Int := digits.foldl (fun acc c => acc * 10 + ((c.toNat - 48 : Nat) : Int)) 0
    let v := if neg then -n else n
    if v < -2147483648 ∨ v > 2147483647 then none else some v

/-- The value of an `int` expression after two's-complement wrap-around. -/
def wrap32 (i : Int) : Int := (i + 2147483648) % 4294967296 - 2147483648

/-- Comparison of two values of an ordered type by a `Cmp`. -/
def cmp_holds {α : Type} [LT α] [DecidableEq α] [DecidableRel (fun a b : α => a < b)]
    (c : Cmp) (a b : α) : Bool :=
  match c with
  | .EQ => decide (a = b)
  | .GE => decide (¬ a < b)
  | .LE => decide (¬ b < a)
  | .GT => decide (b < a)
  | .LT => decide (a < b)
  | .NE => decide (a ≠ b)

/-- The literal of a CHAR predicate without its enclosing single quotes, as bytes
(ASCII literals). -/
def char_literal (lit : String) : List Nat :=
  let cs := lit.toList
  let body := if cs.length ≥ 2 ∧ cs.head? = some '\'' ∧ cs.getLast? = some '\'' then
    (cs.drop 1).dropLast else cs
  body.map Char.toNat

/-- Function `eval_pred_row`; `none` when `std::stoi`/`std::stof` throws.  `fcmp`
is the comparison of a FLOAT32 field (bit pattern) with a literal. -/
def eval_pred_row (fcmp : Cmp → Nat → String → Option Bool) (p : Pred)
    (cols : List ColMetaDisk) (row : List Value) : Option Bool :=
  match cols.findIdx? (fun c => c.name == p.col) with
  | none => some false
  | some idx =>
    let v := row.getD idx default
    match (cols.getD idx ⟨"", .INT32, 0, 0⟩).type with
    | .INT32 => (stoi p.lit).map (fun rhs => cmp_holds p.cmp v.i rhs)
    | .FLOAT32 => fcmp p.cmp v.f p.lit
    | .CHAR => some (cmp_holds p.cmp v.s (char_literal p.lit))

/-- The index probe of an INT32 drive predicate (`buscar_unitaria` / `buscar_rango`);
`none` when the index operation throws. -/
def probe_int (idx : DiskBTree Int) (cmp : Cmp) (key : Int) : Option (List Int) :=
  match cmp with
  | .EQ => (search_get_value idx key).map (fun pid => if pid ≥ 0 then [pid] else [])
  | .GE => range_search_values idx key 2147483647
  | .LE => range_search_values idx (-2147483648) key
  | .GT => range_search_values idx (wrap32 (key + 1)) 2147483647
  | .LT => range_search_values idx (-2147483648) (wrap32 (key - 1))
  | .NE =>
    match range_search_values idx (-2147483648) (wrap32 (key - 1)),
          range_search_values idx (wrap32 (key + 1)) 2147483647 with
    | some t1, some t2 => some (t1 ++ t2)
    | _, _ => none

/-- The floating-point library calls of the probe of a FLOAT32 index, on bit
patterns: `std::stof` of the literal (`none` when it throws) and `std::nextafter`. -/
structure FloatProbe where
  stof : String → Option Nat
  nextafter : Nat → Nat → Nat

/-- The bit pattern of `-std::numeric_limits<float>::infinity()`. -/
def ninf_bits : Nat := 4286578688

/-- The bit pattern of `std::numeric_limits<float>::infinity()`. -/
def pinf_bits : Nat := 2139095040

/-- The index probe of a FLOAT32 drive predicate with the literal `key` (bit
pattern); `none` when the index operation throws. -/
def probe_float {F : Type} [LinearOrder F] (of_bits : Nat → F) (fp : FloatProbe)
    (idx : DiskBTree F) (cmp : Cmp) (key : Nat) : Option (List Int) :=
  match cmp with
  | .EQ => (search_get_value idx (of_bits key)).map (fun pid => if pid ≥ 0 then [pid] else [])
  | .GE => range_search_values idx (of_bits key) (of_bits pinf_bits)
  | .LE => range_search_values idx (of_bits ninf_bits) (of_bits key)
  | .GT => range_search_values idx (of_bits (fp.nextafter key pinf_bits)) (of_bits pinf_bits)
  | .LT => range_search_values idx (of_bits ninf_bits) (of_bits (fp.nextafter key ninf_bits))
  | .NE =>
    match range_search_values idx (of_bits ninf_bits) (of_bits (fp.nextafter key ninf_bits)),
          range_search_values idx (of_bits (fp.nextafter key pinf_bits)) (of_bits pinf_bits) with
    | some t1, some t2 => some (t1 ++ t2)
    | _, _ => none

/-- The index probe of a CHAR drive predicate: the literal without its quotes is
`L`, the bounds are the empty string `lo` and the one-byte string `hi` of `char(127)`;
GE and GT both probe `[L, hi]`, LE and LT both probe `[lo, L]`, NE probes both ranges.
The result is `none` when the index operation throws. -/
def probe_char (idx : DiskBTree (List Nat)) (cmp : Cmp) (lit : String) : Option (List Int) :=
  let L := KeyChar32_put (char_literal lit)
  let lo := KeyChar32_put []
  let hi := KeyChar32_put [127]
  match cmp with
  | .EQ => (search_get_value idx L).map (fun pid => if pid ≥ 0 then [pid] else [])
  | .GE => range_search_values idx L hi
  | .LE => range_search_values idx lo L
  | .GT => range_search_values idx L hi
  | .LT => range_search_values idx lo L
  | .NE =>
    match range_search_values idx lo L, range_search_values idx L hi with
    | some t1, some t2 => some (t1 ++ t2)
    | _, _ => none

/-- The page ids `[0, n)`. -/
def all_pids (n : Int) : List Int := (List.range n.toNat).map (fun i => (i : Int))

/-- The candidate page ids of `cmd_SELECT` for the drive predicate: an index probe
when the column has an index of the kind of its type, `[0, count)` otherwise and when
the probe throws. -/
def candidates {F : Type} [LinearOrder F] (of_bits : Nat → F) (fp : FloatProbe)
    (ti : TablaInfo F) (use_pred : Pred) : List Int :=
  let n := ti.tabla.Count
  let ct := (ti.tabla.cols.find? (fun c => c.name == use_pred.col)).map (fun c => c.type)
  let probed : Option (List Int) :=
    if ct = some ColType.INT32 then
      match ti.idx_int.lookup use_pred.col with
      | none => none
      | some idx =>
        match stoi use_pred.lit with
        | none => none
        | some key => probe_int idx use_pred.cmp key
    else if ct = some ColType.FLOAT32 then
      match ti.idx_float.lookup use_pred.col with
      | none => none
      | some idx =>
        match fp.stof use_pred.lit with
        | none => none
        | some key => probe_float of_bits fp idx use_pred.cmp key
    else if ct = some ColType.CHAR then
      match ti.idx_char.lookup use_pred.col with
      | none => none
      | some idx => probe_char idx use_pred.cmp use_pred.lit
    else none
  match probed with
  | some pids => pids
  | none => all_pids n

/-- Whether the row carries the in-row deletion marker `id == -1`. -/
def id_is_minus_one (cols : List ColMetaDisk) (row : List Value) : Bool :=
  match cols.findIdx? (fun c => c.name == "id") with
  | some i => (row.getD i default).i == -1
  | none => false

/-- The filter loop of `cmd_SELECT`; `none` when `eval_pred_row` throws. -/
def filter_pids (fcmp : Cmp → Nat → String → Option Bool) (tbl : GenericFixedTable)
    (w : Where) : List Int → Option (List Int)
  | [] => some []
  | pid :: rest =>
    match (tbl.ReadRowByPageID pid).1 with
    | none => filter_pids fcmp tbl w rest
    | some row =>
      if id_is_minus_one tbl.cols row then filter_pids fcmp tbl w rest
      else
        let r1 := match w.p1 with
          | some p => eval_pred_row fcmp p tbl.cols row
          | none => some true
        let r2 := match w.p2 with
          | some p => eval_pred_row fcmp p tbl.cols row
          | none => some true
        match r1, r2 with
        | some b1, some b2 =>
          let ok := if w.op = "AND" then b1 && b2 else if w.op = "OR" then b1 || b2 else b1
          (filter_pids fcmp tbl w rest).map (fun l => if ok then pid :: l else l)
        | _, _ => none

/-- The output loop of `cmd_SELECT`: the projected values of every row printed. -/
def print_rows (tbl : GenericFixedTable) (proj_idx : List Nat) : List Int → List (List Value)
  | [] => []
  | pid :: rest =>
    match (tbl.ReadRowByPageID pid).1 with
    | none => print_rows tbl proj_idx rest
    | some row =>
      if id_is_minus_one tbl.cols row then print_rows tbl proj_idx rest
      else proj_idx.map (fun i => row.getD i default) :: print_rows tbl proj_idx rest

end sqlmini

/-!
# Insert, update and delete with index maintenance

`insertar_fila`, `update_filas_by_pageIDs` with `actualizar_fila_en_indices` and
`tipo_columna` (`MiniDatabase.h`), and `cmd_DELETE_FROM` (`MiniDBSQL.h`).  Page ids
held in an `int` are taken to be below `2^31`.
-/

namespace minidb

open gft diskbtree

/-- The cast `(int)` of a `long`. -/
def to_int32 (x : Int) : Int := (x + 2147483648) % 4294967296 - 2147483648

/-- The loop `for (auto& kv : ti.idx_int) try { v = ReadInt(pid, col);
kv.second->insert(v, (int)pid); } catch(...) {}` of `insertar_fila`. -/
def insert_into_indexes (pid : Int) :
    GenericFixedTable → List (String × DiskBTree Int) →
      List (String × DiskBTree Int) × GenericFixedTable
  | tbl, [] => ([], tbl)
  | tbl, (col, idx) :: rest =>
    let r := tbl.ReadInt pid col
    let idx2 : DiskBTree Int :=
      match r.1 with
      | none => idx
      | some v =>
        match diskbtree.insert idx v (to_int32 pid) with
        | none => idx
        | some i2 => i2
    let rr := insert_into_indexes pid r.2 rest
    ((col, idx2) :: rr.1, rr.2)

/-- The loops `for (auto& kv : ti.idx_float) try { v = ReadFloat(pid, col);
kv.second->insert(v, (int)pid); } catch(...) {}` and the same over `ti.idx_char` with
`ReadChar` of `insertar_fila`, with the getter `get` of the key kind. -/
def insert_into_indexes_of {K : Type} [LinearOrder K]
    (get : String → GenericFixedTable → Int → Option K × GenericFixedTable) (pid : Int) :
    GenericFixedTable → List (String × DiskBTree K) →
      List (String × DiskBTree K) × GenericFixedTable
  | tbl, [] => ([], tbl)
  | tbl, (col, idx) :: rest =>
    let r := get col tbl pid
    let idx2 : DiskBTree K :=
      match r.1 with
      | none => idx
      | some v =>
        match diskbtree.insert idx v (to_int32 pid) with
        | none => idx
        | some i2 => i2
    let rr := insert_into_indexes_of get pid r.2 rest
    ((col, idx2) :: rr.1, rr.2)

/-- Method `insertar_fila`: the page id (`none` when `AppendRow` throws) and the state
after the call. -/
def insertar_fila {F : Type} [LinearOrder F] (of_bits : Nat → F) (ti : TablaInfo F)
    (row : List Value) : Option Int × TablaInfo F :=
  let a := ti.tabla.AppendRow row
  match a.1 with
  | none => (none, { ti with tabla := a.2 })
  | some pid =>
    let rr := insert_into_indexes pid a.2 ti.idx_int
    let rf := insert_into_indexes_of (get_float of_bits) pid rr.2 ti.idx_float
    let rc := insert_into_indexes_of get_char pid rf.2 ti.idx_char
    (some pid, { ti with tabla := rc.2, idx_int := rr.1, idx_float := rf.1, idx_char := rc.1 })

/-- Method `tipo_columna`: the cached type, else the first of INT32, FLOAT32, CHAR
whose getter reads row 0, which is then cached; `none` when it throws. -/
def tipo_columna {F : Type} (ti : TablaInfo F) (col : String) :
    Option ColType × TablaInfo F :=
  match ti.col_tipos.lookup col with
  | some ty => (some ty, ti)
  | none =>
    let r1 := ti.tabla.ReadInt 0 col
    match r1.1 with
    | some _ => (some .INT32, { ti with tabla := r1.2, col_tipos := (col, .INT32) :: ti.col_tipos })
    | none =>
      let r2 := r1.2.ReadFloat 0 col
      match r2.1 with
      | some _ =>
        (some .FLOAT32, { ti with tabla := r2.2, col_tipos := (col, .FLOAT32) :: ti.col_tipos })
      | none =>
        let r3 := r2.2.ReadChar 0 col
        match r3.1 with
        | some _ =>
          (some .CHAR, { ti with tabla := r3.2, col_tipos := (col, .CHAR) :: ti.col_tipos })
        | none => (none, { ti with tabla := r3.2 })

/-- The floating-point library calls of `update_filas_by_pageIDs`, on bit patterns:
`(int32_t)std::lround(f)`, `(float)i` and `std::to_string(f)`. -/
structure FloatOps where
  lround : Nat → Int
  of_int : Int → Nat
  to_string : Nat → List Nat

/-- The call `std::to_string` of an `int`, as bytes. -/
def int_to_string (i : Int) : List Nat := (toString i).toList.map Char.toNat

/-- The value stored for a set-list entry `v` in a column of type `t`: `v` itself
when the tags agree, the simple casts otherwise; `none` when it throws. -/
def coerce (fl : FloatOps) (t : ColType) (v : Value) : Option Value :=
  if t ≠ v.t then
    match t, v.t with
    | .INT32, .FLOAT32 => some (Value.Int (fl.lround v.f))
    | .FLOAT32, .INT32 => some (Value.Flt (fl.of_int v.i))
    | .CHAR, .INT32 => some (Value.Chr (int_to_string v.i))
    | .CHAR, .FLOAT32 => some (Value.Chr (fl.to_string v.f))
    | _, _ => none
  else some v

/-- The first loop of `update_filas_by_pageIDs`: the physical index and the type of
every set-list column; `none` when it throws. -/
def resolve_setlist {F : Type} :
    TablaInfo F → List (String × Value) → Option (List (Nat × ColType)) × TablaInfo F
  | ti, [] => (some [], ti)
  | ti, (col, _) :: rest =>
    match ti.tabla.col_index col with
    | none => (none, ti)
    | some idx =>
      let r := tipo_columna ti col
      match r.1 with
      | none => (none, r.2)
      | some ty =>
        let rr := resolve_setlist r.2 rest
        (rr.1.map (fun l => (idx, ty) :: l), rr.2)

/-- The loop over `k` of `update_filas_by_pageIDs` that builds `after`. -/
def apply_setlist (fl : FloatOps) :
    List Value → List (Nat × ColType) → List (String × Value) → Option (List Value)
  | after, (idx, t) :: ks, (_, v) :: sl =>
    match coerce fl t v with
    | none => none
    | some w => apply_setlist fl (after.set idx w) ks sl
  | after, _, _ => some after

/-- Replacing the index of column `col` in the map of loaded indexes. -/
def modify_index {K : Type} (col : String) (f : DiskBTree K → DiskBTree K) :
    List (String × DiskBTree K) → List (String × DiskBTree K)
  | [] => []
  | (c, i) :: rest => if c = col then (c, f i) :: rest else (c, i) :: modify_index col f rest

/-- The lambda `apply_one` of `actualizar_fila_en_indices` on an INT32 index:
`remove_key(before.i); insert(after.i, (int)pid)`; an operation that throws is
abandoned (the caller catches). -/
def apply_one (idx : DiskBTree Int) (before after : Value) (pid : Int) : DiskBTree Int :=
  match remove_key idx before.i with
  | none => idx
  | some i1 =>
    match diskbtree.insert i1 after.i (to_int32 pid) with
    | none => i1
    | some i2 => i2

/-- The lambda `apply_one` of `actualizar_fila_en_indices` on a FLOAT32 or CHAR index,
with the keys of the old and of the new value: `remove_key(before); insert(after,
(int)pid)`; an operation that throws is abandoned (the caller catches). -/
def apply_one_of {K : Type} [LinearOrder K] (idx : DiskBTree K) (before after : K)
    (pid : Int) : DiskBTree K :=
  match remove_key idx before with
  | none => idx
  | some i1 =>
    match diskbtree.insert i1 after (to_int32 pid) with
    | none => i1
    | some i2 => i2

/-- Method `actualizar_fila_en_indices`: for each changed column the lambda
`apply_one` refreshes the index found first among `idx_int`, `idx_float` and
`idx_char`. -/
def actualizar_fila_en_indices {F : Type} [LinearOrder F] (of_bits : Nat → F) (pid : Int)
    (row_antes row_despues : List Value) :
    TablaInfo F → List (String × Value) → TablaInfo F
  | ti, [] => ti
  | ti, (col, _) :: rest =>
    let r := tipo_columna ti col
    let ti1 : TablaInfo F := r.2
    let ti2 : TablaInfo F :=
      match r.1 with
      | none => ti1
      | some _ =>
        match ti1.tabla.col_index col with
        | none => ti1
        | some i =>
          if (ti1.idx_int.lookup col).isSome then
            { ti1 with idx_int := (modify_index col
                (fun idx => apply_one idx (row_antes.getD i default) (row_despues.getD i default) pid)
                ti1.idx_int) }
          else if (ti1.idx_float.lookup col).isSome then
            { ti1 with idx_float := (modify_index col
                (fun idx => apply_one_of idx (of_bits (row_antes.getD i default).f)
                  (of_bits (row_despues.getD i default).f) pid)
                ti1.idx_float) }
          else
            { ti1 with idx_char := (modify_index col
                (fun idx => apply_one_of idx (KeyChar32_put (row_antes.getD i default).s)
                  (KeyChar32_put (row_despues.getD i default).s) pid)
                ti1.idx_char) }
    actualizar_fila_en_indices of_bits pid row_antes row_despues ti2 rest

/-- The loop over `pids` of `update_filas_by_pageIDs`. -/
def update_loop {F : Type} [LinearOrder F] (of_bits : Nat → F) (fl : FloatOps)
    (ks : List (Nat × ColType)) (setlist : List (String × Value)) :
    TablaInfo F → List Int → Nat → Option Nat × TablaInfo F
  | ti, [], count => (some count, ti)
  | ti, pid :: rest, count =>
    let r := ti.tabla.ReadRowByPageID pid
    match r.1 with
    | none => update_loop of_bits fl ks setlist { ti with tabla := r.2 } rest count
    | some before =>
      match apply_setlist fl before ks setlist with
      | none => (none, { ti with tabla := r.2 })
      | some after =>
        let w := r.2.WriteRowInDisk pid after
        if w.1 then
          update_loop of_bits fl ks setlist
            (actualizar_fila_en_indices of_bits pid before after { ti with tabla := w.2 } setlist)
            rest (count + 1)
        else (none, { ti with tabla := w.2 })

/-- Method `update_filas_by_pageIDs`: the number of rows updated (`none` when it
throws) and the state after the call. -/
def update_filas_by_pageIDs {F : Type} [LinearOrder F] (of_bits : Nat → F) (fl : FloatOps)
    (ti : TablaInfo F) (pids : List Int) (setlist : List (String × Value)) :
    Option Nat × TablaInfo F :=
  let r := resolve_setlist ti setlist
  match r.1 with
  | none => (none, r.2)
  | some ks => update_loop of_bits fl ks setlist r.2 pids 0

/-- An index file as the engine makes it: a new index of some minimum degree after
some sequence of `insert` and `remove_key` calls. -/
def Reachable {K : Type} [LinearOrder K] (idx : DiskBTree K) : Prop :=
  ∃ t ops, run t ops = some idx

end minidb

namespace sqlmini

open gft diskbtree minidb

/-- The lambda `is_tombstoned` of `cmd_DELETE_FROM`. -/
def is_tombstoned (tbl : GenericFixedTable) (pid : Int) : Bool :=
  match (tbl.ReadRowByPageID pid).1 with
  | none => true
  | some row => id_is_minus_one tbl.cols row

/-- The calls `std::sort` and `std::unique` with `erase` on the page ids. -/
def sort_unique (pids : List Int) : List Int :=
  (pids.insertionSort (fun a b => a ≤ b)).destutter (fun a b => a ≠ b)

/-- The deletion loop of `cmd_DELETE_FROM`: the page ids for which
`borrar_por_pageid` returned true (`borradas` is their number) and the state after
the loop; `none` when a call throws. -/
def delete_loop {F : Type} [LinearOrder F] (of_bits : Nat → F) :
    TablaInfo F → List Int → Option (List Int × TablaInfo F)
  | ti, [] => some ([], ti)
  | ti, pid :: rest =>
    match borrar_por_pageid of_bits ti pid with
    | none => none
    | some r =>
      (delete_loop of_bits r.2 rest).map (fun d => (if r.1 then pid :: d.1 else d.1, d.2))

/-- The body of `cmd_DELETE_FROM` after the statement has been parsed. -/
def cmd_DELETE_FROM {F : Type} [LinearOrder F] (of_bits : Nat → F) (fp : FloatProbe)
    (fcmp : Cmp → Nat → String → Option Bool) (ti : TablaInfo F) (wexpr : Option Where) :
    Option (List Int × TablaInfo F) :=
  let pids : Option (List Int) :=
    match wexpr with
    | none => some ((all_pids ti.tabla.Count).filter (fun i => !is_tombstoned ti.tabla i))
    | some w =>
      match w.p1 with
      | none => none
      | some use_pred => filter_pids fcmp ti.tabla w (candidates of_bits fp ti use_pred)
  match pids with
  | none => none
  | some ps => delete_loop of_bits ti (sort_unique ps)

/-- The page ids whose rows the output loop of `cmd_SELECT` prints. -/
def printed_pids (tbl : GenericFixedTable) : List Int → List Int
  | [] => []
  | pid :: rest =>
    match (tbl.ReadRowByPageID pid).1 with
    | none => printed_pids tbl rest
    | some row =>
      if id_is_minus_one tbl.cols row then printed_pids tbl rest
      else pid :: printed_pids tbl rest

end sqlmini

/-!
# Building an index (`MiniDatabase::crear_indice`)

The new index is an INT32, a FLOAT32 or a CHAR index, stored in the map of its kind.
-/

namespace minidb

open gft diskbtree

/-- The index `crear_indice` builds, by key kind (`.bti`, `.btf` or `.bts` file). -/
inductive IndexFile (F : Type) where
  | bti : DiskBTree Int → IndexFile F
  | btf : DiskBTree F → IndexFile F
  | bts : DiskBTree (List Nat) → IndexFile F

/-- Method `detectar_tipo_columna`: the cached type, else, when the table has a row,
the first of CHAR, INT32, FLOAT32 whose getter reads row 0, which is then cached;
`none` when it throws. -/
def detectar_tipo_columna {F : Type} (ti : TablaInfo F) (col : String) :
    Option ColType × TablaInfo F :=
  match ti.col_tipos.lookup col with
  | some ty => (some ty, ti)
  | none =>
    if ti.tabla.Count > 0 then
      let r1 := ti.tabla.ReadChar 0 col
      match r1.1 with
      | some _ => (some .CHAR, { ti with tabla := r1.2, col_tipos := (col, .CHAR) :: ti.col_tipos })
      | none =>
        let r2 := r1.2.ReadInt 0 col
        match r2.1 with
        | some _ =>
          (some .INT32, { ti with tabla := r2.2, col_tipos := (col, .INT32) :: ti.col_tipos })
        | none =>
          let r3 := r2.2.ReadFloat 0 col
          match r3.1 with
          | some _ =>
            (some .FLOAT32, { ti with tabla := r3.2, col_tipos := (col, .FLOAT32) :: ti.col_tipos })
          | none => (none, { ti with tabla := r3.2 })
    else (none, ti)

/-- The assignments `ti.idx_int[columna] = idx`, `ti.idx_float[columna] = idx` and
`ti.idx_char[columna] = idx`. -/
def put_index {K : Type} (col : String) (idx : DiskBTree K) (l : List (String × DiskBTree K)) :
    List (String × DiskBTree K) :=
  if (l.lookup col).isSome then modify_index col (fun _ => idx) l else l ++ [(col, idx)]

/-- The loop `for (pid = 0; pid < n; ++pid)` of `crear_indice` for one key kind: rows
that cannot be read and rows with `id == -1` are skipped, the key of every other row
is read with `get` and inserted with the page id.  The result is `none` when `get` or
`insert` throws. -/
def index_rows {K : Type} [LinearOrder K]
    (get : GenericFixedTable → Int → Option K × GenericFixedTable) :
    GenericFixedTable → List Int → DiskBTree K → Option (DiskBTree K) × GenericFixedTable
  | tbl, [], idx => (some idx, tbl)
  | tbl, pid :: rest, idx =>
    let r := tbl.ReadRowByPageID pid
    match r.1 with
    | none => index_rows get r.2 rest idx
    | some row =>
      let gone : Bool :=
        match r.2.col_index "id" with
        | some i => (row.getD i default).i == -1
        | none => false
      if gone then index_rows get r.2 rest idx
      else
        let g := get r.2 pid
        match g.1 with
        | none => (none, g.2)
        | some v =>
          match diskbtree.insert idx v (to_int32 pid) with
          | none => (none, g.2)
          | some idx2 => index_rows get g.2 rest idx2

/-- Method `crear_indice`: the new index and the state after the call, `none` when an
exception leaves the method. -/
def crear_indice {F : Type} [LinearOrder F] (of_bits : Nat → F) (ti : TablaInfo F)
    (columna : String) (t_btree : Nat) : Option (IndexFile F × TablaInfo F) :=
  let d := detectar_tipo_columna ti columna
  match d.1 with
  | none => none
  | some tipo =>
    let ti1 : TablaInfo F := d.2
    let pids := sqlmini.all_pids ti1.tabla.Count
    match tipo with
    | .INT32 =>
      match (DiskBTree.create t_btree : Option (DiskBTree Int)) with
      | none => none
      | some idx0 =>
        let r := index_rows (get_int columna) ti1.tabla pids idx0
        match r.1 with
        | none => none
        | some idx =>
          some (.bti idx, { ti1 with tabla := r.2, idx_int := put_index columna idx ti1.idx_int,
                                     col_tipos := (columna, .INT32) :: ti1.col_tipos })
    | .FLOAT32 =>
      match (DiskBTree.create t_btree : Option (DiskBTree F)) with
      | none => none
      | some idx0 =>
        let r := index_rows (get_float of_bits columna) ti1.tabla pids idx0
        match r.1 with
        | none => none
        | some idx =>
          some (.btf idx, { ti1 with tabla := r.2,
                                     idx_float := put_index columna idx ti1.idx_float,
                                     col_tipos := (columna, .FLOAT32) :: ti1.col_tipos })
    | .CHAR =>
      match (DiskBTree.create t_btree : Option (DiskBTree (List Nat))) with
      | none => none
      | some idx0 =>
        let r := index_rows (get_char columna) ti1.tabla pids idx0
        match r.1 with
        | none => none
        | some idx =>
          some (.bts idx, { ti1 with tabla := r.2,
                                     idx_char := put_index columna idx ti1.idx_char,
                                     col_tipos := (columna, .CHAR) :: ti1.col_tipos })

end minidb

/-!
# SELECT (`SQLExecutor::cmd_SELECT`)
-/

namespace sqlmini

open gft diskbtree minidb

/-- Method `ensure_default_id_index`: when the schema has a column `id` and there is
no INT32 index file for it, `crear_indice(tname, "id")` is tried with its default
minimum degree 8, and an exception is ignored.  A `crear_indice` that throws is taken
to leave the state as it was: it throws before the index file is made when the type of
`id` cannot be detected (empty table, unreadable row 0). -/
def ensure_default_id_index {F : Type} [LinearOrder F] (of_bits : Nat → F)
    (ti : TablaInfo F) : TablaInfo F :=
  if ti.tabla.cols.any (fun c => c.name == "id") then
    if (ti.idx_int.lookup "id").isSome then ti
    else
      match crear_indice of_bits ti "id" 8 with
      | some r => r.2
      | none => ti
  else ti

/-- The projection of `cmd_SELECT`: `none` stands for `*` (every column, and
`ensure_default_id_index` is called), `some l` for the resolved column list.  The
result is the column positions and the state the rest of the command runs in. -/
def resolve_projection {F : Type} [LinearOrder F] (of_bits : Nat → F) (ti : TablaInfo F)
    (proj : Option (List Nat)) : List Nat × TablaInfo F :=
  match proj with
  | none => (List.range ti.tabla.cols.length, ensure_default_id_index of_bits ti)
  | some l => (l, ti)

/-- The body of `cmd_SELECT` after the statement has been split and the column names
of the projection have been resolved: the rows it prints and the state after the
command; `none` when an exception leaves the function.  Reading a row can only extend
the sidecar with zeros, which changes no later read, so the table state is not threaded
through the loops. -/
def cmd_SELECT {F : Type} [LinearOrder F] (of_bits : Nat → F) (fp : FloatProbe)
    (fcmp : Cmp → Nat → String → Option Bool) (ti : TablaInfo F)
    (proj : Option (List Nat)) (wexpr : Option Where) :
    Option (List (List Value) × TablaInfo F) :=
  let pr := resolve_projection of_bits ti proj
  let ti1 : TablaInfo F := pr.2
  match wexpr with
  | none => some (print_rows ti1.tabla pr.1 (all_pids ti1.tabla.Count), ti1)
  | some w =>
    match w.p1 with
    | none => none
    | some use_pred =>
      (filter_pids fcmp ti1.tabla w (candidates of_bits fp ti1 use_pred)).map
        (fun pids => (print_rows ti1.tabla pr.1 pids, ti1))

/-- The page ids of the rows that `cmd_SELECT` prints. -/
def select_pids {F : Type} [LinearOrder F] (of_bits : Nat → F) (fp : FloatProbe)
    (fcmp : Cmp → Nat → String → Option Bool) (ti : TablaInfo F)
    (proj : Option (List Nat)) (wexpr : Option Where) : Option (List Int) :=
  let ti1 : TablaInfo F := (resolve_projection of_bits ti proj).2
  match wexpr with
  | none => some (printed_pids ti1.tabla (all_pids ti1.tabla.Count))
  | some w =>
    match w.p1 with
    | none => none
    | some use_pred =>
      (filter_pids fcmp ti1.tabla w (candidates of_bits fp ti1 use_pred)).map
        (printed_pids ti1.tabla)

end sqlmini

/-!
# UPDATE (`SQLExecutor::cmd_UPDATE`)
-/

namespace sqlmini

open gft diskbtree minidb

/-- The filter loop of `cmd_UPDATE`: a row that cannot be read is dropped and the
expression decides for every other row; `none` when `eval_pred_row` throws. -/
def filter_pids_update (fcmp : Cmp → Nat → String → Option Bool) (tbl : GenericFixedTable)
    (w : Where) : List Int → Option (List Int)
  | [] => some []
  | pid :: rest =>
    match (tbl.ReadRowByPageID pid).1 with
    | none => filter_pids_update fcmp tbl w rest
    | some row =>
      let r1 := match w.p1 with
        | some p => eval_pred_row fcmp p tbl.cols row
        | none => some true
      let r2 := match w.p2 with
        | some p => eval_pred_row fcmp p tbl.cols row
        | none => some true
      match r1, r2 with
      | some b1, some b2 =>
        let ok := if w.op = "AND" then b1 && b2 else if w.op = "OR" then b1 || b2 else b1
        (filter_pids_update fcmp tbl w rest).map (fun l => if ok then pid :: l else l)
      | _, _ => none

/-- The page ids `cmd_UPDATE` hands to `update_filas_by_pageIDs`: `[0, n)` without
WHERE, the filtered candidates otherwise; `none` when an exception leaves the
function. -/
def update_pids {F : Type} [LinearOrder F] (of_bits : Nat → F) (fp : FloatProbe)
    (fcmp : Cmp → Nat → String → Option Bool) (ti : TablaInfo F)
    (wexpr : Option Where) : Option (List Int) :=
  match wexpr with
  | none => some (all_pids ti.tabla.Count)
  | some w =>
    match w.p1 with
    | none => none
    | some use_pred => filter_pids_update fcmp ti.tabla w (candidates of_bits fp ti use_pred)

/-- The body of `cmd_UPDATE` after the statement has been parsed and the set-list
typed: the number of rows updated (`none` for the diagnostic `Error en UPDATE`) and
the state after the call; the result is `none` when an exception leaves the
function. -/
def cmd_UPDATE {F : Type} [LinearOrder F] (of_bits : Nat → F) (fp : FloatProbe)
    (fcmp : Cmp → Nat → String → Option Bool) (fl : FloatOps) (ti : TablaInfo F)
    (setlist : List (String × Value)) (wexpr : Option Where) :
    Option (Option Nat × TablaInfo F) :=
  match update_pids of_bits fp fcmp ti wexpr with
  | none => none
  | some ps => some (update_filas_by_pageIDs of_bits fl ti ps setlist)

end sqlmini

/-!
# The executor session (`SQLExecutor::execute`)

Statements are lists of characters (ASCII).  The file system is the list of paths
that are directories and the list of paths that exist otherwise.  The parts of a
command that run only with an open database are parameters (`Engine`), except for
`cmd_CREATE_TABLE`, whose parsing is modelled.  A result `none` is an exception that
leaves the function.
-/

namespace sqlmini

open gft diskbtree minidb

/-- The C function `toupper` in the C locale. -/
def toupper (c : Char) : Char :=
  if 97 ≤ c.toNat ∧ c.toNat ≤ 122 then Char.ofNat (c.toNat - 32) else c

/-- Function `to_upper`. -/
def to_upper (s : List Char) : List Char := s.map toupper

/-- Function `trim`. -/
def trim (s : List Char) : List Char :=
  ((s.dropWhile isspace).reverse.dropWhile isspace).reverse

/-- The test `s.rfind(p, 0) == 0`: `s` begins with `p`. -/
def starts_with (s p : List Char) : Bool := p.isPrefixOf s

/-- The call `s.find(c, pos)` for a character. -/
def find_char (s : List Char) (c : Char) (pos : Nat) : Option Nat :=
  ((s.drop pos).findIdx? (fun x => x == c)).map (fun i => i + pos)

/-- The call `s.find(pat)` for a string, scanning from position `i`. -/
def find_sub (pat : List Char) : List Char → Nat → Option Nat
  | [], i => if pat.isEmpty then some i else none
  | c :: cs, i => if pat.isPrefixOf (c :: cs) then some i else find_sub pat cs (i + 1)

/-- The call `s.substr(pos, len)` with `len` a `size_t`: `none` when it throws
`std::out_of_range` (`pos > size`). -/
def substr (s : List Char) (pos len : Nat) : Option (List Char) :=
  if pos > s.length then none else some ((s.drop pos).take len)

/-- Subtraction of `size_t` values (64 bits). -/
def size_sub (a b : Nat) : Nat := (a + 18446744073709551616 - b % 18446744073709551616)
  % 18446744073709551616

/-- Function `find_matching_rparen`, scanning from `open_pos` with the nesting depth. -/
def rparen_scan : List Char → Nat → Int → Option Nat
  | [], _, _ => none
  | c :: cs, i, depth =>
    if c = '(' then rparen_scan cs (i + 1) (depth + 1)
    else if c = ')' then
      if depth - 1 = 0 then some i else rparen_scan cs (i + 1) (depth - 1)
    else rparen_scan cs (i + 1) depth

/-- Function `find_matching_rparen`. -/
def find_matching_rparen (s : List Char) (open_pos : Nat) : Option Nat :=
  if s.get? open_pos ≠ some '(' then none else rparen_scan (s.drop open_pos) open_pos 0

/-- The loop of `split_csv`: the pieces pushed so far, the current piece and the
quote flag. -/
def split_csv_loop : List Char → List (List Char) → List Char → Bool → List (List Char)
  | [], out, cur, _ => if cur.isEmpty then out else out ++ [trim cur]
  | c :: cs, out, cur, inq =>
    if c = '\'' then split_csv_loop cs out (cur ++ [c]) (!inq)
    else if !inq && c = ',' then split_csv_loop cs (out ++ [trim cur]) [] inq
    else split_csv_loop cs out (cur ++ [c]) inq

/-- Function `split_csv`. -/
def split_csv (s : List Char) : List (List Char) := split_csv_loop s [] [] false

/-- Function `parse_type`: the type and length for `true`, `some none` for `false`,
and `none` when `std::stoi` throws. -/
def parse_type (t : List Char) : Option (Option (ColType × Int)) :=
  let T := to_upper (trim t)
  if T = "INT".toList ∨ T = "INTEGER".toList then some (some (.INT32, 0))
  else if T = "FLOAT".toList ∨ T = "REAL".toList then some (some (.FLOAT32, 0))
  else if starts_with T "CHAR".toList then
    match find_char T '(' 0, find_char T ')' 0 with
    | some p, some q =>
      if q > p + 1 then
        match substr T (p + 1) (size_sub (size_sub q p) 1) with
        | none => none
        | some digits =>
          match stoi (String.mk digits) with
          | none => none
          | some n => if n > 0 then some (some (.CHAR, n)) else some none
      else some none
    | _, _ => some none
  else some none

/-- What the parsing part of `cmd_CREATE_TABLE` ends in: a diagnostic, or the
table name and the schema handed to `crear_tabla`. -/
inductive CreateTable where
  | diag (msg : String) : CreateTable
  | table (name : List Char) (schema : List ColumnDef) : CreateTable

/-- The loop over the column definitions of `cmd_CREATE_TABLE`; `none` when
`parse_type` throws. -/
def parse_columns : List (List Char) → List ColumnDef → Option (Except String (List ColumnDef))
  | [], schema => some (.ok schema)
  | d :: rest, schema =>
    let def_trim := trim d
    match find_char def_trim ' ' 0 with
    | none => some (.error ("Definición de columna inválida: " ++ String.mk def_trim))
    | some sp =>
      let cname := trim (def_trim.take sp)
      let ctype := trim (def_trim.drop (sp + 1))
      match parse_type ctype with
      | none => none
      | some none => some (.error ("Tipo inválido: " ++ String.mk ctype))
      | some (some (ct, w)) =>
        parse_columns rest
          (schema ++ [{ name := String.mk cname, type := ct,
                        char_len := if ct = .CHAR then w else 0 }])

/-- The parsing part of `cmd_CREATE_TABLE`, from the statement to the call of
`crear_tabla`; `none` when an exception leaves it. -/
def parse_create_table (full : List Char) : Option CreateTable :=
  let up := to_upper full
  if find_sub "CREATE TABLE".toList up 0 ≠ some 0 then
    some (.diag "Sintaxis CREATE TABLE inválida.")
  else
    match find_char full '(' 0 with
    | none => some (.diag "Sintaxis CREATE TABLE inválida (falta '(').")
    | some p2 =>
      match substr full 13 (size_sub p2 13) with
      | none => none
      | some raw =>
        let name := trim raw
        if name.isEmpty then some (.diag "Nombre de tabla vacío.")
        else
          match find_matching_rparen full p2 with
          | none => some (.diag "Sintaxis CREATE TABLE inválida (paréntesis desbalanceados).")
          | some p3 =>
            match substr full (p2 + 1) (size_sub (size_sub p3 p2) 1) with
            | none => none
            | some inside =>
              let parts := split_csv inside
              if parts.isEmpty then some (.diag "Debe definir al menos una columna.")
              else
                match parse_columns parts [{ name := "id", type := .INT32, char_len := 0 }] with
                | none => none
                | some (.error msg) => some (.diag msg)
                | some (.ok schema) => some (.table name schema)

/-- The state of a `SQLExecutor` with its `MiniDatabase`, the file system and the
output written so far. -/
structure Session (F : Type) where
  opened : Bool
  dbdir : List Char
  dbname : List Char
  abierta : Bool
  root : List Char
  tablas : List (String × TablaInfo F)
  dirs : List (List Char)
  others : List (List Char)
  out : List String

/-- The parts of the commands that are not modelled here: whether
`fs::create_directories` succeeds, `crear_tabla` (`none` when it throws a
`std::exception`), and the bodies of the other commands after their test of `opened`
(`none` when an exception leaves the command). -/
structure Engine (F : Type) where
  can_create : Session F → List Char → Bool
  crear_tabla : Session F → List Char → List ColumnDef → Option (Session F)
  show_tables : Session F → Option (Session F)
  insert_into : Session F → List Char → Option (Session F)
  select : Session F → List Char → Option (Session F)
  delete_from : Session F → List Char → Option (Session F)
  update : Session F → List Char → Option (Session F)
  create_index : Session F → List Char → Option (Session F)

/-- A new `SQLExecutor` (`opened = false`, a `MiniDatabase` that is not open) in a
file system. -/
def SQLExecutor_new {F : Type} (dirs others : List (List Char)) : Session F :=
  { opened := false, dbdir := [], dbname := [], abierta := false, root := [], tablas := [],
    dirs := dirs, others := others, out := [] }

/-- Writing one line to `os`. -/
def Session.print {F : Type} (st : Session F) (msg : String) : Session F :=
  { st with out := st.out ++ [msg] }

/-- The call `fs::exists`. -/
def Session.path_exists {F : Type} (st : Session F) (p : List Char) : Bool :=
  st.dirs.contains p || st.others.contains p

/-- The diagnostic of a command that needs an open database. -/
def no_database_open : String := "Abra una base con USE."

/-- Method `cmd_CREATE_DATABASE`. -/
def cmd_CREATE_DATABASE {F : Type} (E : Engine F) (st : Session F) (name : List Char) :
    Session F :=
  let n := trim name
  if n.isEmpty then st.print "Falta nombre de base de datos."
  else if st.path_exists n then st.print ("La base ya existe: " ++ String.mk n)
  else if E.can_create st n then
    ({ st with dirs := n :: st.dirs } : Session F).print ("Base de datos creada: " ++ String.mk n)
  else st.print "Error: filesystem error"

/-- Method `cmd_USE`, with `abrir_base_de_datos`. -/
def cmd_USE {F : Type} (st : Session F) (name : List Char) : Session F :=
  if !st.dirs.contains name then st.print ("No existe carpeta DB: " ++ String.mk name)
  else
    ({ st with root := name, abierta := true, tablas := [], opened := true, dbdir := name,
               dbname := name } : Session F).print ("Usando base de datos: " ++ String.mk name)

/-- Method `cmd_CLOSE`, with `cerrar_base_de_datos`. -/
def cmd_CLOSE {F : Type} (st : Session F) : Session F :=
  if !st.opened then st.print "No hay base abierta."
  else
    ({ st with tablas := [], abierta := false, root := [], opened := false, dbdir := [],
               dbname := [] } : Session F).print "Base cerrada."

/-- Method `cmd_CREATE_TABLE`. -/
def cmd_CREATE_TABLE {F : Type} (E : Engine F) (st : Session F) (full : List Char) :
    Option (Session F) :=
  if !st.opened then some (st.print no_database_open)
  else
    match parse_create_table full with
    | none => none
    | some (.diag msg) => some (st.print msg)
    | some (.table name schema) =>
      match E.crear_tabla st name schema with
      | some st2 =>
        some (st2.print ("Tabla creada: " ++ String.mk name ++ " (con columna id INT por defecto)"))
      | none => some (st.print "Error: crear_tabla")

/-- A command that tests `opened` and then runs its body. -/
def guarded {F : Type} (st : Session F) (body : Session F → Option (Session F)) :
    Option (Session F) :=
  if !st.opened then some (st.print no_database_open) else body st

/-- The statement after `trim` and without its final semicolon. -/
def statement (sql : String) : List Char :=
  let s := trim sql.toList
  if s.getLast? = some ';' then s.dropLast else s

/-- The upper-case copy `up` of the statement. -/
def statement_up (sql : String) : List Char :=
  let s := trim sql.toList
  let up := to_upper s
  if s.getLast? = some ';' then up.dropLast else up

/-- Method `execute`: the session after the statement, `none` when an exception
leaves `execute`. -/
def execute {F : Type} (E : Engine F) (st : Session F) (sql : String) : Option (Session F) :=
  if (trim sql.toList).isEmpty then some st
  else
    let s := statement sql
    let up := statement_up sql
    if starts_with up "CREATE DATABASE ".toList then some (cmd_CREATE_DATABASE E st (trim (s.drop 16)))
    else if starts_with up "USE ".toList then some (cmd_USE st (trim (s.drop 4)))
    else if up = "CLOSE DATABASE".toList ∨ up = "CLOSE".toList then some (cmd_CLOSE st)
    else if up = "SHOW TABLES".toList then guarded st E.show_tables
    else if starts_with up "CREATE TABLE".toList then cmd_CREATE_TABLE E st s
    else if starts_with up "INSERT INTO".toList then guarded st (fun x => E.insert_into x s)
    else if starts_with up "SELECT".toList then guarded st (fun x => E.select x s)
    else if starts_with up "DELETE FROM".toList then guarded st (fun x => E.delete_from x s)
    else if starts_with up "UPDATE ".toList then guarded st (fun x => E.update x s)
    else if starts_with up "CREATE INDEX".toList then guarded st (fun x => E.create_index x s)
    else some (st.print "Comando no soportado.")

end sqlmini

namespace sqlmini

/-- The statements other than CREATE DATABASE, USE and CLOSE that `execute`
recognises: SHOW TABLES, CREATE TABLE, INSERT, SELECT, DELETE, UPDATE and
CREATE INDEX. -/
def needs_open (up : List Char) : Bool :=
  up == "SHOW TABLES".toList || starts_with up "CREATE TABLE".toList ||
    starts_with up "INSERT INTO".toList || starts_with up "SELECT".toList ||
    starts_with up "DELETE FROM".toList || starts_with up "UPDATE ".toList ||
    starts_with up "CREATE INDEX".toList

end sqlmini
/-!
# Sample states of the database layer
-/

namespace minidb

open gft diskbtree

/-- A decoding of FLOAT32 bit patterns for the samples: the order of the `float`
values that are not NaN, as an integer.  A bit pattern with sign bit 0 stands for its
low 31 bits and one with sign bit 1 for their negative, so that `+0` and `-0`
coincide and comparing the codes is comparing the values. -/
def exOfBits (b : Nat) : Int :=
  if b < 2147483648 then (b : Int) else -((b - 2147483648 : Nat) : Int)

/-- The sample table with the index on `qty` loaded. -/
def exIndexed : TablaInfo Int := { tabla := exTable, idx_int := [("qty", exIndex)] }

/-- The state after `borrar_por_pageid` on row 0 of `exIndexed`: the `id` bytes of
row 0 are `-1`, the tombstone bytes are unchanged and the index lost one key 10. -/
def exDeleted : TablaInfo Int :=
  { tabla :=
      { cols := exCols, row_size := 8,
        file := List.replicate 140 0 ++
          [255, 255, 255, 255, 10, 0, 0, 0, 2, 0, 0, 0, 10, 0, 0, 0, 3, 0, 0, 0, 20, 0, 0, 0],
        del := [0, 0, 0] },
    idx_int := [("qty", { t := 8, root := some (.leaf [(10, 1), (20, 2)]) })] }

/-- The state after `borrar_por_pageid` on row 1 of `exIndexed`: the `id` bytes of
row 1 are `-1` and the index lost the entry `(10, 0)` of row 0. -/
def exDeleted1 : TablaInfo Int :=
  { tabla :=
      { cols := exCols, row_size := 8,
        file := List.replicate 140 0 ++
          [1, 0, 0, 0, 10, 0, 0, 0, 255, 255, 255, 255, 10, 0, 0, 0, 3, 0, 0, 0, 20, 0, 0, 0],
        del := [0, 0, 0] },
    idx_int := [("qty", { t := 8, root := some (.leaf [(10, 1), (20, 2)]) })] }

/-- Stand-ins for the floating-point casts of `update_filas_by_pageIDs`; no sample
statement sets a column to a value of another type. -/
def exFloatOps : FloatOps :=
  { lround := fun _ => 0, of_int := fun _ => 0, to_string := fun _ => [] }

/-- The sample table without any index. -/
def exPlain : TablaInfo Int := { tabla := exTable, idx_int := [] }

end minidb

namespace sqlmini

open gft diskbtree minidb

/-- The sample table has no FLOAT32 column: its comparison is never reached. -/
def exFcmp : Cmp → Nat → String → Option Bool := fun _ _ _ => none

/-- Stand-ins for the floating-point calls of a FLOAT32 probe: `std::stof` knows the
literals `1.5` and `2.5`, and `std::nextafter` steps the bit pattern by one, which is
right for positive finite values. -/
def exProbe : FloatProbe :=
  { stof := fun s =>
      if s = "1.5" then some 1069547520 else if s = "2.5" then some 1075838976 else none,
    nextafter := fun a b => if exOfBits a < exOfBits b then a + 1 else a - 1 }

/-- The expression `qty == 10`. -/
def exWhereEq : Where :=
  { p1 := some { col := "qty", cmp := .EQ, lit := "10" }, p2 := none, op := "" }

/-- The expression `qty == 20 OR id == 1`. -/
def exWhereOr : Where :=
  { p1 := some { col := "qty", cmp := .EQ, lit := "20" },
    p2 := some { col := "id", cmp := .EQ, lit := "1" }, op := "OR" }

/-- The live rows of a table (tombstone byte 0 and `id != -1`) for which a row
predicate holds, projected: the result set the specification gives to SELECT. -/
def live_rows_where (tbl : GenericFixedTable) (proj_idx : List Nat)
    (holds : List Value → Bool) : List (List Value) :=
  (all_pids tbl.Count).filterMap (fun pid =>
    match (tbl.ReadRowByPageID pid).1 with
    | none => none
    | some row =>
      if id_is_minus_one tbl.cols row then none
      else if holds row then some (proj_idx.map (fun i => row.getD i default)) else none)

end sqlmini

namespace minidb

open gft diskbtree

/-- The table `(id INT, name CHAR(40))` as `init_schema` creates it, with the rows
`(1, exLongA)` and `(2, exLongB)` appended, and no index. -/
def exNames : TablaInfo Int :=
  { tabla :=
      match (init_schema [{ name := "id", type := .INT32 },
          { name := "name", type := .CHAR, char_len := 40 }]).bind
        (fun t => append_all t [[Value.Int 1, Value.Chr exLongA], [Value.Int 2, Value.Chr exLongB]])
      with
      | some t => t
      | none => exEmpty,
    idx_int := [] }

end minidb

namespace sqlmini

open gft diskbtree minidb

/-- The expression `id < 3`. -/
def exWhereIdLt : Where :=
  { p1 := some { col := "id", cmp := .LT, lit := "3" }, p2 := none, op := "" }

/-- The expression `qty >= 5`. -/
def exWhereGe : Where :=
  { p1 := some { col := "qty", cmp := .GE, lit := "5" }, p2 := none, op := "" }

/-- The state after `UPDATE t SET qty = 30` on page 1 of the sample table with its
index: the rows are `(1, 10)`, `(2, 30)`, `(3, 20)`. -/
def exUpdated : TablaInfo Int :=
  (update_filas_by_pageIDs exOfBits exFloatOps exIndexed [1] [("qty", Value.Int 30)]).2

end sqlmini

namespace sqlmini

open gft diskbtree minidb

/-- The expression `id == 2`. -/
def exWhereId2 : Where :=
  { p1 := some { col := "id", cmp := .EQ, lit := "2" }, p2 := none, op := "" }

/-- The expression `id == 1`. -/
def exWhereId1 : Where :=
  { p1 := some { col := "id", cmp := .EQ, lit := "1" }, p2 := none, op := "" }

end sqlmini

namespace sqlmini

open gft diskbtree minidb

/-- An engine whose unmodelled parts do nothing and never throw. -/
def exEngine : Engine Int :=
  { can_create := fun _ _ => true,
    crear_tabla := fun st _ _ => some st,
    show_tables := fun st => some st,
    insert_into := fun st _ => some st,
    select := fun st _ => some st,
    delete_from := fun st _ => some st,
    update := fun st _ => some st,
    create_index := fun st _ => some st }

/-- A new executor where the directory `shop` exists. -/
def exIdle : Session Int := SQLExecutor_new ["shop".toList] []

/-- The expression `qty == abc`. -/
def exWhereAbc : Where :=
  { p1 := some { col := "qty", cmp := .EQ, lit := "abc" }, p2 := none, op := "" }

end sqlmini

namespace sqlmini

/-- The session after `USE shop` on the new executor. -/
def exOpen : Session Int := cmd_USE exIdle "shop".toList

end sqlmini

namespace minidb

open gft diskbtree

/-- The table `(id INT, price FLOAT, name CHAR(4))` as `init_schema` creates it, with
the rows `(1, 1.5, ann)` and `(2, 2.5, bob)` appended. -/
def exKindsTable : GenericFixedTable :=
  match (init_schema [{ name := "id", type := .INT32 }, { name := "price", type := .FLOAT32 },
      { name := "name", type := .CHAR, char_len := 4 }]).bind
    (fun t => append_all t [[Value.Int 1, Value.Flt 1069547520, Value.Chr [97, 110, 110]],
      [Value.Int 2, Value.Flt 1075838976, Value.Chr [98, 111, 98]]])
  with
  | some t => t
  | none => exEmpty

/-- The index operations that build the three indexes of `exKinds`: on `id`, on
`price` and on `name`. -/
def exKindsOpsInt : List (Op Int) := [.insert 1 0, .insert 2 1]

/-- The inserts of the FLOAT32 index on `price`. -/
def exKindsOpsFloat : List (Op Int) :=
  [.insert (exOfBits 1069547520) 0, .insert (exOfBits 1075838976) 1]

/-- The inserts of the CHAR index on `name`. -/
def exKindsOpsChar : List (Op (List Nat)) :=
  [.insert (KeyChar32_put [97, 110, 110]) 0, .insert (KeyChar32_put [98, 111, 98]) 1]

/-- The index a list of operations builds with `t = 8` (no index when one throws). -/
def exBuild {K : Type} [LinearOrder K] (ops : List (Op K)) : DiskBTree K :=
  match run 8 ops with
  | some idx => idx
  | none => { t := 8, root := none }

/-- The table `exKindsTable` with an INT32 index on `id`, a FLOAT32 index on `price`
and a CHAR index on `name`, all loaded. -/
def exKinds : TablaInfo Int :=
  { tabla := exKindsTable,
    idx_int := [("id", exBuild exKindsOpsInt)],
    idx_float := [("price", exBuild exKindsOpsFloat)],
    idx_char := [("name", exBuild exKindsOpsChar)] }

end minidb

namespace sqlmini

open gft diskbtree minidb

/-- The comparison of a FLOAT32 field with a literal for the samples: the literal is
read by `exProbe.stof` and the values are compared through `exOfBits`. -/
def exFcmpKinds : Cmp → Nat → String → Option Bool :=
  fun c bits lit => (exProbe.stof lit).map (fun k => cmp_holds c (exOfBits bits) (exOfBits k))

/-- The expression `name == 'bob'`. -/
def exWhereBob : Where :=
  { p1 := some { col := "name", cmp := .EQ, lit := "'bob'" }, p2 := none, op := "" }

/-- The expression `price >= 1.5`. -/
def exWherePrice : Where :=
  { p1 := some { col := "price", cmp := .GE, lit := "1.5" }, p2 := none, op := "" }

/-- The expression `name != 'bob' OR id > 0`. -/
def exWhereNotBob : Where :=
  { p1 := some { col := "name", cmp := .NE, lit := "'bob'" },
    p2 := some { col := "id", cmp := .GT, lit := "0" }, op := "OR" }

end sqlmini

/-! ## Key comparators -/

namespace diskbtree

/-- Function `KeyInt::put`: `memcpy` of the 4 bytes of the key. -/
def KeyInt_put (k : Int) : List Nat := gft.int32_bytes k

/-- Function `KeyInt::cmp_mem`: both slots are copied into an `int32_t` and the two
integers are compared. -/
def KeyInt_cmp_mem (a b : List Nat) : Int :=
  let ka := gft.int32_of_bytes (a.take 4)
  let kb := gft.int32_of_bytes (b.take 4)
  if ka < kb then -1 else if ka > kb then 1 else 0

/-- The sign of `std::memcmp(a, b, n)`: the first `n` bytes are compared as unsigned
bytes, the first difference decides (the C standard fixes only the sign of the
result). -/
def memcmp : List Nat → List Nat → Nat → Int
  | _, _, 0 => 0
  | a :: as, b :: bs, n + 1 => if a < b then -1 else if b < a then 1 else memcmp as bs n
  | _, _, _ + 1 => 0

/-- Function `KeyChar32::cmp_mem`: `memcmp` over the `KEY_BYTES = 32` bytes of the
two slots. -/
def KeyChar32_cmp_mem (a b : List Nat) : Int := memcmp a b 32

/-- Raw-byte lexicographic comparison of two strings, as a sign: the first differing
byte decides, and a proper prefix sorts first. -/
def lex_cmp : List Nat → List Nat → Int
  | [], [] => 0
  | [], _ :: _ => -1
  | _ :: _, [] => 1
  | a :: as, b :: bs => if a < b then -1 else if b < a then 1 else lex_cmp as bs

/-- Four insertions into a new index of minimum degree 2, the key 1 twice: the
fourth one splits the full root and puts both entries of key 1 into the left leaf. -/
def sepOps : List (Op Int) := [.insert 1 10, .insert 2 20, .insert 3 30, .insert 1 11]

/-- The index built by `sepOps`. -/
def sepTree : DiskBTree Int :=
  { t := 2, root := some (.inner [(2, 20)] [.leaf [(1, 10), (1, 11)], .leaf [(3, 30)]]) }

end diskbtree

/-! ## The ranges of an index probe -/

namespace sqlmini

open gft diskbtree minidb

/-- The ranges the specification gives for an INT32 drive predicate `col op key`
(none for `EQ`, which is a point lookup), with `key + 1` and `key - 1` taken
modulo 2^32. -/
def probe_ranges (cmp : Cmp) (key : Int) : List (Int × Int) :=
  match cmp with
  | .EQ => []
  | .GE => [(key, 2147483647)]
  | .LE => [(-2147483648, key)]
  | .GT => [(wrap32 (key + 1), 2147483647)]
  | .LT => [(-2147483648, wrap32 (key - 1))]
  | .NE => [(-2147483648, wrap32 (key - 1)), (wrap32 (key + 1), 2147483647)]

/-- The range queries over a list of ranges, results concatenated in order; `none`
when one of the queries does not return. -/
def range_queries (idx : DiskBTree Int) : List (Int × Int) → Option (List Int)
  | [] => some []
  | r :: rs =>
    match range_search_values idx r.1 r.2, range_queries idx rs with
    | some t1, some t2 => some (t1 ++ t2)
    | _, _ => none

/-- The probe as the specification words it: a point lookup for `EQ`, the range
queries over `probe_ranges` otherwise. -/
def probe_by_ranges (idx : DiskBTree Int) (cmp : Cmp) (key : Int) : Option (List Int) :=
  if cmp = Cmp.EQ then
    (search_get_value idx key).map (fun pid => if pid ≥ 0 then [pid] else [])
  else range_queries idx (probe_ranges cmp key)

end sqlmini

/-! ## Update of one row by page id (`actualizar_por_pageid`) -/

namespace minidb

open gft diskbtree

/-- The lambda `eq_val` of `actualizar_por_pageid`; `feq` is `==` on `float`, on bit
patterns. -/
def eq_val (feq : Nat → Nat → Bool) (a b : Value) : Bool :=
  if a.t ≠ b.t then false
  else if a.t = ColType.INT32 then a.i == b.i
  else if a.t = ColType.FLOAT32 then feq a.f b.f
  else a.s == b.s

/-- The local struct `DeltaIdx` of `actualizar_por_pageid`. -/
structure DeltaIdx where
  col : String
  t : ColType
  oldv : Value
  newv : Value

/-- The first loop of `actualizar_por_pageid`: the changes are applied to the copy
`row`, and a delta is recorded for each changed column that has an index; `none`
when it throws (unknown column, incompatible type). -/
def apply_cambios {F : Type} (feq : Nat → Nat → Bool) (ti : TablaInfo F) :
    List Value → List DeltaIdx → List (String × Value) → Option (List Value × List DeltaIdx)
  | row, deltas, [] => some (row, deltas)
  | row, deltas, (cname, vnew) :: rest =>
    match ti.tabla.col_index cname with
    | none => none
    | some cix =>
      if (row.getD cix default).t ≠ vnew.t then none
      else
        let vold := row.getD cix default
        if eq_val feq vold vnew then apply_cambios feq ti row deltas rest
        else
          let has_index := (ti.idx_int.lookup cname).isSome ||
            (ti.idx_float.lookup cname).isSome || (ti.idx_char.lookup cname).isSome
          let deltas2 :=
            if has_index then deltas ++ [{ col := cname, t := vnew.t, oldv := vold, newv := vnew }]
            else deltas
          apply_cambios feq ti (row.set cix vnew) deltas2 rest

/-- The second loop of `actualizar_por_pageid`, which sets `any_change`: it compares
`row`, the copy the first loop has already changed, with the new values. -/
def any_change {F : Type} (feq : Nat → Nat → Bool) (ti : TablaInfo F) (row : List Value) :
    List (String × Value) → Bool
  | [] => false
  | (cname, vnew) :: rest =>
    match ti.tabla.col_index cname with
    | none => any_change feq ti row rest
    | some cix =>
      if !eq_val feq (row.getD cix default) vnew then true else any_change feq ti row rest

/-- One delta of the last loop of `actualizar_por_pageid` on the index of its column,
if there is one, with the keys of the old and of the new value: `remove_key(old);
insert(new, (int)pageID)`; `none` when an index operation throws. -/
def apply_delta {K : Type} [LinearOrder K] (pid : Int) (col : String) (old new : K)
    (idxs : List (String × DiskBTree K)) : Option (List (String × DiskBTree K)) :=
  match idxs.lookup col with
  | none => some idxs
  | some idx =>
    match remove_key idx old with
    | none => none
    | some i1 =>
      match diskbtree.insert i1 new (to_int32 pid) with
      | none => none
      | some i2 => some (modify_index col (fun _ => i2) idxs)

/-- The last loop of `actualizar_por_pageid`: each delta goes to the index map of its
type, `idx_int`, `idx_float` or `idx_char`; `none` when an index operation throws. -/
def apply_deltas {F : Type} [LinearOrder F] (of_bits : Nat → F) (pid : Int) :
    TablaInfo F → List DeltaIdx → Option (TablaInfo F)
  | ti, [] => some ti
  | ti, d :: ds =>
    match d.t with
    | .INT32 =>
      match apply_delta pid d.col d.oldv.i d.newv.i ti.idx_int with
      | none => none
      | some idxs => apply_deltas of_bits pid { ti with idx_int := idxs } ds
    | .FLOAT32 =>
      match apply_delta pid d.col (of_bits d.oldv.f) (of_bits d.newv.f) ti.idx_float with
      | none => none
      | some idxs => apply_deltas of_bits pid { ti with idx_float := idxs } ds
    | .CHAR =>
      match apply_delta pid d.col (KeyChar32_put d.oldv.s) (KeyChar32_put d.newv.s)
          ti.idx_char with
      | none => none
      | some idxs => apply_deltas of_bits pid { ti with idx_char := idxs } ds

/-- Method `actualizar_por_pageid`: the returned flag and the state after the call;
`none` when it throws. -/
def actualizar_por_pageid {F : Type} [LinearOrder F] (of_bits : Nat → F)
    (feq : Nat → Nat → Bool) (ti : TablaInfo F) (pageID : Int)
    (cambios : List (String × Value)) : Option (Bool × TablaInfo F) :=
  if cambios.isEmpty then some (false, ti)
  else
    let r := ti.tabla.ReadRowByPageID pageID
    match r.1 with
    | none => some (false, { ti with tabla := r.2 })
    | some row =>
      let gone : Bool :=
        match r.2.col_index "id" with
        | some i => (row.getD i default).t == ColType.INT32 && (row.getD i default).i == -1
        | none => false
      if gone then some (false, { ti with tabla := r.2 })
      else
        let ti1 : TablaInfo F := { ti with tabla := r.2 }
        match apply_cambios feq ti1 row [] cambios with
        | none => none
        | some (row2, deltas) =>
          if !any_change feq ti1 row2 cambios && deltas.isEmpty then some (false, ti1)
          else
            let w := r.2.WriteRowInDisk pageID row2
            if w.1 then
              match apply_deltas of_bits pageID { ti with tabla := w.2 } deltas with
              | none => none
              | some ti2 => some (true, ti2)
            else none

/-- Method `leer_fila`. -/
def leer_fila {F : Type} (ti : TablaInfo F) (pageID : Int) : Option (List Value) :=
  (ti.tabla.ReadRowByPageID pageID).1

end minidb

/-! ## The WHERE parser (`parse_where`) -/

namespace sqlmini

open gft diskbtree minidb

/-- The value `Pred{ trim(s.substr(0,p)), cmp, trim(s.substr(p+len)) }` returned by
the lambda `parse_pred` for an operator of `len` characters found at `p`. -/
def pred_at (s : List Char) (p len : Nat) (cmp : Cmp) : Pred :=
  { col := String.mk (trim (s.take p)), cmp := cmp, lit := String.mk (trim (s.drop (p + len))) }

/-- The lambda `parse_pred` of `parse_where`: the operators are looked for in the
order `!=`, `>=`, `<=`, `==`, `=`, `>`, `<`; `none` is `std::nullopt`. -/
def parse_pred (s0 : List Char) : Option Pred :=
  let s := trim s0
  match find_sub "!=".toList s 0 with
  | some p => some (pred_at s p 2 .NE)
  | none =>
  match find_sub ">=".toList s 0 with
  | some p => some (pred_at s p 2 .GE)
  | none =>
  match find_sub "<=".toList s 0 with
  | some p => some (pred_at s p 2 .LE)
  | none =>
  match find_sub "==".toList s 0 with
  | some p => some (pred_at s p 2 .EQ)
  | none =>
  match find_char s '=' 0 with
  | some p => some (pred_at s p 1 .EQ)
  | none =>
  match find_char s '>' 0 with
  | some p => some (pred_at s p 1 .GT)
  | none =>
  match find_char s '<' 0 with
  | some p => some (pred_at s p 1 .LT)
  | none => none

/-- Function `parse_where`: the returned flag and the `Where` it leaves in `w`. -/
def parse_where (expr : List Char) (w : Where) : Bool × Where :=
  let up := to_upper expr
  let pos_and := find_sub " AND ".toList up 0
  let pos_or := find_sub " OR ".toList up 0
  match pos_and with
  | some pa =>
    let p1 := parse_pred (expr.take pa)
    let p2 := parse_pred (expr.drop (pa + 5))
    (p1.isSome && p2.isSome, { p1 := p1, p2 := p2, op := "AND" })
  | none =>
    match pos_or with
    | some po =>
      let p1 := parse_pred (expr.take po)
      let p2 := parse_pred (expr.drop (po + 4))
      (p1.isSome && p2.isSome, { p1 := p1, p2 := p2, op := "OR" })
    | none =>
      let p1 := parse_pred expr
      (p1.isSome, { w with p1 := p1, op := "" })

/-- The comparison a WHERE operator stands for, for the seven operators. -/
def cmp_of_op (op : List Char) : Option Cmp :=
  if op = "==".toList ∨ op = "=".toList then some .EQ
  else if op = "!=".toList then some .NE
  else if op = ">=".toList then some .GE
  else if op = "<=".toList then some .LE
  else if op = ">".toList then some .GT
  else if op = "<".toList then some .LT
  else none

/-- None of the characters `!`, `=`, `<`, `>` occurs in `s`. -/
def no_op_char (s : List Char) : Prop := ∀ x ∈ s, x ≠ '!' ∧ x ≠ '=' ∧ x ≠ '<' ∧ x ≠ '>'

/-- The pattern `pat` occurs in `s` at position `i`. -/
def occurs_at (pat s : List Char) (i : Nat) : Prop := pat.isPrefixOf (s.drop i) = true

end sqlmini

namespace sqlmini

/-- The text `c op l` of a predicate: column name, operator and literal separated by
single blanks. -/
def pred_text (c op l : List Char) : List Char := c ++ ' ' :: op ++ ' ' :: l

/-- The predicate `(c, cmp, l)` with `c` and `l` taken without surrounding white
space. -/
def pred_of (c : List Char) (cmp : Cmp) (l : List Char) : Pred :=
  { col := String.mk (trim c), cmp := cmp, lit := String.mk (trim l) }

/-- A `Where` as the callers of `parse_where` declare it (`Where w{}`). -/
def Where.empty : Where := { p1 := none, p2 := none, op := "" }

end sqlmini

namespace sqlmini

/-- The number a string of decimal digits denotes. -/
def decimal_value (ds : List Char) : Int :=
  ds.foldl (fun acc c => acc * 10 + ((c.toNat - 48 : Nat) : Int)) 0

end sqlmini

/-! ## The INSERT command (`cmd_INSERT_INTO`) -/

namespace sqlmini

open gft diskbtree minidb

/-- Function `parse_value_literal`; `stof` is `std::stof` on bit patterns, and `none`
is an exception of `std::stoi` or `std::stof`. -/
def parse_value_literal (stof : List Char → Option Nat) (lit : List Char) (t : ColType) :
    Option Value :=
  let L := trim lit
  match t with
  | .INT32 => (stoi (String.mk L)).map Value.Int
  | .FLOAT32 => (stof L).map Value.Flt
  | .CHAR =>
    let body :=
      if L.length ≥ 2 ∧ L.head? = some '\'' ∧ L.getLast? = some '\'' then
        (L.drop 1).take (L.length - 2)
      else L
    some (Value.Chr (body.map Char.toNat))

/-- What the text of an INSERT statement is cut into: a diagnostic, or the table
name, the column names and the literals. -/
inductive InsertParts where
  | diag (msg : String) : InsertParts
  | parts (tname : List Char) (cols vals : List (List Char)) : InsertParts

/-- The call `s.find(pat, pos)` for a string. -/
def find_sub_from (pat s : List Char) (pos : Nat) : Option Nat := find_sub pat (s.drop pos) pos

/-- The parsing part of `cmd_INSERT_INTO`, up to the two lists; `none` when `substr`
throws. -/
def parse_insert (full : List Char) : Option InsertParts :=
  let up := to_upper full
  if find_sub "INSERT INTO".toList up 0 ≠ some 0 then some (.diag "Sintaxis INSERT inválida.")
  else
    match find_char full '(' 11 with
    | none => some (.diag "Faltan columnas.")
    | some p1 =>
      match substr full 11 (size_sub p1 11) with
      | none => none
      | some raw =>
        match find_char full ')' p1 with
        | none => some (.diag "Faltan columnas.")
        | some p2 =>
          match substr full (p1 + 1) (size_sub (size_sub p2 p1) 1) with
          | none => none
          | some cols_s =>
            match find_sub_from "VALUES".toList (to_upper full) p2 with
            | none => some (.diag "Falta VALUES.")
            | some pval =>
              match find_char full '(' pval with
              | none => some (.diag "Valores inválidos.")
              | some p3 =>
                match find_char full ')' p3 with
                | none => some (.diag "Valores inválidos.")
                | some p4 =>
                  match substr full (p3 + 1) (size_sub (size_sub p4 p3) 1) with
                  | none => none
                  | some vals_s => some (.parts (trim raw) (split_csv cols_s) (split_csv vals_s))

/-- The map `cix` from a column name to its index: of two columns with the same name
the later one is kept. -/
def cix_find (sc : List ColMetaDisk) (name : String) : Option Nat :=
  ((sc.enum.filter (fun p => p.2.name == name)).getLast?).map Prod.fst

/-- The default value of a column: `Value::Int(0)`, `Value::Flt(0.f)` or
`Value::Chr("")`. -/
def default_value (c : ColMetaDisk) : Value :=
  match c.type with
  | .INT32 => Value.Int 0
  | .FLOAT32 => Value.Flt 0
  | .CHAR => Value.Chr []

/-- The loop over `k` of `cmd_INSERT_INTO` that assigns the given values: the row and
the flag `id_provided`, a diagnostic for an unknown column, `none` when
`parse_value_literal` throws. -/
def insert_values (stof : List Char → Option Nat) (sc : List ColMetaDisk) :
    List (List Char) → List (List Char) → List Value → Bool →
      Option (Except String (List Value × Bool))
  | c :: cs, v :: vs, row, id_provided =>
    match cix_find sc (String.mk (trim c)) with
    | none => some (.error ("Columna desconocida: " ++ String.mk (trim c)))
    | some i =>
      match sc[i]? with
      | none => none
      | some cm =>
        match parse_value_literal stof v cm.type with
        | none => none
        | some x =>
          insert_values stof sc cs vs (row.set i x)
            (id_provided || decide (cix_find sc "id" = some i))
  | _, _, row, id_provided => some (.ok (row, id_provided))

/-- What an INSERT that reached `insertar_fila` did: the row it handed over, the id
the autoincrement assigned (if it did), the page id returned (`none` when
`insertar_fila` threw and the command printed the error) and the state afterwards. -/
structure Inserted (F : Type) where
  row : List Value
  auto_id : Option Int
  pid : Option Int
  ti : TablaInfo F

/-- The part of `cmd_INSERT_INTO` after the two lists have been extracted, on the
table the statement names. -/
def insert_parts {F : Type} [LinearOrder F] (of_bits : Nat → F)
    (stof : List Char → Option Nat) (ti : TablaInfo F)
    (cols vals : List (List Char)) : Option (Except String (Inserted F)) :=
  if cols.length ≠ vals.length then some (.error "Número de columnas/valores no coincide.")
  else
    let sc := ti.tabla.cols
    let row0 := sc.map default_value
    let id_idx := cix_find sc "id"
    match insert_values stof sc cols vals row0 false with
    | none => none
    | some (.error msg) => some (.error msg)
    | some (.ok (row, id_provided)) =>
      let auto : Option (Nat × Int) :=
        match id_idx with
        | some i =>
          if !id_provided then some (i, wrap32 (to_int32 ti.tabla.Count + 1)) else none
        | none => none
      let row2 : List Value :=
        match auto with
        | some (i, next_id) => row.set i (Value.Int next_id)
        | none => row
      let r := insertar_fila of_bits ti row2
      some (.ok { row := row2, auto_id := auto.map Prod.snd, pid := r.1, ti := r.2 })

/-- Method `cmd_INSERT_INTO` with a database open, on the table the statement names. -/
def cmd_INSERT_INTO {F : Type} [LinearOrder F] (of_bits : Nat → F)
    (stof : List Char → Option Nat) (ti : TablaInfo F) (full : List Char) :
    Option (Except String (Inserted F)) :=
  match parse_insert full with
  | none => none
  | some (.diag msg) => some (.error msg)
  | some (.parts _ cols vals) => insert_parts of_bits stof ti cols vals

/-- The literal given for the column of index `i`: that of its last mention in the
column list, `none` when the column is not named. -/
def literal_for (sc : List ColMetaDisk) :
    List (List Char) → List (List Char) → Nat → Option (List Char)
  | c :: cs, v :: vs, i =>
    match literal_for sc cs vs i with
    | some l => some l
    | none => if cix_find sc (String.mk (trim c)) = some i then some v else none
  | _, _, _ => none

/-- A statement of a session on one table: an INSERT (its text) or a DELETE (its
parsed WHERE clause, if any). -/
inductive Stmt where
  | insert (full : List Char) : Stmt
  | delete (wexpr : Option Where) : Stmt

/-- Running statements in order: the ids that the autoincrement assigned to appended
rows, in order, and the state afterwards; the run ends at a statement that an
exception leaves. -/
def run_stmts {F : Type} [LinearOrder F] (of_bits : Nat → F) (fp : FloatProbe)
    (stof : List Char → Option Nat) (fcmp : Cmp → Nat → String → Option Bool) :
    TablaInfo F → List Stmt → List Int × TablaInfo F
  | ti, [] => ([], ti)
  | ti, .insert full :: rest =>
    match cmd_INSERT_INTO of_bits stof ti full with
    | none => ([], ti)
    | some (.error _) => run_stmts of_bits fp stof fcmp ti rest
    | some (.ok out) =>
      let r := run_stmts of_bits fp stof fcmp out.ti rest
      ((match out.auto_id, out.pid with
        | some id, some _ => [id]
        | _, _ => []) ++ r.1, r.2)
  | ti, .delete wexpr :: rest =>
    match cmd_DELETE_FROM of_bits fp fcmp ti wexpr with
    | none => ([], ti)
    | some r => run_stmts of_bits fp stof fcmp r.2 rest

end sqlmini

namespace sqlmini

open gft diskbtree minidb

/-- What an INSERT did, for display: the row handed to `insertar_fila`, the id the
autoincrement assigned, the page id returned and `Count()` afterwards. -/
def insert_summary {F : Type} (r : Option (Except String (Inserted F))) :
    Option (List Value × Option Int × Option Int × Int) :=
  match r with
  | some (.ok out) => some (out.row, out.auto_id, out.pid, out.ti.tabla.Count)
  | _ => none

/-- A `std::stof` that is never called in the examples on INT32 and CHAR columns. -/
def exStof : List Char → Option Nat := fun _ => none

/-- The columns and literals of an extracted INSERT statement, `none` for a
diagnostic. -/
def InsertParts.lists : InsertParts → Option (List Char × List (List Char) × List (List Char))
  | .diag _ => none
  | .parts t cols vals => some (t, cols, vals)

end sqlmini

namespace sqlmini

open gft diskbtree minidb

/-- A table as CREATE TABLE makes it: a schema laid out by `init_schema` with a column
named `id`, every column of that name being INT32. -/
def IdTable (t : GenericFixedTable) : Prop :=
  t.SchemaOk ∧ (∃ c ∈ t.cols, c.name = "id") ∧ ∀ c ∈ t.cols, c.name = "id" → c.type = ColType.INT32

/-- Three INSERT statements without an explicit id, with `DELETE FROM t WHERE id == 1`
after the first and a DELETE of every row after the second. -/
def exSession : List Stmt :=
  [.insert "INSERT INTO t (qty) VALUES (5)".toList, .delete (some exWhereId1),
   .insert "INSERT INTO t (qty) VALUES (6)".toList, .delete none,
   .insert "INSERT INTO t (qty) VALUES (7)".toList]

end sqlmini

/-! ## Theorems -/

namespace diskbtree

section lemmas
variable {K : Type}

theorem flatList_eq (cs : List (NodeDisk K)) : NodeDisk.flatList cs = cs.map NodeDisk.flat := by
  induction cs with
  | nil => rfl
  | cons c cs ih => simp [NodeDisk.flatList, ih]

theorem flat_inner (es : List (K × Int)) (cs : List (NodeDisk K)) :
    (NodeDisk.inner es cs).flat = inorder es (cs.map NodeDisk.flat) := by
  simp [NodeDisk.flat, flatList_eq]

theorem flat_leaf (es : List (K × Int)) : (NodeDisk.leaf es : NodeDisk K).flat = es := by
  simp [NodeDisk.flat]

theorem inorder_append {α : Type} (A B : List α) (L R : List (List α))
    (h : L.length = A.length) : inorder (A ++ B) (L ++ R) = inorder A L ++ inorder B R := by
  induction A generalizing L with
  | nil =>
    cases L with
    | nil => simp [inorder]
    | cons f L => simp at h
  | cons e A ih =>
    cases L with
    | nil => simp at h
    | cons f L =>
      simp only [List.length_cons, Nat.add_right_cancel_iff] at h
      simp [inorder, ih L h]

theorem inorder_cons_head {α : Type} (B : List α) (f : List α) (R : List (List α)) :
    inorder B (f :: R) = f ++ inorder B ([] :: R) := by
  cases B <;> simp [inorder]

end lemmas
end diskbtree

namespace diskbtree

section lemmas2
variable {K : Type} [LinearOrder K]

theorem cmp_lt_iff (a b : K) : cmp_mem a b < 0 ↔ a < b := by
  unfold cmp_mem; split_ifs <;> simp_all
theorem cmp_gt_iff (a b : K) : cmp_mem a b > 0 ↔ b < a := by
  unfold cmp_mem; split_ifs with h1 h2 <;> simp_all
  exact le_of_lt h1
theorem cmp_eq_iff (a b : K) : cmp_mem a b = 0 ↔ a = b := by
  unfold cmp_mem; split_ifs with h1 h2
  · simp; exact ne_of_lt h1
  · simp; exact (ne_of_lt h2).symm
  · simp; exact le_antisymm (not_lt.mp h2) (not_lt.mp h1)
theorem cmp_le_iff (a b : K) : cmp_mem a b ≤ 0 ↔ a ≤ b := by
  unfold cmp_mem; split_ifs with h1 h2
  · simp; exact le_of_lt h1
  · simp; exact h2
  · simp; exact not_lt.mp h2

theorem getElem?_app_len {α : Type} (L : List α) (c : α) (R : List α) :
    (L ++ c :: R)[L.length]? = some c := by
  induction L with
  | nil => simp
  | cons a L ih => simpa using ih

theorem getElem?_app_len_succ {α : Type} (L : List α) (c : α) (R : List α) :
    (L ++ c :: R)[L.length + 1]? = R[0]? := by
  induction L with
  | nil => simp
  | cons a L ih => simpa using ih

theorem set_app_len {α : Type} (L : List α) (c d : α) (R : List α) :
    (L ++ c :: R).set L.length d = L ++ d :: R := by
  induction L with
  | nil => simp
  | cons a L ih => simpa using ih

theorem eraseIdx_app_len {α : Type} (L : List α) (c : α) (R : List α) :
    (L ++ c :: R).eraseIdx L.length = L ++ R := by
  induction L with
  | nil => simp
  | cons a L ih => simpa using ih

theorem insertIdx_app_len {α : Type} (L : List α) (c : α) (R : List α) :
    (L ++ R).insertIdx L.length c = L ++ c :: R := by
  induction L with
  | nil => simp
  | cons a L ih => simpa using ih

theorem drop_app_len_succ {α : Type} (L : List α) (c : α) (R : List α) :
    (L ++ c :: R).drop (L.length + 1) = R := by
  induction L with
  | nil => simp
  | cons a L ih => simpa using ih

theorem take_app_len {α : Type} (L : List α) (R : List α) :
    (L ++ R).take L.length = L := by
  simp

theorem pre_nil : pre ([] : List (K × Int)) [] = [] := by simp [pre, inorder]
theorem post_nil : post ([] : List (K × Int)) [] = [] := by simp [post, inorder]
theorem post_cons (e : K × Int) (B : List (K × Int)) (c : NodeDisk K) (R : List (NodeDisk K)) :
    post (e :: B) (c :: R) = e :: (c.flat ++ post B R) := by
  simp [post, inorder]
  exact inorder_cons_head _ _ _
theorem pre_snoc (A : List (K × Int)) (e : K × Int) (L : List (NodeDisk K)) (c : NodeDisk K)
    (h : L.length = A.length) : pre (A ++ [e]) (L ++ [c]) = pre A L ++ c.flat ++ [e] := by
  simp only [pre, List.map_append, List.map_cons, List.map_nil]
  rw [inorder_append _ _ _ _ (by simpa using h)]
  simp [inorder]

theorem flat_focus (A B : List (K × Int)) (L R : List (NodeDisk K)) (c : NodeDisk K)
    (h : L.length = A.length) :
    (NodeDisk.inner (A ++ B) (L ++ c :: R)).flat = pre A L ++ c.flat ++ post B R := by
  rw [flat_inner]
  simp only [pre, post, List.map_append, List.map_cons]
  rw [inorder_append _ _ _ _ (by simpa using h), inorder_cons_head]
  simp

end lemmas2
end diskbtree

namespace diskbtree

section lemmas3
variable {K : Type} [LinearOrder K]

theorem pre_cons (e : K × Int) (A : List (K × Int)) (c : NodeDisk K) (L : List (NodeDisk K)) :
    pre (e :: A) (c :: L) = c.flat ++ e :: pre A L := by
  simp [pre, inorder]

theorem pre_bound (A : List (K × Int)) (L : List (NodeDisk K)) (h : L.length = A.length)
    (hs : Ord (pre A L)) : ∀ p ∈ pre A L, ∃ a ∈ A, p.1 ≤ a.1 := by
  induction A generalizing L with
  | nil =>
    cases L with
    | nil => simp [pre_nil]
    | cons c L => simp at h
  | cons e A ih =>
    cases L with
    | nil => simp at h
    | cons c L =>
      simp only [List.length_cons, Nat.add_right_cancel_iff] at h
      rw [pre_cons] at hs ⊢
      unfold Ord at hs
      rw [List.pairwise_append, List.pairwise_cons] at hs
      obtain ⟨_, ⟨_, h3⟩, h4⟩ := hs
      intro p hp
      rw [List.mem_append, List.mem_cons] at hp
      rcases hp with hp | hp | hp
      · exact ⟨e, by simp, h4 p hp e (by simp)⟩
      · exact ⟨e, by simp, by rw [hp]⟩
      · obtain ⟨a, ha, hle⟩ := ih L h h3 p hp
        exact ⟨a, by simp [ha], hle⟩

theorem post_bound (B : List (K × Int)) (R : List (NodeDisk K)) (h : R.length = B.length)
    (hs : Ord (post B R)) : ∀ q ∈ post B R, ∃ b ∈ B, b.1 ≤ q.1 := by
  induction B generalizing R with
  | nil =>
    cases R with
    | nil => simp [post_nil]
    | cons c R => simp at h
  | cons e B ih =>
    cases R with
    | nil => simp at h
    | cons c R =>
      simp only [List.length_cons, Nat.add_right_cancel_iff] at h
      rw [post_cons] at hs ⊢
      unfold Ord at hs
      rw [List.pairwise_cons, List.pairwise_append] at hs
      obtain ⟨h1, _, h3, _⟩ := hs
      intro q hq
      rw [List.mem_cons, List.mem_append] at hq
      rcases hq with hq | hq | hq
      · exact ⟨e, by simp, by rw [hq]⟩
      · exact ⟨e, by simp, h1 q (by simp [hq])⟩
      · obtain ⟨b, hb, hle⟩ := ih R h h3 q hq
        exact ⟨b, by simp [hb], hle⟩

theorem ord_append {P T : List (K × Int)} :
    Ord (P ++ T) ↔ Ord P ∧ Ord T ∧ ∀ p ∈ P, ∀ q ∈ T, p.1 ≤ q.1 := by
  unfold Ord; exact List.pairwise_append

theorem ord_replace {P M M2 T : List (K × Int)} (hs : Ord (P ++ M ++ T)) (hM : Ord M2)
    (hP : ∀ m ∈ M2, ∀ p ∈ P, p.1 ≤ m.1) (hT : ∀ m ∈ M2, ∀ q ∈ T, m.1 ≤ q.1) :
    Ord (P ++ M2 ++ T) := by
  rw [ord_append, ord_append] at hs ⊢
  obtain ⟨⟨hPo, _, _⟩, hTo, hPT⟩ := hs
  refine ⟨⟨hPo, hM, fun p hp m hm => hP m hm p hp⟩, hTo, ?_⟩
  intro p hp q hq
  rw [List.mem_append] at hp
  rcases hp with hp | hp
  · exact hPT p (by simp [hp]) q hq
  · exact hT p hp q hq

theorem scan_gt_split (es : List (K × Int)) (k : K) (hs : Ord es) :
    ∃ A B, es = A ++ B ∧ scan_gt es k = A.length ∧ (∀ a ∈ A, a.1 ≤ k) ∧ (∀ b ∈ B, k < b.1) := by
  induction es using List.reverseRecOn with
  | nil => exact ⟨[], [], by simp [scan_gt, List.rdropWhile]⟩
  | append_singleton es e ih =>
    rw [ord_append] at hs
    obtain ⟨hs1, _, hs3⟩ := hs
    by_cases hp : k < e.1
    · obtain ⟨A, B, hAB, hlen, hA, hB⟩ := ih hs1
      refine ⟨A, B ++ [e], by simp [hAB], ?_, hA, ?_⟩
      · unfold scan_gt at hlen ⊢
        rw [List.rdropWhile_concat_pos]
        · exact hlen
        · simpa [cmp_gt_iff] using hp
      · intro b hb
        rw [List.mem_append] at hb
        rcases hb with hb | hb
        · exact hB b hb
        · simp at hb; rw [hb]; exact hp
    · refine ⟨es ++ [e], [], by simp, ?_, ?_, by simp⟩
      · unfold scan_gt
        rw [List.rdropWhile_concat_neg]
        simpa [cmp_gt_iff] using hp
      · intro a ha
        rw [List.mem_append] at ha
        rcases ha with ha | ha
        · exact le_trans (hs3 a ha e (by simp)) (not_lt.mp hp)
        · simp at ha; rw [ha]; exact not_lt.mp hp

theorem scan_lt_split (es : List (K × Int)) (k : K) (hs : Ord es) :
    ∃ A B, es = A ++ B ∧ scan_lt es k = A.length ∧ (∀ a ∈ A, a.1 < k) ∧ (∀ b ∈ B, k ≤ b.1) := by
  induction es with
  | nil => exact ⟨[], [], by simp [scan_lt]⟩
  | cons e es ih =>
    unfold Ord at hs
    rw [List.pairwise_cons] at hs
    obtain ⟨hs1, hs2⟩ := hs
    by_cases hp : e.1 < k
    · obtain ⟨A, B, hAB, hlen, hA, hB⟩ := ih hs2
      refine ⟨e :: A, B, by simp [hAB], ?_, ?_, hB⟩
      · unfold scan_lt at hlen ⊢
        rw [List.takeWhile_cons_of_pos (by simpa [cmp_lt_iff] using hp)]
        simp [hlen]
      · intro a ha
        rw [List.mem_cons] at ha
        rcases ha with ha | ha
        · rw [ha]; exact hp
        · exact hA a ha
    · refine ⟨[], e :: es, by simp, ?_, by simp, ?_⟩
      · unfold scan_lt
        rw [List.takeWhile_cons_of_neg (by simpa [cmp_lt_iff] using hp)]
      · intro b hb
        rw [List.mem_cons] at hb
        rcases hb with hb | hb
        · rw [hb]; exact not_lt.mp hp
        · exact le_trans (not_lt.mp hp) (hs1 b hb)

end lemmas3
end diskbtree

namespace diskbtree

section lemmas4
variable {K : Type} [LinearOrder K]

theorem inorder_append_mid {α : Type} (Y1 Y2 : List α) (m : α) (C1 C2 : List (List α))
    (h : C1.length = Y1.length + 1) :
    inorder (Y1 ++ m :: Y2) (C1 ++ C2) = inorder Y1 C1 ++ m :: inorder Y2 C2 := by
  induction Y1 generalizing C1 with
  | nil =>
    match C1, h with
    | [f], _ => simp [inorder]
  | cons e Y1 ih =>
    match C1, h with
    | f :: C1, h =>
      simp only [List.length_cons, Nat.add_right_cancel_iff] at h
      simp [inorder, ih C1 h]

theorem wf_zero_iff (t : Nat) (x : NodeDisk K) : WF t 0 x ↔ ∃ es, x = .leaf es := by
  cases x <;> simp [WF, NodeDisk.isLeaf]

theorem wf_inner_iff (t h : Nat) (es : List (K × Int)) (cs : List (NodeDisk K)) :
    WF t (h + 1) (.inner es cs) ↔ cs.length = es.length + 1 ∧ ∀ c ∈ cs, Good t h c := by
  constructor
  · intro hw; exact ⟨hw.2.1, hw.2.2⟩
  · intro hw; exact ⟨rfl, hw.1, hw.2⟩

theorem wf_succ_iff (t h : Nat) (x : NodeDisk K) :
    WF t (h + 1) x ↔ ∃ es cs, x = .inner es cs ∧ cs.length = es.length + 1 ∧
      ∀ c ∈ cs, Good t h c := by
  cases x with
  | leaf es => simp [WF, NodeDisk.isLeaf]
  | inner es cs =>
    rw [wf_inner_iff]
    constructor
    · intro hw; exact ⟨es, cs, rfl, hw⟩
    · rintro ⟨es2, cs2, heq, hw⟩
      cases heq
      exact hw

theorem depthList_eq (cs : List (NodeDisk K)) (d : Nat) (hne : cs ≠ [])
    (h : ∀ c ∈ cs, c.depth = d) : NodeDisk.depthList cs = d := by
  induction cs with
  | nil => exact absurd rfl hne
  | cons c cs ih =>
    simp only [NodeDisk.depthList]
    have hc : c.depth = d := h c (by simp)
    cases cs with
    | nil => simp [NodeDisk.depthList, hc]
    | cons c2 cs2 =>
      rw [ih (by simp) (fun c' hc' => h c' (by simp [hc'])), hc]
      simp

theorem depth_of_wf (t : Nat) : ∀ (h : Nat) (x : NodeDisk K), WF t h x → x.depth = h + 1 := by
  intro h
  induction h with
  | zero =>
    intro x hx
    obtain ⟨es, rfl⟩ := (wf_zero_iff t x).mp hx
    simp [NodeDisk.depth]
  | succ h ih =>
    intro x hx
    obtain ⟨es, cs, rfl, hlen, hcs⟩ := (wf_succ_iff t h x).mp hx
    simp only [NodeDisk.depth]
    rw [depthList_eq cs (h + 1) (by intro h0; simp [h0] at hlen)
      (fun c hc => ih c (hcs c hc).1)]

theorem focus_at (A B : List (K × Int)) (cs : List (NodeDisk K))
    (hlen : cs.length = (A ++ B).length + 1) :
    ∃ L c R, cs = L ++ c :: R ∧ L.length = A.length ∧ R.length = B.length := by
  have h1 : A.length < cs.length := by simp at hlen; omega
  refine ⟨cs.take A.length, cs[A.length], cs.drop (A.length + 1), ?_, ?_, ?_⟩
  · rw [← List.drop_eq_getElem_cons h1, List.take_append_drop]
  · simp; omega
  · simp at hlen ⊢; omega

end lemmas4
end diskbtree

namespace diskbtree

section lemmas5
variable {K : Type} [LinearOrder K]

theorem split_mid {α : Type} (l : List α) (s : Nat) (h : l.length = 2 * (s + 1) - 1) :
    ∃ Y1 m Y2, l = Y1 ++ m :: Y2 ∧ Y1.length = s ∧ Y2.length = s := by
  have h1 : s < l.length := by omega
  refine ⟨l.take s, l[s], l.drop (s + 1), ?_, ?_, ?_⟩
  · rw [← List.drop_eq_getElem_cons h1, List.take_append_drop]
  · simp; omega
  · simp; omega

theorem split_child_spec (t h : Nat) (ht : 1 ≤ t) (A B : List (K × Int))
    (L R : List (NodeDisk K)) (y : NodeDisk K) (hL : L.length = A.length)
    (hy : Good t h y) (hfull : y.n = 2 * t - 1) :
    ∃ m y1 y2, split_child t (.inner (A ++ B) (L ++ y :: R)) A.length
        = some (.inner (A ++ m :: B) (L ++ y1 :: y2 :: R)) ∧
      y.flat = y1.flat ++ m :: y2.flat ∧ Good t h y1 ∧ Good t h y2 ∧
      y1.n = t - 1 ∧ y2.n = t - 1 := by
  obtain ⟨s, rfl⟩ : ∃ s, t = s + 1 := ⟨t - 1, by omega⟩
  obtain ⟨Y1, m, Y2, hyes, hY1, hY2⟩ := split_mid y.entries s hfull
  subst hY1
  have hidx : (L ++ y :: R)[A.length]? = some y := by rw [← hL]; exact getElem?_app_len L y R
  have hm : y.entries[Y1.length + 1 - 1]? = some m := by
    rw [hyes]; simpa using getElem?_app_len Y1 m Y2
  have hset : ∀ d, (L ++ y :: R).set A.length d = L ++ d :: R := by
    intro d; rw [← hL]; exact set_app_len L y d R
  have hins1 : (A ++ B).insertIdx A.length m = A ++ m :: B := insertIdx_app_len A m B
  have hins2 : ∀ d z, (L ++ d :: R).insertIdx (A.length + 1) z = L ++ d :: z :: R := by
    intro d z
    have := insertIdx_app_len (L ++ [d]) z R
    simpa [hL] using this
  cases h with
  | zero =>
    obtain ⟨yes, rfl⟩ := (wf_zero_iff _ y).mp hy.1
    simp only [NodeDisk.entries] at hyes hm
    subst hyes
    refine ⟨m, .leaf Y1, .leaf Y2, ?_, ?_, ?_, ?_, ?_, ?_⟩
    · simp only [split_child, hidx, NodeDisk.entries, hm, hset, hins1, hins2]
      simp [drop_app_len_succ, List.take_of_length_le (le_of_eq hY2)]
    · simp [flat_leaf]
    · exact ⟨(wf_zero_iff _ _).mpr ⟨_, rfl⟩, by simp [NodeDisk.n, NodeDisk.entries],
        by simp [NodeDisk.n, NodeDisk.entries]; omega⟩
    · exact ⟨(wf_zero_iff _ _).mpr ⟨_, rfl⟩, by simp [NodeDisk.n, NodeDisk.entries, hY2],
        by simp [NodeDisk.n, NodeDisk.entries]; omega⟩
    · simp [NodeDisk.n, NodeDisk.entries]
    · simp [NodeDisk.n, NodeDisk.entries, hY2]
  | succ h =>
    obtain ⟨yes, ycs, rfl, hlen, hcs⟩ := (wf_succ_iff _ _ y).mp hy.1
    simp only [NodeDisk.entries] at hyes hm
    subst hyes
    have hlen2 : ycs.length = 2 * (Y1.length + 1) := by simp at hlen; omega
    refine ⟨m, .inner Y1 (ycs.take (Y1.length + 1)), .inner Y2 (ycs.drop (Y1.length + 1)),
      ?_, ?_, ?_, ?_, ?_, ?_⟩
    · simp only [split_child, hidx, NodeDisk.entries, hm, hset, hins1, hins2]
      have : (ycs.drop (Y1.length + 1)).take (Y1.length + 1) = ycs.drop (Y1.length + 1) := by
        apply List.take_of_length_le; simp; omega
      simp [drop_app_len_succ, List.take_of_length_le (le_of_eq hY2), this]
    · rw [flat_inner, flat_inner, flat_inner]
      conv_lhs => rw [← List.take_append_drop (Y1.length + 1) ycs]
      rw [List.map_append, inorder_append_mid]
      simp; omega
    · refine ⟨(wf_inner_iff _ _ _ _).mpr ⟨by simp; omega, ?_⟩,
        by simp [NodeDisk.n, NodeDisk.entries], by simp [NodeDisk.n, NodeDisk.entries]; omega⟩
      intro c hc; exact hcs c (List.mem_of_mem_take hc)
    · refine ⟨(wf_inner_iff _ _ _ _).mpr ⟨by simp; omega, ?_⟩,
        by simp [NodeDisk.n, NodeDisk.entries, hY2], by simp [NodeDisk.n, NodeDisk.entries]; omega⟩
      intro c hc; exact hcs c (List.mem_of_mem_drop hc)
    · simp [NodeDisk.n, NodeDisk.entries]
    · simp [NodeDisk.n, NodeDisk.entries, hY2]

end lemmas5
end diskbtree

namespace diskbtree

section lemmas6
variable {K : Type} [LinearOrder K]

theorem inorder_sublist {α : Type} (es : List α) (fs : List (List α)) :
    es.Sublist (inorder es fs) := by
  induction es generalizing fs with
  | nil => simp
  | cons e es ih =>
    cases fs with
    | nil => simpa [inorder] using ih []
    | cons f fs =>
      simp only [inorder]
      exact List.Sublist.trans (List.Sublist.cons₂ e (ih fs)) (List.sublist_append_right _ _)

theorem ord_entries_of_flat (es : List (K × Int)) (cs : List (NodeDisk K))
    (h : Ord (NodeDisk.inner es cs).flat) : Ord es := by
  rw [flat_inner] at h
  exact List.Pairwise.sublist (inorder_sublist _ _) h

theorem focus_insert (t h : Nat) (A B : List (K × Int)) (L R : List (NodeDisk K))
    (c c2 : NodeDisk K) (k : K) (v : Int)
    (hL : L.length = A.length) (hR : R.length = B.length)
    (hwf : WF t (h + 1) (.inner (A ++ B) (L ++ c :: R)))
    (hord : Ord (NodeDisk.inner (A ++ B) (L ++ c :: R)).flat)
    (hA : ∀ a ∈ A, a.1 ≤ k) (hB : ∀ b ∈ B, k ≤ b.1)
    (hc2 : Good t h c2) (ho2 : Ord c2.flat) (hp : c2.flat.Perm ((k, v) :: c.flat)) :
    WF t (h + 1) (.inner (A ++ B) (L ++ c2 :: R)) ∧
    Ord (NodeDisk.inner (A ++ B) (L ++ c2 :: R)).flat ∧
    (NodeDisk.inner (A ++ B) (L ++ c2 :: R)).flat.Perm
      ((k, v) :: (NodeDisk.inner (A ++ B) (L ++ c :: R)).flat) := by
  rw [flat_focus _ _ _ _ _ hL] at hord ⊢
  rw [flat_focus _ _ _ _ _ hL]
  rw [wf_inner_iff] at hwf ⊢
  refine ⟨⟨by simpa using hwf.1, ?_⟩, ?_, ?_⟩
  · intro d hd
    rw [List.mem_append, List.mem_cons] at hd
    rcases hd with hd | hd | hd
    · exact hwf.2 d (by simp [hd])
    · rw [hd]; exact hc2
    · exact hwf.2 d (by simp [hd])
  · have hord2 := hord
    rw [ord_append, ord_append] at hord2
    obtain ⟨⟨hP, _, hPc⟩, hT, hPT⟩ := hord2
    apply ord_replace hord ho2
    · intro m hm p hp'
      rcases List.mem_cons.mp (hp.subset hm) with hm | hm
      · obtain ⟨a, ha, hle⟩ := pre_bound A L hL hP p hp'
        rw [hm]; exact le_trans hle (hA a ha)
      · exact hPc p hp' m hm
    · intro m hm q hq
      rcases List.mem_cons.mp (hp.subset hm) with hm | hm
      · obtain ⟨b, hb, hle⟩ := post_bound B R hR hT q hq
        rw [hm]; exact le_trans (hB b hb) hle
      · exact hPT m (by simp [hm]) q hq
  · have h1 : (pre A L ++ c2.flat ++ post B R).Perm
        (pre A L ++ ((k, v) :: c.flat) ++ post B R) :=
      (hp.append_left _).append_right _
    have h2 : (pre A L ++ ((k, v) :: c.flat) ++ post B R).Perm
        ((k, v) :: (pre A L ++ c.flat ++ post B R)) := by
      have h3 : (pre A L ++ (k, v) :: (c.flat ++ post B R)).Perm
          ((k, v) :: (pre A L ++ (c.flat ++ post B R))) := List.perm_middle
      simpa using h3
    exact h1.trans h2

end lemmas6
end diskbtree

namespace diskbtree

section lemmas7
variable {K : Type} [LinearOrder K]

theorem split_preserves (t h : Nat) (A B : List (K × Int)) (L R : List (NodeDisk K))
    (y y1 y2 : NodeDisk K) (m : K × Int) (hL : L.length = A.length)
    (hwf : WF t (h + 1) (.inner (A ++ B) (L ++ y :: R)))
    (hflat : y.flat = y1.flat ++ m :: y2.flat) (h1 : Good t h y1) (h2 : Good t h y2) :
    WF t (h + 1) (.inner (A ++ m :: B) (L ++ y1 :: y2 :: R)) ∧
    (NodeDisk.inner (A ++ m :: B) (L ++ y1 :: y2 :: R)).flat
      = (NodeDisk.inner (A ++ B) (L ++ y :: R)).flat := by
  rw [flat_focus _ _ _ _ _ hL, flat_focus _ _ _ _ _ hL, post_cons, hflat]
  rw [wf_inner_iff] at hwf ⊢
  refine ⟨⟨by simp at hwf ⊢; omega, ?_⟩, by simp⟩
  intro d hd
  simp only [List.mem_append, List.mem_cons] at hd
  rcases hd with hd | hd | hd | hd
  · exact hwf.2 d (by simp [hd])
  · rw [hd]; exact h1
  · rw [hd]; exact h2
  · exact hwf.2 d (by simp [hd])

theorem ord_focus_child (A B : List (K × Int)) (L R : List (NodeDisk K)) (c : NodeDisk K)
    (hL : L.length = A.length) (hord : Ord (NodeDisk.inner (A ++ B) (L ++ c :: R)).flat) :
    Ord c.flat := by
  rw [flat_focus _ _ _ _ _ hL, ord_append, ord_append] at hord
  exact hord.1.2.1

theorem insert_non_full_spec (t : Nat) (ht : 2 ≤ t) (k : K) (v : Int) :
    ∀ (h f : Nat) (x : NodeDisk K), h < f → WF t h x → x.n < 2 * t - 1 → Ord x.flat →
    ∃ x2, insert_non_full t f x k v = some x2 ∧ WF t h x2 ∧ x.n ≤ x2.n ∧ x2.n ≤ x.n + 1 ∧
      Ord x2.flat ∧ x2.flat.Perm ((k, v) :: x.flat) ∧
      (∀ es cs c, x = .inner es cs → cs[scan_gt es k]? = some c → c.n = 2 * t - 1 →
        x2.n = x.n + 1) := by
  intro h
  induction h with
  | zero =>
    intro f x hf hwf _ hord
    obtain ⟨es, rfl⟩ := (wf_zero_iff t x).mp hwf
    obtain ⟨f, rfl⟩ : ∃ f2, f = f2 + 1 := ⟨f - 1, by omega⟩
    rw [flat_leaf] at hord
    obtain ⟨A, B, rfl, hscan, hA, hB⟩ := scan_gt_split es k hord
    refine ⟨.leaf (A ++ (k, v) :: B), ?_, (wf_zero_iff _ _).mpr ⟨_, rfl⟩, ?_, ?_, ?_, ?_,
      fun es cs c hx => by cases hx⟩
    · simp only [insert_non_full, hscan, insertIdx_app_len]
    · simp [NodeDisk.n, NodeDisk.entries]
    · simp [NodeDisk.n, NodeDisk.entries]; omega
    · rw [flat_leaf]
      rw [ord_append] at hord ⊢
      obtain ⟨hoA, hoB, hAB⟩ := hord
      refine ⟨hoA, ?_, ?_⟩
      · unfold Ord
        rw [List.pairwise_cons]
        exact ⟨fun b hb => le_of_lt (hB b hb), hoB⟩
      · intro p hp q hq
        rcases List.mem_cons.mp hq with hq | hq
        · rw [hq]; exact hA p hp
        · exact hAB p hp q hq
    · rw [flat_leaf, flat_leaf]; exact List.perm_middle
  | succ h ih =>
    intro f x hf hwf hn hord
    obtain ⟨es, cs, rfl, hlen, hcs⟩ := (wf_succ_iff t h x).mp hwf
    obtain ⟨f, rfl⟩ : ∃ f2, f = f2 + 1 := ⟨f - 1, by omega⟩
    have hf2 : h < f := by omega
    obtain ⟨A, B, rfl, hscan, hA, hB⟩ := scan_gt_split es k (ord_entries_of_flat es cs hord)
    obtain ⟨L, c, R, rfl, hL, hR⟩ := focus_at A B cs hlen
    have hidx : (L ++ c :: R)[A.length]? = some c := by rw [← hL]; exact getElem?_app_len L c R
    have hgc : Good t h c := hcs c (by simp)
    have hB2 : ∀ b ∈ B, k ≤ b.1 := fun b hb => le_of_lt (hB b hb)
    by_cases hfull : c.n = 2 * t - 1
    · obtain ⟨m, y1, y2, hsplit, hflat, hg1, hg2, hn1, hn2⟩ :=
        split_child_spec t h (by omega) A B L R c hL hgc hfull
      obtain ⟨hwf2, hflat2⟩ := split_preserves t h A B L R c y1 y2 m hL hwf hflat hg1 hg2
      have hord2 : Ord (NodeDisk.inner (A ++ m :: B) (L ++ y1 :: y2 :: R)).flat := by
        rw [hflat2]; exact hord
      have hm : (A ++ m :: B)[A.length]? = some m := getElem?_app_len A m B
      by_cases hmk : m.1 < k
      · -- descend into the right half
        have e1 : A ++ m :: B = (A ++ [m]) ++ B := by simp
        have e2 : L ++ y1 :: y2 :: R = (L ++ [y1]) ++ y2 :: R := by simp
        have hL2 : (L ++ [y1]).length = (A ++ [m]).length := by simp [hL]
        rw [e1, e2] at hwf2 hord2
        obtain ⟨c2, hrec, hwc2, hle1, hle2, hoc2, hpc2, _⟩ :=
          ih f y2 hf2 hg2.1 (by omega) (ord_focus_child _ _ _ _ _ hL2 hord2)
        have hA2 : ∀ a ∈ A ++ [m], a.1 ≤ k := by
          intro a ha
          rcases List.mem_append.mp ha with ha | ha
          · exact hA a ha
          · simp at ha; rw [ha]; exact le_of_lt hmk
        obtain ⟨r1, r2, r3⟩ := focus_insert t h (A ++ [m]) B (L ++ [y1]) R y2 c2 k v hL2 hR
          hwf2 hord2 hA2 hB2 ⟨hwc2, by omega, by omega⟩ hoc2 hpc2
        have e3 : L ++ y1 :: c2 :: R = (L ++ [y1]) ++ c2 :: R := by simp
        rw [← e1, ← e2, hflat2, ← e3] at r3
        rw [← e1, ← e3] at r1 r2
        refine ⟨.inner (A ++ m :: B) (L ++ y1 :: c2 :: R), ?_, r1, ?_, ?_, r2, r3,
          fun _ _ _ _ _ _ => by simp [NodeDisk.n, NodeDisk.entries]; omega⟩
        · have hch : (L ++ y1 :: y2 :: R)[A.length + 1]? = some y2 := by
            rw [← hL, getElem?_app_len_succ]; simp
          have hset : (L ++ y1 :: y2 :: R).set (A.length + 1) c2 = L ++ y1 :: c2 :: R := by
            have := set_app_len (L ++ [y1]) y2 c2 R
            simpa [hL] using this
          simp only [insert_non_full, hscan, hidx, hfull, if_true, hsplit, NodeDisk.entries, hm,
            cmp_lt_iff, hmk, NodeDisk.children, hch, hrec, NodeDisk.setChild, hset]
        · simp [NodeDisk.n, NodeDisk.entries]
        · simp [NodeDisk.n, NodeDisk.entries]; omega
      · -- descend into the left half
        obtain ⟨c2, hrec, hwc2, hle1, hle2, hoc2, hpc2, _⟩ :=
          ih f y1 hf2 hg1.1 (by omega) (ord_focus_child A (m :: B) L (y2 :: R) y1 hL hord2)
        have hB3 : ∀ b ∈ m :: B, k ≤ b.1 := by
          intro b hb
          rcases List.mem_cons.mp hb with hb | hb
          · rw [hb]; exact not_lt.mp hmk
          · exact hB2 b hb
        obtain ⟨r1, r2, r3⟩ := focus_insert t h A (m :: B) L (y2 :: R) y1 c2 k v hL
          (by simp [hR]) hwf2 hord2 hA hB3 ⟨hwc2, by omega, by omega⟩ hoc2 hpc2
        rw [hflat2] at r3
        refine ⟨.inner (A ++ m :: B) (L ++ c2 :: y2 :: R), ?_, r1, ?_, ?_, r2, r3,
          fun _ _ _ _ _ _ => by simp [NodeDisk.n, NodeDisk.entries]; omega⟩
        · have hch : (L ++ y1 :: y2 :: R)[A.length]? = some y1 := by
            rw [← hL]; exact getElem?_app_len L y1 _
          have hset : (L ++ y1 :: y2 :: R).set A.length c2 = L ++ c2 :: y2 :: R := by
            rw [← hL]; exact set_app_len L y1 c2 _
          simp only [insert_non_full, hscan, hidx, hfull, if_true, hsplit, NodeDisk.entries, hm,
            cmp_lt_iff, hmk, if_false, NodeDisk.children, hch, hrec, NodeDisk.setChild, hset]
        · simp [NodeDisk.n, NodeDisk.entries]
        · simp [NodeDisk.n, NodeDisk.entries]; omega
    · have hcn : c.n < 2 * t - 1 := lt_of_le_of_ne hgc.2.2 hfull
      obtain ⟨c2, hrec, hwc2, hle1, hle2, hoc2, hpc2, _⟩ :=
        ih f c hf2 hgc.1 hcn (ord_focus_child A B L R c hL hord)
      obtain ⟨r1, r2, r3⟩ := focus_insert t h A B L R c c2 k v hL hR hwf hord hA hB2
        ⟨hwc2, by have := hgc.2.1; omega, by omega⟩ hoc2 hpc2
      refine ⟨.inner (A ++ B) (L ++ c2 :: R), ?_, r1, le_refl _, Nat.le_succ _, r2, r3, ?_⟩
      · have hset : (L ++ c :: R).set A.length c2 = L ++ c2 :: R := by
          rw [← hL]; exact set_app_len L c c2 R
        simp only [insert_non_full, hscan, hidx, hfull, if_false, hrec, hset]
      · intro es cs c3 hx hc3 hn3
        cases hx
        rw [hscan, hidx] at hc3
        cases hc3
        exact absurd hn3 hfull

theorem insert_full_root (bt : DiskBTree K) (root : NodeDisk K) (k : K) (v : Int)
    (hr : bt.root = some root) (hfull : root.n = 2 * bt.t - 1) :
    insert bt k v = (insert_non_full bt.t (root.depth + 1) (.inner [] [root]) k v).map
      (fun s => { bt with root := some s }) := by
  have h0 : scan_gt ([] : List (K × Int)) k = 0 := by simp [scan_gt, List.rdropWhile]
  simp only [insert, hr, hfull, if_true, insert_non_full, h0, List.getElem?_cons_zero]
  cases split_child bt.t (.inner [] [root]) 0 with
  | none => rfl
  | some s =>
    simp only []
    cases s.entries[0]? with
    | none => rfl
    | some m =>
      simp only [Nat.zero_add]
      cases s.children[if cmp_mem m.1 k < 0 then 1 else 0]? with
      | none => rfl
      | some c =>
        simp only []
        cases insert_non_full bt.t root.depth c k v <;> rfl

theorem insert_spec (bt : DiskBTree K) (ht : 2 ≤ bt.t) (hinv : RootInv bt) (k : K) (v : Int) :
    ∃ bt2, insert bt k v = some bt2 ∧ bt2.t = bt.t ∧ RootInv bt2 ∧
      bt2.stored.Perm ((k, v) :: bt.stored) := by
  cases hr : bt.root with
  | none =>
    refine ⟨{ bt with root := some (.leaf [(k, v)]) }, by simp [insert, hr], rfl, ?_, ?_⟩
    · show ∃ h2, WF bt.t h2 (.leaf [(k, v)]) ∧ 1 ≤ (NodeDisk.leaf [(k, v)]).n ∧
          (NodeDisk.leaf [(k, v)]).n ≤ 2 * bt.t - 1 ∧ Ord (NodeDisk.leaf [(k, v)]).flat
      exact ⟨0, (wf_zero_iff _ _).mpr ⟨_, rfl⟩, by simp [NodeDisk.n, NodeDisk.entries],
        by simp [NodeDisk.n, NodeDisk.entries]; omega, by simp [flat_leaf, Ord]⟩
    · simp [DiskBTree.stored, hr, flat_leaf]
  | some r =>
    unfold RootInv at hinv
    rw [hr] at hinv
    obtain ⟨h, hwf, hn1, hn2, hord⟩ := hinv
    have hd := depth_of_wf bt.t h r hwf
    by_cases hfull : r.n = 2 * bt.t - 1
    · have hwfS : WF bt.t (h + 1) (.inner [] [r]) := by
        rw [wf_inner_iff]
        refine ⟨by simp, ?_⟩
        intro c hc
        simp at hc
        rw [hc]
        exact ⟨hwf, by omega, hn2⟩
      have hflatS : (NodeDisk.inner [] [r]).flat = r.flat := by
        rw [flat_inner]; simp [inorder]
      obtain ⟨x2, hrec, hw2, _, hle2, ho2, hp2, hfulln⟩ :=
        insert_non_full_spec bt.t ht k v (h + 1) (r.depth + 1) (.inner [] [r]) (by omega) hwfS
          (by simp [NodeDisk.n, NodeDisk.entries]; omega) (by rw [hflatS]; exact hord)
      have hx2n : x2.n = 1 := by
        have := hfulln [] [r] r rfl (by simp [scan_gt, List.rdropWhile]) hfull
        simpa [NodeDisk.n, NodeDisk.entries] using this
      refine ⟨{ bt with root := some x2 }, ?_, rfl, ?_, ?_⟩
      · rw [insert_full_root bt r k v hr hfull, hrec]; rfl
      · show ∃ h2, WF bt.t h2 x2 ∧ 1 ≤ x2.n ∧ x2.n ≤ 2 * bt.t - 1 ∧ Ord x2.flat
        exact ⟨h + 1, hw2, by omega, by omega, ho2⟩
      · simp only [DiskBTree.stored, hr]
        rw [hflatS] at hp2
        exact hp2
    · obtain ⟨x2, hrec, hw2, hle1, hle2, ho2, hp2, _⟩ :=
        insert_non_full_spec bt.t ht k v h r.depth r (by omega) hwf
          (lt_of_le_of_ne hn2 hfull) hord
      refine ⟨{ bt with root := some x2 }, ?_, rfl, ?_, ?_⟩
      · simp [insert, hr, hfull, hrec]
      · show ∃ h2, WF bt.t h2 x2 ∧ 1 ≤ x2.n ∧ x2.n ≤ 2 * bt.t - 1 ∧ Ord x2.flat
        exact ⟨h, hw2, by omega, by omega, ho2⟩
      · simp only [DiskBTree.stored, hr]
        exact hp2

end lemmas7
end diskbtree

namespace diskbtree

section lemmas8
variable {K : Type} [LinearOrder K]

theorem getElem?_app_len_nil {α : Type} (A : List α) : (A ++ [])[A.length]? = none := by
  simp

theorem pre_lt (A : List (K × Int)) (L : List (NodeDisk K)) (k : K) (h : L.length = A.length)
    (hs : Ord (pre A L)) (hA : ∀ a ∈ A, a.1 < k) : ∀ p ∈ pre A L, p.1 < k := by
  intro p hp
  obtain ⟨a, ha, hle⟩ := pre_bound A L h hs p hp
  exact lt_of_le_of_lt hle (hA a ha)

theorem post_gt (B : List (K × Int)) (R : List (NodeDisk K)) (k : K) (h : R.length = B.length)
    (hs : Ord (post B R)) (hB : ∀ b ∈ B, k < b.1) : ∀ q ∈ post B R, k < q.1 := by
  intro q hq
  obtain ⟨b, hb, hle⟩ := post_bound B R h hs q hq
  exact lt_of_lt_of_le (hB b hb) hle

theorem search_rec_spec (t : Nat) (k : K) :
    ∀ (h f : Nat) (x : NodeDisk K), h < f → WF t h x → Ord x.flat →
    ∃ v, search_rec f x k = some v ∧ ((∃ w, (k, w) ∈ x.flat) → (k, v) ∈ x.flat) ∧
      ((∀ w, (k, w) ∉ x.flat) → v = -1) := by
  intro h
  induction h with
  | zero =>
    intro f x hf hwf hord
    obtain ⟨es, rfl⟩ := (wf_zero_iff t x).mp hwf
    obtain ⟨f, rfl⟩ : ∃ f2, f = f2 + 1 := ⟨f - 1, by omega⟩
    rw [flat_leaf] at hord ⊢
    obtain ⟨A, B, rfl, hscan, hA, hB⟩ := scan_lt_split es k hord
    cases B with
    | nil =>
      refine ⟨-1, ?_, ?_, fun _ => rfl⟩
      · simp only [search_rec, NodeDisk.entries, hscan, getElem?_app_len_nil, NodeDisk.isLeaf,
          if_true]
      · rintro ⟨w, hw⟩
        simp only [List.append_nil] at hw
        exact absurd (hA _ hw) (lt_irrefl k)
    | cons b B =>
      have hb : (A ++ b :: B)[A.length]? = some b := getElem?_app_len A b B
      by_cases hbk : b.1 = k
      · refine ⟨b.2, ?_, ?_, ?_⟩
        · simp only [search_rec, NodeDisk.entries, hscan, hb, cmp_eq_iff, hbk, if_true]
        · intro _
          have : (k, b.2) = b := by rw [← hbk]
          rw [this]; simp
        · intro hno
          exact absurd (by rw [← hbk]; simp) (hno b.2)
      · refine ⟨-1, ?_, ?_, fun _ => rfl⟩
        · simp only [search_rec, NodeDisk.entries, hscan, hb, cmp_eq_iff, hbk, if_false,
            NodeDisk.isLeaf, if_true]
        · rintro ⟨w, hw⟩
          rw [ord_append] at hord
          unfold Ord at hord
          rw [List.pairwise_cons] at hord
          rcases List.mem_append.mp hw with hw | hw
          · exact absurd (hA _ hw) (lt_irrefl k)
          · rcases List.mem_cons.mp hw with hw | hw
            · exact absurd (by rw [← hw]) hbk
            · have h1 : k ≤ b.1 := hB b (by simp)
              have h2 : b.1 ≤ k := hord.2.1.1 _ hw
              exact absurd (le_antisymm h2 h1) hbk
  | succ h ih =>
    intro f x hf hwf hord
    obtain ⟨es, cs, rfl, hlen, hcs⟩ := (wf_succ_iff t h x).mp hwf
    obtain ⟨f, rfl⟩ : ∃ f2, f = f2 + 1 := ⟨f - 1, by omega⟩
    have hf2 : h < f := by omega
    have hoes := ord_entries_of_flat es cs hord
    obtain ⟨A, B, rfl, hscan, hA, hB⟩ := scan_lt_split es k hoes
    obtain ⟨L, c, R, rfl, hL, hR⟩ := focus_at A B cs hlen
    have hidx : (L ++ c :: R)[A.length]? = some c := by rw [← hL]; exact getElem?_app_len L c R
    have hgc : Good t h c := hcs c (by simp)
    have hoc := ord_focus_child A B L R c hL hord
    have hflat := flat_focus A B L R c hL
    have hord2 := hord
    rw [hflat, ord_append, ord_append] at hord2
    obtain ⟨⟨hoP, _, _⟩, hoT, _⟩ := hord2
    have hpre := pre_lt A L k hL hoP hA
    obtain ⟨v, hrec, hv1, hv2⟩ := ih f c hf2 hgc.1 hoc
    -- the result when the scan does not stop on `k`
    have hdesc : (∀ q ∈ post B R, k < q.1) →
        ((∃ w, (k, w) ∈ (NodeDisk.inner (A ++ B) (L ++ c :: R)).flat) →
          (k, v) ∈ (NodeDisk.inner (A ++ B) (L ++ c :: R)).flat) ∧
        ((∀ w, (k, w) ∉ (NodeDisk.inner (A ++ B) (L ++ c :: R)).flat) → v = -1) := by
      intro hpost
      rw [hflat]
      constructor
      · rintro ⟨w, hw⟩
        simp only [List.mem_append] at hw ⊢
        rcases hw with (hw | hw) | hw
        · exact absurd (hpre _ hw) (lt_irrefl k)
        · exact Or.inl (Or.inr (hv1 ⟨w, hw⟩))
        · exact absurd (hpost _ hw) (lt_irrefl k)
      · intro hno
        apply hv2
        intro w hw
        exact hno w (by simp [hw])
    cases B with
    | nil =>
      refine ⟨v, ?_, hdesc ?_⟩
      · simp only [search_rec, NodeDisk.entries, hscan, getElem?_app_len_nil, NodeDisk.isLeaf,
          NodeDisk.children, hidx, Option.bind]
        simpa using hrec
      · cases R with
        | nil => simp [post_nil]
        | cons r R => simp at hR
    | cons b B =>
      have hb : (A ++ b :: B)[A.length]? = some b := getElem?_app_len A b B
      by_cases hbk : b.1 = k
      · refine ⟨b.2, ?_, ?_, ?_⟩
        · simp only [search_rec, NodeDisk.entries, hscan, hb, cmp_eq_iff, hbk, if_true]
        · intro _
          have : (k, b.2) = b := by rw [← hbk]
          rw [this, flat_inner]
          exact (inorder_sublist _ _).subset (by simp)
        · intro hno
          refine absurd ?_ (hno b.2)
          have : (k, b.2) = b := by rw [← hbk]
          rw [this, flat_inner]
          exact (inorder_sublist _ _).subset (by simp)
      · refine ⟨v, ?_, hdesc ?_⟩
        · simp only [search_rec, NodeDisk.entries, hscan, hb, cmp_eq_iff, hbk, if_false,
            NodeDisk.isLeaf, NodeDisk.children, hidx, Option.bind]
          simpa using hrec
        · apply post_gt _ _ _ hR hoT
          intro b2 hb2
          rw [ord_append] at hoes
          have hob := hoes.2.1
          unfold Ord at hob
          rw [List.pairwise_cons] at hob
          have h1 : k < b.1 := lt_of_le_of_ne (hB b (by simp)) (fun e => hbk e.symm)
          rcases List.mem_cons.mp hb2 with hb2 | hb2
          · rw [hb2]; exact h1
          · exact lt_of_lt_of_le h1 (hob.1 _ hb2)

theorem search_get_value_spec (bt : DiskBTree K) (hinv : RootInv bt) (k : K) :
    ∃ v, search_get_value bt k = some v ∧ ((∃ w, (k, w) ∈ bt.stored) → (k, v) ∈ bt.stored) ∧
      ((∀ w, (k, w) ∉ bt.stored) → v = -1) := by
  cases hr : bt.root with
  | none =>
    refine ⟨-1, by simp [search_get_value, hr], ?_, fun _ => rfl⟩
    rintro ⟨w, hw⟩
    simp [DiskBTree.stored, hr] at hw
  | some r =>
    unfold RootInv at hinv
    rw [hr] at hinv
    obtain ⟨h, hwf, _, _, hord⟩ := hinv
    have hd := depth_of_wf bt.t h r hwf
    obtain ⟨v, h1, h2, h3⟩ := search_rec_spec bt.t k h r.depth r (by omega) hwf hord
    refine ⟨v, by simp [search_get_value, hr, h1], ?_, ?_⟩
    · simpa [DiskBTree.stored, hr] using h2
    · simpa [DiskBTree.stored, hr] using h3

end lemmas8
end diskbtree

namespace diskbtree

section lemmas9
variable {K : Type} [LinearOrder K]

theorem flat_focus2 (A B : List (K × Int)) (L R : List (NodeDisk K)) (l r : NodeDisk K)
    (d : K × Int) (hL : L.length = A.length) :
    (NodeDisk.inner (A ++ d :: B) (L ++ l :: r :: R)).flat
      = pre A L ++ (l.flat ++ d :: r.flat) ++ post B R := by
  rw [flat_focus _ _ _ _ _ hL, post_cons]
  simp

theorem set_app_len_succ {α : Type} (L : List α) (c d e : α) (R : List α) :
    (L ++ c :: d :: R).set (L.length + 1) e = L ++ c :: e :: R := by
  have := set_app_len (L ++ [c]) d e R
  simpa using this

theorem eraseIdx_app_len_succ {α : Type} (L : List α) (c d : α) (R : List α) :
    (L ++ c :: d :: R).eraseIdx (L.length + 1) = L ++ c :: R := by
  have := eraseIdx_app_len (L ++ [c]) d R
  simpa using this

theorem getElem?_app_len_succ2 {α : Type} (L : List α) (c d : α) (R : List α) :
    (L ++ c :: d :: R)[L.length + 1]? = some d := by
  rw [getElem?_app_len_succ]; simp

theorem merge_spec (t h : Nat) (A B : List (K × Int)) (L R : List (NodeDisk K))
    (c s : NodeDisk K) (e : K × Int) (hL : L.length = A.length)
    (hc : WF t h c) (hs : WF t h s) :
    ∃ m, merge (.inner (A ++ e :: B) (L ++ c :: s :: R)) A.length
        = some (.inner (A ++ B) (L ++ m :: R)) ∧
      m.flat = c.flat ++ e :: s.flat ∧ WF t h m ∧ m.n = c.n + s.n + 1 ∧
      (∀ g ∈ m.children, g ∈ c.children ∨ g ∈ s.children) := by
  have h1 : (L ++ c :: s :: R)[A.length]? = some c := by
    rw [← hL]; exact getElem?_app_len L c _
  have h2 : (L ++ c :: s :: R)[A.length + 1]? = some s := by
    rw [← hL]; exact getElem?_app_len_succ2 L c s R
  have h3 : (A ++ e :: B)[A.length]? = some e := getElem?_app_len A e B
  have h4 : (A ++ e :: B).eraseIdx A.length = A ++ B := eraseIdx_app_len A e B
  have h5 : ∀ m, ((L ++ c :: s :: R).set A.length m).eraseIdx (A.length + 1) = L ++ m :: R := by
    intro m
    rw [← hL, set_app_len, eraseIdx_app_len_succ]
  cases h with
  | zero =>
    obtain ⟨ces, rfl⟩ := (wf_zero_iff t c).mp hc
    obtain ⟨ses, rfl⟩ := (wf_zero_iff t s).mp hs
    refine ⟨.leaf (ces ++ e :: ses), ?_, by simp [flat_leaf], (wf_zero_iff _ _).mpr ⟨_, rfl⟩,
      by simp [NodeDisk.n, NodeDisk.entries]; omega, by simp [NodeDisk.children]⟩
    simp only [merge, h1, h2, h3, h4, h5, NodeDisk.entries]
  | succ h =>
    obtain ⟨ces, ccs, rfl, hclen, hcc⟩ := (wf_succ_iff t h c).mp hc
    obtain ⟨ses, scs, rfl, hslen, hsc⟩ := (wf_succ_iff t h s).mp hs
    refine ⟨.inner (ces ++ e :: ses) (ccs ++ scs), ?_, ?_, ?_,
      by simp [NodeDisk.n, NodeDisk.entries]; omega, ?_⟩
    · simp only [merge, h1, h2, h3, h4, h5, NodeDisk.entries, NodeDisk.children]
    · rw [flat_inner, flat_inner, flat_inner, List.map_append,
        inorder_append_mid _ _ _ _ _ (by simpa using hclen)]
    · rw [wf_inner_iff]
      refine ⟨by simp; omega, ?_⟩
      intro g hg
      rcases List.mem_append.mp hg with hg | hg
      · exact hcc g hg
      · exact hsc g hg
    · intro g hg
      simpa [NodeDisk.children] using hg

theorem snoc_of_length_pos {α : Type} (l : List α) (h : 1 ≤ l.length) :
    ∃ S up, l = S ++ [up] := by
  induction l using List.reverseRecOn with
  | nil => simp at h
  | append_singleton S up _ => exact ⟨S, up, rfl⟩

theorem borrow_from_prev_spec (t h : Nat) (A B : List (K × Int)) (L R : List (NodeDisk K))
    (l c : NodeDisk K) (d : K × Int) (hL : L.length = A.length)
    (hl : WF t h l) (hc : WF t h c) (hln : 1 ≤ l.n) :
    ∃ up l2 c2, borrow_from_prev (.inner (A ++ d :: B) (L ++ l :: c :: R)) (A.length + 1)
        = some (.inner (A ++ up :: B) (L ++ l2 :: c2 :: R)) ∧
      l.flat ++ d :: c.flat = l2.flat ++ up :: c2.flat ∧ WF t h l2 ∧ WF t h c2 ∧
      l2.n + 1 = l.n ∧ c2.n = c.n + 1 ∧ up ∈ l.flat ∧ (∀ p ∈ l2.flat, p ∈ l.flat) := by
  have h1 : (L ++ l :: c :: R)[A.length + 1]? = some c := by
    rw [← hL]; exact getElem?_app_len_succ2 L l c R
  have h2 : (L ++ l :: c :: R)[A.length]? = some l := by
    rw [← hL]; exact getElem?_app_len L l _
  have h3 : (A ++ d :: B)[A.length]? = some d := getElem?_app_len A d B
  have h4 : ∀ up, (A ++ d :: B).set A.length up = A ++ up :: B := fun up => set_app_len A d up B
  have h5 : ∀ l2 c2, ((L ++ l :: c :: R).set (A.length + 1) c2).set A.length l2
      = L ++ l2 :: c2 :: R := by
    intro l2 c2
    rw [← hL, set_app_len_succ, set_app_len]
  obtain ⟨S, up, hS⟩ := snoc_of_length_pos l.entries hln
  have hlast : (S ++ [up]).getLast? = some up := by simp
  cases h with
  | zero =>
    obtain ⟨les, rfl⟩ := (wf_zero_iff t l).mp hl
    obtain ⟨ces, rfl⟩ := (wf_zero_iff t c).mp hc
    simp only [NodeDisk.entries] at hS
    subst hS
    refine ⟨up, .leaf S, .leaf (d :: ces), ?_, by simp [flat_leaf],
      (wf_zero_iff _ _).mpr ⟨_, rfl⟩, (wf_zero_iff _ _).mpr ⟨_, rfl⟩,
      by simp [NodeDisk.n, NodeDisk.entries], by simp [NodeDisk.n, NodeDisk.entries],
      by simp [flat_leaf], by intro p hp; simp [flat_leaf] at hp ⊢; exact Or.inl hp⟩
    simp only [borrow_from_prev, Nat.add_sub_cancel, h1, h2, h3, h4, h5, NodeDisk.entries,
      hlast, List.dropLast_concat, Option.map_some']
  | succ h =>
    obtain ⟨les, lcs, rfl, hllen, hlc⟩ := (wf_succ_iff t h l).mp hl
    obtain ⟨ces, ccs, rfl, hclen, hcc⟩ := (wf_succ_iff t h c).mp hc
    simp only [NodeDisk.entries] at hS
    subst hS
    obtain ⟨C, g, hC⟩ := snoc_of_length_pos lcs (by omega)
    subst hC
    have hClen : C.length = S.length + 1 := by simp at hllen; omega
    have hg : (C ++ [g])[(S ++ [up]).length]? = some g := by
      have := getElem?_app_len C g []
      simpa [hClen] using this
    have htake : (C ++ [g]).take (S ++ [up]).length = C := by
      have := take_app_len C [g]
      simpa [hClen] using this
    have hfl : (NodeDisk.inner (S ++ [up]) (C ++ [g])).flat
        = (NodeDisk.inner S C).flat ++ up :: g.flat := by
      rw [flat_inner, flat_inner, List.map_append,
        inorder_append_mid _ _ _ _ _ (by simpa using hClen)]
      simp [inorder]
    refine ⟨up, .inner S C, .inner (d :: ces) (g :: ccs), ?_, ?_, ?_, ?_,
      by simp [NodeDisk.n, NodeDisk.entries], by simp [NodeDisk.n, NodeDisk.entries], ?_,
      by intro p hp; rw [hfl]; simp [hp]⟩
    · simp only [borrow_from_prev, Nat.add_sub_cancel, h1, h2, h3, h4, h5, NodeDisk.entries,
        hlast, List.dropLast_concat, NodeDisk.children, NodeDisk.n, hg, htake, Option.map_some']
    · rw [flat_inner, flat_inner, flat_inner, flat_inner, List.map_append,
        inorder_append_mid _ _ _ _ _ (by simpa using hClen)]
      simp [inorder]
    · rw [wf_inner_iff]
      exact ⟨hClen, fun x hx => hlc x (by simp [hx])⟩
    · rw [wf_inner_iff]
      refine ⟨by simp; omega, ?_⟩
      intro x hx
      rcases List.mem_cons.mp hx with hx | hx
      · rw [hx]; exact hlc g (by simp)
      · exact hcc x hx
    · rw [flat_inner, List.map_append, inorder_append_mid _ _ _ _ _ (by simpa using hClen)]
      simp

theorem borrow_from_next_spec (t h : Nat) (A B : List (K × Int)) (L R : List (NodeDisk K))
    (c r : NodeDisk K) (d : K × Int) (hL : L.length = A.length)
    (hc : WF t h c) (hr : WF t h r) (hrn : 1 ≤ r.n) :
    ∃ up c2 r2, borrow_from_next (.inner (A ++ d :: B) (L ++ c :: r :: R)) A.length
        = some (.inner (A ++ up :: B) (L ++ c2 :: r2 :: R)) ∧
      c.flat ++ d :: r.flat = c2.flat ++ up :: r2.flat ∧ WF t h c2 ∧ WF t h r2 ∧
      c2.n = c.n + 1 ∧ r2.n + 1 = r.n ∧ up ∈ r.flat ∧ (∀ q ∈ r2.flat, q ∈ r.flat) := by
  have h1 : (L ++ c :: r :: R)[A.length]? = some c := by
    rw [← hL]; exact getElem?_app_len L c _
  have h2 : (L ++ c :: r :: R)[A.length + 1]? = some r := by
    rw [← hL]; exact getElem?_app_len_succ2 L c r R
  have h3 : (A ++ d :: B)[A.length]? = some d := getElem?_app_len A d B
  have h4 : ∀ up, (A ++ d :: B).set A.length up = A ++ up :: B := fun up => set_app_len A d up B
  have h5 : ∀ c2 r2, ((L ++ c :: r :: R).set A.length c2).set (A.length + 1) r2
      = L ++ c2 :: r2 :: R := by
    intro c2 r2
    rw [← hL, set_app_len, set_app_len_succ]
  cases h with
  | zero =>
    obtain ⟨ces, rfl⟩ := (wf_zero_iff t c).mp hc
    obtain ⟨res, rfl⟩ := (wf_zero_iff t r).mp hr
    cases res with
    | nil => simp [NodeDisk.n, NodeDisk.entries] at hrn
    | cons up S =>
      refine ⟨up, .leaf (ces ++ [d]), .leaf S, ?_, by simp [flat_leaf],
        (wf_zero_iff _ _).mpr ⟨_, rfl⟩, (wf_zero_iff _ _).mpr ⟨_, rfl⟩,
        by simp [NodeDisk.n, NodeDisk.entries], by simp [NodeDisk.n, NodeDisk.entries],
        by simp [flat_leaf], by intro q hq; simp [flat_leaf] at hq ⊢; exact Or.inr hq⟩
      simp only [borrow_from_next, h1, h2, h3, h4, h5, NodeDisk.entries, List.head?_cons,
        List.tail_cons, Option.map_some']
  | succ h =>
    obtain ⟨ces, ccs, rfl, hclen, hcc⟩ := (wf_succ_iff t h c).mp hc
    obtain ⟨res, rcs, rfl, hrlen, hrc⟩ := (wf_succ_iff t h r).mp hr
    cases res with
    | nil => simp [NodeDisk.n, NodeDisk.entries] at hrn
    | cons up S =>
      cases rcs with
      | nil => simp at hrlen
      | cons g C =>
        have hfl : (NodeDisk.inner (up :: S) (g :: C)).flat
            = g.flat ++ up :: (NodeDisk.inner S C).flat := by
          rw [flat_inner, flat_inner]
          simp [inorder]
        refine ⟨up, .inner (ces ++ [d]) (ccs ++ [g]), .inner S C, ?_, ?_, ?_, ?_,
          by simp [NodeDisk.n, NodeDisk.entries], by simp [NodeDisk.n, NodeDisk.entries], ?_,
          by intro q hq; rw [hfl]; simp [hq]⟩
        · simp only [borrow_from_next, h1, h2, h3, h4, h5, NodeDisk.entries, List.head?_cons,
            List.tail_cons, NodeDisk.children, List.getElem?_cons_zero, Option.map_some']
        · rw [flat_inner, flat_inner, flat_inner, flat_inner, List.map_append,
            inorder_append_mid _ _ _ _ _ (by simpa using hclen)]
          simp [inorder]
        · rw [wf_inner_iff]
          refine ⟨by simp; omega, ?_⟩
          intro x hx
          rcases List.mem_append.mp hx with hx | hx
          · exact hcc x hx
          · simp at hx; rw [hx]; exact hrc g (by simp)
        · rw [wf_inner_iff]
          exact ⟨by simpa using hrlen, fun x hx => hrc x (by simp [hx])⟩
        · rw [flat_inner]
          simp [inorder]

end lemmas9
end diskbtree

namespace diskbtree

section lemmas10
variable {K : Type} [LinearOrder K]

theorem eq_nil_or_snoc {α : Type} (l : List α) : l = [] ∨ ∃ S b, l = S ++ [b] := by
  induction l using List.reverseRecOn with
  | nil => exact Or.inl rfl
  | append_singleton S b _ => exact Or.inr ⟨S, b, rfl⟩

theorem fill_right_next (t h : Nat) (ht : 2 ≤ t) (A B : List (K × Int))
    (L R : List (NodeDisk K)) (c r : NodeDisk K) (d : K × Int)
    (hL : L.length = A.length) (hR : R.length = B.length)
    (hwf : WF t (h + 1) (.inner (A ++ d :: B) (L ++ c :: r :: R))) (hc : c.n < t) :
    FillPost t h (.inner (A ++ d :: B) (L ++ c :: r :: R)) A.length A (d :: B) L (r :: R)
      (fill_right t (.inner (A ++ d :: B) (L ++ c :: r :: R)) A.length) := by
  have hwf2 := (wf_inner_iff _ _ _ _).mp hwf
  have hgc : Good t h c := hwf2.2 c (by simp)
  have hgr : Good t h r := hwf2.2 r (by simp)
  have hne : A.length ≠ (NodeDisk.inner (A ++ d :: B) (L ++ c :: r :: R)).n := by
    simp [NodeDisk.n, NodeDisk.entries]
  have hidx : (L ++ c :: r :: R)[A.length + 1]? = some r := by
    rw [← hL]; exact getElem?_app_len_succ2 L c r R
  have hxn : (NodeDisk.inner (A ++ d :: B) (L ++ c :: r :: R)).n = A.length + B.length + 1 := by
    simp [NodeDisk.n, NodeDisk.entries]; omega
  by_cases hrn : r.n ≥ t
  · obtain ⟨up, c2, r2, hb, hfl, hwc2, hwr2, hc2n, hr2n, hup, hsub⟩ :=
      borrow_from_next_spec t h A B L R c r d hL hgc.1 hgr.1 (by omega)
    refine ⟨A, up :: B, L, c2, r2 :: R, ?_, hL, by simp [hR], ?_, ?_, ?_, ?_, ?_, ?_,
      fun p hp => hp, ?_⟩
    · simp only [fill_right, hne, ne_eq, not_false_eq_true, if_true, NodeDisk.children, hidx,
        hrn, hb]
    · rw [wf_inner_iff]
      refine ⟨by simp at hwf2 ⊢; omega, ?_⟩
      intro g hg
      simp only [List.mem_append, List.mem_cons] at hg
      rcases hg with hg | hg | hg | hg
      · exact hwf2.2 g (by simp [hg])
      · rw [hg]; exact ⟨hwc2, by have := hgc.2.1; omega, by omega⟩
      · rw [hg]; exact ⟨hwr2, by omega, by have := hgr.2.2; omega⟩
      · exact hwf2.2 g (by simp [hg])
    · rw [flat_focus2 _ _ _ _ _ _ _ hL, flat_focus2 _ _ _ _ _ _ _ hL, hfl]
    · have := hgc.2.1; omega
    · rw [hxn]; simp <;> omega
    · simp only [hxn, List.length_append, List.length_cons, List.length_nil,
        List.length_singleton]
      omega
    · simp only [hxn, List.length_append, List.length_cons, List.length_nil,
        List.length_singleton]
      omega
    · intro q hq
      rw [post_cons] at hq ⊢
      simp only [List.mem_cons, List.mem_append] at hq ⊢
      rcases hq with hq | hq | hq
      · rw [hq]; exact Or.inr (Or.inl hup)
      · exact Or.inr (Or.inl (hsub q hq))
      · exact Or.inr (Or.inr hq)
  · obtain ⟨m, hm, hfl, hwm, hmn, _⟩ := merge_spec t h A B L R c r d hL hgc.1 hgr.1
    have hcn : c.n = t - 1 := by have := hgc.2.1; omega
    have hrn2 : r.n = t - 1 := by have := hgr.2.1; omega
    refine ⟨A, B, L, m, R, ?_, hL, hR, ?_, ?_, ?_, ?_, ?_, ?_, fun p hp => hp, ?_⟩
    · simp only [fill_right, hne, ne_eq, not_false_eq_true, if_true, NodeDisk.children, hidx,
        hrn, if_false, hm]
    · rw [wf_inner_iff]
      refine ⟨by simp at hwf2 ⊢; omega, ?_⟩
      intro g hg
      simp only [List.mem_append, List.mem_cons] at hg
      rcases hg with hg | hg | hg
      · exact hwf2.2 g (by simp [hg])
      · rw [hg]; exact ⟨hwm, by omega, by omega⟩
      · exact hwf2.2 g (by simp [hg])
    · rw [flat_focus _ _ _ _ _ hL, flat_focus2 _ _ _ _ _ _ _ hL, hfl]
    · omega
    · rw [hxn]; simp <;> omega
    · simp only [hxn, List.length_append, List.length_cons, List.length_nil,
        List.length_singleton]
      omega
    · simp only [hxn, List.length_append, List.length_cons, List.length_nil,
        List.length_singleton]
      omega
    · intro q hq
      rw [post_cons]
      simp [hq]

theorem fill_right_last (t h : Nat) (ht : 2 ≤ t) (A : List (K × Int))
    (L : List (NodeDisk K)) (l c : NodeDisk K) (d : K × Int)
    (hL : L.length = A.length)
    (hwf : WF t (h + 1) (.inner (A ++ [d]) (L ++ l :: c :: [])))
    (hl : l.n < t) (hc : c.n < t) :
    FillPost t h (.inner (A ++ [d]) (L ++ l :: c :: [])) (A.length + 1) (A ++ [d]) []
      (L ++ [l]) []
      (fill_right t (.inner (A ++ [d]) (L ++ l :: c :: [])) (A.length + 1)) := by
  have hwf2 := (wf_inner_iff _ _ _ _).mp hwf
  have hgc : Good t h c := hwf2.2 c (by simp)
  have hgl : Good t h l := hwf2.2 l (by simp)
  have hxn : (NodeDisk.inner (A ++ [d]) (L ++ l :: c :: [])).n = A.length + 1 := by
    simp [NodeDisk.n, NodeDisk.entries]
  obtain ⟨m, hm, hfl, hwm, hmn, _⟩ := merge_spec t h A [] L [] l c d hL hgl.1 hgc.1
  have hcn : c.n = t - 1 := by have := hgc.2.1; omega
  have hln : l.n = t - 1 := by have := hgl.2.1; omega
  refine ⟨A, [], L, m, [], ?_, hL, rfl, ?_, ?_, ?_, ?_, ?_, ?_, ?_, ?_⟩
  · simp only [fill_right, hxn, ne_eq, not_true_eq_false, if_false, Nat.add_sub_cancel]
    exact hm
  · rw [wf_inner_iff]
    refine ⟨by simp; omega, ?_⟩
    intro g hg
    simp only [List.mem_append, List.mem_cons] at hg
    rcases hg with hg | hg | hg
    · exact hwf2.2 g (by simp [hg])
    · rw [hg]; exact ⟨hwm, by omega, by omega⟩
    · simp at hg
  · rw [flat_focus _ _ _ _ _ hL]
    have := flat_focus2 A [] L [] l c d hL
    rw [this, hfl]
  · omega
  · rw [hxn]; simp <;> omega
  · simp only [hxn, List.length_append, List.length_cons, List.length_nil,
        List.length_singleton]
    omega
  · simp only [hxn, List.length_append, List.length_cons, List.length_nil,
        List.length_singleton]
    omega
  · intro p hp
    rw [pre_snoc _ _ _ _ hL]
    simp [hp]
  · intro q hq
    simp [post_nil] at hq

theorem fill_spec (t h : Nat) (ht : 2 ≤ t) (A B : List (K × Int))
    (L R : List (NodeDisk K)) (c : NodeDisk K)
    (hL : L.length = A.length) (hR : R.length = B.length)
    (hwf : WF t (h + 1) (.inner (A ++ B) (L ++ c :: R)))
    (hn : 1 ≤ (A ++ B).length) (hc : c.n < t) :
    FillPost t h (.inner (A ++ B) (L ++ c :: R)) A.length A B L R
      (fill t (.inner (A ++ B) (L ++ c :: R)) A.length) := by
  have hwf2 := (wf_inner_iff _ _ _ _).mp hwf
  have hgc : Good t h c := hwf2.2 c (by simp)
  -- the outcome of `fill_right`
  have hright : (A ≠ [] → ∀ l ∈ L.getLast?, l.n < t) →
      FillPost t h (.inner (A ++ B) (L ++ c :: R)) A.length A B L R
        (fill_right t (.inner (A ++ B) (L ++ c :: R)) A.length) := by
    intro hleft
    cases B with
    | cons d B =>
      cases R with
      | nil => simp at hR
      | cons r R =>
        exact fill_right_next t h ht A B L R c r d hL (by simpa using hR) hwf hc
    | nil =>
      cases R with
      | cons r R => simp at hR
      | nil =>
        rcases eq_nil_or_snoc A with hA | ⟨A2, d, hA⟩
        · subst hA; simp at hn
        · subst hA
          rcases eq_nil_or_snoc L with hL0 | ⟨L2, l, hL0⟩
          · subst hL0; simp at hL
          · subst hL0
            have hL2 : L2.length = A2.length := by simpa using hL
            have hl : l.n < t := hleft (by simp) l (by simp)
            have e1 : (A2 ++ [d]) ++ ([] : List (K × Int)) = A2 ++ [d] := by simp
            have e2 : (L2 ++ [l]) ++ c :: ([] : List (NodeDisk K)) = L2 ++ l :: c :: [] := by
              simp
            have e3 : (A2 ++ [d]).length = A2.length + 1 := by simp
            rw [e1, e2] at hwf
            rw [e1, e2, e3]
            exact fill_right_last t h ht A2 L2 l c d hL2 hwf hl hc
  rcases eq_nil_or_snoc A with hA | ⟨A2, d, hA⟩
  · subst hA
    have : fill t (.inner ([] ++ B) (L ++ c :: R)) ([] : List (K × Int)).length
        = fill_right t (.inner ([] ++ B) (L ++ c :: R)) ([] : List (K × Int)).length := by
      simp [fill]
    rw [this]
    exact hright (fun h0 => absurd rfl h0)
  · subst hA
    rcases eq_nil_or_snoc L with hL0 | ⟨L2, l, hL0⟩
    · subst hL0; simp at hL
    · subst hL0
      have hL2 : L2.length = A2.length := by simpa using hL
      have hgl : Good t h l := hwf2.2 l (by simp)
      have hidx : (L2 ++ [l] ++ c :: R)[(A2 ++ [d]).length - 1]? = some l := by
        have := getElem?_app_len L2 l (c :: R)
        simpa [hL2] using this
      by_cases hln : l.n ≥ t
      · have e1 : (A2 ++ [d]) ++ B = A2 ++ d :: B := by simp
        have e2 : (L2 ++ [l]) ++ c :: R = L2 ++ l :: c :: R := by simp
        have e3 : (A2 ++ [d]).length = A2.length + 1 := by simp
        obtain ⟨up, l2, c2, hb, hfl, hwl2, hwc2, hl2n, hc2n, hup, hsub⟩ :=
          borrow_from_prev_spec t h A2 B L2 R l c d hL2 hgl.1 hgc.1 (by omega)
        have hfill : fill t (.inner ((A2 ++ [d]) ++ B) ((L2 ++ [l]) ++ c :: R)) (A2 ++ [d]).length
            = some (.inner ((A2 ++ [up]) ++ B) ((L2 ++ [l2]) ++ c2 :: R)) := by
          have hne : (A2 ++ [d]).length ≠ 0 := by simp
          simp only [fill, hne, ne_eq, not_false_eq_true, if_true, NodeDisk.children, hidx, hln]
          rw [e1, e2, e3, hb]
          simp
        have hxn : (NodeDisk.inner ((A2 ++ [d]) ++ B) ((L2 ++ [l]) ++ c :: R)).n
            = A2.length + 1 + B.length := by
          simp [NodeDisk.n, NodeDisk.entries]; omega
        refine ⟨A2 ++ [up], B, L2 ++ [l2], c2, R, hfill, by simp [hL2], hR, ?_, ?_, ?_, ?_, ?_,
          ?_, ?_, fun q hq => hq⟩
        · rw [wf_inner_iff]
          refine ⟨by simp at hwf2 ⊢; omega, ?_⟩
          intro g hg
          simp only [List.mem_append, List.mem_cons, List.mem_singleton, List.not_mem_nil,
            or_false] at hg
          rcases hg with (hg | hg) | hg | hg
          · exact hwf2.2 g (by simp [hg])
          · rw [hg]; exact ⟨hwl2, by omega, by have := hgl.2.2; omega⟩
          · rw [hg]; exact ⟨hwc2, by have := hgc.2.1; omega, by omega⟩
          · exact hwf2.2 g (by simp [hg])
        · have e4 : (A2 ++ [up]) ++ B = A2 ++ up :: B := by simp
          have e5 : (L2 ++ [l2]) ++ c2 :: R = L2 ++ l2 :: c2 :: R := by simp
          rw [e1, e2, e4, e5, flat_focus2 _ _ _ _ _ _ _ hL2, flat_focus2 _ _ _ _ _ _ _ hL2, hfl]
        · have := hgc.2.1; omega
        · rw [hxn]; simp <;> omega
        · simp only [hxn, List.length_append, List.length_cons, List.length_nil,
        List.length_singleton]
          omega
        · simp only [hxn, List.length_append, List.length_cons, List.length_nil,
        List.length_singleton]
          omega
        · intro p hp
          rw [pre_snoc _ _ _ _ hL2] at hp ⊢
          simp only [List.mem_append, List.mem_singleton] at hp ⊢
          rcases hp with (hp | hp) | hp
          · exact Or.inl (Or.inl hp)
          · exact Or.inl (Or.inr (hsub p hp))
          · rw [hp]; exact Or.inl (Or.inr hup)
      · have : fill t (.inner ((A2 ++ [d]) ++ B) ((L2 ++ [l]) ++ c :: R)) (A2 ++ [d]).length
            = fill_right t (.inner ((A2 ++ [d]) ++ B) ((L2 ++ [l]) ++ c :: R))
                (A2 ++ [d]).length := by
          have hne : (A2 ++ [d]).length ≠ 0 := by simp
          simp only [fill, hne, ne_eq, not_false_eq_true, if_true, NodeDisk.children, hidx, hln,
            if_false]
        rw [this]
        apply hright
        intro _ l3 hl3
        simp at hl3
        rw [← hl3]; omega

end lemmas10
end diskbtree

namespace diskbtree

section lemmas11
variable {K : Type} [LinearOrder K]

theorem perm_focus_keys {k : K} {p c c2 tt : List K} (h : (k :: c2).Perm c) :
    (k :: (p ++ c2 ++ tt)).Perm (p ++ c ++ tt) := by
  rw [List.perm_iff_count] at h ⊢
  intro a
  have := h a
  simp only [List.count_cons, List.count_append] at this ⊢
  split_ifs at this ⊢ <;> omega

theorem perm_pred_keys {k pk : K} {p y y2 z tt : List K} (h : (pk :: y2).Perm y) :
    (k :: (p ++ (y2 ++ pk :: z) ++ tt)).Perm (p ++ (y ++ k :: z) ++ tt) := by
  rw [List.perm_iff_count] at h ⊢
  intro a
  have := h a
  simp only [List.count_cons, List.count_append] at this ⊢
  split_ifs at this ⊢ <;> omega

theorem perm_succ_keys {k sk : K} {p y z z2 tt : List K} (h : (sk :: z2).Perm z) :
    (k :: (p ++ (y ++ sk :: z2) ++ tt)).Perm (p ++ (y ++ k :: z) ++ tt) := by
  rw [List.perm_iff_count] at h ⊢
  intro a
  have := h a
  simp only [List.count_cons, List.count_append] at this ⊢
  split_ifs at this ⊢ <;> omega

theorem ord_replace_sub {P M M2 T : List (K × Int)} (hs : Ord (P ++ M ++ T)) (hM : Ord M2)
    (hsub : ∀ m ∈ M2, m ∈ M) : Ord (P ++ M2 ++ T) := by
  have hs2 := hs
  rw [ord_append, ord_append] at hs2
  obtain ⟨⟨_, _, hPM⟩, _, hPMT⟩ := hs2
  apply ord_replace hs hM
  · intro m hm p hp
    exact hPM p hp m (hsub m hm)
  · intro m hm q hq
    exact hPMT m (by simp [hsub m hm]) q hq

theorem focus_remove (t h : Nat) (A B : List (K × Int)) (L R : List (NodeDisk K))
    (c c2 : NodeDisk K) (hL : L.length = A.length)
    (hwf : WF t (h + 1) (.inner (A ++ B) (L ++ c :: R)))
    (hord : Ord (NodeDisk.inner (A ++ B) (L ++ c :: R)).flat)
    (hc2 : Good t h c2) (ho2 : Ord c2.flat) (hsub : ∀ e ∈ c2.flat, e ∈ c.flat) :
    WF t (h + 1) (.inner (A ++ B) (L ++ c2 :: R)) ∧
    Ord (NodeDisk.inner (A ++ B) (L ++ c2 :: R)).flat ∧
    (∀ e ∈ (NodeDisk.inner (A ++ B) (L ++ c2 :: R)).flat,
      e ∈ (NodeDisk.inner (A ++ B) (L ++ c :: R)).flat) ∧
    (∀ k, (k :: c2.flat.map Prod.fst).Perm (c.flat.map Prod.fst) →
      (k :: (NodeDisk.inner (A ++ B) (L ++ c2 :: R)).flat.map Prod.fst).Perm
        ((NodeDisk.inner (A ++ B) (L ++ c :: R)).flat.map Prod.fst)) ∧
    (c2.flat = c.flat →
      (NodeDisk.inner (A ++ B) (L ++ c2 :: R)).flat
        = (NodeDisk.inner (A ++ B) (L ++ c :: R)).flat) := by
  rw [flat_focus _ _ _ _ _ hL] at hord ⊢
  rw [flat_focus _ _ _ _ _ hL]
  rw [wf_inner_iff] at hwf ⊢
  refine ⟨⟨by simpa using hwf.1, ?_⟩, ord_replace_sub hord ho2 hsub, ?_, ?_, ?_⟩
  · intro d hd
    rw [List.mem_append, List.mem_cons] at hd
    rcases hd with hd | hd | hd
    · exact hwf.2 d (by simp [hd])
    · rw [hd]; exact hc2
    · exact hwf.2 d (by simp [hd])
  · intro e he
    simp only [List.mem_append] at he ⊢
    rcases he with (he | he) | he
    · exact Or.inl (Or.inl he)
    · exact Or.inl (Or.inr (hsub e he))
    · exact Or.inr he
  · intro k hk
    simp only [List.map_append]
    exact perm_focus_keys hk
  · intro heq
    rw [heq]

theorem get_predecessor_spec (t : Nat) (ht : 2 ≤ t) :
    ∀ (h f : Nat) (y : NodeDisk K), h < f → WF t h y → 1 ≤ y.n →
    ∃ p F, get_predecessor f y = some p ∧ y.flat = F ++ [p] := by
  intro h
  induction h with
  | zero =>
    intro f y hf hwf hn
    obtain ⟨es, rfl⟩ := (wf_zero_iff t y).mp hwf
    obtain ⟨f, rfl⟩ : ∃ f2, f = f2 + 1 := ⟨f - 1, by omega⟩
    obtain ⟨F, p, rfl⟩ := snoc_of_length_pos es hn
    exact ⟨p, F, by simp [get_predecessor], by simp [flat_leaf]⟩
  | succ h ih =>
    intro f y hf hwf hn
    obtain ⟨es, cs, rfl, hlen, hcs⟩ := (wf_succ_iff t h y).mp hwf
    obtain ⟨f, rfl⟩ : ∃ f2, f = f2 + 1 := ⟨f - 1, by omega⟩
    obtain ⟨L, cl, rfl⟩ := snoc_of_length_pos cs (by omega)
    have hL : L.length = es.length := by simpa using hlen
    have hg : Good t h cl := hcs cl (by simp)
    obtain ⟨p, F, hrec, hF⟩ := ih f cl (by omega) hg.1 (by have := hg.2.1; omega)
    refine ⟨p, pre es L ++ F, ?_, ?_⟩
    · have hidx : (L ++ [cl])[es.length]? = some cl := by
        rw [← hL]; exact getElem?_app_len L cl []
      simp only [get_predecessor, hidx, Option.bind]
      simpa using hrec
    · have := flat_focus es [] L [] cl hL
      simp only [List.append_nil] at this
      rw [this, hF, post_nil]
      simp

theorem get_successor_spec (t : Nat) (ht : 2 ≤ t) :
    ∀ (h f : Nat) (y : NodeDisk K), h < f → WF t h y → 1 ≤ y.n →
    ∃ p F, get_successor f y = some p ∧ y.flat = p :: F := by
  intro h
  induction h with
  | zero =>
    intro f y hf hwf hn
    obtain ⟨es, rfl⟩ := (wf_zero_iff t y).mp hwf
    obtain ⟨f, rfl⟩ : ∃ f2, f = f2 + 1 := ⟨f - 1, by omega⟩
    cases es with
    | nil => simp [NodeDisk.n, NodeDisk.entries] at hn
    | cons p F => exact ⟨p, F, by simp [get_successor], by simp [flat_leaf]⟩
  | succ h ih =>
    intro f y hf hwf hn
    obtain ⟨es, cs, rfl, hlen, hcs⟩ := (wf_succ_iff t h y).mp hwf
    obtain ⟨f, rfl⟩ : ∃ f2, f = f2 + 1 := ⟨f - 1, by omega⟩
    cases cs with
    | nil => simp at hlen
    | cons c0 R =>
      have hg : Good t h c0 := hcs c0 (by simp)
      obtain ⟨p, F, hrec, hF⟩ := ih f c0 (by omega) hg.1 (by have := hg.2.1; omega)
      refine ⟨p, F ++ post es R, ?_, ?_⟩
      · simp only [get_successor, List.getElem?_cons_zero, Option.bind]
        simpa using hrec
      · have := flat_focus [] es [] R c0 rfl
        simp only [List.nil_append] at this
        rw [this, hF, pre_nil]
        simp

end lemmas11
end diskbtree

namespace diskbtree

section lemmas12
variable {K : Type} [LinearOrder K]

theorem remove_from_non_leaf_spec (t : Nat) (ht : 2 ≤ t) (h f : Nat)
    (rec : NodeDisk K → K → Option (NodeDisk K))
    (hrec : ∀ y k, WF t h y → (h = 0 ∨ 1 ≤ y.n) → Ord y.flat →
      ∃ y2, rec y k = some y2 ∧ RemPost t h y k y2)
    (hf : h < f) (A B : List (K × Int)) (L R : List (NodeDisk K)) (c z : NodeDisk K)
    (b : K × Int) (hL : L.length = A.length) (hR : R.length = B.length)
    (hwf : WF t (h + 1) (.inner (A ++ b :: B) (L ++ c :: z :: R)))
    (hord : Ord (NodeDisk.inner (A ++ b :: B) (L ++ c :: z :: R)).flat) :
    ∃ x2, remove_from_non_leaf rec f t (.inner (A ++ b :: B) (L ++ c :: z :: R)) A.length
        = some x2 ∧
      RemPost t (h + 1) (.inner (A ++ b :: B) (L ++ c :: z :: R)) b.1 x2 := by
  have hwf2 := (wf_inner_iff _ _ _ _).mp hwf
  have hgc : Good t h c := hwf2.2 c (by simp)
  have hgz : Good t h z := hwf2.2 z (by simp)
  have h1 : (L ++ c :: z :: R)[A.length]? = some c := by
    rw [← hL]; exact getElem?_app_len L c _
  have h2 : (L ++ c :: z :: R)[A.length + 1]? = some z := by
    rw [← hL]; exact getElem?_app_len_succ2 L c z R
  have h3 : (A ++ b :: B)[A.length]? = some b := getElem?_app_len A b B
  have hflat := flat_focus2 A B L R c z b hL
  have hord2 := hord
  rw [hflat, ord_append, ord_append] at hord2
  obtain ⟨⟨hoP, hoM, hPM⟩, hoT, hMT⟩ := hord2
  have hoM2 := hoM
  rw [ord_append] at hoM2
  obtain ⟨hoc, hobz, hcbz⟩ := hoM2
  unfold Ord at hobz
  rw [List.pairwise_cons] at hobz
  obtain ⟨hbz, hoz⟩ := hobz
  have hbmem : b ∈ (NodeDisk.inner (A ++ b :: B) (L ++ c :: z :: R)).flat := by
    rw [hflat]; simp
  have hkmem : ∃ w, (b.1, w) ∈ (NodeDisk.inner (A ++ b :: B) (L ++ c :: z :: R)).flat :=
    ⟨b.2, hbmem⟩
  have hxn : (NodeDisk.inner (A ++ b :: B) (L ++ c :: z :: R)).n = A.length + B.length + 1 := by
    simp [NodeDisk.n, NodeDisk.entries]; omega
  by_cases hcn : c.n ≥ t
  · -- replace by the predecessor
    obtain ⟨pred, F, hpred, hF⟩ := get_predecessor_spec t ht h f c hf hgc.1 (by omega)
    obtain ⟨y2, hy2, hw2, hn1, hn2, ho2, hsub2, hperm2, _⟩ :=
      hrec c pred.1 hgc.1 (Or.inr (by omega)) hoc
    have hpmem : pred ∈ c.flat := by rw [hF]; simp
    have hple : ∀ e ∈ c.flat, e.1 ≤ pred.1 := by
      intro e he
      rw [hF] at he hoc
      rw [ord_append] at hoc
      rcases List.mem_append.mp he with he | he
      · exact hoc.2.2 e he pred (by simp)
      · simp at he; rw [he]
    have hset1 : (A ++ b :: B).set A.length pred = A ++ pred :: B := set_app_len A b pred B
    have hset2 : (L ++ c :: z :: R).set A.length y2 = L ++ y2 :: z :: R := by
      rw [← hL]; exact set_app_len L c y2 _
    refine ⟨.inner (A ++ pred :: B) (L ++ y2 :: z :: R), ?_, ?_, ?_, ?_, ?_, ?_, ?_, ?_⟩
    · simp only [remove_from_non_leaf, NodeDisk.children, NodeDisk.entries, h1, h2, h3, hcn,
        if_true, hpred, hy2, hset1, hset2]
    · rw [wf_inner_iff]
      refine ⟨by simp at hwf2 ⊢; omega, ?_⟩
      intro g hg
      simp only [List.mem_append, List.mem_cons] at hg
      rcases hg with hg | hg | hg | hg
      · exact hwf2.2 g (by simp [hg])
      · rw [hg]; exact ⟨hw2, by omega, by have := hgc.2.2; omega⟩
      · rw [hg]; exact hgz
      · exact hwf2.2 g (by simp [hg])
    · simp [NodeDisk.n, NodeDisk.entries]
    · simp [NodeDisk.n, NodeDisk.entries]
    · rw [flat_focus2 _ _ _ _ _ _ _ hL]
      rw [hflat] at hord
      apply ord_replace_sub hord
      · rw [ord_append]
        refine ⟨ho2, ?_, ?_⟩
        · unfold Ord
          rw [List.pairwise_cons]
          exact ⟨fun q hq => le_trans (hcbz pred hpmem b (by simp)) (hbz q hq), hoz⟩
        · intro p hp q hq
          rcases List.mem_cons.mp hq with hq | hq
          · rw [hq]; exact hple p (hsub2 p hp)
          · exact le_trans (hple p (hsub2 p hp))
              (le_trans (hcbz pred hpmem b (by simp)) (hbz q hq))
      · intro m hm
        simp only [List.mem_append, List.mem_cons] at hm ⊢
        rcases hm with hm | hm | hm
        · exact Or.inl (hsub2 m hm)
        · rw [hm]; exact Or.inl hpmem
        · exact Or.inr (Or.inr hm)
    · intro e he
      rw [flat_focus2 _ _ _ _ _ _ _ hL] at he
      rw [hflat]
      simp only [List.mem_append, List.mem_cons] at he ⊢
      rcases he with (he | he | he | he) | he
      · exact Or.inl (Or.inl he)
      · exact Or.inl (Or.inr (Or.inl (hsub2 e he)))
      · rw [he]; exact Or.inl (Or.inr (Or.inl hpmem))
      · exact Or.inl (Or.inr (Or.inr (Or.inr he)))
      · exact Or.inr he
    · intro _
      rw [flat_focus2 _ _ _ _ _ _ _ hL, hflat]
      simp only [List.map_append, List.map_cons]
      exact perm_pred_keys (hperm2 ⟨pred.2, hpmem⟩)
    · intro hno
      exact absurd hbmem (hno b.2)
  · by_cases hzn : z.n ≥ t
    · -- replace by the successor
      obtain ⟨succ, F, hsucc, hF⟩ := get_successor_spec t ht h f z hf hgz.1 (by omega)
      obtain ⟨z2, hz2, hw2, hn1, hn2, ho2, hsub2, hperm2, _⟩ :=
        hrec z succ.1 hgz.1 (Or.inr (by omega)) hoz
      have hsmem : succ ∈ z.flat := by rw [hF]; simp
      have hsle : ∀ e ∈ z.flat, succ.1 ≤ e.1 := by
        intro e he
        rw [hF] at he hoz
        rw [List.pairwise_cons] at hoz
        rcases List.mem_cons.mp he with he | he
        · rw [he]
        · exact hoz.1 e he
      have hset1 : (A ++ b :: B).set A.length succ = A ++ succ :: B := set_app_len A b succ B
      have hset2 : (L ++ c :: z :: R).set (A.length + 1) z2 = L ++ c :: z2 :: R := by
        rw [← hL]; exact set_app_len_succ L c z z2 R
      refine ⟨.inner (A ++ succ :: B) (L ++ c :: z2 :: R), ?_, ?_, ?_, ?_, ?_, ?_, ?_, ?_⟩
      · simp only [remove_from_non_leaf, NodeDisk.children, NodeDisk.entries, h1, h2, h3, hcn,
          if_false, hzn, if_true, hsucc, hz2, hset1, hset2]
      · rw [wf_inner_iff]
        refine ⟨by simp at hwf2 ⊢; omega, ?_⟩
        intro g hg
        simp only [List.mem_append, List.mem_cons] at hg
        rcases hg with hg | hg | hg | hg
        · exact hwf2.2 g (by simp [hg])
        · rw [hg]; exact hgc
        · rw [hg]; exact ⟨hw2, by omega, by have := hgz.2.2; omega⟩
        · exact hwf2.2 g (by simp [hg])
      · simp [NodeDisk.n, NodeDisk.entries]
      · simp [NodeDisk.n, NodeDisk.entries]
      · rw [flat_focus2 _ _ _ _ _ _ _ hL]
        rw [hflat] at hord
        apply ord_replace_sub hord
        · rw [ord_append]
          refine ⟨hoc, ?_, ?_⟩
          · unfold Ord
            rw [List.pairwise_cons]
            exact ⟨fun q hq => hsle q (hsub2 q hq), ho2⟩
          · intro p hp q hq
            have hpb : p.1 ≤ succ.1 := le_trans (hcbz p hp b (by simp)) (hbz succ hsmem)
            rcases List.mem_cons.mp hq with hq | hq
            · rw [hq]; exact hpb
            · exact le_trans hpb (hsle q (hsub2 q hq))
        · intro m hm
          simp only [List.mem_append, List.mem_cons] at hm ⊢
          rcases hm with hm | hm | hm
          · exact Or.inl hm
          · rw [hm]; exact Or.inr (Or.inr hsmem)
          · exact Or.inr (Or.inr (hsub2 m hm))
      · intro e he
        rw [flat_focus2 _ _ _ _ _ _ _ hL] at he
        rw [hflat]
        simp only [List.mem_append, List.mem_cons] at he ⊢
        rcases he with (he | he | he | he) | he
        · exact Or.inl (Or.inl he)
        · exact Or.inl (Or.inr (Or.inl he))
        · rw [he]; exact Or.inl (Or.inr (Or.inr (Or.inr hsmem)))
        · exact Or.inl (Or.inr (Or.inr (Or.inr (hsub2 e he))))
        · exact Or.inr he
      · intro _
        rw [flat_focus2 _ _ _ _ _ _ _ hL, hflat]
        simp only [List.map_append, List.map_cons]
        exact perm_succ_keys (hperm2 ⟨succ.2, hsmem⟩)
      · intro hno
        exact absurd hbmem (hno b.2)
    · -- merge the two children and recurse into the merged node
      obtain ⟨m, hm, hfl, hwm, hmn, _⟩ := merge_spec t h A B L R c z b hL hgc.1 hgz.1
      have hcn2 : c.n = t - 1 := by have := hgc.2.1; omega
      have hzn2 : z.n = t - 1 := by have := hgz.2.1; omega
      have hom : Ord m.flat := by rw [hfl]; exact hoM
      obtain ⟨m2, hm2, hw2, hn1, hn2, ho2, hsub2, hperm2, _⟩ :=
        hrec m b.1 hwm (Or.inr (by omega)) hom
      have hwfx : WF t (h + 1) (.inner (A ++ B) (L ++ m :: R)) := by
        rw [wf_inner_iff]
        refine ⟨by simp at hwf2 ⊢; omega, ?_⟩
        intro g hg
        simp only [List.mem_append, List.mem_cons] at hg
        rcases hg with hg | hg | hg
        · exact hwf2.2 g (by simp [hg])
        · rw [hg]; exact ⟨hwm, by omega, by omega⟩
        · exact hwf2.2 g (by simp [hg])
      have hflx : (NodeDisk.inner (A ++ B) (L ++ m :: R)).flat
          = (NodeDisk.inner (A ++ b :: B) (L ++ c :: z :: R)).flat := by
        rw [flat_focus _ _ _ _ _ hL, hflat, hfl]
      obtain ⟨r1, r2, r3, r4, _⟩ := focus_remove t h A B L R m m2 hL hwfx
        (by rw [hflx]; exact hord) ⟨hw2, by omega, by omega⟩ ho2 hsub2
      have hidx : (L ++ m :: R)[A.length]? = some m := by
        rw [← hL]; exact getElem?_app_len L m R
      have hset : (L ++ m :: R).set A.length m2 = L ++ m2 :: R := by
        rw [← hL]; exact set_app_len L m m2 R
      refine ⟨.inner (A ++ B) (L ++ m2 :: R), ?_, r1, ?_, ?_, r2, ?_, ?_, ?_⟩
      · simp only [remove_from_non_leaf, NodeDisk.children, NodeDisk.entries, h1, h2, h3, hcn,
          if_false, hzn, hm, hidx, hm2, NodeDisk.setChild, hset]
      · rw [hxn]; simp [NodeDisk.n, NodeDisk.entries]
      · rw [hxn]; simp [NodeDisk.n, NodeDisk.entries]
      · intro e he
        rw [← hflx]; exact r3 e he
      · intro _
        rw [← hflx]
        apply r4
        apply hperm2
        exact ⟨b.2, by rw [hfl]; simp⟩
      · intro hno
        exact absurd hbmem (hno b.2)

end lemmas12
end diskbtree

namespace diskbtree

section lemmas13
variable {K : Type} [LinearOrder K]

theorem not_mem_of_scan (A B : List (K × Int)) (k : K) (hA : ∀ a ∈ A, a.1 < k)
    (hB : ∀ b ∈ B, k ≤ b.1) (hord : Ord (A ++ B))
    (hnf : ∀ e, B.head? = some e → e.1 ≠ k) : ∀ b ∈ B, k < b.1 := by
  cases B with
  | nil => simp
  | cons b0 B =>
    have h0 : k < b0.1 := lt_of_le_of_ne (hB b0 (by simp)) (fun e => hnf b0 rfl e.symm)
    rw [ord_append] at hord
    have hob := hord.2.1
    unfold Ord at hob
    rw [List.pairwise_cons] at hob
    intro b hb
    rcases List.mem_cons.mp hb with hb | hb
    · rw [hb]; exact h0
    · exact lt_of_lt_of_le h0 (hob.1 b hb)

theorem remove_rec_spec (t : Nat) (ht : 2 ≤ t) :
    ∀ (h f : Nat) (x : NodeDisk K) (k : K), h < f → WF t h x → (h = 0 ∨ 1 ≤ x.n) →
      Ord x.flat → ∃ x2, remove_rec t f x k = some x2 ∧ RemPost t h x k x2 := by
  intro h
  induction h with
  | zero =>
    intro f x k hf hwf _ hord
    obtain ⟨es, rfl⟩ := (wf_zero_iff t x).mp hwf
    obtain ⟨f, rfl⟩ : ∃ f2, f = f2 + 1 := ⟨f - 1, by omega⟩
    rw [flat_leaf] at hord
    obtain ⟨A, B, rfl, hscan, hA, hB⟩ := scan_lt_split es k hord
    have hidx : (A ++ B)[A.length]? = B.head? := by
      cases B with
      | nil => simp
      | cons b B => simpa using getElem?_app_len A b B
    by_cases hfound : ∃ e, B.head? = some e ∧ e.1 = k
    · obtain ⟨b, hb, hbk⟩ := hfound
      cases B with
      | nil => simp at hb
      | cons b0 B =>
        simp only [List.head?_cons, Option.some.injEq] at hb
        subst hb
        refine ⟨.leaf (A ++ B), ?_, (wf_zero_iff _ _).mpr ⟨_, rfl⟩, ?_, ?_, ?_, ?_, ?_, ?_⟩
        · simp [remove_rec, NodeDisk.entries, hscan, hidx, cmp_eq_iff, hbk, NodeDisk.isLeaf,
            remove_from_leaf, eraseIdx_app_len]
        · simp [NodeDisk.n, NodeDisk.entries]
        · simp [NodeDisk.n, NodeDisk.entries]
        · rw [flat_leaf]
          rw [ord_append] at hord ⊢
          exact ⟨hord.1, (List.pairwise_cons.mp hord.2.1).2,
            fun p hp q hq => hord.2.2 p hp q (by simp [hq])⟩
        · intro e he
          rw [flat_leaf] at he ⊢
          rcases List.mem_append.mp he with he | he
          · simp [he]
          · simp [he]
        · intro _
          rw [flat_leaf, flat_leaf]
          simp only [List.map_append, List.map_cons, hbk]
          exact List.perm_middle.symm
        · intro hno
          exact absurd (by rw [flat_leaf, ← hbk]; simp) (hno b0.2)
    · have hnf : ∀ e, B.head? = some e → e.1 ≠ k := fun e he hek => hfound ⟨e, he, hek⟩
      have hgt := not_mem_of_scan A B k hA hB hord hnf
      refine ⟨.leaf (A ++ B), ?_, hwf, by omega, le_refl _, by rw [flat_leaf]; exact hord,
        fun e he => he, ?_, fun _ => rfl⟩
      · have hc : ¬ ((B.head?.map (fun e => decide (cmp_mem e.1 k = 0))) = some true) := by
          intro hc
          cases hB0 : B.head? with
          | none => simp [hB0] at hc
          | some e =>
            simp [hB0, cmp_eq_iff] at hc
            exact hnf e hB0 hc
        simp only [remove_rec, NodeDisk.entries, hscan, hidx, hc, if_false, NodeDisk.isLeaf,
          if_true]
      · rintro ⟨w, hw⟩
        rw [flat_leaf] at hw
        rcases List.mem_append.mp hw with hw | hw
        · exact absurd (hA _ hw) (lt_irrefl k)
        · exact absurd (hgt _ hw) (lt_irrefl k)
  | succ h ih =>
    intro f x k hf hwf hn hord
    obtain ⟨es, cs, rfl, hlen, hcs⟩ := (wf_succ_iff t h x).mp hwf
    obtain ⟨f, rfl⟩ : ∃ f2, f = f2 + 1 := ⟨f - 1, by omega⟩
    have hf2 : h < f := by omega
    have hoes := ord_entries_of_flat es cs hord
    obtain ⟨A, B, rfl, hscan, hA, hB⟩ := scan_lt_split es k hoes
    obtain ⟨L, c, R, rfl, hL, hR⟩ := focus_at A B cs hlen
    have hrec : ∀ y k2, WF t h y → (h = 0 ∨ 1 ≤ y.n) → Ord y.flat →
        ∃ y2, remove_rec t f y k2 = some y2 ∧ RemPost t h y k2 y2 :=
      fun y k2 h1 h2 h3 => ih f y k2 hf2 h1 h2 h3
    have hidx : (A ++ B)[A.length]? = B.head? := by
      cases B with
      | nil => simp
      | cons b B => simpa using getElem?_app_len A b B
    have hcidx : (L ++ c :: R)[A.length]? = some c := by
      rw [← hL]; exact getElem?_app_len L c R
    have hgc : Good t h c := hcs c (by simp)
    by_cases hfound : ∃ e, B.head? = some e ∧ e.1 = k
    · obtain ⟨b, hb, hbk⟩ := hfound
      cases B with
      | nil => simp at hb
      | cons b0 B =>
        simp only [List.head?_cons, Option.some.injEq] at hb
        subst hb
        cases R with
        | nil => simp at hR
        | cons z R =>
          obtain ⟨x2, hx2, hpost⟩ := remove_from_non_leaf_spec t ht h f (remove_rec t f) hrec hf2
            A B L R c z b0 hL (by simpa using hR) hwf hord
          refine ⟨x2, ?_, by rw [← hbk]; exact hpost⟩
          rw [← hx2]
          simp [remove_rec, NodeDisk.entries, hscan, hidx, cmp_eq_iff, hbk, NodeDisk.isLeaf]
    · have hnf : ∀ e, B.head? = some e → e.1 ≠ k := fun e he hek => hfound ⟨e, he, hek⟩
      have hgt := not_mem_of_scan A B k hA hB hoes hnf
      have hflat := flat_focus A B L R c hL
      have hord2 := hord
      rw [hflat, ord_append, ord_append] at hord2
      obtain ⟨⟨hoP, _, _⟩, hoT, _⟩ := hord2
      have hpre := pre_lt A L k hL hoP hA
      have hpost := post_gt B R k hR hoT hgt
      have hxn1 : 1 ≤ (A ++ B).length := by
        rcases hn with hn | hn
        · omega
        · simpa [NodeDisk.n, NodeDisk.entries] using hn
      have hfp : FillPost t h (.inner (A ++ B) (L ++ c :: R)) A.length A B L R
          (if c.n < t then fill t (.inner (A ++ B) (L ++ c :: R)) A.length
           else some (.inner (A ++ B) (L ++ c :: R))) := by
        by_cases hcn : c.n < t
        · simp only [hcn, if_true]
          exact fill_spec t h ht A B L R c hL hR hwf hxn1 hcn
        · simp only [hcn, if_false]
          refine ⟨A, B, L, c, R, rfl, hL, hR, hwf, rfl, by omega, ?_, ?_, ?_,
            fun p hp => hp, fun q hq => hq⟩
          · simp [NodeDisk.n, NodeDisk.entries]
          · simp [NodeDisk.n, NodeDisk.entries]
          · simp [NodeDisk.n, NodeDisk.entries]
      obtain ⟨A2, B2, L2, c2, R2, hfill, hL2, hR2, hwf2, hfl2, hc2n, hj, hnlo, hnhi, hpsub,
        hqsub⟩ := hfp
      have hwf2' := (wf_inner_iff _ _ _ _).mp hwf2
      have hgc2 : Good t h c2 := hwf2'.2 c2 (by simp)
      have hord3 : Ord (NodeDisk.inner (A2 ++ B2) (L2 ++ c2 :: R2)).flat := by
        rw [hfl2]; exact hord
      have hoc2 := ord_focus_child A2 B2 L2 R2 c2 hL2 hord3
      obtain ⟨ch2, hch2, hw3, hn1, hn2, ho3, hsub3, hperm3, hsame3⟩ :=
        hrec c2 k hgc2.1 (Or.inr (by omega)) hoc2
      obtain ⟨r1, r2, r3, r4, r5⟩ := focus_remove t h A2 B2 L2 R2 c2 ch2 hL2 hwf2 hord3
        ⟨hw3, by omega, by have := hgc2.2.2; omega⟩ ho3 hsub3
      have hflat2 := flat_focus A2 B2 L2 R2 c2 hL2
      refine ⟨.inner (A2 ++ B2) (L2 ++ ch2 :: R2), ?_, r1, ?_, ?_, r2, ?_, ?_, ?_⟩
      · have hc : ¬ ((B.head?.map (fun e => decide (cmp_mem e.1 k = 0))) = some true) := by
          intro hc
          cases hB0 : B.head? with
          | none => simp [hB0] at hc
          | some e =>
            simp [hB0, cmp_eq_iff] at hc
            exact hnf e hB0 hc
        have hcidx2 : (L2 ++ c2 :: R2)[A2.length]? = some c2 := by
          rw [← hL2]; exact getElem?_app_len L2 c2 R2
        have hset : (L2 ++ c2 :: R2).set A2.length ch2 = L2 ++ ch2 :: R2 := by
          rw [← hL2]; exact set_app_len L2 c2 ch2 R2
        have e1 : (NodeDisk.inner (A ++ B) (L ++ c :: R)).entries = A ++ B := rfl
        have e2 : (NodeDisk.inner (A ++ B) (L ++ c :: R)).children = L ++ c :: R := rfl
        have e3 : (NodeDisk.inner (A ++ B) (L ++ c :: R)).isLeaf = false := rfl
        have e4 : (NodeDisk.inner (A2 ++ B2) (L2 ++ c2 :: R2)).n = (A2 ++ B2).length := rfl
        have e5 : (NodeDisk.inner (A2 ++ B2) (L2 ++ c2 :: R2)).children = L2 ++ c2 :: R2 := rfl
        have e6 : ∀ i d, (NodeDisk.inner (A2 ++ B2) (L2 ++ c2 :: R2)).setChild i d
            = .inner (A2 ++ B2) ((L2 ++ c2 :: R2).set i d) := fun _ _ => rfl
        simp only [remove_rec, e1, e2, e3, hscan, hidx, hc, if_false, hcidx, hfill,
          decide_eq_true_eq, e4, hj, e5, hcidx2, hch2, e6, hset, Bool.false_eq_true]
      · simpa [NodeDisk.n, NodeDisk.entries] using hnlo
      · simpa [NodeDisk.n, NodeDisk.entries] using hnhi
      · intro e he
        rw [← hfl2]; exact r3 e he
      · rintro ⟨w, hw⟩
        rw [← hfl2]
        apply r4
        apply hperm3
        rw [← hfl2, hflat2] at hw
        simp only [List.mem_append] at hw
        rcases hw with (hw | hw) | hw
        · exact absurd (hpre _ (hpsub _ hw)) (lt_irrefl k)
        · exact ⟨w, hw⟩
        · exact absurd (hpost _ (hqsub _ hw)) (lt_irrefl k)
      · intro hno
        rw [← hfl2]
        apply r5
        apply hsame3
        intro w hw
        apply hno w
        rw [← hfl2, hflat2]
        simp [hw]

end lemmas13
end diskbtree

namespace diskbtree

section lemmas14
variable {K : Type} [LinearOrder K]

theorem remove_key_spec (bt : DiskBTree K) (ht : 2 ≤ bt.t) (hinv : RootInv bt) (k : K) :
    ∃ bt2, remove_key bt k = some bt2 ∧ bt2.t = bt.t ∧ RootInv bt2 ∧
      (∀ e ∈ bt2.stored, e ∈ bt.stored) ∧
      ((∃ w, (k, w) ∈ bt.stored) →
        (k :: bt2.stored.map Prod.fst).Perm (bt.stored.map Prod.fst)) ∧
      ((∀ w, (k, w) ∉ bt.stored) → bt2.stored = bt.stored) := by
  cases hr : bt.root with
  | none =>
    refine ⟨bt, by simp [remove_key, hr], rfl, hinv, fun e he => he, ?_, fun _ => rfl⟩
    rintro ⟨w, hw⟩
    simp [DiskBTree.stored, hr] at hw
  | some r =>
    unfold RootInv at hinv
    rw [hr] at hinv
    obtain ⟨h, hwf, hn1, hn2, hord⟩ := hinv
    have hd := depth_of_wf bt.t h r hwf
    obtain ⟨r2, hrec, hw2, hlo, hhi, ho2, hsub, hperm, hsame⟩ :=
      remove_rec_spec bt.t ht h r.depth r k (by omega) hwf (Or.inr hn1) hord
    have hst : bt.stored = r.flat := by simp [DiskBTree.stored, hr]
    by_cases h0 : r2.n = 0
    · cases h with
      | zero =>
        obtain ⟨es, rfl⟩ := (wf_zero_iff _ r2).mp hw2
        have hes : es = [] := by simpa [NodeDisk.n, NodeDisk.entries] using h0
        subst hes
        refine ⟨{ bt with root := none }, ?_, rfl, trivial, ?_, ?_, ?_⟩
        · simp [remove_key, hr, hrec, h0, NodeDisk.isLeaf]
        · intro e he; simp [DiskBTree.stored] at he
        · intro hk
          have := hperm (by rw [← hst]; exact hk)
          rw [hst]
          simpa [DiskBTree.stored, flat_leaf] using this
        · intro hk
          have := hsame (by rw [← hst]; exact hk)
          rw [hst, ← this]
          simp [DiskBTree.stored, flat_leaf]
      | succ h =>
        obtain ⟨es, cs, rfl, hlen, hcs⟩ := (wf_succ_iff _ _ r2).mp hw2
        have hes : es = [] := by simpa [NodeDisk.n, NodeDisk.entries] using h0
        subst hes
        match cs, hlen, hcs with
        | [c], _, hcs =>
          have hg : Good bt.t h c := hcs c (by simp)
          have hfl : (NodeDisk.inner [] [c]).flat = c.flat := by
            rw [flat_inner]; simp [inorder]
          rw [hfl] at ho2 hsub hperm hsame
          refine ⟨{ bt with root := some c }, ?_, rfl, ?_, ?_, ?_, ?_⟩
          · simp [remove_key, hr, hrec, h0, NodeDisk.isLeaf, NodeDisk.children]
          · show ∃ h2, WF bt.t h2 c ∧ 1 ≤ c.n ∧ c.n ≤ 2 * bt.t - 1 ∧ Ord c.flat
            exact ⟨h, hg.1, by have := hg.2.1; omega, hg.2.2, ho2⟩
          · intro e he
            rw [hst]
            exact hsub e (by simpa [DiskBTree.stored] using he)
          · intro hk
            have := hperm (by rw [← hst]; exact hk)
            rw [hst]
            simpa [DiskBTree.stored] using this
          · intro hk
            have := hsame (by rw [← hst]; exact hk)
            rw [hst, ← this]
            simp [DiskBTree.stored]
    · refine ⟨{ bt with root := some r2 }, ?_, rfl, ?_, ?_, ?_, ?_⟩
      · simp [remove_key, hr, hrec, h0]
      · show ∃ h2, WF bt.t h2 r2 ∧ 1 ≤ r2.n ∧ r2.n ≤ 2 * bt.t - 1 ∧ Ord r2.flat
        exact ⟨h, hw2, by omega, by omega, ho2⟩
      · intro e he
        rw [hst]
        exact hsub e (by simpa [DiskBTree.stored] using he)
      · intro hk
        have := hperm (by rw [← hst]; exact hk)
        rw [hst]
        simpa [DiskBTree.stored] using this
      · intro hk
        have := hsame (by rw [← hst]; exact hk)
        rw [hst, ← this]
        simp [DiskBTree.stored]

theorem inserted_append (ops ops2 : List (Op K)) :
    inserted (ops ++ ops2) = inserted ops ++ inserted ops2 := by
  induction ops with
  | nil => simp [inserted]
  | cons o ops ih =>
    cases o with
    | insert k v => simp [inserted, ih]
    | remove k => simp [inserted, ih]

theorem runFrom_append (bt : DiskBTree K) (ops : List (Op K)) (op : Op K) :
    runFrom bt (ops ++ [op]) = (runFrom bt ops).bind (fun b => op.apply b) := by
  induction ops generalizing bt with
  | nil => simp [runFrom]
  | cons o ops ih =>
    simp only [List.cons_append, runFrom]
    cases o.apply bt with
    | none => rfl
    | some b => simpa using ih b

theorem run_append (t : Nat) (ops : List (Op K)) (op : Op K) :
    run t (ops ++ [op]) = (run t ops).bind (fun b => op.apply b) := by
  unfold run
  cases (DiskBTree.create t : Option (DiskBTree K)) with
  | none => rfl
  | some b => simpa using runFrom_append b ops op

theorem run_nil (t : Nat) (bt : DiskBTree K) (h : run t [] = some bt) :
    2 ≤ t ∧ t ≤ 128 ∧ bt.t = t ∧ bt.root = none := by
  unfold run DiskBTree.create at h
  by_cases h1 : t < 2
  · simp [h1] at h
  · by_cases h2 : t > MAX_T
    · simp [h1, h2] at h
    · simp [h1, h2, runFrom] at h
      subst h
      unfold MAX_T at h2
      exact ⟨by omega, by omega, rfl, rfl⟩

/-- The invariant of every index built by `insert` and `remove_key` calls. -/
theorem run_inv (t : Nat) (ops : List (Op K)) :
    ∀ bt, run t ops = some bt → 2 ≤ t ∧ t ≤ 128 ∧ bt.t = t ∧ RootInv bt ∧
      ∀ e ∈ bt.stored, e ∈ inserted ops := by
  induction ops using List.reverseRecOn with
  | nil =>
    intro bt h
    obtain ⟨h1, h2, h3, h4⟩ := run_nil t bt h
    refine ⟨h1, h2, h3, ?_, ?_⟩
    · unfold RootInv; rw [h4]; trivial
    · intro e he; simp [DiskBTree.stored, h4] at he
  | append_singleton ops op ih =>
    intro bt h
    rw [run_append] at h
    cases hprev : run t ops with
    | none => simp [hprev] at h
    | some b =>
      obtain ⟨h1, h2, h3, h4, h5⟩ := ih b hprev
      simp only [hprev, Option.some_bind] at h
      have hins : ∀ o, inserted (ops ++ [o]) = inserted ops ++ inserted [o] :=
        fun o => inserted_append ops [o]
      cases op with
      | insert k v =>
        obtain ⟨bt2, hi, ht2, hinv2, hperm⟩ := insert_spec b (by omega) h4 k v
        simp only [Op.apply, hi, Option.some.injEq] at h
        subst h
        refine ⟨h1, h2, by omega, hinv2, ?_⟩
        intro e he
        rw [hins]
        rcases List.mem_cons.mp (hperm.subset he) with he | he
        · simp [inserted, he]
        · simp [h5 e he]
      | remove k =>
        obtain ⟨bt2, hi, ht2, hinv2, hsub, _, _⟩ := remove_key_spec b (by omega) h4 k
        simp only [Op.apply, hi, Option.some.injEq] at h
        subst h
        refine ⟨h1, h2, by omega, hinv2, ?_⟩
        intro e he
        rw [hins]
        simp [h5 e (hsub e he)]

end lemmas14
end diskbtree

namespace diskbtree

section lemmas15
variable {K : Type} [LinearOrder K]

theorem run_total (t : Nat) (ht1 : 2 ≤ t) (ht2 : t ≤ 128) (ops : List (Op K)) :
    ∃ bt : DiskBTree K, run t ops = some bt := by
  induction ops using List.reverseRecOn with
  | nil =>
    refine ⟨{ t := t, root := none }, ?_⟩
    have h1 : ¬ t < 2 := by omega
    have h2 : ¬ t > MAX_T := by unfold MAX_T; omega
    simp [run, DiskBTree.create, h1, h2, runFrom]
  | append_singleton ops op ih =>
    obtain ⟨b, hb⟩ := ih
    obtain ⟨_, _, h3, h4, _⟩ := run_inv t ops b hb
    rw [run_append, hb]
    cases op with
    | insert k v =>
      obtain ⟨bt2, hi, _⟩ := insert_spec b (by omega) h4 k v
      exact ⟨bt2, by simpa [Op.apply] using hi⟩
    | remove k =>
      obtain ⟨bt2, hi, _⟩ := remove_key_spec b (by omega) h4 k
      exact ⟨bt2, by simpa [Op.apply] using hi⟩

theorem filter_key_length (l : List (K × Int)) (k : K) :
    (l.filter (fun e => decide (e.1 = k))).length = (l.map Prod.fst).count k := by
  induction l with
  | nil => simp
  | cons e l ih =>
    by_cases h : e.1 = k
    · simp [List.filter_cons, h, ih]
    · simp [List.filter_cons, h, ih, List.count_cons]

theorem keyCount_pos_iff (bt : DiskBTree K) (k : K) :
    0 < bt.keyCount k ↔ ∃ w, (k, w) ∈ bt.stored := by
  unfold DiskBTree.keyCount
  rw [List.length_pos_iff_exists_mem]
  constructor
  · rintro ⟨e, he⟩
    rw [List.mem_filter] at he
    have h1 : e.1 = k := by simpa using he.2
    exact ⟨e.2, by rw [← h1]; exact he.1⟩
  · rintro ⟨w, hw⟩
    exact ⟨(k, w), by rw [List.mem_filter]; exact ⟨hw, by simp⟩⟩

theorem ord_child (t h : Nat) (es : List (K × Int)) (cs : List (NodeDisk K)) (c : NodeDisk K)
    (hwf : WF t (h + 1) (.inner es cs)) (hord : Ord (NodeDisk.inner es cs).flat)
    (hc : c ∈ cs) : Ord c.flat := by
  obtain ⟨L, R, rfl⟩ := List.append_of_mem hc
  have hlen := ((wf_inner_iff _ _ _ _).mp hwf).1
  have hL : L.length ≤ es.length := by simp at hlen; omega
  have hes : es = es.take L.length ++ es.drop L.length := (List.take_append_drop _ _).symm
  rw [hes] at hord
  exact ord_focus_child _ _ L R c (by simp; omega) hord

theorem wf_atDepth (t : Nat) (r x : NodeDisk K) (d : Nat) (hat : AtDepth r d x) :
    ∀ h, WF t h r → Ord r.flat → ∃ h2, WF t h2 x ∧ h = h2 + d ∧ Ord x.flat := by
  induction hat with
  | here r => intro h hwf hord; exact ⟨h, hwf, rfl, hord⟩
  | child es cs c d x hc _ ih =>
    intro h hwf hord
    cases h with
    | zero => simp [WF, NodeDisk.isLeaf] at hwf
    | succ h =>
      have hg := ((wf_inner_iff _ _ _ _).mp hwf).2 c hc
      obtain ⟨h2, h3, h4, h5⟩ := ih h hg.1 (ord_child t h es cs c hwf hord hc)
      exact ⟨h2, h3, by omega, h5⟩

theorem bounds_atDepth (t : Nat) (r x : NodeDisk K) (d : Nat) (hat : AtDepth r d x) :
    ∀ h, WF t h r → (t - 1 ≤ r.n ∧ r.n ≤ 2 * t - 1) → (t - 1 ≤ x.n ∧ x.n ≤ 2 * t - 1) := by
  induction hat with
  | here r => intro h _ hb; exact hb
  | child es cs c d x hc _ ih =>
    intro h hwf _
    cases h with
    | zero => simp [WF, NodeDisk.isLeaf] at hwf
    | succ h =>
      have hg := ((wf_inner_iff _ _ _ _).mp hwf).2 c hc
      exact ih h hg.1 hg.2

theorem bounds_below (t h : Nat) (r x : NodeDisk K) (d : Nat) (hat : AtDepth r d x)
    (hwf : WF t h r) (hd : 0 < d) : t - 1 ≤ x.n ∧ x.n ≤ 2 * t - 1 := by
  cases hat with
  | here => omega
  | child es cs c d x hc hrest =>
    cases h with
    | zero => simp [WF, NodeDisk.isLeaf] at hwf
    | succ h =>
      have hg := ((wf_inner_iff _ _ _ _).mp hwf).2 c hc
      exact bounds_atDepth t c x d hrest h hg.1 hg.2

theorem ord_entries_of_ord_flat (x : NodeDisk K) (h : Ord x.flat) : Ord x.entries := by
  cases x with
  | leaf es => simpa [flat_leaf, NodeDisk.entries] using h
  | inner es cs => exact ord_entries_of_flat es cs h

theorem leaf_depth (t : Nat) (x : NodeDisk K) (h : Nat) (hwf : WF t h x)
    (hl : x.isLeaf = true) : h = 0 := by
  cases h with
  | zero => rfl
  | succ h =>
    have := hwf.1
    rw [hl] at this
    cases this

end lemmas15
end diskbtree

namespace diskbtree

section claims
variable {K : Type} [LinearOrder K]

theorem run_exOps : run 2 exOps = some exTree := rfl

theorem run_dupOps : run 2 dupOps = some dupTree := rfl

/-- C1 (the code at a failing input): on the index built by inserting the keys
1, 2, 3, 4 with `t = 2`, the entries with keys 3 and 4 are stored (values 30 and 40),
but `range_search_values(3, 4)` returns the empty list: every key of the root is
below `a = 3`, so the last child is never visited. -/
theorem range_search_values_skips_last_child :
    run 2 exOps = some exTree ∧
    (exTree.stored.filter (fun e => decide (3 ≤ e.1 ∧ e.1 ≤ 4))).map Prod.snd = [30, 40] ∧
    range_search_values exTree 3 4 = some [] := by
  refine ⟨rfl, by decide, by decide⟩

/-- C3: on every index built by `insert` and `remove_key` calls with non-negative
values, `search_get_value(k)` returns a value; if some entry with key `k` is stored,
the value `v` returned is the value of a stored entry `(k, v)` that was passed to
`insert` (and is not the sentinel); if no entry with key `k` is stored, it returns
the sentinel `-1`. -/
theorem search_get_value_correct (t : Nat) (ops : List (Op K)) (bt : DiskBTree K) (k : K)
    (hrun : run t ops = some bt) (hnn : ∀ e ∈ inserted ops, 0 ≤ e.2) :
    ∃ v, search_get_value bt k = some v ∧
      ((∃ w, (k, w) ∈ bt.stored) → (k, v) ∈ bt.stored ∧ (k, v) ∈ inserted ops ∧ v ≠ -1) ∧
      ((∀ w, (k, w) ∉ bt.stored) → v = -1) := by
  obtain ⟨_, _, _, hinv, hins⟩ := run_inv t ops bt hrun
  obtain ⟨v, h1, h2, h3⟩ := search_get_value_spec bt hinv k
  refine ⟨v, h1, ?_, h3⟩
  intro hk
  have hmem := h2 hk
  have h0 := hnn _ (hins _ hmem)
  refine ⟨hmem, hins _ hmem, ?_⟩
  intro hv
  rw [hv] at h0
  simp at h0

theorem search_get_value_correct_witness :
    run 2 exOps = some exTree ∧ (∀ e ∈ inserted exOps, 0 ≤ e.2) ∧
    ∃ v, search_get_value exTree 3 = some v ∧
      ((∃ w, ((3 : Int), w) ∈ exTree.stored) →
        (3, v) ∈ exTree.stored ∧ (3, v) ∈ inserted exOps ∧ v ≠ -1) ∧
      ((∀ w, ((3 : Int), w) ∉ exTree.stored) → v = -1) :=
  ⟨rfl, by decide, search_get_value_correct 2 exOps exTree 3 rfl (by decide)⟩

/-- C5: on every index built by `insert` and `remove_key` calls and for every key `k`
stored at least once, `remove_key(k)` returns and the number of stored entries with
key `k` is afterwards smaller by exactly one. -/
theorem remove_key_removes_one (t : Nat) (ops : List (Op K)) (bt : DiskBTree K) (k : K)
    (hrun : run t ops = some bt) (hk : 0 < bt.keyCount k) :
    ∃ bt2, remove_key bt k = some bt2 ∧ bt2.keyCount k + 1 = bt.keyCount k := by
  obtain ⟨ht, _, h3, hinv, _⟩ := run_inv t ops bt hrun
  obtain ⟨bt2, h1, _, _, _, hperm, _⟩ := remove_key_spec bt (by omega) hinv k
  refine ⟨bt2, h1, ?_⟩
  have hp := hperm ((keyCount_pos_iff bt k).mp hk)
  have hc := hp.count_eq k
  unfold DiskBTree.keyCount
  rw [filter_key_length, filter_key_length, ← hc]
  simp

theorem remove_key_removes_one_witness :
    run 2 exOps = some exTree ∧ 0 < exTree.keyCount 3 ∧
    ∃ bt2, remove_key exTree 3 = some bt2 ∧ bt2.keyCount 3 + 1 = exTree.keyCount 3 :=
  ⟨rfl, by decide, remove_key_removes_one 2 exOps exTree 3 rfl (by decide)⟩

/-- C6: on every index built by `insert` and `remove_key` calls and for every key `k`
that is not stored, `remove_key(k)` returns and leaves the stored entries as they
were: the in-order list of `(key, value)` entries (hence their multiset) is the same
before and after the call. -/
theorem remove_key_absent_noop (t : Nat) (ops : List (Op K)) (bt : DiskBTree K) (k : K)
    (hrun : run t ops = some bt) (hk : bt.keyCount k = 0) :
    ∃ bt2, remove_key bt k = some bt2 ∧ bt2.stored = bt.stored ∧
      (bt2.stored : Multiset (K × Int)) = bt.stored := by
  obtain ⟨ht, _, h3, hinv, _⟩ := run_inv t ops bt hrun
  obtain ⟨bt2, h1, _, _, _, _, hsame⟩ := remove_key_spec bt (by omega) hinv k
  have hno : ∀ w, (k, w) ∉ bt.stored := by
    intro w hw
    have := (keyCount_pos_iff bt k).mpr ⟨w, hw⟩
    omega
  exact ⟨bt2, h1, hsame hno, by rw [hsame hno]⟩

theorem remove_key_absent_noop_witness :
    run 2 exOps = some exTree ∧ exTree.keyCount 7 = 0 ∧
    ∃ bt2, remove_key exTree 7 = some bt2 ∧ bt2.stored = exTree.stored ∧
      (bt2.stored : Multiset (Int × Int)) = exTree.stored :=
  ⟨rfl, by decide, remove_key_absent_noop 2 exOps exTree 7 rfl (by decide)⟩

/-- C7: on every index built by `insert` and `remove_key` calls and for every pair
`(k, v)`, `insert(k, v)` returns and the multiset of stored entries is afterwards the
previous multiset plus one occurrence of `(k, v)`; in particular a key that is
already stored gets a further entry (its count grows by one, nothing is replaced). -/
theorem insert_adds_one_entry (t : Nat) (ops : List (Op K)) (bt : DiskBTree K) (k : K)
    (v : Int) (hrun : run t ops = some bt) :
    ∃ bt2, insert bt k v = some bt2 ∧
      (bt2.stored : Multiset (K × Int)) = (k, v) ::ₘ (bt.stored : Multiset (K × Int)) ∧
      bt2.keyCount k = bt.keyCount k + 1 := by
  obtain ⟨ht, _, h3, hinv, _⟩ := run_inv t ops bt hrun
  obtain ⟨bt2, h1, _, _, hperm⟩ := insert_spec bt (by omega) hinv k v
  refine ⟨bt2, h1, ?_, ?_⟩
  · rw [Multiset.cons_coe]
    exact Quotient.sound hperm
  · have hc := (hperm.map Prod.fst).count_eq k
    unfold DiskBTree.keyCount
    rw [filter_key_length, filter_key_length, hc]
    simp

theorem insert_adds_one_entry_witness :
    run 2 dupOps = some dupTree ∧
    ∃ bt2, insert dupTree 5 3 = some bt2 ∧
      (bt2.stored : Multiset (Int × Int)) = (5, 3) ::ₘ (dupTree.stored : Multiset (Int × Int)) ∧
      bt2.keyCount 5 = dupTree.keyCount 5 + 1 :=
  ⟨rfl, insert_adds_one_entry 2 dupOps dupTree 5 3 rfl⟩

/-- C8: for every minimum degree `t` with `2 ≤ t ≤ 128` and every sequence of `insert`
and `remove_key` calls on a new index, all calls return and in the resulting index
the root (if the tree is not empty) holds between `1` and `2t - 1` keys and every
node below the root holds at least `t - 1` and at most `2t - 1` keys. -/
theorem key_count_bounds (t : Nat) (ht1 : 2 ≤ t) (ht2 : t ≤ 128) (ops : List (Op K)) :
    ∃ bt : DiskBTree K, run t ops = some bt ∧ ∀ r, bt.root = some r →
      (1 ≤ r.n ∧ r.n ≤ 2 * t - 1) ∧
      ∀ d x, AtDepth r d x → 0 < d → t - 1 ≤ x.n ∧ x.n ≤ 2 * t - 1 := by
  obtain ⟨bt, hrun⟩ := run_total t ht1 ht2 ops
  refine ⟨bt, hrun, ?_⟩
  obtain ⟨_, _, h3, hinv, _⟩ := run_inv t ops bt hrun
  intro r hr
  unfold RootInv at hinv
  rw [hr, h3] at hinv
  obtain ⟨h, hwf, hn1, hn2, _⟩ := hinv
  exact ⟨⟨hn1, hn2⟩, fun d x hat hd => bounds_below t h r x d hat hwf hd⟩

theorem key_count_bounds_witness :
    (2 ≤ 2 ∧ 2 ≤ 128) ∧
    ∃ bt : DiskBTree Int, run 2 exOps = some bt ∧ ∀ r, bt.root = some r →
      (1 ≤ r.n ∧ r.n ≤ 2 * 2 - 1) ∧
      ∀ d x, AtDepth r d x → 0 < d → 2 - 1 ≤ x.n ∧ x.n ≤ 2 * 2 - 1 :=
  ⟨by decide, key_count_bounds 2 (by decide) (by decide) exOps⟩

/-- C9: for every sequence of `insert` and `remove_key` calls on a new index (of a
minimum degree the constructor accepts), all calls return and in the resulting index
all leaves are at the same depth. -/
theorem leaves_at_same_depth (t : Nat) (ht1 : 2 ≤ t) (ht2 : t ≤ 128) (ops : List (Op K)) :
    ∃ bt : DiskBTree K, run t ops = some bt ∧ ∀ r, bt.root = some r →
      ∃ d, ∀ d2 x, AtDepth r d2 x → x.isLeaf = true → d2 = d := by
  obtain ⟨bt, hrun⟩ := run_total t ht1 ht2 ops
  refine ⟨bt, hrun, ?_⟩
  obtain ⟨_, _, h3, hinv, _⟩ := run_inv t ops bt hrun
  intro r hr
  unfold RootInv at hinv
  rw [hr, h3] at hinv
  obtain ⟨h, hwf, _, _, hord⟩ := hinv
  refine ⟨h, ?_⟩
  intro d2 x hat hl
  obtain ⟨h2, hw2, heq, _⟩ := wf_atDepth t r x d2 hat h hwf hord
  have := leaf_depth t x h2 hw2 hl
  omega

theorem leaves_at_same_depth_witness :
    (2 ≤ 2 ∧ 2 ≤ 128) ∧
    ∃ bt : DiskBTree Int, run 2 exOps = some bt ∧ ∀ r, bt.root = some r →
      ∃ d, ∀ d2 x, AtDepth r d2 x → x.isLeaf = true → d2 = d :=
  ⟨by decide, leaves_at_same_depth 2 (by decide) (by decide) exOps⟩

/-- C10 (counterexample): after `insert(5, 1)` and `insert(5, 2)` on a new index
with `t = 2` the root leaf holds the keys `5, 5`, which are not strictly increasing. -/
theorem strict_order_fails_on_duplicates :
    run 2 dupOps = some dupTree ∧
    ∃ r, dupTree.root = some r ∧ AtDepth r 0 r ∧
      ¬ List.Chain' (fun a b : Int × Int => a.1 < b.1) r.entries :=
  ⟨rfl, _, rfl, AtDepth.here _, by simp [NodeDisk.entries]⟩

/-- C10 (amended): for every sequence of `insert` and `remove_key` calls on a new
index, all calls return and in every node of the resulting index the keys are
sorted in non-decreasing order (`keys[i] ≤ keys[i+1]` for every adjacent pair);
equal adjacent keys occur when a key is inserted more than once. -/
theorem node_keys_sorted (t : Nat) (ht1 : 2 ≤ t) (ht2 : t ≤ 128) (ops : List (Op K)) :
    ∃ bt : DiskBTree K, run t ops = some bt ∧ ∀ r, bt.root = some r →
      ∀ d x, AtDepth r d x → List.Chain' (fun a b : K × Int => a.1 ≤ b.1) x.entries := by
  obtain ⟨bt, hrun⟩ := run_total t ht1 ht2 ops
  refine ⟨bt, hrun, ?_⟩
  obtain ⟨_, _, h3, hinv, _⟩ := run_inv t ops bt hrun
  intro r hr
  unfold RootInv at hinv
  rw [hr, h3] at hinv
  obtain ⟨h, hwf, _, _, hord⟩ := hinv
  intro d x hat
  obtain ⟨h2, _, _, hox⟩ := wf_atDepth t r x d hat h hwf hord
  exact List.Pairwise.chain' (ord_entries_of_ord_flat x hox)

theorem node_keys_sorted_witness :
    (2 ≤ 2 ∧ 2 ≤ 128) ∧
    ∃ bt : DiskBTree Int, run 2 dupOps = some bt ∧ ∀ r, bt.root = some r →
      ∀ d x, AtDepth r d x → List.Chain' (fun a b : Int × Int => a.1 ≤ b.1) x.entries :=
  ⟨by decide, node_keys_sorted 2 (by decide) (by decide) dupOps⟩

end claims
end diskbtree

namespace gft

theorem writeAt_length (buf : List Nat) (off : Nat) (bytes : List Nat)
    (h : off + bytes.length ≤ buf.length) : (writeAt buf off bytes).length = buf.length := by
  simp [writeAt]
  omega

theorem writeAt_take (buf : List Nat) (off : Nat) (bytes : List Nat) (h : off ≤ buf.length) :
    (writeAt buf off bytes).take off = buf.take off := by
  have h1 : off - buf.length = 0 := by omega
  simp only [writeAt, h1, List.replicate_zero, List.append_nil, List.append_assoc]
  rw [List.take_append_of_le_length (by simp; omega)]
  simp

theorem readAt_writeAt (buf : List Nat) (off : Nat) (bytes : List Nat) (h : off ≤ buf.length) :
    readAt (writeAt buf off bytes) off bytes.length = bytes := by
  have h1 : off - buf.length = 0 := by omega
  have h2 : (buf.take off).length = off := by simp; omega
  simp only [readAt, writeAt, h1, List.replicate_zero, List.append_nil, List.append_assoc]
  rw [List.drop_append_of_le_length (by omega)]
  rw [List.drop_of_length_le (by omega)]
  simp

theorem readAt_take (out : List Nat) (off len n : Nat) (h : off + len ≤ n) :
    readAt (out.take n) off len = readAt out off len := by
  simp only [readAt]
  rw [List.drop_take, List.take_take]
  congr 1
  omega

theorem pack_col_length (c : ColMetaDisk) (v : Value) (bytes : List Nat)
    (hw : width_ok c = true) (h : pack_col c v = some bytes) : bytes.length = c.width := by
  unfold pack_col at h
  unfold width_ok at hw
  cases hc : c.type with
  | INT32 =>
    simp only [hc] at h hw
    split_ifs at h
    simp only [Option.some.injEq] at h
    subst h
    simp [int32_bytes, le32] at hw ⊢
    omega
  | FLOAT32 =>
    simp only [hc] at h hw
    split_ifs at h
    simp only [Option.some.injEq] at h
    subst h
    simp [le32] at hw ⊢
    omega
  | CHAR =>
    simp only [hc] at h hw
    split_ifs at h
    simp only [Option.some.injEq] at h
    subst h
    simp at hw ⊢

theorem layout_le (cs : List ColMetaDisk) : ∀ (start total : Nat),
    layout_ok cs start total = true → start ≤ total := by
  induction cs with
  | nil => intro s t h; simp [layout_ok] at h; omega
  | cons c cs ih =>
    intro s t h
    simp only [layout_ok, Bool.and_eq_true] at h
    have := ih _ _ h.2
    omega

/-- Under a contiguous layout `pack_row` keeps the buffer length, leaves the bytes
below `start` alone and stores at every column the bytes of its value. -/
theorem pack_row_spec (cs : List ColMetaDisk) : ∀ (vs : List Value) (buf out : List Nat)
    (start total : Nat), layout_ok cs start total = true → buf.length = total →
    pack_row cs vs buf = some out →
    out.length = total ∧ out.take start = buf.take start ∧
    ∀ (i : Nat) (c : ColMetaDisk) (v : Value), cs[i]? = some c → vs[i]? = some v →
      ∃ bytes, pack_col c v = some bytes ∧ readAt out c.offset c.width = bytes := by
  induction cs with
  | nil =>
    intro vs buf out start total _ hlen h
    simp only [pack_row, Option.some.injEq] at h
    subst h
    exact ⟨hlen, rfl, by simp⟩
  | cons c cs ih =>
    intro vs buf out start total hlay hlen h
    simp only [layout_ok, Bool.and_eq_true, beq_iff_eq] at hlay
    obtain ⟨⟨hoff, hw⟩, hrest⟩ := hlay
    cases vs with
    | nil => simp [pack_row] at h
    | cons v vs =>
      simp only [pack_row] at h
      cases hp : pack_col c v with
      | none => simp [hp] at h
      | some bytes =>
        simp only [hp] at h
        have hbl := pack_col_length c v bytes hw hp
        have hle := layout_le cs _ _ hrest
        have hl1 : (writeAt buf c.offset bytes).length = total := by
          rw [writeAt_length _ _ _ (by omega)]; exact hlen
        obtain ⟨h1, h2, h3⟩ := ih vs (writeAt buf c.offset bytes) out (start + c.width) total
          hrest hl1 h
        have hpre : out.take start = buf.take start := by
          have e1 : out.take start = (out.take (start + c.width)).take start := by
            rw [List.take_take]; congr 1; omega
          have e2 : (writeAt buf c.offset bytes).take start = buf.take start := by
            rw [← hoff]; exact writeAt_take _ _ _ (by omega)
          rw [e1, h2, List.take_take]
          rw [show min start (start + c.width) = start by omega]
          exact e2
        refine ⟨h1, hpre, ?_⟩
        intro i c2 v2 hc2 hv2
        cases i with
        | zero =>
          simp only [List.getElem?_cons_zero, Option.some.injEq] at hc2 hv2
          subst hc2 hv2
          refine ⟨bytes, hp, ?_⟩
          rw [← readAt_take out c.offset c.width (start + c.width) (by omega), h2,
            readAt_take _ _ _ _ (by omega), ← hbl]
          exact readAt_writeAt _ _ _ (by omega)
        | succ i =>
          simp only [List.getElem?_cons_succ] at hc2 hv2
          exact h3 i c2 v2 hc2 hv2

end gft

namespace gft

theorem writeAt_getElem (buf : List Nat) (off b : Nat) (h : off ≤ buf.length) :
    (writeAt buf off [b])[off]? = some b := by
  have h1 : off - buf.length = 0 := by omega
  have h2 : (buf.take off).length = off := by simp; omega
  simp only [writeAt, h1, List.replicate_zero, List.append_nil, List.append_assoc]
  rw [List.getElem?_append_right (by omega)]
  simp [h2]

theorem int32_roundtrip_neg_one : int32_of_bytes (readAt (int32_bytes (-1)) 0 4) = -1 := by
  decide

namespace GenericFixedTable

theorem Same.rfl (t : GenericFixedTable) : Same t t := ⟨Eq.refl _, Eq.refl _, Eq.refl _⟩

theorem Same.trans {a b c : GenericFixedTable} (h1 : Same a b) (h2 : Same b c) : Same a c :=
  ⟨h2.1.trans h1.1, h2.2.1.trans h1.2.1, h2.2.2.trans h1.2.2⟩

theorem ensure_del_size_same (t : GenericFixedTable) (n : Int) : Same t (t.ensure_del_size n) := by
  unfold ensure_del_size
  split_ifs
  · exact Same.rfl t
  · exact ⟨Eq.refl _, Eq.refl _, Eq.refl _⟩

theorem set_del_flag_same (t : GenericFixedTable) (pid : Int) (b : Nat) :
    Same t (t.set_del_flag pid b) := by
  unfold set_del_flag
  split_ifs
  · exact Same.rfl t
  · exact ⟨Eq.refl _, Eq.refl _, Eq.refl _⟩

theorem IsDeleted_same (t : GenericFixedTable) (pid : Int) : Same t (t.IsDeleted pid).2 := by
  unfold IsDeleted
  simp only
  split_ifs
  · exact ensure_del_size_same t _
  · split <;> exact ensure_del_size_same t _

theorem ReadRowByPageID_same (t : GenericFixedTable) (pid : Int) :
    Same t (t.ReadRowByPageID pid).2 := by
  unfold ReadRowByPageID
  simp only
  split_ifs
  · exact Same.rfl t
  · exact IsDeleted_same t pid
  · exact IsDeleted_same t pid
  · exact IsDeleted_same t pid

theorem ReadInt_same (t : GenericFixedTable) (pid : Int) (col : String) :
    Same t (t.ReadInt pid col).2 := by
  unfold ReadInt
  split
  · exact Same.rfl t
  · split_ifs
    · exact Same.rfl t
    · simp only
      split <;> exact ReadRowByPageID_same t pid

theorem ReadFloat_same (t : GenericFixedTable) (pid : Int) (col : String) :
    Same t (t.ReadFloat pid col).2 := by
  unfold ReadFloat
  split
  · exact Same.rfl t
  · split_ifs
    · exact Same.rfl t
    · simp only
      split <;> exact ReadRowByPageID_same t pid

theorem ReadChar_same (t : GenericFixedTable) (pid : Int) (col : String) :
    Same t (t.ReadChar pid col).2 := by
  unfold ReadChar
  split
  · exact Same.rfl t
  · split_ifs
    · exact Same.rfl t
    · simp only
      split <;> exact ReadRowByPageID_same t pid

theorem ensure_del_size_length (t : GenericFixedTable) (n : Int) :
    n ≤ ((t.ensure_del_size n).del.length : Int) := by
  unfold ensure_del_size
  split_ifs with h
  · exact h
  · simp only [List.length_append, List.length_replicate]
    omega

/-- What a successful `ReadRowByPageID` says about the page id and the row. -/
theorem ReadRowByPageID_some (t : GenericFixedTable) (pid : Int) (row : List Value)
    (h : (t.ReadRowByPageID pid).1 = some row) :
    0 ≤ pid ∧ pid < t.Count ∧
    row = unpack_row t.cols (readAt t.file (t.data_offset + pid.toNat * t.row_size) t.row_size) := by
  unfold ReadRowByPageID at h
  simp only at h
  split_ifs at h with h1 h2 h3
  · simp only [Option.some.injEq] at h
    have hf := (IsDeleted_same t pid).2.2
    rw [hf] at h
    refine ⟨by omega, by omega, h.symm⟩

/-- Below `Count` the whole row lies inside the table file. -/
theorem row_in_file (t : GenericFixedTable) (n : Nat) (h : (n : Int) < t.Count) :
    t.data_offset + n * t.row_size + t.row_size ≤ t.file.length := by
  unfold Count at h
  split_ifs at h with h1
  · omega
  · have h2 : n + 1 ≤ (t.file.length - t.data_offset) / t.row_size := by omega
    have h3 := Nat.mul_le_mul_right t.row_size h2
    have h4 := Nat.div_mul_le_self (t.file.length - t.data_offset) t.row_size
    have h5 : (n + 1) * t.row_size = n * t.row_size + t.row_size := by ring
    omega

/-- The tombstone byte after `WriteRowInDisk` is 0: the row counts as live. -/
theorem WriteRowInDisk_live (t t2 : GenericFixedTable) (pid : Int) (row : List Value)
    (h : t.WriteRowInDisk pid row = (true, t2)) : (t2.IsDeleted pid).1 = false := by
  unfold WriteRowInDisk at h
  split_ifs at h
  · simp at h
  split at h
  · simp at h
  · simp only [Prod.mk.injEq, true_and] at h
    subst h
    by_cases hp : pid < 0
    · simp [IsDeleted, hp]
    · generalize hq : (if ((t.data_offset : Int) + pid * (t.row_size : Int)) < 0 then t else _) = q
      have hl := ensure_del_size_length q (pid + 1)
      generalize (q.ensure_del_size (pid + 1)) = w at hl
      have hd : (w.set_del_flag pid 0).del = writeAt w.del pid.toNat [0] := by
        simp [set_del_flag, hp]
      have hlen : (w.set_del_flag pid 0).del.length = w.del.length := by
        rw [hd, writeAt_length]
        simp only [List.length_singleton]
        omega
      have he : (w.set_del_flag pid 0).ensure_del_size (pid + 1) = w.set_del_flag pid 0 := by
        unfold ensure_del_size
        rw [if_pos]
        rw [hlen]
        exact hl
      have hg : (w.set_del_flag pid 0).del[pid.toNat]? = some 0 := by
        rw [hd]
        exact writeAt_getElem _ _ _ (by omega)
      simp only [IsDeleted, he, hp, if_false, hg]
      simp

end GenericFixedTable

end gft

namespace gft

theorem layout_width (cs : List ColMetaDisk) : ∀ (start total : Nat),
    layout_ok cs start total = true → ∀ c ∈ cs, width_ok c = true := by
  induction cs with
  | nil => intro _ _ _ c hc; simp at hc
  | cons c cs ih =>
    intro s t h c2 hc2
    simp only [layout_ok, Bool.and_eq_true] at h
    rcases List.mem_cons.1 hc2 with e | e
    · subst e; exact h.1.2
    · exact ih _ _ h.2 c2 e

/-- A value tagged INT32 is packed only into an INT32 column, as its 4 bytes. -/
theorem pack_col_int (c : ColMetaDisk) (i : Int) (bytes : List Nat)
    (h : pack_col c (Value.Int i) = some bytes) :
    c.type = ColType.INT32 ∧ bytes = int32_bytes i := by
  unfold pack_col at h
  cases hc : c.type with
  | INT32 =>
    simp only [hc, Value.Int] at h
    simp at h
    exact ⟨Eq.refl _, h.symm⟩
  | FLOAT32 => simp [hc, Value.Int] at h
  | CHAR => simp [hc, Value.Int] at h

namespace GenericFixedTable

theorem Count_congr (t t2 : GenericFixedTable) (h1 : t2.cols = t.cols)
    (h2 : t2.row_size = t.row_size) (h3 : t2.file.length = t.file.length) :
    t2.Count = t.Count := by
  simp only [Count, data_offset, h1, h2, h3]

/-- The row that `WriteRowInDisk` stores at a page id below `Count`. -/
theorem WriteRowInDisk_readback (t t2 : GenericFixedTable) (n : Nat) (row : List Value)
    (hs : t.SchemaOk) (hc : (n : Int) < t.Count)
    (h : t.WriteRowInDisk n row = (true, t2)) :
    t2.cols = t.cols ∧ t2.row_size = t.row_size ∧ t2.file.length = t.file.length ∧
    ∃ out, pack_row t.cols row (List.replicate t.row_size 0) = some out ∧
      out.length = t.row_size ∧
      readAt t2.file (t.data_offset + n * t.row_size) t.row_size = out := by
  have hin := row_in_file t n hc
  unfold WriteRowInDisk at h
  split_ifs at h
  · simp at h
  split at h
  · simp at h
  · rename_i out hout
    simp only [Prod.mk.injEq, true_and] at h
    obtain ⟨hl, -, -⟩ := pack_row_spec t.cols row _ out 0 t.row_size hs (by simp) hout
    have hoff : ¬ ((t.data_offset : Int) + (n : Int) * (t.row_size : Int) < 0) := by
      have := Int.mul_nonneg (Int.ofNat_nonneg n) (Int.ofNat_nonneg t.row_size)
      have := Int.ofNat_nonneg t.data_offset
      omega
    have htn : ((t.data_offset : Int) + (n : Int) * (t.row_size : Int)).toNat
        = t.data_offset + n * t.row_size := by
      have : ((t.data_offset : Int) + (n : Int) * (t.row_size : Int))
          = ((t.data_offset + n * t.row_size : Nat) : Int) := by push_cast; ring
      rw [this, Int.toNat_ofNat]
    rw [if_neg hoff, htn] at h
    have htake : out.take t.row_size = out := by
      rw [List.take_of_length_le (by omega)]
    rw [htake] at h
    generalize hq : ({ t with file := writeAt t.file (t.data_offset + n * t.row_size) out }
      : GenericFixedTable) = q at h
    have s1 := ensure_del_size_same q ((n : Int) + 1)
    have s2 := set_del_flag_same (q.ensure_del_size ((n : Int) + 1)) n 0
    have s3 := Same.trans s1 s2
    rw [h] at s3
    obtain ⟨c1, c2, c3⟩ := s3
    subst hq
    simp only at c1 c2 c3
    refine ⟨c1, c2, ?_, out, hout, hl, ?_⟩
    · rw [c3, writeAt_length _ _ _ (by omega)]
    · rw [c3, ← hl]
      have := readAt_writeAt t.file (t.data_offset + n * out.length) out (by rw [hl]; omega)
      exact this

end GenericFixedTable

end gft

namespace gft

theorem writeAt_length_max (buf : List Nat) (off : Nat) (bytes : List Nat) :
    (writeAt buf off bytes).length = max buf.length (off + bytes.length) := by
  simp only [writeAt, List.length_append, List.length_take, List.length_replicate,
    List.length_drop]
  omega

theorem readAt_writeAt_any (buf : List Nat) (off : Nat) (bytes : List Nat) :
    readAt (writeAt buf off bytes) off bytes.length = bytes := by
  have h2 : (buf.take off ++ List.replicate (off - buf.length) 0).length = off := by
    simp only [List.length_append, List.length_take, List.length_replicate]
    omega
  simp only [readAt, writeAt, List.append_assoc]
  rw [← List.append_assoc, List.drop_append_of_le_length (by omega),
    List.drop_of_length_le (by omega)]
  simp

/-- Bytes outside the written range are not changed by `writeAt`. -/
theorem readAt_writeAt_other (buf : List Nat) (off : Nat) (bytes : List Nat) (o len : Nat)
    (hin : off + bytes.length ≤ buf.length)
    (h : o + len ≤ off ∨ off + bytes.length ≤ o) :
    readAt (writeAt buf off bytes) o len = readAt buf o len := by
  have h1 : off - buf.length = 0 := by omega
  apply List.ext_getElem?
  intro i
  simp only [readAt, writeAt, h1, List.replicate_zero, List.append_nil, List.append_assoc]
  by_cases hi : i < len
  · rw [List.getElem?_take_of_lt hi, List.getElem?_take_of_lt hi, List.getElem?_drop,
      List.getElem?_drop]
    rcases h with h | h
    · rw [List.getElem?_append_left (by simp; omega), List.getElem?_take_of_lt (by omega)]
    · rw [List.getElem?_append_right (by simp; omega),
        List.getElem?_append_right (by simp; omega), List.getElem?_drop]
      congr 1
      simp only [List.length_take]
      omega
  · rw [List.getElem?_eq_none (by simp; omega), List.getElem?_eq_none (by simp; omega)]

theorem word_of_le32 (u : Nat) (h : u < 4294967296) : word_of_bytes (le32 u) = u := by
  simp only [word_of_bytes, le32, List.getD_cons_zero, List.getD_cons_succ]
  omega

theorem int32_of_int32_bytes (i : Int) (h1 : -2147483648 ≤ i) (h2 : i < 2147483648) :
    int32_of_bytes (int32_bytes i) = i := by
  have hu : (i % 4294967296).toNat < 4294967296 := by omega
  simp only [int32_of_bytes, int32_bytes, word_of_le32 _ hu]
  split_ifs <;> omega

theorem readAt_zero_length (bs : List Nat) : readAt bs 0 bs.length = bs := by
  simp [readAt]

theorem readAt_of_ge (bs : List Nat) (n : Nat) (h : bs.length ≤ n) : readAt bs 0 n = bs := by
  simp [readAt, List.take_of_length_le h]

theorem row_valid_length : ∀ (cs : List ColMetaDisk) (vs : List Value),
    row_valid cs vs = true → vs.length = cs.length
  | [], [], _ => rfl
  | [], _ :: _, h => by simp [row_valid] at h
  | _ :: _, [], h => by simp [row_valid] at h
  | c :: cs, v :: vs, h => by
    simp only [row_valid, Bool.and_eq_true] at h
    simp [row_valid_length cs vs h.2]

/-- `pack_row` accepts exactly the valid rows, when the row has `ncols` values. -/
theorem pack_row_isSome : ∀ (cs : List ColMetaDisk) (vs : List Value) (buf : List Nat),
    vs.length = cs.length → ((pack_row cs vs buf).isSome = row_valid cs vs)
  | [], [], _, _ => rfl
  | [], _ :: _, _, h => by simp at h
  | _ :: _, [], _, h => by simp at h
  | c :: cs, v :: vs, buf, h => by
    have hl : vs.length = cs.length := by simpa using h
    simp only [pack_row, row_valid]
    by_cases ht : v.t = c.type
    · have hp : ∃ bytes, pack_col c v = some bytes := by
        unfold pack_col
        cases hc : c.type <;> simp [hc, ht]
      obtain ⟨bytes, hb⟩ := hp
      simp only [hb, ht, decide_True, Bool.true_and]
      exact pack_row_isSome cs vs _ hl
    · have hp : pack_col c v = none := by
        unfold pack_col
        cases hc : c.type <;> simp [hc] <;> intro h2 <;> exact ht (by rw [h2, hc])
      simp [hp, ht]

end gft

namespace gft

theorem getD_append_zeros (l : List Nat) (k q : Nat) :
    (l ++ List.replicate k 0).getD q 0 = l.getD q 0 := by
  simp only [List.getD_eq_getElem?_getD]
  by_cases h : q < l.length
  · rw [List.getElem?_append_left h]
  · have e1 : l[q]? = none := List.getElem?_eq_none (by omega)
    rw [List.getElem?_append_right (by omega), e1, List.getElem?_replicate]
    split_ifs <;> rfl

theorem getD_writeAt_ne (l : List Nat) (n b q : Nat) (hn : n < l.length) (hq : q ≠ n) :
    (writeAt l n [b]).getD q 0 = l.getD q 0 := by
  have h1 : n - l.length = 0 := by omega
  simp only [List.getD_eq_getElem?_getD, writeAt, h1, List.replicate_zero, List.append_nil,
    List.append_assoc, List.length_singleton]
  congr 1
  by_cases h : q < n
  · rw [List.getElem?_append_left (by simp; omega), List.getElem?_take_of_lt h]
  · rw [List.getElem?_append_right (by simp; omega),
      List.getElem?_append_right (by simp; omega), List.getElem?_drop]
    congr 1
    simp only [List.length_take, List.length_singleton]
    omega

theorem getD_writeAt_self (l : List Nat) (n b : Nat) (hn : n ≤ l.length) :
    (writeAt l n [b]).getD n 0 = b := by
  rw [List.getD_eq_getElem?_getD, writeAt_getElem l n b hn]
  rfl

namespace GenericFixedTable

theorem ensure_del_size_getD (t : GenericFixedTable) (m : Int) (q : Nat) :
    (t.ensure_del_size m).del.getD q 0 = t.del.getD q 0 := by
  unfold ensure_del_size
  split_ifs
  · rfl
  · exact getD_append_zeros _ _ _

/-- The answer of `IsDeleted` is whether the tombstone byte of the page (0 when the
sidecar is shorter) is non-zero. -/
theorem IsDeleted_eq (t : GenericFixedTable) (q : Int) :
    (t.IsDeleted q).1 = (decide (0 ≤ q) && (t.del.getD q.toNat 0 != 0)) := by
  unfold IsDeleted
  by_cases hq : q < 0
  · simp only [hq, if_true]
    have : ¬ (0 ≤ q) := by omega
    simp [this]
  · have h0 : 0 ≤ q := by omega
    simp only [hq, if_false]
    have hl := ensure_del_size_length t (q + 1)
    have hg := ensure_del_size_getD t (q + 1) q.toNat
    have hlt : q.toNat < (t.ensure_del_size (q + 1)).del.length := by omega
    rw [List.getElem?_eq_getElem hlt]
    simp only [h0, decide_True, Bool.true_and]
    rw [← hg, List.getD_eq_getElem _ _ hlt]

theorem set_del_flag_getD_ne (t : GenericFixedTable) (p : Int) (b q : Nat)
    (hl : p + 1 ≤ (t.del.length : Int)) (hq : (q : Int) ≠ p) :
    (t.set_del_flag p b).del.getD q 0 = t.del.getD q 0 := by
  unfold set_del_flag
  split_ifs with hp
  · rfl
  · exact getD_writeAt_ne _ _ _ _ (by omega) (by omega)

theorem set_del_flag_getD_self (t : GenericFixedTable) (p : Int) (b : Nat) (hp : 0 ≤ p)
    (hl : p + 1 ≤ (t.del.length : Int)) :
    (t.set_del_flag p b).del.getD p.toNat 0 = b := by
  unfold set_del_flag
  rw [if_neg (by omega)]
  exact getD_writeAt_self _ _ _ (by omega)

theorem Count_eq_div (t : GenericFixedTable) :
    t.Count = (((t.file.length - t.data_offset) / t.row_size : Nat) : Int) := by
  unfold Count
  split_ifs with h
  · have : t.file.length - t.data_offset = 0 := by omega
    simp [this]
  · rfl

theorem row_size_pos (t : GenericFixedTable) (hs : t.SchemaOk) (hne : t.cols ≠ []) :
    0 < t.row_size := by
  unfold SchemaOk at hs
  cases hc : t.cols with
  | nil => exact absurd hc hne
  | cons c cs =>
    rw [hc] at hs
    simp only [layout_ok, Bool.and_eq_true, beq_iff_eq] at hs
    have h1 := layout_le cs _ _ hs.2
    have h2 : 1 ≤ c.width := by
      have := hs.1.2
      unfold width_ok at this
      cases hty : c.type <;> simp [hty] at this <;> omega
    omega

theorem div_max_mul (a m r : Nat) (hr : 0 < r) : (max a (m * r)) / r = max (a / r) m := by
  rcases Nat.le_total a (m * r) with h | h
  · rw [Nat.max_eq_right h, Nat.mul_div_cancel _ hr]
    have := Nat.div_le_div_right (c := r) h
    rw [Nat.mul_div_cancel _ hr] at this
    omega
  · rw [Nat.max_eq_left h]
    have := (Nat.le_div_iff_mul_le hr).2 h
    omega

end GenericFixedTable

end gft

namespace gft

namespace GenericFixedTable

/-- The table after `WriteRowInDisk` has written the packed row `out` at page `n`. -/
theorem WriteRowInDisk_eq (t : GenericFixedTable) (n : Nat) (row : List Value) (out : List Nat)
    (hl : row.length = t.cols.length)
    (hp : pack_row t.cols row (List.replicate t.row_size 0) = some out)
    (ho : out.length = t.row_size) :
    t.WriteRowInDisk n row = (true,
      (({ t with file := writeAt t.file (t.data_offset + n * t.row_size) out }
        : GenericFixedTable).ensure_del_size ((n : Int) + 1)).set_del_flag n 0) := by
  have hoff : ¬ ((t.data_offset : Int) + (n : Int) * (t.row_size : Int) < 0) := by
    have := Int.mul_nonneg (Int.ofNat_nonneg n) (Int.ofNat_nonneg t.row_size)
    have := Int.ofNat_nonneg t.data_offset
    omega
  have htn : ((t.data_offset : Int) + (n : Int) * (t.row_size : Int)).toNat
      = t.data_offset + n * t.row_size := by
    have : ((t.data_offset : Int) + (n : Int) * (t.row_size : Int))
        = ((t.data_offset + n * t.row_size : Nat) : Int) := by push_cast; ring
    rw [this, Int.toNat_ofNat]
  have htake : out.take t.row_size = out := List.take_of_length_le (by omega)
  unfold WriteRowInDisk
  rw [if_neg (by simp [hl])]
  simp only [hp, if_neg hoff, htn, htake]

/-- Outcome of `WriteRowInDisk` for a valid row at a page id `n ≥ 0`, in range or
not: it returns, the packed row is written at `data_offset + n * row_size` and the
tombstone byte of `n` is set to 0. -/
theorem WriteRowInDisk_valid (t : GenericFixedTable) (n : Nat) (row : List Value)
    (hs : t.SchemaOk) (hv : row_valid t.cols row = true) :
    ∃ out, pack_row t.cols row (List.replicate t.row_size 0) = some out ∧
      out.length = t.row_size ∧
      (t.WriteRowInDisk n row).1 = true ∧
      (t.WriteRowInDisk n row).2.cols = t.cols ∧
      (t.WriteRowInDisk n row).2.row_size = t.row_size ∧
      (t.WriteRowInDisk n row).2.file = writeAt t.file (t.data_offset + n * t.row_size) out ∧
      ∀ q : Nat, (t.WriteRowInDisk n row).2.del.getD q 0 = if q = n then 0 else t.del.getD q 0 := by
  have hl := row_valid_length _ _ hv
  have hsome := pack_row_isSome t.cols row (List.replicate t.row_size 0) hl
  rw [hv] at hsome
  obtain ⟨out, hout⟩ := Option.isSome_iff_exists.1 hsome
  obtain ⟨ho, -, -⟩ := pack_row_spec t.cols row _ out 0 t.row_size hs (by simp) hout
  rw [WriteRowInDisk_eq t n row out hl hout ho]
  refine ⟨out, hout, ho, rfl, ?_, ?_, ?_, ?_⟩
  · exact (Same.trans (ensure_del_size_same _ _) (set_del_flag_same _ _ _)).1
  · exact (Same.trans (ensure_del_size_same _ _) (set_del_flag_same _ _ _)).2.1
  · exact (Same.trans (ensure_del_size_same _ _) (set_del_flag_same _ _ _)).2.2
  · intro q
    simp only
    generalize hw : ({ t with file := writeAt t.file (t.data_offset + n * t.row_size) out }
      : GenericFixedTable) = w
    have hwd : w.del = t.del := by subst hw; rfl
    have hlen := ensure_del_size_length w ((n : Int) + 1)
    split_ifs with hq
    · subst hq
      have := set_del_flag_getD_self (w.ensure_del_size ((q : Int) + 1)) q 0 (by omega) hlen
      simpa using this
    · rw [set_del_flag_getD_ne _ _ _ _ hlen (by omega), ensure_del_size_getD, hwd]

/-- `Count` after a write at page `n ≥ 0`: unchanged in range, `n + 1` beyond. -/
theorem Count_after_write (t t2 : GenericFixedTable) (n : Nat) (out : List Nat)
    (hrs : 0 < t.row_size) (ho : out.length = t.row_size)
    (h1 : t2.cols = t.cols) (h2 : t2.row_size = t.row_size)
    (h3 : t2.file = writeAt t.file (t.data_offset + n * t.row_size) out) :
    t2.Count = max t.Count ((n : Int) + 1) := by
  rw [Count_eq_div, Count_eq_div]
  have hd : t2.data_offset = t.data_offset := by simp only [data_offset, h1]
  rw [hd, h2, h3, writeAt_length_max, ho]
  have e : max t.file.length (t.data_offset + n * t.row_size + t.row_size) - t.data_offset
      = max (t.file.length - t.data_offset) ((n + 1) * t.row_size) := by
    have : (n + 1) * t.row_size = n * t.row_size + t.row_size := by ring
    omega
  rw [e, div_max_mul _ _ _ hrs]
  push_cast
  rfl

/-- Reading the page that `WriteRowInDisk` has just written gives back the unpacked
bytes of the packed row. -/
theorem ReadRowByPageID_after_write (t : GenericFixedTable) (n : Nat) (row : List Value)
    (hs : t.SchemaOk) (hne : t.cols ≠ []) (hv : row_valid t.cols row = true) :
    ∃ out, pack_row t.cols row (List.replicate t.row_size 0) = some out ∧
      ((t.WriteRowInDisk n row).2.ReadRowByPageID n).1 = some (unpack_row t.cols out) := by
  obtain ⟨out, hout, ho, -, c1, c2, c3, c4⟩ := WriteRowInDisk_valid t n row hs hv
  have hrs := row_size_pos t hs hne
  have hcnt := Count_after_write t _ n out hrs ho c1 c2 c3
  refine ⟨out, hout, ?_⟩
  generalize (t.WriteRowInDisk n row).2 = t2 at c1 c2 c3 c4 hcnt
  have hdel : (t2.IsDeleted n).1 = false := by
    rw [IsDeleted_eq, Int.toNat_ofNat, c4 n]
    simp
  have hfile := (IsDeleted_same t2 (n : Int)).2.2
  have hdo : t2.data_offset = t.data_offset := by simp only [data_offset, c1]
  unfold ReadRowByPageID
  simp only
  rw [if_neg (by rw [hcnt]; omega), if_neg (by rw [hdel]; simp), hfile, Int.toNat_ofNat,
    hdo, c2, c3, ← ho, readAt_writeAt_any, if_neg (by omega), c1]

end GenericFixedTable

end gft

namespace gft

namespace GenericFixedTable

/-- What `ReadRowByPageID` returns, in one formula. -/
theorem ReadRowByPageID_eq (t : GenericFixedTable) (p : Int) :
    (t.ReadRowByPageID p).1 =
      if p < 0 ∨ p ≥ t.Count ∨ t.del.getD p.toNat 0 ≠ 0 then none
      else some (unpack_row t.cols
        (readAt t.file (t.data_offset + p.toNat * t.row_size) t.row_size)) := by
  unfold ReadRowByPageID
  simp only
  by_cases h1 : p < 0 ∨ p ≥ t.Count
  · rw [if_pos h1, if_pos (by rcases h1 with h | h; exact Or.inl h; exact Or.inr (Or.inl h))]
  · rw [if_neg h1]
    have h0 : 0 ≤ p := by omega
    have hc : p < t.Count := by omega
    have hdel := IsDeleted_eq t p
    simp only [h0, decide_True, Bool.true_and] at hdel
    have hfile := (IsDeleted_same t p).2.2
    by_cases h2 : t.del.getD p.toNat 0 = 0
    · have hd : (t.IsDeleted p).1 = false := by rw [hdel, h2]; rfl
      have hR : ¬ (p < 0 ∨ p ≥ t.Count ∨ t.del.getD p.toNat 0 ≠ 0) := by
        rintro (h | h | h)
        · omega
        · omega
        · exact h h2
      obtain ⟨n, hn⟩ := Int.eq_ofNat_of_zero_le h0
      subst hn
      have hin := row_in_file t n hc
      have hlen : ¬ (readAt t.file (t.data_offset + n * t.row_size) t.row_size).length
          < t.row_size := by
        simp only [readAt, List.length_take, List.length_drop]
        omega
      rw [if_neg hR, if_neg (by rw [hd]; simp), hfile, Int.toNat_ofNat, if_neg hlen]
    · have hd : (t.IsDeleted p).1 = true := by
        rw [hdel]
        simpa using h2
      rw [if_pos hd, if_pos (Or.inr (Or.inr h2))]

theorem ReadRowByPageID_congr (t t2 : GenericFixedTable) (p : Int) (h1 : t2.cols = t.cols)
    (h2 : t2.row_size = t.row_size) (h3 : t2.file.length = t.file.length)
    (h4 : readAt t2.file (t.data_offset + p.toNat * t.row_size) t.row_size
      = readAt t.file (t.data_offset + p.toNat * t.row_size) t.row_size)
    (h5 : t2.del.getD p.toNat 0 = t.del.getD p.toNat 0) :
    (t2.ReadRowByPageID p).1 = (t.ReadRowByPageID p).1 := by
  have hd : t2.data_offset = t.data_offset := by simp only [data_offset, h1]
  rw [ReadRowByPageID_eq, ReadRowByPageID_eq, Count_congr t t2 h1 h2 h3, h1, h2, hd, h4, h5]

/-- Outcome of `AppendRow` for a valid row: the page id is the old `Count`, the packed
row is written there and the tombstone byte of the new page is 0. -/
theorem AppendRow_valid (t : GenericFixedTable) (row : List Value)
    (hs : t.SchemaOk) (hv : row_valid t.cols row = true) :
    ∃ (n : Nat) (out : List Nat), t.Count = (n : Int) ∧
      pack_row t.cols row (List.replicate t.row_size 0) = some out ∧
      out.length = t.row_size ∧
      (t.AppendRow row).1 = some (n : Int) ∧
      (t.AppendRow row).2.cols = t.cols ∧
      (t.AppendRow row).2.row_size = t.row_size ∧
      (t.AppendRow row).2.file = writeAt t.file (t.data_offset + n * t.row_size) out ∧
      ∀ q : Nat, (t.AppendRow row).2.del.getD q 0 = if q = n then 0 else t.del.getD q 0 := by
  have hn := Count_eq_div t
  generalize (t.file.length - t.data_offset) / t.row_size = n at hn
  obtain ⟨out, hout, ho, w1, c1, c2, c3, c4⟩ := WriteRowInDisk_valid t n row hs hv
  refine ⟨n, out, hn, hout, ho, ?_⟩
  unfold AppendRow
  simp only [hn, w1, if_true]
  generalize (t.WriteRowInDisk n row).2 = w at c1 c2 c3 c4
  have s := Same.trans (ensure_del_size_same w ((n : Int) + 1))
    (set_del_flag_same (w.ensure_del_size ((n : Int) + 1)) n 0)
  refine ⟨trivial, s.1.trans c1, s.2.1.trans c2, s.2.2.trans c3, ?_⟩
  intro q
  have hlen := ensure_del_size_length w ((n : Int) + 1)
  split_ifs with hq
  · subst hq
    have := set_del_flag_getD_self (w.ensure_del_size ((q : Int) + 1)) q 0 (by omega) hlen
    simpa using this
  · rw [set_del_flag_getD_ne _ _ _ _ hlen (by omega), ensure_del_size_getD, c4 q, if_neg hq]

theorem MarkDeleted_same (t : GenericFixedTable) (p : Int) : Same t (t.MarkDeleted p) :=
  Same.trans (ensure_del_size_same t _) (set_del_flag_same _ _ _)

theorem SchemaOk_of_same (t t2 : GenericFixedTable) (h : Same t t2) (hs : t.SchemaOk) :
    t2.SchemaOk := by
  unfold SchemaOk at hs ⊢
  rw [h.1, h.2.1]
  exact hs

theorem Count_of_same (t t2 : GenericFixedTable) (h : Same t t2) : t2.Count = t.Count :=
  Count_congr t t2 h.1 h.2.1 (by rw [h.2.2])

end GenericFixedTable

theorem row_valid_of_mismatch : ∀ (cs : List ColMetaDisk) (vs : List Value),
    (vs.length ≠ cs.length ∨
      ∃ (i : Nat) (c : ColMetaDisk) (v : Value), cs[i]? = some c ∧ vs[i]? = some v ∧ v.t ≠ c.type) →
    row_valid cs vs = false
  | [], [], h => by
    rcases h with h | ⟨i, c, v, h1, -, -⟩
    · exact absurd rfl h
    · simp at h1
  | [], _ :: _, _ => rfl
  | _ :: _, [], _ => rfl
  | c :: cs, v :: vs, h => by
    simp only [row_valid, Bool.and_eq_false_iff, decide_eq_false_iff_not]
    rcases h with h | ⟨i, c2, v2, h1, h2, h3⟩
    · right
      exact row_valid_of_mismatch cs vs (Or.inl (by simpa using h))
    · cases i with
      | zero =>
        simp only [List.getElem?_cons_zero, Option.some.injEq] at h1 h2
        subst h1 h2
        exact Or.inl h3
      | succ i =>
        simp only [List.getElem?_cons_succ] at h1 h2
        exact Or.inr (row_valid_of_mismatch cs vs (Or.inr ⟨i, c2, v2, h1, h2, h3⟩))

end gft

namespace gft

namespace GenericFixedTable

/-- C13: `ReadRowByPageID(p)` returns absent exactly when `p < 0`, `p >= Count()` or
the tombstone byte of `p` is non-zero (a byte the sidecar does not have yet counts
as 0); in every other case it returns the row unpacked from the `row_size` bytes at
`data_offset + p * row_size`; and after `MarkDeleted(p)` it returns absent. -/
theorem ReadRowByPageID_absent_iff (t : GenericFixedTable) (p : Int) :
    ((t.ReadRowByPageID p).1 = none ↔
      (p < 0 ∨ p ≥ t.Count ∨ t.del.getD p.toNat 0 ≠ 0)) ∧
    (¬ (p < 0 ∨ p ≥ t.Count ∨ t.del.getD p.toNat 0 ≠ 0) →
      (t.ReadRowByPageID p).1 = some (unpack_row t.cols
        (readAt t.file (t.data_offset + p.toNat * t.row_size) t.row_size))) ∧
    ((t.MarkDeleted p).ReadRowByPageID p).1 = none := by
  refine ⟨?_, ?_, ?_⟩
  · rw [ReadRowByPageID_eq]
    constructor
    · intro h
      by_contra hc
      rw [if_neg hc] at h
      exact absurd h (by simp)
    · intro h
      rw [if_pos h]
  · intro h
    rw [ReadRowByPageID_eq, if_neg h]
  · rw [ReadRowByPageID_eq]
    apply if_pos
    by_cases hp : p < 0
    · exact Or.inl hp
    · right; right
      have hl := ensure_del_size_length t (p + 1)
      have := set_del_flag_getD_self (t.ensure_del_size (p + 1)) p 1 (by omega) hl
      unfold MarkDeleted
      rw [this]
      decide

/-- C14: for a row valid under the schema (`init_schema` layout, at least one
column) `AppendRow` returns the page id `Count()` of before the call and `Count()`
grows by exactly one; the same holds after any `MarkDeleted(p)`, which does not
change `Count()`: the new page id is never one that was handed out before. -/
theorem AppendRow_page_id (t : GenericFixedTable) (row : List Value)
    (hs : t.SchemaOk) (hne : t.cols ≠ []) (hv : row_valid t.cols row = true) :
    (t.AppendRow row).1 = some t.Count ∧ (t.AppendRow row).2.Count = t.Count + 1 ∧
    ∀ p : Int, (t.MarkDeleted p).Count = t.Count ∧
      ((t.MarkDeleted p).AppendRow row).1 = some t.Count ∧
      ((t.MarkDeleted p).AppendRow row).2.Count = t.Count + 1 := by
  have key : ∀ u : GenericFixedTable, u.SchemaOk → u.cols = t.cols →
      (u.AppendRow row).1 = some u.Count ∧ (u.AppendRow row).2.Count = u.Count + 1 := by
    intro u hu hc
    obtain ⟨n, out, hn, -, ho, a1, c1, c2, c3, -⟩ :=
      AppendRow_valid u row hu (by rw [hc]; exact hv)
    have hrs := row_size_pos u hu (by rw [hc]; exact hne)
    have := Count_after_write u _ n out hrs ho c1 c2 c3
    rw [hn] at this ⊢
    exact ⟨a1, by rw [this]; omega⟩
  refine ⟨(key t hs rfl).1, (key t hs rfl).2, ?_⟩
  intro p
  have hsame := MarkDeleted_same t p
  have hc := Count_of_same _ _ hsame
  have := key (t.MarkDeleted p) (SchemaOk_of_same _ _ hsame hs) hsame.1
  rw [hc] at this
  exact ⟨hc, this⟩

set_option maxRecDepth 100000 in
/-- Instance of C14: appending `(4, 30)` to the sample table after `MarkDeleted(1)`. -/
theorem AppendRow_page_id_witness :
    (minidb.exTable.MarkDeleted 1).SchemaOk ∧ (minidb.exTable.MarkDeleted 1).cols ≠ [] ∧
    ((minidb.exTable.MarkDeleted 1).AppendRow [Value.Int 4, Value.Int 30]).1
      = some (minidb.exTable.MarkDeleted 1).Count ∧ (minidb.exTable.MarkDeleted 1).Count = 3 :=
  ⟨rfl, by decide,
    (AppendRow_page_id (minidb.exTable.MarkDeleted 1) [Value.Int 4, Value.Int 30]
      rfl (by decide) (by decide)).1, by decide⟩

set_option maxRecDepth 100000 in
/-- C15, as stated, fails: on the sample table (`Count() = 3`) `WriteRowInDisk` with a
valid row returns normally for the page ids 5, 3 and -1; for page id 5 `Count()`
becomes 6 and the sidecar grows to 6 bytes. -/
theorem WriteRowInDisk_accepts_out_of_range :
    minidb.exTable.Count = 3 ∧
    (minidb.exTable.WriteRowInDisk 5 [Value.Int 9, Value.Int 9]).1 = true ∧
    (minidb.exTable.WriteRowInDisk 5 [Value.Int 9, Value.Int 9]).2.Count = 6 ∧
    (minidb.exTable.WriteRowInDisk 5 [Value.Int 9, Value.Int 9]).2.del = [0, 0, 0, 0, 0, 0] ∧
    (minidb.exTable.WriteRowInDisk 3 [Value.Int 9, Value.Int 9]).1 = true ∧
    (minidb.exTable.WriteRowInDisk 3 [Value.Int 9, Value.Int 9]).2.Count = 4 ∧
    (minidb.exTable.WriteRowInDisk (-1) [Value.Int 9, Value.Int 9]).1 = true := by
  decide

/-- C15 (amended): `WriteRowInDisk(page_id, row)` does not check `page_id` against
`Count()`.  For a valid row and a page id `n >= 0` it returns normally, writes the
packed row at `data_offset + n * row_size` and sets the tombstone byte of `n` to 0:
`Count()` is unchanged when `n < Count()` and becomes `n + 1` otherwise, and the row
is readable at `n`.  The call fails only for an invalid row, and then the table is
left as it was. -/
theorem WriteRowInDisk_positional (t : GenericFixedTable) (n : Nat) (row : List Value)
    (hs : t.SchemaOk) (hne : t.cols ≠ []) (hv : row_valid t.cols row = true) :
    (t.WriteRowInDisk n row).1 = true ∧
    (t.WriteRowInDisk n row).2.Count = max t.Count ((n : Int) + 1) ∧
    ((t.WriteRowInDisk n row).2.IsDeleted n).1 = false ∧
    (∃ out, pack_row t.cols row (List.replicate t.row_size 0) = some out ∧
      (t.WriteRowInDisk n row).2.file = writeAt t.file (t.data_offset + n * t.row_size) out ∧
      ((t.WriteRowInDisk n row).2.ReadRowByPageID n).1 = some (unpack_row t.cols out)) ∧
    ∀ (pid : Int) (bad : List Value), row_valid t.cols bad = false →
      t.WriteRowInDisk pid bad = (false, t) := by
  obtain ⟨out, hout, ho, w1, c1, c2, c3, c4⟩ := WriteRowInDisk_valid t n row hs hv
  have hrs := row_size_pos t hs hne
  obtain ⟨out2, hout2, hread⟩ := ReadRowByPageID_after_write t n row hs hne hv
  have he : out2 = out := by
    rw [hout] at hout2
    exact (Option.some.inj hout2).symm
  subst he
  refine ⟨w1, Count_after_write t _ n out2 hrs ho c1 c2 c3, ?_, ⟨out2, hout, c3, hread⟩, ?_⟩
  · rw [IsDeleted_eq, Int.toNat_ofNat, c4 n]
    simp
  · intro pid bad hbad
    unfold WriteRowInDisk
    by_cases hl : bad.length = t.cols.length
    · have := pack_row_isSome t.cols bad (List.replicate t.row_size 0) hl
      rw [hbad] at this
      have hnone : pack_row t.cols bad (List.replicate t.row_size 0) = none := by
        cases hp : pack_row t.cols bad (List.replicate t.row_size 0) with
        | none => rfl
        | some x => rw [hp] at this; simp at this
      rw [if_neg (by simp [hl])]
      simp only [hnone]
    · rw [if_pos hl]

set_option maxRecDepth 100000 in
/-- Instance of C15 (amended): writing `(9, 9)` at page 5 of the sample table. -/
theorem WriteRowInDisk_positional_witness :
    minidb.exTable.SchemaOk ∧ minidb.exTable.cols ≠ [] ∧
    (minidb.exTable.WriteRowInDisk (5 : Nat) [Value.Int 9, Value.Int 9]).2.Count
      = max minidb.exTable.Count (((5 : Nat) : Int) + 1) :=
  ⟨rfl, by decide,
    (WriteRowInDisk_positional minidb.exTable 5 [Value.Int 9, Value.Int 9]
      rfl (by decide) (by decide)).2.1⟩

/-- C16: `AppendRow(row)` fails when `row.size() != ncols` or when some value's tag
differs from its column's type, and then the table after the call is the table
before it: the table bytes, `Count()` and the tombstone bytes are unchanged. -/
theorem AppendRow_rejects_invalid_row (t : GenericFixedTable) (row : List Value)
    (h : row.length ≠ t.cols.length ∨
      ∃ (i : Nat) (c : ColMetaDisk) (v : Value),
        t.cols[i]? = some c ∧ row[i]? = some v ∧ v.t ≠ c.type) :
    (t.AppendRow row).1 = none ∧ (t.AppendRow row).2 = t ∧
    (t.AppendRow row).2.file = t.file ∧ (t.AppendRow row).2.Count = t.Count ∧
    (t.AppendRow row).2.del = t.del := by
  have hbad := row_valid_of_mismatch t.cols row h
  have hw : t.WriteRowInDisk t.Count row = (false, t) := by
    unfold WriteRowInDisk
    by_cases hl : row.length = t.cols.length
    · have := pack_row_isSome t.cols row (List.replicate t.row_size 0) hl
      rw [hbad] at this
      have hnone : pack_row t.cols row (List.replicate t.row_size 0) = none := by
        cases hp : pack_row t.cols row (List.replicate t.row_size 0) with
        | none => rfl
        | some x => rw [hp] at this; simp at this
      rw [if_neg (by simp [hl])]
      simp only [hnone]
    · rw [if_pos hl]
  have ha : t.AppendRow row = (none, t) := by
    unfold AppendRow
    simp only [hw]
    rfl
  rw [ha]
  exact ⟨rfl, rfl, rfl, rfl, rfl⟩

set_option maxRecDepth 100000 in
/-- Instance of C16: a row with a CHAR value for the INT32 column `qty`. -/
theorem AppendRow_rejects_invalid_row_witness :
    (minidb.exTable.AppendRow [Value.Int 4, Value.Chr [97]]).1 = none ∧
    (minidb.exTable.AppendRow [Value.Int 4, Value.Chr [97]]).2 = minidb.exTable :=
  ⟨(AppendRow_rejects_invalid_row minidb.exTable [Value.Int 4, Value.Chr [97]]
      (Or.inr ⟨1, { name := "qty", type := .INT32, width := 4, offset := 4 }, Value.Chr [97],
        by decide, by decide, by decide⟩)).1,
   (AppendRow_rejects_invalid_row minidb.exTable [Value.Int 4, Value.Chr [97]]
      (Or.inr ⟨1, { name := "qty", type := .INT32, width := 4, offset := 4 }, Value.Chr [97],
        by decide, by decide, by decide⟩)).2.1⟩

end GenericFixedTable

end gft

namespace gft

theorem takeWhile_append_zeros : ∀ (s : List Nat) (m : Nat), (∀ b ∈ s, b ≠ 0) →
    (s ++ List.replicate m 0).takeWhile (fun b => b != 0) = s
  | [], 0, _ => rfl
  | [], _ + 1, _ => by simp [List.replicate_succ]
  | a :: s, m, h => by
    have ha : a ≠ 0 := h a (List.mem_cons_self _ _)
    have ih := takeWhile_append_zeros s m (fun b hb => h b (List.mem_cons_of_mem _ hb))
    simp only [List.cons_append, List.takeWhile_cons, bne_iff_ne, ne_eq, ha, not_false_eq_true,
      if_true, ih]

theorem rdropWhile_append_zeros (s : List Nat) (m : Nat)
    (h : ∀ b, s.getLast? = some b → b ≠ 0) :
    strip_trailing_nuls (s ++ List.replicate m 0) = s := by
  unfold strip_trailing_nuls
  induction m with
  | zero =>
    simp only [List.replicate_zero, List.append_nil]
    rcases List.eq_nil_or_concat s with hs | ⟨l, b, hs⟩
    · subst hs; rfl
    · subst hs
      have hb : b ≠ 0 := h b (by simp)
      rw [List.concat_eq_append, List.rdropWhile_concat]
      simp [hb]
  | succ m ih =>
    have : s ++ List.replicate (m + 1) 0 = (s ++ List.replicate m 0) ++ [0] := by
      rw [List.replicate_succ', List.append_assoc]
    rw [this, List.rdropWhile_concat]
    simpa using ih

theorem storable_type (c : ColMetaDisk) (v : Value) (h : storable c v = true) :
    v.t = c.type := by
  unfold storable at h
  simp only [Bool.and_eq_true, decide_eq_true_eq] at h
  exact h.1

/-- The bytes a CHAR column stores for the string `s`: the first
`min (length s) (width - 1)` bytes of `s`, padded with NULs to the width. -/
theorem pack_col_char (c : ColMetaDisk) (v : Value) (bytes : List Nat)
    (hc : c.type = ColType.CHAR) (hp : pack_col c v = some bytes) :
    bytes = v.s.take (min v.s.length (c.width - 1)) ++
      List.replicate (c.width - min v.s.length (c.width - 1)) 0 := by
  unfold pack_col at hp
  simp only [hc] at hp
  split_ifs at hp
  simp only [Option.some.injEq] at hp
  exact hp.symm

/-- Reading back a stored value: a value its column stores without loss is read back
as the same value. -/
theorem unpack_pack_col (c : ColMetaDisk) (v : Value) (bytes src : List Nat)
    (hw : width_ok c = true) (hp : pack_col c v = some bytes)
    (hr : readAt src c.offset c.width = bytes) (hst : storable c v = true)
    (hwf : v.wf = true) : same_value (unpack_col c src) v = true := by
  have ht := storable_type c v hst
  unfold Value.wf at hwf
  simp only [Bool.and_eq_true, decide_eq_true_eq] at hwf
  obtain ⟨⟨⟨i1, i2⟩, f1⟩, -⟩ := hwf
  cases hc : c.type with
  | INT32 =>
    have hwd : c.width = 4 := by simpa [width_ok, hc] using hw
    have hb : bytes = int32_bytes v.i := by
      unfold pack_col at hp
      simp only [hc] at hp
      split_ifs at hp
      simp only [Option.some.injEq] at hp
      exact hp.symm
    rw [hwd, hb] at hr
    simp only [unpack_col, hc, hr, int32_of_int32_bytes v.i i1 i2, same_value, Value.Int, ht,
      decide_True, Bool.and_self]
  | FLOAT32 =>
    have hwd : c.width = 4 := by simpa [width_ok, hc] using hw
    have hb : bytes = le32 v.f := by
      unfold pack_col at hp
      simp only [hc] at hp
      split_ifs at hp
      simp only [Option.some.injEq] at hp
      exact hp.symm
    rw [hwd, hb] at hr
    simp only [unpack_col, hc, hr, word_of_le32 v.f f1, same_value, Value.Flt, ht,
      decide_True, Bool.and_self]
  | CHAR =>
    have hb := pack_col_char c v bytes hc hp
    unfold storable at hst
    simp only [hc, Bool.and_eq_true, decide_eq_true_eq, List.all_eq_true, bne_iff_ne,
      ne_eq] at hst
    obtain ⟨-, hlen, hnul⟩ := hst
    have hk : min v.s.length (c.width - 1) = v.s.length := by omega
    rw [hk, List.take_length] at hb
    rw [hb] at hr
    simp only [unpack_col, hc, hr, takeWhile_append_zeros v.s _ hnul, same_value, Value.Chr, ht,
      decide_True, Bool.and_self]

theorem same_row_of_index : ∀ (xs ys : List Value), xs.length = ys.length →
    (∀ (i : Nat) (a b : Value), xs[i]? = some a → ys[i]? = some b → same_value a b = true) →
    same_row xs ys = true
  | [], [], _, _ => rfl
  | [], _ :: _, h, _ => by simp at h
  | _ :: _, [], h, _ => by simp at h
  | a :: xs, b :: ys, h, hi => by
    simp only [same_row, Bool.and_eq_true]
    refine ⟨hi 0 a b (by simp) (by simp), same_row_of_index xs ys (by simpa using h) ?_⟩
    intro i x y hx hy
    exact hi (i + 1) x y (by simpa using hx) (by simpa using hy)

theorem row_storable_valid : ∀ (cs : List ColMetaDisk) (vs : List Value),
    row_storable cs vs = true → row_valid cs vs = true
  | [], [], _ => rfl
  | [], _ :: _, h => by simp [row_storable] at h
  | _ :: _, [], h => by simp [row_storable] at h
  | c :: cs, v :: vs, h => by
    simp only [row_storable, Bool.and_eq_true] at h
    simp only [row_valid, Bool.and_eq_true, decide_eq_true_eq]
    exact ⟨storable_type c v h.1, row_storable_valid cs vs h.2⟩

theorem row_storable_index : ∀ (cs : List ColMetaDisk) (vs : List Value),
    row_storable cs vs = true → ∀ (i : Nat) (c : ColMetaDisk) (v : Value),
      cs[i]? = some c → vs[i]? = some v → storable c v = true
  | [], [], _, i, c, v, hc, _ => by simp at hc
  | [], _ :: _, h, _, _, _, _, _ => by simp [row_storable] at h
  | _ :: _, [], h, _, _, _, _, _ => by simp [row_storable] at h
  | c0 :: cs, v0 :: vs, h, i, c, v, hc, hv => by
    simp only [row_storable, Bool.and_eq_true] at h
    cases i with
    | zero =>
      simp only [List.getElem?_cons_zero, Option.some.injEq] at hc hv
      subst hc hv
      exact h.1
    | succ i =>
      simp only [List.getElem?_cons_succ] at hc hv
      exact row_storable_index cs vs h.2 i c v hc hv

/-- Unpacking a packed row gives back the row, value by value, when every value is
stored without loss. -/
theorem unpack_pack_row (cols : List ColMetaDisk) (row : List Value) (out : List Nat)
    (total : Nat) (hlay : layout_ok cols 0 total = true)
    (hp : pack_row cols row (List.replicate total 0) = some out)
    (hst : row_storable cols row = true) (hwf : ∀ v ∈ row, v.wf = true) :
    same_row (unpack_row cols out) row = true := by
  have hl := row_valid_length _ _ (row_storable_valid _ _ hst)
  obtain ⟨-, -, hcol⟩ := pack_row_spec cols row _ out 0 total hlay (by simp) hp
  apply same_row_of_index
  · simp [unpack_row, hl]
  · intro i a b ha hb
    simp only [unpack_row, List.getElem?_map, Option.map_eq_some'] at ha
    obtain ⟨c, hc, hca⟩ := ha
    subst hca
    obtain ⟨bytes, hbytes, hread⟩ := hcol i c b hc hb
    have hw := layout_width cols 0 total hlay c (List.getElem?_mem hc)
    exact unpack_pack_col c b bytes out hw hbytes hread
      (row_storable_index cols row hst i c b hc hb) (hwf b (List.getElem?_mem hb))

end gft

namespace gft

namespace GenericFixedTable

set_option maxRecDepth 100000 in
/-- C11, as stated, fails: in a table `(name CHAR(4))` the row `("abcd")` is valid
(one CHAR value of byte length 4 <= 4) but `AppendRow` followed by
`ReadRowByPageID(Count() - 1)` returns `("abc")`; the valid row with the bytes
`97, 0, 98` is read back as `("a")`. -/
theorem AppendRow_read_back_differs :
    row_valid minidb.exCharEmpty.cols [Value.Chr [97, 98, 99, 100]] = true ∧
    ((minidb.exCharEmpty.AppendRow [Value.Chr [97, 98, 99, 100]]).2.ReadRowByPageID
      ((minidb.exCharEmpty.AppendRow [Value.Chr [97, 98, 99, 100]]).2.Count - 1)).1
      = some [Value.Chr [97, 98, 99]] ∧
    row_valid minidb.exCharEmpty.cols [Value.Chr [97, 0, 98]] = true ∧
    ((minidb.exCharEmpty.AppendRow [Value.Chr [97, 0, 98]]).2.ReadRowByPageID
      ((minidb.exCharEmpty.AppendRow [Value.Chr [97, 0, 98]]).2.Count - 1)).1
      = some [Value.Chr [97]] := by
  decide

/-- C11 (amended): for every schema laid out by `init_schema` and every row whose
values carry their column's type and whose CHAR values are shorter than the column's
width and contain no NUL byte, `AppendRow(r)` followed by
`ReadRowByPageID(Count() - 1)` returns `r`, value by value. -/
theorem AppendRow_read_back (t : GenericFixedTable) (row : List Value)
    (hs : t.SchemaOk) (hne : t.cols ≠ []) (hst : row_storable t.cols row = true)
    (hwf : ∀ v ∈ row, v.wf = true) :
    ∃ r2, ((t.AppendRow row).2.ReadRowByPageID ((t.AppendRow row).2.Count - 1)).1 = some r2 ∧
      same_row r2 row = true := by
  have hv := row_storable_valid _ _ hst
  obtain ⟨n, out, hn, hout, ho, -, c1, c2, c3, c4⟩ := AppendRow_valid t row hs hv
  have hrs := row_size_pos t hs hne
  have hcnt := Count_after_write t _ n out hrs ho c1 c2 c3
  rw [hn] at hcnt
  have hc2 : (t.AppendRow row).2.Count = (n : Int) + 1 := by rw [hcnt]; omega
  refine ⟨unpack_row t.cols out, ?_, unpack_pack_row t.cols row out t.row_size hs hout hst hwf⟩
  have hdo : (t.AppendRow row).2.data_offset = t.data_offset := by simp only [data_offset, c1]
  rw [hc2, ReadRowByPageID_eq, hc2]
  have e : (n : Int) + 1 - 1 = (n : Int) := by omega
  rw [e, Int.toNat_ofNat, c4 n, if_neg (by simp), c1, c2, c3, hdo, ← ho, readAt_writeAt_any]

set_option maxRecDepth 100000 in
/-- Instance of C11 (amended): the row `("ab")` in the table `(name CHAR(4))`. -/
theorem AppendRow_read_back_witness :
    minidb.exCharEmpty.SchemaOk ∧ minidb.exCharEmpty.cols ≠ [] ∧
    row_storable minidb.exCharEmpty.cols [Value.Chr [97, 98]] = true ∧
    ∃ r2, ((minidb.exCharEmpty.AppendRow [Value.Chr [97, 98]]).2.ReadRowByPageID
        ((minidb.exCharEmpty.AppendRow [Value.Chr [97, 98]]).2.Count - 1)).1 = some r2 ∧
      same_row r2 [Value.Chr [97, 98]] = true :=
  ⟨rfl, by decide, by decide,
    AppendRow_read_back minidb.exCharEmpty [Value.Chr [97, 98]] rfl (by decide) (by decide)
      (by decide)⟩

end GenericFixedTable

set_option maxRecDepth 100000 in
/-- C12, as stated, fails: in a CHAR(4) column the string with the bytes `97, 0, 98`
(length 3 < 4) is stored as `97, 0, 98, 0` and read back as `97`, which is neither
the string nor the stored field without its trailing NULs. -/
theorem char_round_trip_fails_with_nul :
    pack_row minidb.exCharEmpty.cols [Value.Chr [97, 0, 98]] (List.replicate 4 0)
      = some [97, 0, 98, 0] ∧
    unpack_row minidb.exCharEmpty.cols [97, 0, 98, 0] = [Value.Chr [97]] ∧
    strip_trailing_nuls [97, 0, 98, 0] = [97, 0, 98] := by
  decide

/-- C12 (amended): for a CHAR(n) column and a string `s` of byte length `k` that has
no NUL byte, written by `pack_row` and read by `unpack_row`: if `k < n` the value read
back is `s`; if `k >= n` the stored field is the first `n - 1` bytes of `s` followed
by one NUL; in both cases the value read back is the stored field without its
trailing NULs. -/
theorem char_round_trip (cols : List ColMetaDisk) (row : List Value) (out : List Nat)
    (total i : Nat) (c : ColMetaDisk) (v : Value)
    (hlay : layout_ok cols 0 total = true)
    (hp : pack_row cols row (List.replicate total 0) = some out)
    (hc : cols[i]? = some c) (hv : row[i]? = some v) (hty : c.type = ColType.CHAR)
    (hnul : ∀ b ∈ v.s, b ≠ 0) :
    (v.s.length < c.width → (unpack_row cols out)[i]? = some (Value.Chr v.s)) ∧
    (c.width ≤ v.s.length → readAt out c.offset c.width = v.s.take (c.width - 1) ++ [0]) ∧
    (unpack_row cols out)[i]? =
      some (Value.Chr (strip_trailing_nuls (readAt out c.offset c.width))) := by
  obtain ⟨-, -, hcol⟩ := pack_row_spec cols row _ out 0 total hlay (by simp) hp
  obtain ⟨bytes, hbytes, hread⟩ := hcol i c v hc hv
  have hw := layout_width cols 0 total hlay c (List.getElem?_mem hc)
  have hw1 : 1 ≤ c.width := by simpa [width_ok, hty] using hw
  have hb := pack_col_char c v bytes hty hbytes
  rw [← hread] at hb
  have hnul2 : ∀ b ∈ v.s.take (min v.s.length (c.width - 1)), b ≠ 0 :=
    fun b hb2 => hnul b (List.mem_of_mem_take hb2)
  have hun : (unpack_row cols out)[i]? =
      some (Value.Chr (v.s.take (min v.s.length (c.width - 1)))) := by
    simp only [unpack_row, List.getElem?_map, hc, Option.map_some', unpack_col, hty, hb,
      takeWhile_append_zeros _ _ hnul2]
  have hstrip : strip_trailing_nuls (readAt out c.offset c.width)
      = v.s.take (min v.s.length (c.width - 1)) := by
    rw [hb]
    apply rdropWhile_append_zeros
    intro b hlast
    exact hnul2 b (List.mem_of_getLast?_eq_some hlast)
  refine ⟨?_, ?_, ?_⟩
  · intro hk
    have hk2 : min v.s.length (c.width - 1) = v.s.length := by omega
    rw [hun, hk2, List.take_length]
  · intro hk
    have hk2 : min v.s.length (c.width - 1) = c.width - 1 := by omega
    have hk3 : c.width - (c.width - 1) = 1 := by omega
    rw [hb, hk2, hk3]
    rfl
  · rw [hun, hstrip]

set_option maxRecDepth 100000 in
/-- Instance of C12 (amended): the string `"abcd"` in a CHAR(4) column. -/
theorem char_round_trip_witness :
    layout_ok minidb.exCharEmpty.cols 0 4 = true ∧
    pack_row minidb.exCharEmpty.cols [Value.Chr [97, 98, 99, 100]] (List.replicate 4 0)
      = some [97, 98, 99, 0] ∧
    (unpack_row minidb.exCharEmpty.cols [97, 98, 99, 0])[0]? =
      some (Value.Chr (strip_trailing_nuls (readAt [97, 98, 99, 0] 0 4))) :=
  ⟨by decide, by decide,
    (char_round_trip minidb.exCharEmpty.cols [Value.Chr [97, 98, 99, 100]] [97, 98, 99, 0] 4 0
      { name := "name", type := .CHAR, width := 4, offset := 0 } (Value.Chr [97, 98, 99, 100])
      (by decide) (by decide) (by decide) (by decide) rfl (by decide)).2.2⟩

end gft

namespace gft

namespace GenericFixedTable

theorem SameRows.refl_rows (t : GenericFixedTable) : SameRows t t :=
  ⟨Eq.refl _, Eq.refl _, Eq.refl _, fun _ => Eq.refl _⟩

theorem SameRows.trans_rows {a b c : GenericFixedTable} (h1 : SameRows a b) (h2 : SameRows b c) :
    SameRows a c :=
  ⟨h2.1.trans h1.1, h2.2.1.trans h1.2.1, h2.2.2.1.trans h1.2.2.1,
    fun q => (h2.2.2.2 q).trans (h1.2.2.2 q)⟩

theorem SameRows.same {a b : GenericFixedTable} (h : SameRows a b) : Same a b :=
  ⟨h.1, h.2.1, h.2.2.1⟩

theorem ensure_del_size_sameRows (t : GenericFixedTable) (n : Int) :
    SameRows t (t.ensure_del_size n) :=
  ⟨(ensure_del_size_same t n).1, (ensure_del_size_same t n).2.1, (ensure_del_size_same t n).2.2,
    fun q => ensure_del_size_getD t n q⟩

theorem IsDeleted_sameRows (t : GenericFixedTable) (pid : Int) : SameRows t (t.IsDeleted pid).2 := by
  unfold IsDeleted
  simp only
  split_ifs
  · exact ensure_del_size_sameRows t _
  · split <;> exact ensure_del_size_sameRows t _

theorem ReadRowByPageID_sameRows (t : GenericFixedTable) (pid : Int) :
    SameRows t (t.ReadRowByPageID pid).2 := by
  unfold ReadRowByPageID
  simp only
  split_ifs
  · exact SameRows.refl_rows t
  · exact IsDeleted_sameRows t pid
  · exact IsDeleted_sameRows t pid
  · exact IsDeleted_sameRows t pid

theorem ReadInt_sameRows (t : GenericFixedTable) (pid : Int) (col : String) :
    SameRows t (t.ReadInt pid col).2 := by
  unfold ReadInt
  split
  · exact SameRows.refl_rows t
  · split_ifs
    · exact SameRows.refl_rows t
    · simp only
      split <;> exact ReadRowByPageID_sameRows t pid

theorem ReadFloat_sameRows (t : GenericFixedTable) (pid : Int) (col : String) :
    SameRows t (t.ReadFloat pid col).2 := by
  unfold ReadFloat
  split
  · exact SameRows.refl_rows t
  · split_ifs
    · exact SameRows.refl_rows t
    · simp only
      split <;> exact ReadRowByPageID_sameRows t pid

theorem ReadChar_sameRows (t : GenericFixedTable) (pid : Int) (col : String) :
    SameRows t (t.ReadChar pid col).2 := by
  unfold ReadChar
  split
  · exact SameRows.refl_rows t
  · split_ifs
    · exact SameRows.refl_rows t
    · simp only
      split <;> exact ReadRowByPageID_sameRows t pid

/-- Equivalent table states answer every read alike. -/
theorem SameRows.read {t t2 : GenericFixedTable} (h : SameRows t t2) (q : Int) :
    (t2.ReadRowByPageID q).1 = (t.ReadRowByPageID q).1 :=
  ReadRowByPageID_congr t t2 q h.1 h.2.1 (by rw [h.2.2.1]) (by rw [h.2.2.1]) (h.2.2.2 _)

theorem SameRows.col_index {t t2 : GenericFixedTable} (h : SameRows t t2) (c : String) :
    t2.col_index c = t.col_index c := by
  simp only [GenericFixedTable.col_index, h.1]

/-- What `ReadInt` returns, in one formula. -/
theorem ReadInt_eq (t : GenericFixedTable) (p : Int) (col : String) :
    (t.ReadInt p col).1 =
      match t.col_index col with
      | none => none
      | some i =>
        if (t.cols.get? i).map (fun c => c.type) ≠ some ColType.INT32 then none
        else (t.ReadRowByPageID p).1.map (fun row => (row.getD i default).i) := by
  unfold ReadInt
  cases t.col_index col with
  | none => rfl
  | some i =>
    show (if (t.cols.get? i).map (fun c => c.type) ≠ some ColType.INT32 then (none, t)
      else
        match (t.ReadRowByPageID p).1 with
        | none => (none, (t.ReadRowByPageID p).2)
        | some row => (some (row.getD i default).i, (t.ReadRowByPageID p).2)).1 =
      if (t.cols.get? i).map (fun c => c.type) ≠ some ColType.INT32 then none
        else (t.ReadRowByPageID p).1.map (fun row => (row.getD i default).i)
    split_ifs
    · rfl
    · cases (t.ReadRowByPageID p).1 <;> rfl

theorem SameRows.readInt {t t2 : GenericFixedTable} (h : SameRows t t2) (p : Int)
    (col : String) : (t2.ReadInt p col).1 = (t.ReadInt p col).1 := by
  rw [ReadInt_eq, ReadInt_eq, h.col_index, h.1, h.read]

theorem SameRows.schemaOk {t t2 : GenericFixedTable} (h : SameRows t t2) (hs : t.SchemaOk) :
    t2.SchemaOk := SchemaOk_of_same t t2 h.same hs

theorem SameRows.count {t t2 : GenericFixedTable} (h : SameRows t t2) : t2.Count = t.Count :=
  Count_of_same t t2 h.same

/-- An overwrite of a page in range leaves every other page as it was. -/
theorem WriteRowInDisk_frame (t : GenericFixedTable) (n : Nat) (row : List Value)
    (hs : t.SchemaOk) (hv : row_valid t.cols row = true) (hn : (n : Int) < t.Count)
    (q : Int) (hq : q ≠ (n : Int)) :
    ((t.WriteRowInDisk n row).2.ReadRowByPageID q).1 = (t.ReadRowByPageID q).1 := by
  obtain ⟨out, -, ho, -, c1, c2, c3, c4⟩ := WriteRowInDisk_valid t n row hs hv
  have hin := row_in_file t n hn
  have hlen : (t.WriteRowInDisk n row).2.file.length = t.file.length := by
    rw [c3, writeAt_length_max, ho]
    omega
  by_cases hr : q < 0 ∨ q ≥ t.Count
  · rw [ReadRowByPageID_eq, ReadRowByPageID_eq, Count_congr t _ c1 c2 hlen]
    have h1 : q < 0 ∨ q ≥ t.Count ∨ (t.WriteRowInDisk n row).2.del.getD q.toNat 0 ≠ 0 := by
      rcases hr with h | h
      · exact Or.inl h
      · exact Or.inr (Or.inl h)
    have h2 : q < 0 ∨ q ≥ t.Count ∨ t.del.getD q.toNat 0 ≠ 0 := by
      rcases hr with h | h
      · exact Or.inl h
      · exact Or.inr (Or.inl h)
    rw [if_pos h1, if_pos h2]
  · have h0 : 0 ≤ q := by omega
    obtain ⟨m, hm⟩ := Int.eq_ofNat_of_zero_le h0
    subst hm
    have hmn : m ≠ n := fun e => hq (by rw [e])
    have hmc : (m : Int) < t.Count := by omega
    have hin2 := row_in_file t m hmc
    apply ReadRowByPageID_congr t _ _ c1 c2 hlen
    · rw [c3, Int.toNat_ofNat]
      apply readAt_writeAt_other
      · omega
      · rw [ho]
        rcases Nat.lt_or_gt_of_ne hmn with h | h
        · left
          have := Nat.mul_le_mul_right t.row_size (Nat.succ_le_of_lt h)
          have e : (m + 1) * t.row_size = m * t.row_size + t.row_size := by ring
          have e2 : m.succ = m + 1 := rfl
          rw [e2, e] at this
          omega
        · right
          have := Nat.mul_le_mul_right t.row_size (Nat.succ_le_of_lt h)
          have e : (n + 1) * t.row_size = n * t.row_size + t.row_size := by ring
          have e2 : n.succ = n + 1 := rfl
          rw [e2, e] at this
          omega
    · rw [Int.toNat_ofNat, c4 m, if_neg hmn]

end GenericFixedTable

end gft

namespace gft

namespace GenericFixedTable

/-- What `ReadFloat` returns, in one formula. -/
theorem ReadFloat_eq (t : GenericFixedTable) (p : Int) (col : String) :
    (t.ReadFloat p col).1 =
      match t.col_index col with
      | none => none
      | some i =>
        if (t.cols.get? i).map (fun c => c.type) ≠ some ColType.FLOAT32 then none
        else (t.ReadRowByPageID p).1.map (fun row => (row.getD i default).f) := by
  unfold ReadFloat
  split
  · rfl
  · split_ifs
    · rfl
    · simp only
      split <;> simp_all

/-- What `ReadChar` returns, in one formula. -/
theorem ReadChar_eq (t : GenericFixedTable) (p : Int) (col : String) :
    (t.ReadChar p col).1 =
      match t.col_index col with
      | none => none
      | some i =>
        if (t.cols.get? i).map (fun c => c.type) ≠ some ColType.CHAR then none
        else (t.ReadRowByPageID p).1.map (fun row => (row.getD i default).s) := by
  unfold ReadChar
  split
  · rfl
  · split_ifs
    · rfl
    · simp only
      split <;> simp_all

theorem SameRows.readFloat {t t2 : GenericFixedTable} (h : SameRows t t2) (p : Int)
    (col : String) : (t2.ReadFloat p col).1 = (t.ReadFloat p col).1 := by
  rw [ReadFloat_eq, ReadFloat_eq, h.col_index, h.1, h.read]

theorem SameRows.readChar {t t2 : GenericFixedTable} (h : SameRows t t2) (p : Int)
    (col : String) : (t2.ReadChar p col).1 = (t.ReadChar p col).1 := by
  rw [ReadChar_eq, ReadChar_eq, h.col_index, h.1, h.read]

end GenericFixedTable

end gft

namespace minidb

open gft diskbtree gft.GenericFixedTable

theorem remove_from_indexes_same (pid : Int) (idxs : List (String × DiskBTree Int)) :
    ∀ tbl : GenericFixedTable, Same tbl (remove_from_indexes pid tbl idxs).2 := by
  induction idxs with
  | nil => intro tbl; exact Same.rfl tbl
  | cons p rest ih =>
    intro tbl
    obtain ⟨col, idx⟩ := p
    simp only [remove_from_indexes]
    exact Same.trans (ReadInt_same tbl pid col) (ih _)

theorem remove_from_indexes_of_same {K : Type} [LinearOrder K]
    (get : String → GenericFixedTable → Int → Option K × GenericFixedTable)
    (hget : ∀ col t p, Same t (get col t p).2) (pid : Int)
    (idxs : List (String × DiskBTree K)) :
    ∀ tbl : GenericFixedTable, Same tbl (remove_from_indexes_of get pid tbl idxs).2 := by
  induction idxs with
  | nil => intro tbl; exact Same.rfl tbl
  | cons p rest ih =>
    intro tbl
    obtain ⟨col, idx⟩ := p
    simp only [remove_from_indexes_of]
    exact Same.trans (hget col tbl pid) (ih _)

variable {F : Type} [LinearOrder F] (of_bits : Nat → F)

/-- What a successful `borrar_por_pageid` did: it read a row at a page id below
`Count` and wrote it back with the `id` field, when there is one, set to `-1`. -/
theorem borrar_por_pageid_some (ti ti2 : TablaInfo F) (pid : Int)
    (h : borrar_por_pageid of_bits ti pid = some (true, ti2)) :
    ∃ (n : Nat) (row : List Value) (t1 : GenericFixedTable),
      pid = (n : Int) ∧ (n : Int) < ti.tabla.Count ∧ row.length = ti.tabla.cols.length ∧
      Same ti.tabla t1 ∧
      t1.WriteRowInDisk pid
        (match ti.tabla.col_index "id" with
         | some i => row.set i (Value.Int (-1))
         | none => row) = (true, ti2.tabla) := by
  unfold borrar_por_pageid at h
  simp only at h
  split at h
  · simp at h
  · rename_i row hrow
    split_ifs at h with hg hw1
    · simp at h
    · have s1 := ReadRowByPageID_same ti.tabla pid
      have hci : (ti.tabla.ReadRowByPageID pid).2.col_index "id" = ti.tabla.col_index "id" := by
        simp only [col_index, s1.1]
      rw [hci] at h hw1
      simp only [Option.some.injEq, Prod.mk.injEq, true_and] at h
      subst h
      obtain ⟨h0, h1, h2⟩ := ReadRowByPageID_some _ _ _ hrow
      obtain ⟨n, hn⟩ := Int.eq_ofNat_of_zero_le h0
      have s2 := remove_from_indexes_same pid ti.idx_int (ti.tabla.ReadRowByPageID pid).2
      have s3 := remove_from_indexes_of_same (get_float of_bits)
        (fun col t p => ReadFloat_same t p col) pid ti.idx_float
        (remove_from_indexes pid (ti.tabla.ReadRowByPageID pid).2 ti.idx_int).2
      have s4 := remove_from_indexes_of_same get_char
        (fun col t p => ReadChar_same t p col) pid ti.idx_char
        (remove_from_indexes_of (get_float of_bits) pid
          (remove_from_indexes pid (ti.tabla.ReadRowByPageID pid).2 ti.idx_int).2 ti.idx_float).2
      refine ⟨n, row, _, hn, by rw [← hn]; exact h1, ?_,
        Same.trans s1 (Same.trans s2 (Same.trans s3 s4)), Prod.ext hw1 rfl⟩
      rw [h2]
      simp [unpack_row]

end minidb

namespace minidb

open gft diskbtree gft.GenericFixedTable

set_option maxRecDepth 100000 in
/-- C4, as stated, fails: on the sample table (three appended rows, index on `qty`)
`borrar_por_pageid` succeeds on the live row 0 and afterwards the tombstone byte of
row 0 is still 0, so `IsDeleted(0)` is false, while the stored `id` is `-1`. -/
theorem borrar_por_pageid_leaves_tombstone_zero :
    append_all exEmpty exRows = some exTable ∧
    run 8 [Op.insert 10 0, Op.insert 10 1, Op.insert 20 2] = some exIndex ∧
    (exTable.IsDeleted 0).1 = false ∧
    (exTable.ReadRowByPageID 0).1 = some [Value.Int 1, Value.Int 10] ∧
    borrar_por_pageid exOfBits exIndexed 0 = some (true, exDeleted) ∧
    exDeleted.tabla.del = [0, 0, 0] ∧ (exDeleted.tabla.IsDeleted 0).1 = false ∧
    (exDeleted.tabla.ReadRowByPageID 0).1 = some [Value.Int (-1), Value.Int 10] :=
  ⟨by decide, rfl, by decide, by decide, rfl, rfl, by decide, by decide⟩

/-- C4 (amended): after `borrar_por_pageid` succeeds on a row of a table whose schema
is laid out as `init_schema` does, the tombstone byte of the row is 0 (`IsDeleted`
is false, because `WriteRowInDisk` resets it) and, when the table has an `id` column,
the row read back has `id = -1`: deletion is signalled by the id marker alone. -/
theorem borrar_por_pageid_marks_id_only {F : Type} [LinearOrder F] (of_bits : Nat → F)
    (ti ti2 : TablaInfo F) (pid : Int)
    (hs : ti.tabla.SchemaOk) (h : borrar_por_pageid of_bits ti pid = some (true, ti2)) :
    (ti2.tabla.IsDeleted pid).1 = false ∧
    ∀ i, ti.tabla.col_index "id" = some i →
      ∃ row, (ti2.tabla.ReadRowByPageID pid).1 = some row ∧ (row.getD i default).i = -1 := by
  obtain ⟨n, row, t1, hn, hcnt, hlen, hsame, hw⟩ := borrar_por_pageid_some of_bits ti ti2 pid h
  subst hn
  have hlive := WriteRowInDisk_live _ _ _ _ hw
  refine ⟨hlive, ?_⟩
  intro i hi
  rw [hi] at hw
  simp only at hw
  have hs1 : t1.SchemaOk := by
    unfold SchemaOk at hs ⊢
    rw [hsame.1, hsame.2.1]; exact hs
  have hc1 : (n : Int) < t1.Count := by
    rw [Count_congr ti.tabla t1 hsame.1 hsame.2.1 (by rw [hsame.2.2])]; exact hcnt
  obtain ⟨e1, e2, e3, out, hpack, hol, hread⟩ :=
    WriteRowInDisk_readback t1 ti2.tabla n _ hs1 hc1 hw
  obtain ⟨hil, -, -⟩ := List.findIdx?_eq_some_iff_getElem.1 hi
  have hci : t1.cols[i]? = some (ti.tabla.cols[i]) := by
    rw [hsame.1]; exact List.getElem?_eq_getElem hil
  have hvi : (row.set i (Value.Int (-1)))[i]? = some (Value.Int (-1)) := by
    rw [List.getElem?_set_self (by omega)]
  obtain ⟨-, -, hcol⟩ := pack_row_spec t1.cols _ _ out 0 t1.row_size hs1 (by simp) hpack
  obtain ⟨bytes, hb, hrb⟩ := hcol i _ _ hci hvi
  obtain ⟨hty, hbytes⟩ := pack_col_int _ _ _ hb
  have hwd : (ti.tabla.cols[i]).width = 4 := by
    have := layout_width _ _ _ hs _ (List.getElem_mem hil)
    simpa [width_ok, hty] using this
  have hc2 : ti2.tabla.Count = t1.Count := Count_congr t1 ti2.tabla e1 e2 e3
  have hdo : ti2.tabla.data_offset = t1.data_offset := by simp only [data_offset, e1]
  have hfile := (IsDeleted_same ti2.tabla (n : Int)).2.2
  have hrow : (ti2.tabla.ReadRowByPageID (n : Int)).1 = some (unpack_row ti2.tabla.cols out) := by
    unfold ReadRowByPageID
    simp only
    rw [if_neg (by rw [hc2]; omega), if_neg (by rw [hlive]; simp), hfile, Int.toNat_ofNat,
      hdo, e2, hread, if_neg (by omega)]
  refine ⟨_, hrow, ?_⟩
  have hget : (unpack_row ti2.tabla.cols out).getD i default
      = unpack_col (ti.tabla.cols[i]) out := by
    rw [e1, hsame.1]
    simp [unpack_row, List.getD_eq_getElem?_getD, List.getElem?_eq_getElem hil]
  rw [hget]
  simp only [unpack_col, hty, Value.Int]
  rw [hwd] at hrb
  rw [hrb, hbytes]
  decide

set_option maxRecDepth 100000 in
/-- Instance of C4 (amended): deleting row 0 of the sample table. -/
theorem borrar_por_pageid_marks_id_only_witness :
    exIndexed.tabla.SchemaOk ∧ borrar_por_pageid exOfBits exIndexed 0 = some (true, exDeleted) ∧
    ((exDeleted.tabla.IsDeleted 0).1 = false ∧
      ∀ i, exIndexed.tabla.col_index "id" = some i →
        ∃ row, (exDeleted.tabla.ReadRowByPageID 0).1 = some row ∧ (row.getD i default).i = -1) :=
  ⟨rfl, rfl, borrar_por_pageid_marks_id_only exOfBits exIndexed exDeleted 0 rfl rfl⟩

end minidb

namespace sqlmini

open gft diskbtree minidb gft.GenericFixedTable

set_option maxRecDepth 100000 in
/-- C2 (the code at a failing input): on the sample table `(1, 10)`, `(2, 10)`,
`(3, 20)`, all rows live, the live rows with `qty == 10` are rows 0 and 1 and the
scan path prints both, but with an index on `qty` the point probe yields one page id
and SELECT prints only `(1, 10)`; for `qty == 20 OR id == 1` the live rows that
satisfy the expression are rows 0 and 2 and the scan path prints both, but the index
path probes `qty == 20` alone and prints only `(3, 20)`. -/
theorem cmd_SELECT_index_path_misses_rows :
    append_all exEmpty exRows = some exTable ∧
    run 8 [Op.insert 10 0, Op.insert 10 1, Op.insert 20 2] = some exIndex ∧
    live_rows_where exTable [0, 1] (fun row => decide ((row.getD 1 default).i = 10))
      = [[Value.Int 1, Value.Int 10], [Value.Int 2, Value.Int 10]] ∧
    (cmd_SELECT exOfBits exProbe exFcmp exPlain (some [0, 1]) (some exWhereEq)).map (fun r => r.1)
      = some [[Value.Int 1, Value.Int 10], [Value.Int 2, Value.Int 10]] ∧
    (cmd_SELECT exOfBits exProbe exFcmp exIndexed (some [0, 1]) (some exWhereEq)).map (fun r => r.1)
      = some [[Value.Int 1, Value.Int 10]] ∧
    live_rows_where exTable [0, 1]
        (fun row => decide ((row.getD 1 default).i = 20 ∨ (row.getD 0 default).i = 1))
      = [[Value.Int 1, Value.Int 10], [Value.Int 3, Value.Int 20]] ∧
    (cmd_SELECT exOfBits exProbe exFcmp exPlain (some [0, 1]) (some exWhereOr)).map (fun r => r.1)
      = some [[Value.Int 1, Value.Int 10], [Value.Int 3, Value.Int 20]] ∧
    (cmd_SELECT exOfBits exProbe exFcmp exIndexed (some [0, 1]) (some exWhereOr)).map (fun r => r.1)
      = some [[Value.Int 3, Value.Int 20]] :=
  ⟨by decide, rfl, by decide, by decide, by decide, by decide, by decide, by decide⟩

end sqlmini

namespace gft

/-- The INT32 field read back from a packed row is the value that was packed. -/
theorem unpack_int_field (cols : List ColMetaDisk) (row : List Value) (out : List Nat)
    (total i : Nat) (c : ColMetaDisk) (v : Value)
    (hlay : layout_ok cols 0 total = true)
    (hp : pack_row cols row (List.replicate total 0) = some out)
    (hc : cols[i]? = some c) (hv : row[i]? = some v) (hty : c.type = ColType.INT32)
    (h1 : -2147483648 ≤ v.i) (h2 : v.i < 2147483648) :
    ((unpack_row cols out).getD i default).i = v.i := by
  obtain ⟨-, -, hcol⟩ := pack_row_spec cols row _ out 0 total hlay (by simp) hp
  obtain ⟨bytes, hbytes, hread⟩ := hcol i c v hc hv
  have hw := layout_width cols 0 total hlay c (List.getElem?_mem hc)
  have hwd : c.width = 4 := by simpa [width_ok, hty] using hw
  have hb : bytes = int32_bytes v.i := by
    unfold pack_col at hbytes
    simp only [hty] at hbytes
    split_ifs at hbytes
    simp only [Option.some.injEq] at hbytes
    exact hbytes.symm
  rw [hwd, hb] at hread
  simp only [unpack_row, List.getD_eq_getElem?_getD, List.getElem?_map, hc, Option.map_some',
    Option.getD_some, unpack_col, hty, hread, int32_of_int32_bytes v.i h1 h2, Value.Int]

namespace GenericFixedTable

/-- The row appended by `AppendRow` is readable at the page id it returns. -/
theorem AppendRow_read (t : GenericFixedTable) (row : List Value)
    (hs : t.SchemaOk) (hne : t.cols ≠ []) (hv : row_valid t.cols row = true) :
    ∃ (n : Nat) (out : List Nat), t.Count = (n : Int) ∧
      pack_row t.cols row (List.replicate t.row_size 0) = some out ∧
      (t.AppendRow row).1 = some (n : Int) ∧
      SchemaOk (t.AppendRow row).2 ∧ (t.AppendRow row).2.cols = t.cols ∧
      ((t.AppendRow row).2.ReadRowByPageID n).1 = some (unpack_row t.cols out) := by
  obtain ⟨n, out, hn, hout, ho, a1, c1, c2, c3, c4⟩ := AppendRow_valid t row hs hv
  have hrs := row_size_pos t hs hne
  have hcnt := Count_after_write t _ n out hrs ho c1 c2 c3
  rw [hn] at hcnt
  have hc2 : (t.AppendRow row).2.Count = (n : Int) + 1 := by rw [hcnt]; omega
  have hdo : (t.AppendRow row).2.data_offset = t.data_offset := by simp only [data_offset, c1]
  have hs2 : SchemaOk (t.AppendRow row).2 := by
    unfold SchemaOk at hs ⊢
    rw [c1, c2]
    exact hs
  refine ⟨n, out, hn, hout, a1, hs2, c1, ?_⟩
  rw [ReadRowByPageID_eq, hc2, Int.toNat_ofNat, c4 n, if_neg (by simp), c1, c2, c3, hdo,
    ← ho, readAt_writeAt_any]

end GenericFixedTable

end gft

namespace minidb

open gft diskbtree gft.GenericFixedTable

theorem to_int32_id (x : Int) (h1 : -2147483648 ≤ x) (h2 : x < 2147483648) : to_int32 x = x := by
  unfold to_int32
  omega

theorem reachable_inv {K : Type} [LinearOrder K] (idx : DiskBTree K) (h : Reachable idx) :
    2 ≤ idx.t ∧ RootInv idx := by
  obtain ⟨t, ops, hrun⟩ := h
  obtain ⟨h1, -, h3, h4, -⟩ := run_inv t ops idx hrun
  exact ⟨by omega, h4⟩

theorem reachable_insert {K : Type} [LinearOrder K] (idx idx2 : DiskBTree K) (k : K) (v : Int)
    (h : Reachable idx)
    (hi : diskbtree.insert idx k v = some idx2) : Reachable idx2 := by
  obtain ⟨t, ops, hrun⟩ := h
  refine ⟨t, ops ++ [Op.insert k v], ?_⟩
  rw [run_append, hrun]
  simpa [Op.apply] using hi

theorem reachable_remove {K : Type} [LinearOrder K] (idx idx2 : DiskBTree K) (k : K)
    (h : Reachable idx)
    (hi : remove_key idx k = some idx2) : Reachable idx2 := by
  obtain ⟨t, ops, hrun⟩ := h
  refine ⟨t, ops ++ [Op.remove k], ?_⟩
  rw [run_append, hrun]
  simpa [Op.apply] using hi

/-- The index of position `j` after the insert loop of `insertar_fila`. -/
theorem insert_into_indexes_getElem (pid : Int) (t0 : GenericFixedTable) :
    ∀ (idxs : List (String × DiskBTree Int)) (tbl : GenericFixedTable), SameRows t0 tbl →
      SameRows t0 (insert_into_indexes pid tbl idxs).2 ∧
      (insert_into_indexes pid tbl idxs).1.length = idxs.length ∧
      ∀ (j : Nat) (col : String) (idx : DiskBTree Int), idxs[j]? = some (col, idx) →
        (insert_into_indexes pid tbl idxs).1[j]? = some (col,
          match (t0.ReadInt pid col).1 with
          | none => idx
          | some v =>
            match diskbtree.insert idx v (to_int32 pid) with
            | none => idx
            | some i2 => i2) := by
  intro idxs
  induction idxs with
  | nil =>
    intro tbl hsr
    exact ⟨hsr, rfl, by simp⟩
  | cons x rest ih =>
    intro tbl hsr
    obtain ⟨c0, i0⟩ := x
    have hsr2 := SameRows.trans_rows hsr (ReadInt_sameRows tbl pid c0)
    obtain ⟨r1, r2, r3⟩ := ih _ hsr2
    simp only [insert_into_indexes]
    refine ⟨r1, by simp [r2], ?_⟩
    intro j col idx hj
    cases j with
    | zero =>
      simp only [List.getElem?_cons_zero, Option.some.injEq, Prod.mk.injEq] at hj
      obtain ⟨e1, e2⟩ := hj
      subst e1 e2
      simp only [List.getElem?_cons_zero, hsr.readInt]
    | succ j =>
      simp only [List.getElem?_cons_succ] at hj ⊢
      exact r3 j col idx hj

/-- The index of position `j` after an insert loop of `insertar_fila` over the
FLOAT32 or the CHAR indexes. -/
theorem insert_into_indexes_of_getElem {K : Type} [LinearOrder K]
    (get : String → GenericFixedTable → Int → Option K × GenericFixedTable)
    (hsame : ∀ col t p, SameRows t (get col t p).2)
    (hcongr : ∀ col t t2 p, SameRows t t2 → (get col t2 p).1 = (get col t p).1)
    (pid : Int) (t0 : GenericFixedTable) :
    ∀ (idxs : List (String × DiskBTree K)) (tbl : GenericFixedTable), SameRows t0 tbl →
      SameRows t0 (insert_into_indexes_of get pid tbl idxs).2 ∧
      (insert_into_indexes_of get pid tbl idxs).1.length = idxs.length ∧
      ∀ (j : Nat) (col : String) (idx : DiskBTree K), idxs[j]? = some (col, idx) →
        (insert_into_indexes_of get pid tbl idxs).1[j]? = some (col,
          match (get col t0 pid).1 with
          | none => idx
          | some v =>
            match diskbtree.insert idx v (to_int32 pid) with
            | none => idx
            | some i2 => i2) := by
  intro idxs
  induction idxs with
  | nil =>
    intro tbl hsr
    exact ⟨hsr, rfl, by simp⟩
  | cons x rest ih =>
    intro tbl hsr
    obtain ⟨c0, i0⟩ := x
    have hsr2 := SameRows.trans_rows hsr (hsame c0 tbl pid)
    obtain ⟨r1, r2, r3⟩ := ih _ hsr2
    simp only [insert_into_indexes_of]
    refine ⟨r1, by simp [r2], ?_⟩
    intro j col idx hj
    cases j with
    | zero =>
      simp only [List.getElem?_cons_zero, Option.some.injEq, Prod.mk.injEq] at hj
      obtain ⟨e1, e2⟩ := hj
      subst e1 e2
      simp only [List.getElem?_cons_zero, hcongr _ _ _ _ hsr]
    | succ j =>
      simp only [List.getElem?_cons_succ] at hj ⊢
      exact r3 j col idx hj

theorem get_float_sameRows {F : Type} (of_bits : Nat → F) (col : String)
    (t : GenericFixedTable) (p : Int) : SameRows t (get_float of_bits col t p).2 :=
  ReadFloat_sameRows t p col

theorem get_char_sameRows (col : String) (t : GenericFixedTable) (p : Int) :
    SameRows t (get_char col t p).2 :=
  ReadChar_sameRows t p col

theorem get_float_congr {F : Type} (of_bits : Nat → F) (col : String)
    (t t2 : GenericFixedTable) (p : Int) (h : SameRows t t2) :
    (get_float of_bits col t2 p).1 = (get_float of_bits col t p).1 := by
  simp only [get_float, h.readFloat]

theorem get_char_congr (col : String) (t t2 : GenericFixedTable) (p : Int)
    (h : SameRows t t2) : (get_char col t2 p).1 = (get_char col t p).1 := by
  simp only [get_char, h.readChar]

end minidb

namespace gft

/-- The FLOAT32 field read back from a packed row is the bit pattern that was
packed. -/
theorem unpack_float_field (cols : List ColMetaDisk) (row : List Value) (out : List Nat)
    (total i : Nat) (c : ColMetaDisk) (v : Value)
    (hlay : layout_ok cols 0 total = true)
    (hp : pack_row cols row (List.replicate total 0) = some out)
    (hc : cols[i]? = some c) (hv : row[i]? = some v) (hty : c.type = ColType.FLOAT32)
    (h1 : v.f < 4294967296) :
    ((unpack_row cols out).getD i default).f = v.f := by
  obtain ⟨-, -, hcol⟩ := pack_row_spec cols row _ out 0 total hlay (by simp) hp
  obtain ⟨bytes, hbytes, hread⟩ := hcol i c v hc hv
  have hw := layout_width cols 0 total hlay c (List.getElem?_mem hc)
  have hwd : c.width = 4 := by simpa [width_ok, hty] using hw
  have hb : bytes = le32 v.f := by
    unfold pack_col at hbytes
    simp only [hty] at hbytes
    split_ifs at hbytes
    simp only [Option.some.injEq] at hbytes
    exact hbytes.symm
  rw [hwd, hb] at hread
  simp only [unpack_row, List.getD_eq_getElem?_getD, List.getElem?_map, hc, Option.map_some',
    Option.getD_some, unpack_col, hty, hread, word_of_le32 v.f h1, Value.Flt]

/-- Reading a string up to its first NUL byte, when zeros follow it. -/
theorem takeWhile_zeros_after (l : List Nat) (n : Nat) :
    (l ++ List.replicate n 0).takeWhile (fun b => b != 0) = l.takeWhile (fun b => b != 0) := by
  induction l with
  | nil =>
    cases n with
    | zero => rfl
    | succ n => simp [List.replicate_succ]
  | cons a l ih =>
    simp only [List.cons_append, List.takeWhile_cons]
    split_ifs
    · rw [ih]
    · rfl

/-- The CHAR field read back from a packed row is the value cut to the column width
less one and at its first NUL byte. -/
theorem unpack_char_field (cols : List ColMetaDisk) (row : List Value) (out : List Nat)
    (total i : Nat) (c : ColMetaDisk) (v : Value)
    (hlay : layout_ok cols 0 total = true)
    (hp : pack_row cols row (List.replicate total 0) = some out)
    (hc : cols[i]? = some c) (hv : row[i]? = some v) (hty : c.type = ColType.CHAR) :
    ((unpack_row cols out).getD i default).s
      = (v.s.take (c.width - 1)).takeWhile (fun b => b != 0) := by
  obtain ⟨-, -, hcol⟩ := pack_row_spec cols row _ out 0 total hlay (by simp) hp
  obtain ⟨bytes, hbytes, hread⟩ := hcol i c v hc hv
  have hb := pack_col_char c v bytes hty hbytes
  have hk : v.s.take (min v.s.length (c.width - 1)) = v.s.take (c.width - 1) := by
    rcases Nat.le_total v.s.length (c.width - 1) with h | h
    · rw [Nat.min_eq_left h, List.take_of_length_le (le_refl _), List.take_of_length_le h]
    · rw [Nat.min_eq_right h]
  rw [hb, hk] at hread
  simp only [unpack_row, List.getD_eq_getElem?_getD, List.getElem?_map, hc, Option.map_some',
    Option.getD_some, unpack_col, hty, hread, takeWhile_zeros_after, Value.Chr]

end gft

namespace minidb

open gft diskbtree gft.GenericFixedTable

/-- After `insert(k, p)` into an index the engine made, the index holds `(k, p)` and
the point query for `k` returns the page id of an entry stored under `k`: `p` itself
when `k` was not in the index before. -/
theorem insert_then_search {K : Type} [LinearOrder K] (idx : DiskBTree K) (hr : Reachable idx)
    (k : K) (p : Int) :
    ∃ idx2 q, diskbtree.insert idx k p = some idx2 ∧ (k, p) ∈ idx2.stored ∧
      search_get_value idx2 k = some q ∧ (k, q) ∈ idx2.stored ∧
      (idx.keyCount k = 0 → q = p) := by
  obtain ⟨ht, hinv⟩ := reachable_inv idx hr
  obtain ⟨idx2, hins, -, hinv2, hperm⟩ := insert_spec idx ht hinv k p
  have hmem : (k, p) ∈ idx2.stored := hperm.symm.subset (List.mem_cons_self _ _)
  obtain ⟨q, hq1, hq2, -⟩ := search_get_value_spec idx2 hinv2 k
  have hq3 := hq2 ⟨_, hmem⟩
  refine ⟨idx2, q, hins, hmem, hq1, hq3, ?_⟩
  intro h0
  rcases List.mem_cons.1 (hperm.subset hq3) with e | e
  · exact (Prod.mk.inj e).2
  · have : 0 < idx.keyCount k := (keyCount_pos_iff idx k).2 ⟨q, e⟩
    omega

set_option maxRecDepth 100000 in
/-- C18, as stated, fails: on the sample table with its index on `qty` (keys 10, 10,
20) `insertar_fila` of the row `(4, 10)` returns page id 3 and the index then holds
`(10, 3)`, but the point query for 10 returns page id 0. -/
theorem insertar_fila_point_query_finds_older_row :
    (insertar_fila exOfBits exIndexed [Value.Int 4, Value.Int 10]).1 = some 3 ∧
    (insertar_fila exOfBits exIndexed [Value.Int 4, Value.Int 10]).2.idx_int.map
        (fun x => (x.1, x.2.stored, search_get_value x.2 10))
      = [("qty", [(10, 0), (10, 1), (10, 3), (20, 2)], some 0)] := by
  decide

/-- C18 (amended): `insertar_fila` of a valid row into a table with fewer than `2^31`
rows returns a page id `p`, and every loaded index on a column `c` (an INT32, FLOAT32
or CHAR index, on a column of that type) then holds the entry `(key, p)`, where `key`
is the key of the value `row[c]` as stored (for CHAR the value cut to the column width
less one and at its first NUL byte), and the point query for `key` returns the page
id of an entry stored under that key: `p` itself when the key was not in the index
before. -/
theorem insertar_fila_point_query {F : Type} [LinearOrder F] (of_bits : Nat → F)
    (ti : TablaInfo F) (row : List Value)
    (hs : ti.tabla.SchemaOk) (hne : ti.tabla.cols ≠ [])
    (hv : row_valid ti.tabla.cols row = true) (hwf : ∀ v ∈ row, v.wf = true)
    (hcnt : ti.tabla.Count < 2147483648)
    (hri : ∀ x ∈ ti.idx_int, Reachable x.2) (hrf : ∀ x ∈ ti.idx_float, Reachable x.2)
    (hrc : ∀ x ∈ ti.idx_char, Reachable x.2) :
    ∃ p, (insertar_fila of_bits ti row).1 = some p ∧
      (∀ (j : Nat) (col : String) (idx : DiskBTree Int) (i : Nat) (c : ColMetaDisk) (v : Value),
        ti.idx_int[j]? = some (col, idx) → ti.tabla.col_index col = some i →
        ti.tabla.cols[i]? = some c → c.type = ColType.INT32 → row[i]? = some v →
        ∃ idx2 q, (insertar_fila of_bits ti row).2.idx_int[j]? = some (col, idx2) ∧
          (v.i, p) ∈ idx2.stored ∧ search_get_value idx2 v.i = some q ∧
          (v.i, q) ∈ idx2.stored ∧ (idx.keyCount v.i = 0 → q = p)) ∧
      (∀ (j : Nat) (col : String) (idx : DiskBTree F) (i : Nat) (c : ColMetaDisk) (v : Value),
        ti.idx_float[j]? = some (col, idx) → ti.tabla.col_index col = some i →
        ti.tabla.cols[i]? = some c → c.type = ColType.FLOAT32 → row[i]? = some v →
        ∃ idx2 q, (insertar_fila of_bits ti row).2.idx_float[j]? = some (col, idx2) ∧
          (of_bits v.f, p) ∈ idx2.stored ∧ search_get_value idx2 (of_bits v.f) = some q ∧
          (of_bits v.f, q) ∈ idx2.stored ∧ (idx.keyCount (of_bits v.f) = 0 → q = p)) ∧
      (∀ (j : Nat) (col : String) (idx : DiskBTree (List Nat)) (i : Nat) (c : ColMetaDisk)
          (v : Value),
        ti.idx_char[j]? = some (col, idx) → ti.tabla.col_index col = some i →
        ti.tabla.cols[i]? = some c → c.type = ColType.CHAR → row[i]? = some v →
        ∃ idx2 q, (insertar_fila of_bits ti row).2.idx_char[j]? = some (col, idx2) ∧
          (KeyChar32_put ((v.s.take (c.width - 1)).takeWhile (fun b => b != 0)), p)
            ∈ idx2.stored ∧
          search_get_value idx2
            (KeyChar32_put ((v.s.take (c.width - 1)).takeWhile (fun b => b != 0))) = some q ∧
          (KeyChar32_put ((v.s.take (c.width - 1)).takeWhile (fun b => b != 0)), q)
            ∈ idx2.stored ∧
          (idx.keyCount (KeyChar32_put ((v.s.take (c.width - 1)).takeWhile (fun b => b != 0)))
            = 0 → q = p)) := by
  obtain ⟨n, out, hn, hout, a1, hs2, c1, hread⟩ := AppendRow_read ti.tabla row hs hne hv
  have hp := to_int32_id (n : Int) (by omega) (by omega)
  obtain ⟨si, -, hgi⟩ := insert_into_indexes_getElem n (ti.tabla.AppendRow row).2 ti.idx_int
    (ti.tabla.AppendRow row).2 (SameRows.refl_rows _)
  obtain ⟨sf, -, hgf⟩ := insert_into_indexes_of_getElem (get_float of_bits)
    (get_float_sameRows of_bits) (get_float_congr of_bits) n (ti.tabla.AppendRow row).2
    ti.idx_float _ si
  obtain ⟨-, -, hgc⟩ := insert_into_indexes_of_getElem get_char
    get_char_sameRows get_char_congr n (ti.tabla.AppendRow row).2
    ti.idx_char _ sf
  have hci2 : ∀ col i, ti.tabla.col_index col = some i →
      (ti.tabla.AppendRow row).2.col_index col = some i := by
    intro col i hci
    simp only [GenericFixedTable.col_index, c1]
    exact hci
  refine ⟨n, by simp [insertar_fila, a1], ?_, ?_, ?_⟩
  · intro j col idx i c v hj hci hc hty hvi
    have hw := hwf v (List.getElem?_mem hvi)
    unfold Value.wf at hw
    simp only [Bool.and_eq_true, decide_eq_true_eq] at hw
    obtain ⟨⟨⟨i1, i2⟩, -⟩, -⟩ := hw
    have hfield := unpack_int_field ti.tabla.cols row out ti.tabla.row_size i c v hs hout hc hvi
      hty i1 i2
    have hrint : ((ti.tabla.AppendRow row).2.ReadInt n col).1 = some v.i := by
      rw [ReadInt_eq, hci2 col i hci]
      simp only [c1, List.get?_eq_getElem?, hc, Option.map_some', hty, ne_eq, not_true_eq_false,
        if_false, hread, hfield]
    obtain ⟨idx2, q, hins, hmem, hq1, hq3, hq4⟩ :=
      insert_then_search idx (hri _ (List.getElem?_mem hj)) v.i n
    refine ⟨idx2, q, ?_, hmem, hq1, hq3, hq4⟩
    have := hgi j col idx hj
    rw [hrint] at this
    simp only [hp, hins] at this
    simp only [insertar_fila, a1]
    exact this
  · intro j col idx i c v hj hci hc hty hvi
    have hw := hwf v (List.getElem?_mem hvi)
    unfold Value.wf at hw
    simp only [Bool.and_eq_true, decide_eq_true_eq] at hw
    obtain ⟨⟨-, f1⟩, -⟩ := hw
    have hfield := unpack_float_field ti.tabla.cols row out ti.tabla.row_size i c v hs hout hc
      hvi hty f1
    have hrfl : (get_float of_bits col (ti.tabla.AppendRow row).2 n).1 = some (of_bits v.f) := by
      simp only [get_float]
      rw [ReadFloat_eq, hci2 col i hci]
      simp only [c1, List.get?_eq_getElem?, hc, Option.map_some', hty, ne_eq, not_true_eq_false,
        if_false, hread, hfield]
    obtain ⟨idx2, q, hins, hmem, hq1, hq3, hq4⟩ :=
      insert_then_search idx (hrf _ (List.getElem?_mem hj)) (of_bits v.f) n
    refine ⟨idx2, q, ?_, hmem, hq1, hq3, hq4⟩
    have := hgf j col idx hj
    rw [hrfl] at this
    simp only [hp, hins] at this
    simp only [insertar_fila, a1]
    exact this
  · intro j col idx i c v hj hci hc hty hvi
    have hfield := unpack_char_field ti.tabla.cols row out ti.tabla.row_size i c v hs hout hc
      hvi hty
    have hrc2 : (get_char col (ti.tabla.AppendRow row).2 n).1
        = some (KeyChar32_put ((v.s.take (c.width - 1)).takeWhile (fun b => b != 0))) := by
      simp only [get_char]
      rw [ReadChar_eq, hci2 col i hci]
      simp only [c1, List.get?_eq_getElem?, hc, Option.map_some', hty, ne_eq, not_true_eq_false,
        if_false, hread, hfield]
    obtain ⟨idx2, q, hins, hmem, hq1, hq3, hq4⟩ :=
      insert_then_search idx (hrc _ (List.getElem?_mem hj))
        (KeyChar32_put ((v.s.take (c.width - 1)).takeWhile (fun b => b != 0))) n
    refine ⟨idx2, q, ?_, hmem, hq1, hq3, hq4⟩
    have := hgc j col idx hj
    rw [hrc2] at this
    simp only [hp, hins] at this
    simp only [insertar_fila, a1]
    exact this

set_option maxRecDepth 1000000 in
theorem exKinds_reachable_int : ∀ x ∈ exKinds.idx_int, Reachable x.2 := by
  intro x hx
  simp only [exKinds, List.mem_singleton] at hx
  subst hx
  exact ⟨8, exKindsOpsInt, rfl⟩

set_option maxRecDepth 1000000 in
theorem exKinds_reachable_float : ∀ x ∈ exKinds.idx_float, Reachable x.2 := by
  intro x hx
  simp only [exKinds, List.mem_singleton] at hx
  subst hx
  exact ⟨8, exKindsOpsFloat, rfl⟩

set_option maxRecDepth 1000000 in
theorem exKinds_reachable_char : ∀ x ∈ exKinds.idx_char, Reachable x.2 := by
  intro x hx
  simp only [exKinds, List.mem_singleton] at hx
  subst hx
  exact ⟨8, exKindsOpsChar, rfl⟩

set_option maxRecDepth 1000000 in
/-- The sample table with the three kinds of index: its rows, its indexes, and what
`insertar_fila` of the row `(3, 2.5, bob)` does to the indexes. -/
theorem exKinds_insertar_fila :
    exKinds.tabla.cols.map (fun c => (c.name, c.type, c.width))
      = [("id", ColType.INT32, 4), ("price", ColType.FLOAT32, 4), ("name", ColType.CHAR, 4)] ∧
    (exKinds.tabla.ReadRowByPageID 1).1
      = some [Value.Int 2, Value.Flt 1075838976, Value.Chr [98, 111, 98]] ∧
    exKinds.idx_float.map (fun x => (x.1, x.2.stored))
      = [("price", [(1069547520, 0), (1075838976, 1)])] ∧
    (insertar_fila exOfBits exKinds
        [Value.Int 3, Value.Flt 1075838976, Value.Chr [98, 111, 98]]).1 = some 2 ∧
    (insertar_fila exOfBits exKinds
        [Value.Int 3, Value.Flt 1075838976, Value.Chr [98, 111, 98]]).2.idx_int.map
        (fun x => (x.1, x.2.stored, search_get_value x.2 3))
      = [("id", [(1, 0), (2, 1), (3, 2)], some 2)] ∧
    (insertar_fila exOfBits exKinds
        [Value.Int 3, Value.Flt 1075838976, Value.Chr [98, 111, 98]]).2.idx_float.map
        (fun x => (x.1, x.2.stored, search_get_value x.2 1075838976))
      = [("price", [(1069547520, 0), (1075838976, 1), (1075838976, 2)], some 1)] ∧
    (insertar_fila exOfBits exKinds
        [Value.Int 3, Value.Flt 1075838976, Value.Chr [98, 111, 98]]).2.idx_char.map
        (fun x => (x.1, x.2.stored.map (fun e => (KeyChar32_get e.1, e.2)),
          search_get_value x.2 (KeyChar32_put [98, 111, 98])))
      = [("name", [([97, 110, 110], 0), ([98, 111, 98], 1), ([98, 111, 98], 2)], some 1)] :=
  ⟨by decide, by decide, by decide, by decide, by decide, by decide, by decide⟩

set_option maxRecDepth 1000000 in
/-- Instance of C18 (amended): inserting `(3, 2.5, bob)` into the sample table with an
INT32 index on `id`, a FLOAT32 index on `price` and a CHAR index on `name`. -/
theorem insertar_fila_point_query_witness :
    exKinds.tabla.SchemaOk ∧
    row_valid exKinds.tabla.cols
      [Value.Int 3, Value.Flt 1075838976, Value.Chr [98, 111, 98]] = true ∧
    (∀ x ∈ exKinds.idx_int, Reachable x.2) ∧ (∀ x ∈ exKinds.idx_float, Reachable x.2) ∧
    (∀ x ∈ exKinds.idx_char, Reachable x.2) ∧
    ∃ p, (insertar_fila exOfBits exKinds
        [Value.Int 3, Value.Flt 1075838976, Value.Chr [98, 111, 98]]).1 = some p ∧
      (∀ (j : Nat) (col : String) (idx : DiskBTree Int) (i : Nat) (c : ColMetaDisk) (v : Value),
        exKinds.idx_int[j]? = some (col, idx) → exKinds.tabla.col_index col = some i →
        exKinds.tabla.cols[i]? = some c → c.type = ColType.INT32 →
        [Value.Int 3, Value.Flt 1075838976, Value.Chr [98, 111, 98]][i]? = some v →
        ∃ idx2 q, (insertar_fila exOfBits exKinds
            [Value.Int 3, Value.Flt 1075838976, Value.Chr [98, 111, 98]]).2.idx_int[j]?
            = some (col, idx2) ∧
          (v.i, p) ∈ idx2.stored ∧ search_get_value idx2 v.i = some q ∧
          (v.i, q) ∈ idx2.stored ∧ (idx.keyCount v.i = 0 → q = p)) ∧
      (∀ (j : Nat) (col : String) (idx : DiskBTree Int) (i : Nat) (c : ColMetaDisk) (v : Value),
        exKinds.idx_float[j]? = some (col, idx) → exKinds.tabla.col_index col = some i →
        exKinds.tabla.cols[i]? = some c → c.type = ColType.FLOAT32 →
        [Value.Int 3, Value.Flt 1075838976, Value.Chr [98, 111, 98]][i]? = some v →
        ∃ idx2 q, (insertar_fila exOfBits exKinds
            [Value.Int 3, Value.Flt 1075838976, Value.Chr [98, 111, 98]]).2.idx_float[j]?
            = some (col, idx2) ∧
          (exOfBits v.f, p) ∈ idx2.stored ∧ search_get_value idx2 (exOfBits v.f) = some q ∧
          (exOfBits v.f, q) ∈ idx2.stored ∧ (idx.keyCount (exOfBits v.f) = 0 → q = p)) ∧
      (∀ (j : Nat) (col : String) (idx : DiskBTree (List Nat)) (i : Nat) (c : ColMetaDisk)
          (v : Value),
        exKinds.idx_char[j]? = some (col, idx) → exKinds.tabla.col_index col = some i →
        exKinds.tabla.cols[i]? = some c → c.type = ColType.CHAR →
        [Value.Int 3, Value.Flt 1075838976, Value.Chr [98, 111, 98]][i]? = some v →
        ∃ idx2 q, (insertar_fila exOfBits exKinds
            [Value.Int 3, Value.Flt 1075838976, Value.Chr [98, 111, 98]]).2.idx_char[j]?
            = some (col, idx2) ∧
          (KeyChar32_put ((v.s.take (c.width - 1)).takeWhile (fun b => b != 0)), p)
            ∈ idx2.stored ∧
          search_get_value idx2
            (KeyChar32_put ((v.s.take (c.width - 1)).takeWhile (fun b => b != 0))) = some q ∧
          (KeyChar32_put ((v.s.take (c.width - 1)).takeWhile (fun b => b != 0)), q)
            ∈ idx2.stored ∧
          (idx.keyCount (KeyChar32_put ((v.s.take (c.width - 1)).takeWhile (fun b => b != 0)))
            = 0 → q = p)) :=
  ⟨rfl, by decide, exKinds_reachable_int, exKinds_reachable_float,
    exKinds_reachable_char,
    insertar_fila_point_query exOfBits exKinds
      [Value.Int 3, Value.Flt 1075838976, Value.Chr [98, 111, 98]] rfl (by decide)
      (by decide) (by decide) (by decide) exKinds_reachable_int exKinds_reachable_float
      exKinds_reachable_char⟩

end minidb

namespace gft

namespace GenericFixedTable

theorem WriteRowInDisk_true_valid (t : GenericFixedTable) (p : Int) (row : List Value)
    (h : (t.WriteRowInDisk p row).1 = true) : row_valid t.cols row = true := by
  unfold WriteRowInDisk at h
  split_ifs at h with hl
  have hl2 : row.length = t.cols.length := by simpa using hl
  rw [← pack_row_isSome t.cols row (List.replicate t.row_size 0) hl2]
  split at h
  · simp at h
  · rename_i buf hb
    rw [hb]
    rfl

theorem unpack_row_valid (cols : List ColMetaDisk) (src : List Nat) :
    row_valid cols (unpack_row cols src) = true := by
  induction cols with
  | nil => rfl
  | cons c cs ih =>
    simp only [unpack_row, List.map_cons, row_valid, Bool.and_eq_true, decide_eq_true_eq]
    refine ⟨?_, ih⟩
    unfold unpack_col
    cases c.type <;> rfl

theorem row_valid_set : ∀ (cols : List ColMetaDisk) (row : List Value) (i : Nat)
    (c : ColMetaDisk) (v : Value), row_valid cols row = true → cols[i]? = some c →
    v.t = c.type → row_valid cols (row.set i v) = true
  | [], _, _, _, _, _, hc, _ => by simp at hc
  | _ :: _, [], _, _, _, h, _, _ => by simp [row_valid] at h
  | c0 :: cs, v0 :: vs, i, c, v, h, hc, hv => by
    simp only [row_valid, Bool.and_eq_true, decide_eq_true_eq] at h
    cases i with
    | zero =>
      simp only [List.getElem?_cons_zero, Option.some.injEq] at hc
      subst hc
      simp only [List.set_cons_zero, row_valid, Bool.and_eq_true, decide_eq_true_eq]
      exact ⟨hv, h.2⟩
    | succ i =>
      simp only [List.getElem?_cons_succ] at hc
      simp only [List.set_cons_succ, row_valid, Bool.and_eq_true, decide_eq_true_eq]
      exact ⟨h.1, row_valid_set cs vs i c v h.2 hc hv⟩

/-- A successful read gives a valid row of a page in range. -/
theorem ReadRowByPageID_some_valid (t : GenericFixedTable) (p : Int) (row : List Value)
    (h : (t.ReadRowByPageID p).1 = some row) :
    ∃ n : Nat, p = (n : Int) ∧ (n : Int) < t.Count ∧ row_valid t.cols row = true := by
  obtain ⟨h0, h1, h2⟩ := ReadRowByPageID_some t p row h
  obtain ⟨n, hn⟩ := Int.eq_ofNat_of_zero_le h0
  refine ⟨n, hn, by rw [← hn]; exact h1, ?_⟩
  rw [h2]
  exact unpack_row_valid _ _

end GenericFixedTable

end gft

namespace minidb

open gft diskbtree gft.GenericFixedTable

/-- The index of position `j` after the removal loop of `borrar_por_pageid`. -/
theorem remove_from_indexes_getElem (pid : Int) (t0 : GenericFixedTable) :
    ∀ (idxs : List (String × DiskBTree Int)) (tbl : GenericFixedTable), SameRows t0 tbl →
      SameRows t0 (remove_from_indexes pid tbl idxs).2 ∧
      (remove_from_indexes pid tbl idxs).1.length = idxs.length ∧
      ∀ (j : Nat) (col : String) (idx : DiskBTree Int), idxs[j]? = some (col, idx) →
        (remove_from_indexes pid tbl idxs).1[j]? = some (col,
          match (t0.ReadInt pid col).1 with
          | none => idx
          | some v =>
            match remove_key idx v with
            | none => idx
            | some i2 => i2) := by
  intro idxs
  induction idxs with
  | nil =>
    intro tbl hsr
    exact ⟨hsr, rfl, by simp⟩
  | cons x rest ih =>
    intro tbl hsr
    obtain ⟨c0, i0⟩ := x
    have hsr2 := SameRows.trans_rows hsr (ReadInt_sameRows tbl pid c0)
    obtain ⟨r1, r2, r3⟩ := ih _ hsr2
    simp only [remove_from_indexes]
    refine ⟨r1, by simp [r2], ?_⟩
    intro j col idx hj
    cases j with
    | zero =>
      simp only [List.getElem?_cons_zero, Option.some.injEq, Prod.mk.injEq] at hj
      obtain ⟨e1, e2⟩ := hj
      subst e1 e2
      simp only [List.getElem?_cons_zero, hsr.readInt]
    | succ j =>
      simp only [List.getElem?_cons_succ] at hj ⊢
      exact r3 j col idx hj

theorem remove_from_indexes_of_sameRows {K : Type} [LinearOrder K]
    (get : String → GenericFixedTable → Int → Option K × GenericFixedTable)
    (hsame : ∀ col t p, SameRows t (get col t p).2) (pid : Int)
    (idxs : List (String × DiskBTree K)) :
    ∀ tbl : GenericFixedTable, SameRows tbl (remove_from_indexes_of get pid tbl idxs).2 := by
  induction idxs with
  | nil => intro tbl; exact SameRows.refl_rows tbl
  | cons x rest ih =>
    intro tbl
    obtain ⟨col, idx⟩ := x
    simp only [remove_from_indexes_of]
    exact SameRows.trans_rows (hsame col tbl pid) (ih _)

variable {F : Type} [LinearOrder F] {of_bits : Nat → F}

/-- Anatomy of a call of `borrar_por_pageid` that returns true: the row was read, it
did not carry `id = -1`, the indexes went through the removal loop and the row was
written back with `id = -1`. -/
theorem borrar_true_inv (ti ti2 : TablaInfo F) (p : Int)
    (h : borrar_por_pageid of_bits ti p = some (true, ti2)) :
    ∃ (n : Nat) (row : List Value) (t1 : GenericFixedTable),
      p = (n : Int) ∧ (n : Int) < ti.tabla.Count ∧
      (ti.tabla.ReadRowByPageID p).1 = some row ∧ row_valid ti.tabla.cols row = true ∧
      (∀ j, ti.tabla.col_index "id" = some j → (row.getD j default).i ≠ -1) ∧
      SameRows ti.tabla t1 ∧
      (t1.WriteRowInDisk p
        (match ti.tabla.col_index "id" with
         | some i => row.set i (Value.Int (-1))
         | none => row)).1 = true ∧
      ti2.tabla = (t1.WriteRowInDisk p
        (match ti.tabla.col_index "id" with
         | some i => row.set i (Value.Int (-1))
         | none => row)).2 ∧
      ti2.idx_int = (remove_from_indexes p (ti.tabla.ReadRowByPageID p).2 ti.idx_int).1 := by
  unfold borrar_por_pageid at h
  simp only at h
  split at h
  · simp at h
  · rename_i row hrow
    split_ifs at h with hg hw1
    · simp at h
    · have s1 := ReadRowByPageID_sameRows ti.tabla p
      have hci : (ti.tabla.ReadRowByPageID p).2.col_index "id" = ti.tabla.col_index "id" :=
        s1.col_index "id"
      rw [hci] at h hw1 hg
      simp only [Option.some.injEq, Prod.mk.injEq, true_and] at h
      subst h
      obtain ⟨n, hn, hcnt, hval⟩ := ReadRowByPageID_some_valid _ _ _ hrow
      obtain ⟨s2, -, -⟩ := remove_from_indexes_getElem p (ti.tabla.ReadRowByPageID p).2
        ti.idx_int (ti.tabla.ReadRowByPageID p).2 (SameRows.refl_rows _)
      have s3 := remove_from_indexes_of_sameRows (get_float of_bits)
        (get_float_sameRows of_bits) p ti.idx_float
        (remove_from_indexes p (ti.tabla.ReadRowByPageID p).2 ti.idx_int).2
      have s4 := remove_from_indexes_of_sameRows get_char get_char_sameRows p ti.idx_char
        (remove_from_indexes_of (get_float of_bits) p
          (remove_from_indexes p (ti.tabla.ReadRowByPageID p).2 ti.idx_int).2 ti.idx_float).2
      refine ⟨n, row, _, hn, hcnt, hrow, hval, ?_,
        SameRows.trans_rows s1 (SameRows.trans_rows s2 (SameRows.trans_rows s3 s4)),
        hw1, rfl, rfl⟩
      intro j hj
      rw [hj] at hg
      simpa using hg

end minidb

namespace minidb

open gft diskbtree gft.GenericFixedTable

/-- A call of `borrar_por_pageid` that returns true keeps the schema and `Count()`
and leaves every other page as it was. -/
theorem borrar_true_frame {F : Type} [LinearOrder F] {of_bits : Nat → F} (ti ti2 : TablaInfo F)
    (p : Int) (hs : ti.tabla.SchemaOk)
    (h : borrar_por_pageid of_bits ti p = some (true, ti2)) :
    ti2.tabla.cols = ti.tabla.cols ∧ ti2.tabla.SchemaOk ∧ ti2.tabla.Count = ti.tabla.Count ∧
    ∀ q : Int, q ≠ p → (ti2.tabla.ReadRowByPageID q).1 = (ti.tabla.ReadRowByPageID q).1 := by
  obtain ⟨n, row, t1, hn, hcnt, -, -, -, hsr, hw1, hw2, -⟩ := borrar_true_inv ti ti2 p h
  subst hn
  have hv := WriteRowInDisk_true_valid _ _ _ hw1
  have hs1 := hsr.schemaOk hs
  have hc1 : (n : Int) < t1.Count := by rw [hsr.count]; exact hcnt
  obtain ⟨out, -, ho, -, c1, c2, c3, -⟩ := WriteRowInDisk_valid t1 n _ hs1 hv
  have hin := row_in_file t1 n hc1
  rw [← hw2] at c1 c2 c3
  have hlen : ti2.tabla.file.length = t1.file.length := by
    rw [c3, writeAt_length_max, ho]
    omega
  refine ⟨c1.trans hsr.1, ?_, ?_, ?_⟩
  · unfold SchemaOk at hs1 ⊢
    rw [c1, c2]
    exact hs1
  · rw [Count_congr t1 ti2.tabla c1 c2 hlen, hsr.count]
  · intro q hq
    rw [hw2, WriteRowInDisk_frame t1 n _ hs1 hv hc1 q hq, hsr.read]

end minidb
namespace minidb

open gft diskbtree gft.GenericFixedTable

set_option maxRecDepth 100000 in
/-- C17 (the code at a failing input): on the sample table with its index on `qty`
(entries `(10, 0)`, `(10, 1)`, `(20, 2)`, every one referring to a live row with that
value) `borrar_por_pageid` succeeds on row 1 and `remove_key(10)` removes the entry
`(10, 0)` of row 0: the index still holds `(10, 1)`, whose value is the deleted page
(row 1 now has `id = -1`), and the live row 0 with `qty = 10` has no entry any more, so
that `SELECT id, qty FROM t WHERE qty == 10` prints no row. -/
theorem borrar_por_pageid_leaves_stale_entry :
    exIndexed.idx_int.map (fun x => (x.1, x.2.stored)) = [("qty", [(10, 0), (10, 1), (20, 2)])] ∧
    borrar_por_pageid exOfBits exIndexed 1 = some (true, exDeleted1) ∧
    exDeleted1.idx_int.map (fun x => (x.1, x.2.stored)) = [("qty", [(10, 1), (20, 2)])] ∧
    (exDeleted1.tabla.ReadRowByPageID 1).1 = some [Value.Int (-1), Value.Int 10] ∧
    (exDeleted1.tabla.ReadRowByPageID 0).1 = some [Value.Int 1, Value.Int 10] ∧
    (sqlmini.cmd_SELECT exOfBits sqlmini.exProbe sqlmini.exFcmp exDeleted1 (some [0, 1])
        (some sqlmini.exWhereEq)).map (fun r => r.1) = some [] :=
  ⟨by decide, rfl, by decide, by decide, by decide, by decide⟩

end minidb

namespace minidb

open gft diskbtree gft.GenericFixedTable

end minidb

namespace minidb

open gft diskbtree gft.GenericFixedTable

set_option maxRecDepth 100000 in
/-- C20 (the code at a failing input): on the sample table with its index on `qty`
(entries `(10, 0)`, `(10, 1)`, `(20, 2)`) the update of page 1 to `qty = 30` does
`remove_key(10)`, which removes the entry `(10, 0)` of row 0: the index still maps the
old key 10 to page 1, whose row now reads `(2, 30)`, and the row 0 with `qty = 10` has
no entry any more, so that `SELECT id, qty FROM t WHERE qty == 10` prints no row.
After the update of the pages 0 and 2 to `qty = 30` the index holds an entry under 30
for each of them: the range probe for 30 returns both pages, the point probe page 0. -/
theorem update_filas_by_pageIDs_keeps_old_key :
    exIndexed.idx_int.map (fun x => (x.1, x.2.stored)) = [("qty", [(10, 0), (10, 1), (20, 2)])] ∧
    (update_filas_by_pageIDs exOfBits exFloatOps exIndexed [1] [("qty", Value.Int 30)]).1
      = some 1 ∧
    (update_filas_by_pageIDs exOfBits exFloatOps exIndexed [1]
        [("qty", Value.Int 30)]).2.idx_int.map (fun x => (x.1, x.2.stored))
      = [("qty", [(10, 1), (20, 2), (30, 1)])] ∧
    ((update_filas_by_pageIDs exOfBits exFloatOps exIndexed [1]
        [("qty", Value.Int 30)]).2.tabla.ReadRowByPageID 1).1
      = some [Value.Int 2, Value.Int 30] ∧
    ((update_filas_by_pageIDs exOfBits exFloatOps exIndexed [1]
        [("qty", Value.Int 30)]).2.tabla.ReadRowByPageID 0).1
      = some [Value.Int 1, Value.Int 10] ∧
    (sqlmini.cmd_SELECT exOfBits sqlmini.exProbe sqlmini.exFcmp
        (update_filas_by_pageIDs exOfBits exFloatOps exIndexed [1] [("qty", Value.Int 30)]).2
        (some [0, 1]) (some sqlmini.exWhereEq)).map (fun r => r.1) = some [] ∧
    (update_filas_by_pageIDs exOfBits exFloatOps exIndexed [0, 2]
        [("qty", Value.Int 30)]).2.idx_int.map
        (fun x => (x.1, x.2.stored, range_search_values x.2 30 30, search_get_value x.2 30))
      = [("qty", [(10, 1), (30, 0), (30, 2)], some [0, 2], some 0)] :=
  ⟨by decide, by decide, by decide, by decide, by decide, by decide, by decide⟩

end minidb

/-! ## Table creation and the file layout -/

namespace gft

theorem int_wrap_id (i : Int) (h0 : 0 ≤ i) (h1 : i < 2147483648) : int_wrap i = i := by
  unfold int_wrap
  omega

theorem init_width_none (d : ColumnDef) :
    init_width d = none ↔ d.type = .CHAR ∧ d.char_len ≤ 0 := by
  unfold init_width
  cases hd : d.type <;> simp

theorem init_width_some (d : ColumnDef) (w : Int) (h : init_width d = some w) :
    0 ≤ w ∧ w.toNat = decl_width d ∧ (w : Int) = (decl_width d : Int) ∧
      width_ok { name := d.name.take 31, type := d.type, width := w.toNat, offset := 0 } = true := by
  unfold init_width at h
  unfold decl_width width_ok
  cases hd : d.type <;> rw [hd] at h <;> simp only at h ⊢
  · cases h
    simp
  · cases h
    simp
  · split_ifs at h with hc
    cases h
    refine ⟨by omega, rfl, by omega, ?_⟩
    simp only [decide_eq_true_eq]
    omega

/-- The loop of `init_schema`: it throws exactly on a CHAR definition of length
`<= 0`; otherwise the descriptors follow each other from the running offset. -/
theorem init_schema_loop_spec : ∀ (defs : List ColumnDef) (off : Int), 0 ≤ off →
    off + ((defs.map decl_width).sum : Nat) < 2147483648 →
    (init_schema_loop defs off = none ↔ ∃ d ∈ defs, d.type = .CHAR ∧ d.char_len ≤ 0) ∧
    ∀ cs total, init_schema_loop defs off = some (cs, total) →
      cs.length = defs.length ∧ total = off + ((defs.map decl_width).sum : Nat) ∧
      layout_ok cs off.toNat total.toNat = true ∧
      ∀ (i : Nat) (d : ColumnDef), defs[i]? = some d → ∃ c, cs[i]? = some c ∧
        c.type = d.type ∧ c.width = decl_width d ∧
        c.offset = off.toNat + ((defs.take i).map decl_width).sum
  | [], off, h0, _ => by
    refine ⟨by simp [init_schema_loop], ?_⟩
    intro cs total h
    simp only [init_schema_loop, Option.some.injEq, Prod.mk.injEq] at h
    obtain ⟨rfl, rfl⟩ := h
    simp [layout_ok]
  | d :: ds, off, h0, hs => by
    simp only [List.map_cons, List.sum_cons, Nat.cast_add] at hs
    cases hw : init_width d with
    | none =>
      have hbad := (init_width_none d).1 hw
      refine ⟨?_, ?_⟩
      · simp only [init_schema_loop, hw, true_iff]
        exact ⟨d, List.mem_cons_self _ _, hbad⟩
      · intro cs total h
        simp [init_schema_loop, hw] at h
    | some w =>
      obtain ⟨hw0, hwn, hwi, hwok⟩ := init_width_some d w hw
      have hgood : ¬ (d.type = .CHAR ∧ d.char_len ≤ 0) := by
        intro hb
        rw [(init_width_none d).2 hb] at hw
        cases hw
      have hsumnn : (0 : Int) ≤ ((ds.map decl_width).sum : Nat) := Int.ofNat_nonneg _
      have hwrap : int_wrap (off + w) = off + w := int_wrap_id _ (by omega) (by omega)
      obtain ⟨ih1, ih2⟩ := init_schema_loop_spec ds (off + w) (by omega) (by omega)
      refine ⟨?_, ?_⟩
      · simp only [init_schema_loop, hw, hwrap, List.mem_cons, exists_eq_or_imp]
        constructor
        · intro h
          right
          apply ih1.1
          cases hl : init_schema_loop ds (off + w) with
          | none => rfl
          | some p => rw [hl] at h; simp at h
        · intro h
          rcases h with h | h
          · exact absurd h hgood
          · rw [ih1.2 h]
      · intro cs total h
        simp only [init_schema_loop, hw, hwrap] at h
        cases hl : init_schema_loop ds (off + w) with
        | none => rw [hl] at h; simp at h
        | some p =>
          obtain ⟨cs2, total2⟩ := p
          rw [hl] at h
          simp only [Option.some.injEq, Prod.mk.injEq] at h
          obtain ⟨rfl, rfl⟩ := h
          obtain ⟨j1, j2, j3, j4⟩ := ih2 cs2 total2 hl
          have hto : (off + w).toNat = off.toNat + w.toNat := by omega
          refine ⟨by simp [j1], ?_, ?_, ?_⟩
          · rw [j2]
            simp only [List.map_cons, List.sum_cons, Nat.cast_add]
            omega
          · simp only [layout_ok, Bool.and_eq_true, beq_iff_eq]
            refine ⟨⟨trivial, ?_⟩, ?_⟩
            · exact hwok
            · rw [← hto]
              exact j3
          · intro i d2 hi
            cases i with
            | zero =>
              simp only [List.getElem?_cons_zero, Option.some.injEq] at hi
              subst hi
              exact ⟨_, List.getElem?_cons_zero, rfl, hwn, by simp⟩
            | succ k =>
              simp only [List.getElem?_cons_succ] at hi
              obtain ⟨c, hc1, hc2, hc3, hc4⟩ := j4 k d2 hi
              refine ⟨c, by simpa using hc1, hc2, hc3, ?_⟩
              rw [hc4, hto, hwn]
              simp only [List.take_succ_cons, List.map_cons, List.sum_cons]
              omega

namespace GenericFixedTable

set_option maxRecDepth 100000 in
/-- C27, as stated, fails when the widths do not fit the `int` that adds them up: for
`(a CHAR(2147483647), b CHAR(1))` the widths add up to `2^31`, `init_schema` does not
fail, and the running `int offset` that becomes `hdr.row_size` wraps to `-2^31`; an
`int32_t` cannot hold the sum. -/
theorem init_schema_row_size_wraps :
    (([{ name := "a", type := .CHAR, char_len := 2147483647 },
       { name := "b", type := .CHAR, char_len := 1 }] : List ColumnDef).map decl_width).sum
      = 2147483648 ∧
    (init_schema [{ name := "a", type := .CHAR, char_len := 2147483647 },
       { name := "b", type := .CHAR, char_len := 1 }]).isSome = true ∧
    (init_schema_loop [{ name := "a", type := .CHAR, char_len := 2147483647 },
       { name := "b", type := .CHAR, char_len := 1 }] 0).map Prod.snd = some (-2147483648) ∧
    (init_schema [{ name := "a", type := .CHAR, char_len := 2147483647 },
       { name := "b", type := .CHAR, char_len := 1 }]).map (fun t => t.row_size) ≠ some 2147483648 := by
  refine ⟨by decide, by decide, by decide, by decide⟩

/-- C27 (amended): creating a table from column definitions whose widths add up to
less than `2^31` fails exactly when there is no definition, there are more than 64,
or some CHAR length is `<= 0`; when it succeeds the table has one descriptor per
definition, in order, with the type of the definition, width 4 for INT32 and FLOAT32
and `n` for CHAR(n), offset equal to the sum of the widths declared before it, and
`row_size` equal to the sum of all widths. -/
theorem init_schema_layout (defs : List ColumnDef)
    (hsum : (((defs.map decl_width).sum : Nat) : Int) < 2147483648) :
    (init_schema defs = none ↔
      (defs = [] ∨ 64 < defs.length ∨ ∃ d ∈ defs, d.type = .CHAR ∧ d.char_len ≤ 0)) ∧
    ∀ t, init_schema defs = some t →
      t.cols.length = defs.length ∧ t.row_size = (defs.map decl_width).sum ∧
      t.SchemaOk ∧
      ∀ (i : Nat) (d : ColumnDef), defs[i]? = some d → ∃ c, t.cols[i]? = some c ∧
        c.type = d.type ∧ c.width = decl_width d ∧
        c.offset = ((defs.take i).map decl_width).sum := by
  obtain ⟨l1, l2⟩ := init_schema_loop_spec defs 0 (le_refl _) (by omega)
  refine ⟨?_, ?_⟩
  · unfold init_schema
    by_cases he : defs = []
    · simp [he]
    · have he2 : defs.isEmpty = false := by
        cases defs with
        | nil => exact absurd rfl he
        | cons _ _ => rfl
      by_cases h64 : defs.length > 64
      · simp [he2, h64]
      · simp only [he2, h64, Bool.false_eq_true, if_false, he, false_or]
        rw [← l1]
        cases hl : init_schema_loop defs 0 with
        | none => simp
        | some p => simp
  · intro t ht
    unfold init_schema at ht
    split_ifs at ht with he h64
    cases hl : init_schema_loop defs 0 with
    | none => rw [hl] at ht; simp at ht
    | some p =>
      obtain ⟨cs, total⟩ := p
      rw [hl] at ht
      simp only [Option.some.injEq] at ht
      subst ht
      obtain ⟨j1, j2, j3, j4⟩ := l2 cs total hl
      refine ⟨j1, ?_, ?_, ?_⟩
      · simp only [j2]
        omega
      · unfold SchemaOk
        simpa using j3
      · intro i d hi
        obtain ⟨c, hc1, hc2, hc3, hc4⟩ := j4 i d hi
        exact ⟨c, hc1, hc2, hc3, by simpa using hc4⟩

set_option maxRecDepth 100000 in
/-- Instance of C27 (amended): `CREATE TABLE t (id INT, name CHAR(4), w FLOAT)`. -/
theorem init_schema_layout_witness :
    ((((([{ name := "id", type := .INT32 }, { name := "name", type := .CHAR, char_len := 4 },
        { name := "w", type := .FLOAT32 }] : List ColumnDef).map decl_width).sum : Nat) : Int)
        < 2147483648) ∧
    init_schema [{ name := "id", type := .INT32 }, { name := "name", type := .CHAR, char_len := 4 },
        { name := "w", type := .FLOAT32 }]
      = some { cols := [{ name := "id", type := .INT32, width := 4, offset := 0 },
                        { name := "name", type := .CHAR, width := 4, offset := 4 },
                        { name := "w", type := .FLOAT32, width := 4, offset := 8 }],
               row_size := 12, file := List.replicate 184 0, del := [] } ∧
    init_schema [{ name := "name", type := .CHAR, char_len := 0 }] = none ∧
    ((init_schema [{ name := "id", type := .INT32 },
        { name := "name", type := .CHAR, char_len := 4 }, { name := "w", type := .FLOAT32 }] = none ↔
      (([{ name := "id", type := .INT32 }, { name := "name", type := .CHAR, char_len := 4 },
        { name := "w", type := .FLOAT32 }] : List ColumnDef) = [] ∨
       64 < ([{ name := "id", type := .INT32 }, { name := "name", type := .CHAR, char_len := 4 },
        { name := "w", type := .FLOAT32 }] : List ColumnDef).length ∨
       ∃ d ∈ ([{ name := "id", type := .INT32 }, { name := "name", type := .CHAR, char_len := 4 },
        { name := "w", type := .FLOAT32 }] : List ColumnDef), d.type = .CHAR ∧ d.char_len ≤ 0))) :=
  ⟨by decide, by decide, by decide,
    (init_schema_layout [{ name := "id", type := .INT32 },
      { name := "name", type := .CHAR, char_len := 4 }, { name := "w", type := .FLOAT32 }]
      (by decide)).1⟩

end GenericFixedTable

end gft

/-! ## Header size, and the frame of `WriteRowInDisk` -/

namespace gft

/-- Bytes before the written range are not changed by a write that starts inside
the buffer or right at its end. -/
theorem readAt_writeAt_before (buf : List Nat) (off : Nat) (bytes : List Nat) (o len : Nat)
    (h : o + len ≤ off) (hb : off ≤ buf.length) :
    readAt (writeAt buf off bytes) o len = readAt buf o len := by
  have h1 : off - buf.length = 0 := by omega
  apply List.ext_getElem?
  intro i
  simp only [readAt, writeAt, h1, List.replicate_zero, List.append_nil, List.append_assoc]
  by_cases hi : i < len
  · rw [List.getElem?_take_of_lt hi, List.getElem?_take_of_lt hi, List.getElem?_drop,
      List.getElem?_drop]
    rw [List.getElem?_append_left (by simp; omega), List.getElem?_take_of_lt (by omega)]
  · rw [List.getElem?_eq_none (by simp; omega), List.getElem?_eq_none (by simp; omega)]

namespace GenericFixedTable

set_option maxRecDepth 100000 in
/-- The sample table is what `init_schema` creates for `(id INT, qty INT)`. -/
theorem init_schema_exEmpty :
    init_schema [{ name := "id", type := .INT32 }, { name := "qty", type := .INT32 }]
      = some minidb.exEmpty := by
  decide

set_option maxRecDepth 100000 in
/-- C28, as stated, fails: the packed `FileHeader` is `8 + 32 + 4 + 4 + 4 = 52` bytes,
not 60.  The table `(id INT, qty INT)` with three rows is a file of 164 bytes whose
first row starts at byte 140, and `Count()` is 3, where the stated formula
`(164 - (60 + 44 * 2)) / 8` gives 2. -/
theorem Count_is_not_from_60 :
    sizeof_packed FileHeader_fields = 52 ∧
    init_schema [{ name := "id", type := .INT32 }, { name := "qty", type := .INT32 }]
      = some minidb.exEmpty ∧
    minidb.append_all minidb.exEmpty minidb.exRows = some minidb.exTable ∧
    minidb.exTable.cols.length = 2 ∧ minidb.exTable.row_size = 8 ∧
    minidb.exTable.file.length = 164 ∧
    minidb.exTable.data_offset = 140 ∧ minidb.exTable.data_offset ≠ 60 + 44 * 2 ∧
    minidb.exTable.Count = 3 ∧
    minidb.exTable.Count ≠ ((164 : Int) - (60 + 44 * 2)) / 8 ∧
    (minidb.exTable.ReadRowByPageID 0).1 = some [Value.Int 1, Value.Int 10] ∧
    readAt minidb.exTable.file 140 8 = [1, 0, 0, 0, 10, 0, 0, 0] := by
  decide

/-- C28 (amended): the on-disk table header occupies 52 bytes and each column
descriptor 44 bytes, so the first row starts at byte offset `52 + 44 * ncols`, and
for a file at least that long `Count()` equals
`(file_length - (52 + 44 * ncols)) / row_size`; for a shorter file it is 0. -/
theorem Count_formula (t : GenericFixedTable) :
    sizeof_packed FileHeader_fields = 52 ∧ sizeof_packed ColMetaDisk_fields = 44 ∧
    t.data_offset = 52 + 44 * t.cols.length ∧
    (t.file.length < 52 + 44 * t.cols.length → t.Count = 0) ∧
    (52 + 44 * t.cols.length ≤ t.file.length →
      t.Count = ((t.file.length : Int) - (52 + 44 * (t.cols.length : Int))) / (t.row_size : Int)) := by
  have hd : t.data_offset = 52 + 44 * t.cols.length := by
    simp only [data_offset, sizeof_packed, FileHeader_fields, ColMetaDisk_fields, List.map_cons,
      List.map_nil, List.sum_cons, List.sum_nil]
    omega
  refine ⟨rfl, rfl, hd, ?_, ?_⟩
  · intro h
    rw [Count_eq_div, hd]
    have : t.file.length - (52 + 44 * t.cols.length) = 0 := by omega
    simp [this]
  · intro h
    rw [Count_eq_div, hd, Int.natCast_div]
    congr 1
    omega

theorem MarkDeleted_getD (t : GenericFixedTable) (n q : Nat) :
    (t.MarkDeleted n).del.getD q 0 = if q = n then 1 else t.del.getD q 0 := by
  unfold MarkDeleted
  have hlen := ensure_del_size_length t ((n : Int) + 1)
  split_ifs with hq
  · subst hq
    have := set_del_flag_getD_self (t.ensure_del_size ((q : Int) + 1)) q 1 (by omega) hlen
    simpa using this
  · rw [set_del_flag_getD_ne _ _ _ _ hlen (by omega), ensure_del_size_getD]

/-- A write at a page id up to `Count()` leaves the answer of `ReadRowByPageID` for
every other page id as it was. -/
theorem WriteRowInDisk_frame_le (t : GenericFixedTable) (n : Nat) (row : List Value)
    (hs : t.SchemaOk) (hne : t.cols ≠ []) (hv : row_valid t.cols row = true)
    (hn : (n : Int) ≤ t.Count) (q : Int) (hq : q ≠ (n : Int)) :
    ((t.WriteRowInDisk n row).2.ReadRowByPageID q).1 = (t.ReadRowByPageID q).1 := by
  by_cases hlt : (n : Int) < t.Count
  · exact WriteRowInDisk_frame t n row hs hv hlt q hq
  have hnc : t.Count = (n : Int) := by omega
  obtain ⟨out, -, ho, -, c1, c2, c3, c4⟩ := WriteRowInDisk_valid t n row hs hv
  have hrs := row_size_pos t hs hne
  have hcnt := Count_after_write t _ n out hrs ho c1 c2 c3
  have hcnt2 : (t.WriteRowInDisk n row).2.Count = (n : Int) + 1 := by rw [hcnt, hnc]; omega
  have hdo : (t.WriteRowInDisk n row).2.data_offset = t.data_offset := by
    simp only [data_offset, c1]
  rw [ReadRowByPageID_eq, ReadRowByPageID_eq, hcnt2, hnc]
  by_cases hr : q < 0 ∨ q ≥ (n : Int)
  · have h1 : q < 0 ∨ q ≥ (n : Int) + 1 ∨ (t.WriteRowInDisk n row).2.del.getD q.toNat 0 ≠ 0 := by
      rcases hr with h | h
      · exact Or.inl h
      · exact Or.inr (Or.inl (by omega))
    have h2 : q < 0 ∨ q ≥ (n : Int) ∨ t.del.getD q.toNat 0 ≠ 0 := by
      rcases hr with h | h
      · exact Or.inl h
      · exact Or.inr (Or.inl h)
    rw [if_pos h1, if_pos h2]
  · have h0 : 0 ≤ q := by omega
    obtain ⟨m, hm⟩ := Int.eq_ofNat_of_zero_le h0
    subst hm
    have hmn : m < n := by omega
    have hin := row_in_file t (n - 1) (by omega)
    have e1 : (n - 1) * t.row_size + t.row_size = n * t.row_size := by
      have : n = (n - 1) + 1 := by omega
      nth_rewrite 2 [this]
      ring
    have hle : (m + 1) * t.row_size ≤ n * t.row_size := Nat.mul_le_mul_right _ hmn
    have e2 : (m + 1) * t.row_size = m * t.row_size + t.row_size := by ring
    have hbytes : readAt (t.WriteRowInDisk n row).2.file (t.data_offset + m * t.row_size)
        t.row_size = readAt t.file (t.data_offset + m * t.row_size) t.row_size := by
      rw [c3]
      exact readAt_writeAt_before _ _ _ _ _ (by omega) (by omega)
    have hc4 : (t.WriteRowInDisk n row).2.del.getD m 0 = t.del.getD m 0 := by
      rw [c4 m, if_neg (by omega)]
    rw [Int.toNat_ofNat, hc4, c1, c2, hdo, hbytes]
    by_cases hd : t.del.getD m 0 ≠ 0
    · rw [if_pos (Or.inr (Or.inr hd)), if_pos (Or.inr (Or.inr hd))]
    · have n1 : ¬ ((m : Int) < 0 ∨ (m : Int) ≥ (n : Int) + 1 ∨ t.del.getD m 0 ≠ 0) := by
        rintro (h | h | h)
        · omega
        · omega
        · exact hd h
      have n2 : ¬ ((m : Int) < 0 ∨ (m : Int) ≥ (n : Int) ∨ t.del.getD m 0 ≠ 0) := by
        rintro (h | h | h)
        · omega
        · omega
        · exact hd h
      rw [if_neg n1, if_neg n2]

end GenericFixedTable

end gft

namespace gft

namespace GenericFixedTable

theorem IsDeleted_after_write (t : GenericFixedTable) (n : Nat) (row : List Value)
    (hs : t.SchemaOk) (hv : row_valid t.cols row = true) (q : Int) :
    ((t.WriteRowInDisk n row).2.IsDeleted q).1
      = if q = (n : Int) then false else (t.IsDeleted q).1 := by
  obtain ⟨out, -, -, -, -, -, -, c4⟩ := WriteRowInDisk_valid t n row hs hv
  rw [IsDeleted_eq, IsDeleted_eq, c4]
  by_cases h0 : 0 ≤ q
  · obtain ⟨m, hm⟩ := Int.eq_ofNat_of_zero_le h0
    subst hm
    rw [Int.toNat_ofNat]
    by_cases hmn : m = n
    · subst hmn
      simp
    · have : (m : Int) ≠ (n : Int) := by omega
      rw [if_neg hmn, if_neg this]
  · have hq : q ≠ (n : Int) := by omega
    rw [if_neg hq]
    simp [h0]

theorem MarkDeleted_other (t : GenericFixedTable) (n : Nat) (q : Int) (hq : q ≠ (n : Int)) :
    ((t.MarkDeleted n).IsDeleted q).1 = (t.IsDeleted q).1 ∧
    ((t.MarkDeleted n).ReadRowByPageID q).1 = (t.ReadRowByPageID q).1 := by
  have hsame := MarkDeleted_same t n
  by_cases h0 : 0 ≤ q
  · obtain ⟨m, hm⟩ := Int.eq_ofNat_of_zero_le h0
    subst hm
    have hmn : m ≠ n := by omega
    have hg : (t.MarkDeleted n).del.getD m 0 = t.del.getD m 0 := by
      rw [MarkDeleted_getD, if_neg hmn]
    refine ⟨?_, ?_⟩
    · rw [IsDeleted_eq, IsDeleted_eq, Int.toNat_ofNat, hg]
    · apply ReadRowByPageID_congr t _ _ hsame.1 hsame.2.1 (by rw [hsame.2.2])
      · rw [hsame.2.2]
      · rw [Int.toNat_ofNat, hg]
  · refine ⟨?_, ?_⟩
    · rw [IsDeleted_eq, IsDeleted_eq]
      simp [h0]
    · rw [ReadRowByPageID_eq, ReadRowByPageID_eq, if_pos (Or.inl (by omega)),
        if_pos (Or.inl (by omega))]

set_option maxRecDepth 100000 in
/-- C26, as stated, fails.  On the sample table (`Count() = 3`) page 4 is absent;
after `MarkDeleted(5)` and `WriteRowInDisk(5, (9, 9))` the file has grown and
`ReadRowByPageID(4)` returns the row `(0, 0)`.  And in the table `(name CHAR(4))` the
row `("abcd")` written over page 0 is read back as `("abc")`. -/
theorem WriteRowInDisk_changes_other_page :
    minidb.exTable.Count = 3 ∧
    (minidb.exTable.ReadRowByPageID 4).1 = none ∧
    ((minidb.exTable.MarkDeleted 5).WriteRowInDisk 5 [Value.Int 9, Value.Int 9]).1 = true ∧
    (((minidb.exTable.MarkDeleted 5).WriteRowInDisk 5
      [Value.Int 9, Value.Int 9]).2.ReadRowByPageID 4).1 = some [Value.Int 0, Value.Int 0] ∧
    row_valid minidb.exCharEmpty.cols [Value.Chr [97, 98, 99, 100]] = true ∧
    ((minidb.exCharEmpty.MarkDeleted 0).WriteRowInDisk 0 [Value.Chr [97, 98, 99, 100]]).1
      = true ∧
    (((minidb.exCharEmpty.MarkDeleted 0).WriteRowInDisk 0
      [Value.Chr [97, 98, 99, 100]]).2.ReadRowByPageID 0).1 = some [Value.Chr [97, 98, 99]] := by
  decide

/-- C26 (amended): for a schema laid out by `init_schema`, a page id `p` with
`0 <= p <= Count()` and a row whose values carry their column's type,
`WriteRowInDisk(p, row)` returns normally, forces the tombstone byte of `p` to 0 and
leaves the answers of `IsDeleted(q)` and `ReadRowByPageID(q)` as they were for every
`q != p`.  After `MarkDeleted(p)` followed by `WriteRowInDisk(p, row)`, `p` is not
deleted, the answers for every `q != p` are those from before the two calls, and
`ReadRowByPageID(p)` returns `row`, value by value, when the CHAR values of `row` are
shorter than their column's width and contain no NUL byte. -/
theorem WriteRowInDisk_clears_tombstone (t : GenericFixedTable) (n : Nat) (row : List Value)
    (hs : t.SchemaOk) (hne : t.cols ≠ []) (hv : row_valid t.cols row = true)
    (hn : (n : Int) ≤ t.Count) :
    ((t.WriteRowInDisk n row).1 = true ∧
      ((t.WriteRowInDisk n row).2.IsDeleted n).1 = false ∧
      ∀ q : Int, q ≠ (n : Int) →
        ((t.WriteRowInDisk n row).2.IsDeleted q).1 = (t.IsDeleted q).1 ∧
        ((t.WriteRowInDisk n row).2.ReadRowByPageID q).1 = (t.ReadRowByPageID q).1) ∧
    ((t.MarkDeleted n).IsDeleted n).1 = true ∧
    ((t.MarkDeleted n).WriteRowInDisk n row).1 = true ∧
    (((t.MarkDeleted n).WriteRowInDisk n row).2.IsDeleted n).1 = false ∧
    (row_storable t.cols row = true → (∀ v ∈ row, v.wf = true) →
      ∃ r2, (((t.MarkDeleted n).WriteRowInDisk n row).2.ReadRowByPageID n).1 = some r2 ∧
        same_row r2 row = true) ∧
    ∀ q : Int, q ≠ (n : Int) →
      (((t.MarkDeleted n).WriteRowInDisk n row).2.IsDeleted q).1 = (t.IsDeleted q).1 ∧
      (((t.MarkDeleted n).WriteRowInDisk n row).2.ReadRowByPageID q).1
        = (t.ReadRowByPageID q).1 := by
  have key : ∀ u : GenericFixedTable, u.SchemaOk → u.cols = t.cols → u.Count = t.Count →
      (u.WriteRowInDisk n row).1 = true ∧
      ((u.WriteRowInDisk n row).2.IsDeleted n).1 = false ∧
      ∀ q : Int, q ≠ (n : Int) →
        ((u.WriteRowInDisk n row).2.IsDeleted q).1 = (u.IsDeleted q).1 ∧
        ((u.WriteRowInDisk n row).2.ReadRowByPageID q).1 = (u.ReadRowByPageID q).1 := by
    intro u hu hc hcnt
    have hvu : row_valid u.cols row = true := by rw [hc]; exact hv
    have hneu : u.cols ≠ [] := by rw [hc]; exact hne
    obtain ⟨out, -, -, w1, -⟩ := WriteRowInDisk_valid u n row hu hvu
    refine ⟨w1, ?_, ?_⟩
    · rw [IsDeleted_after_write u n row hu hvu, if_pos rfl]
    · intro q hq
      refine ⟨?_, WriteRowInDisk_frame_le u n row hu hneu hvu (by rw [hcnt]; exact hn) q hq⟩
      rw [IsDeleted_after_write u n row hu hvu, if_neg hq]
  have hsame := MarkDeleted_same t n
  have hs1 := SchemaOk_of_same _ _ hsame hs
  obtain ⟨k1, k2, k3⟩ := key (t.MarkDeleted n) hs1 hsame.1 (Count_of_same _ _ hsame)
  refine ⟨key t hs rfl rfl, ?_, k1, k2, ?_, ?_⟩
  · rw [IsDeleted_eq, Int.toNat_ofNat, MarkDeleted_getD, if_pos rfl]
    simp
  · intro hst hwf
    have hv1 : row_valid (t.MarkDeleted n).cols row = true := by rw [hsame.1]; exact hv
    have hne1 : (t.MarkDeleted n).cols ≠ [] := by rw [hsame.1]; exact hne
    obtain ⟨out, hout, hread⟩ := ReadRowByPageID_after_write (t.MarkDeleted n) n row hs1 hne1 hv1
    rw [hsame.1, hsame.2.1] at hout
    rw [hsame.1] at hread
    exact ⟨_, hread, unpack_pack_row t.cols row out t.row_size hs hout hst hwf⟩
  · intro q hq
    obtain ⟨a, b⟩ := k3 q hq
    obtain ⟨c, d⟩ := MarkDeleted_other t n q hq
    exact ⟨a.trans c, b.trans d⟩

set_option maxRecDepth 100000 in
/-- Instance of C26 (amended): page 1 of the sample table, rewritten with `(7, 70)`. -/
theorem WriteRowInDisk_clears_tombstone_witness :
    minidb.exTable.SchemaOk ∧ minidb.exTable.cols ≠ [] ∧
    row_valid minidb.exTable.cols [Value.Int 7, Value.Int 70] = true ∧
    ((1 : Nat) : Int) ≤ minidb.exTable.Count ∧
    ((minidb.exTable.MarkDeleted (1 : Nat)).ReadRowByPageID 1).1 = none ∧
    (((minidb.exTable.MarkDeleted (1 : Nat)).WriteRowInDisk (1 : Nat)
      [Value.Int 7, Value.Int 70]).2.ReadRowByPageID 1).1 = some [Value.Int 7, Value.Int 70] ∧
    (((minidb.exTable.MarkDeleted (1 : Nat)).WriteRowInDisk (1 : Nat)
      [Value.Int 7, Value.Int 70]).2.IsDeleted (1 : Nat)).1 = false :=
  ⟨rfl, by decide, by decide, by decide, by decide, by decide,
    (WriteRowInDisk_clears_tombstone minidb.exTable 1 [Value.Int 7, Value.Int 70] rfl
      (by decide) (by decide) (by decide)).2.2.2.1⟩

end GenericFixedTable

end gft

/-! ## The root after `remove_key` -/

namespace diskbtree

section root_lemmas
variable {K : Type} [LinearOrder K]

theorem inorder_ne_nil {α : Type} (e : α) (es : List α) (fs : List (List α)) :
    inorder (e :: es) fs ≠ [] := by
  cases fs with
  | nil => simp [inorder]
  | cons f fs => simp [inorder]

theorem flat_ne_nil (x : NodeDisk K) (h : 1 ≤ x.n) : x.flat ≠ [] := by
  cases x with
  | leaf es =>
    rw [flat_leaf]
    intro he
    subst he
    simp [NodeDisk.n, NodeDisk.entries] at h
  | inner es cs =>
    rw [flat_inner]
    cases es with
    | nil => simp [NodeDisk.n, NodeDisk.entries] at h
    | cons e es => exact inorder_ne_nil _ _ _

/-- An index file is empty exactly when it stores no entry. -/
theorem empty_iff_stored (bt : DiskBTree K) (hinv : RootInv bt) :
    bt.empty = true ↔ bt.stored = [] := by
  unfold DiskBTree.empty
  cases hr : bt.root with
  | none => simp [DiskBTree.stored, hr]
  | some r =>
    unfold RootInv at hinv
    rw [hr] at hinv
    obtain ⟨h, -, hn1, -, -⟩ := hinv
    have := flat_ne_nil r hn1
    simp [DiskBTree.stored, hr, this]

/-- The three outcomes of `remove_key` on a non-empty index. -/
theorem remove_key_root_cases (bt : DiskBTree K) (ht : 2 ≤ bt.t) (hinv : RootInv bt) (k : K)
    (r : NodeDisk K) (hr : bt.root = some r) :
    ∃ r2, remove_rec bt.t r.depth r k = some r2 ∧
      ((1 ≤ r2.n ∧ remove_key bt k = some { bt with root := some r2 }) ∨
       (r2 = .leaf [] ∧ remove_key bt k = some { bt with root := none }) ∨
       (∃ c, r2 = .inner [] [c] ∧ remove_key bt k = some { bt with root := some c })) := by
  unfold RootInv at hinv
  rw [hr] at hinv
  obtain ⟨h, hwf, hn1, hn2, hord⟩ := hinv
  have hd := depth_of_wf bt.t h r hwf
  obtain ⟨r2, hrec, hw2, -⟩ :=
    remove_rec_spec bt.t ht h r.depth r k (by omega) hwf (Or.inr hn1) hord
  refine ⟨r2, hrec, ?_⟩
  by_cases h0 : r2.n = 0
  · right
    cases h with
    | zero =>
      obtain ⟨es, rfl⟩ := (wf_zero_iff _ r2).mp hw2
      have hes : es = [] := by simpa [NodeDisk.n, NodeDisk.entries] using h0
      subst hes
      left
      exact ⟨rfl, by simp [remove_key, hr, hrec, NodeDisk.isLeaf, NodeDisk.n, NodeDisk.entries]⟩
    | succ h =>
      obtain ⟨es, cs, rfl, hlen, hcs⟩ := (wf_succ_iff _ _ r2).mp hw2
      have hes : es = [] := by simpa [NodeDisk.n, NodeDisk.entries] using h0
      subst hes
      right
      match cs, hlen with
      | [c], _ =>
        exact ⟨c, rfl, by simp [remove_key, hr, hrec, NodeDisk.isLeaf, NodeDisk.children,
          NodeDisk.n, NodeDisk.entries]⟩
  · left
    exact ⟨by omega, by simp [remove_key, hr, hrec, h0]⟩

end root_lemmas

section claim_root
variable {K : Type} [LinearOrder K]

/-- C25: on every index built by `insert` and `remove_key` calls, `remove_key(k)` on
a non-empty index runs `remove_rec` on the root and then: if the root is left with at
least one key it stays the root; if it is left with 0 keys and is a leaf the root
offset becomes 0; if it is left with 0 keys and is internal it has exactly one child,
which becomes the root.  Consequently the index is empty exactly when it stores no
entry, and `insert(k, v)` on an empty index followed by `remove_key(k)` leaves the
index empty. -/
theorem remove_key_root_offset (t : Nat) (ops : List (Op K)) (bt : DiskBTree K) (k : K)
    (v : Int) (hrun : run t ops = some bt) :
    (∀ r, bt.root = some r → ∃ r2, remove_rec bt.t r.depth r k = some r2 ∧
      ((1 ≤ r2.n ∧ remove_key bt k = some { bt with root := some r2 }) ∨
       (r2 = .leaf [] ∧ remove_key bt k = some { bt with root := none }) ∨
       (∃ c, r2 = .inner [] [c] ∧ remove_key bt k = some { bt with root := some c }))) ∧
    (bt.empty = true ↔ bt.stored = []) ∧
    (bt.empty = true → ∃ b1 b2, insert bt k v = some b1 ∧ b1.empty = false ∧
      remove_key b1 k = some b2 ∧ b2.empty = true ∧ b2.stored = []) := by
  obtain ⟨ht, _, h3, hinv, _⟩ := run_inv t ops bt hrun
  have ht2 : 2 ≤ bt.t := by omega
  refine ⟨fun r hr => remove_key_root_cases bt ht2 hinv k r hr, empty_iff_stored bt hinv, ?_⟩
  intro he
  have hst := (empty_iff_stored bt hinv).1 he
  obtain ⟨b1, hi, hb1t, hb1inv, hperm⟩ := insert_spec bt ht2 hinv k v
  rw [hst] at hperm
  have hb1 : b1.stored = [(k, v)] := List.perm_singleton.1 hperm
  obtain ⟨b2, hrem, -, hb2inv, -, hp2, -⟩ := remove_key_spec b1 (by omega) hb1inv k
  have hp := hp2 ⟨v, by rw [hb1]; simp⟩
  rw [hb1] at hp
  have hlen := hp.length_eq
  have hnil : b2.stored = [] := by
    cases hs : b2.stored with
    | nil => rfl
    | cons a l => rw [hs] at hlen; simp at hlen
  refine ⟨b1, b2, hi, ?_, hrem, (empty_iff_stored b2 hb2inv).2 hnil, hnil⟩
  cases hb : b1.empty with
  | false => rfl
  | true =>
    have := (empty_iff_stored b1 hb1inv).1 hb
    rw [hb1] at this
    simp at this

/-- Instance of C25: the index built by four inserts with `t = 2`, and an empty
index of the same degree. -/
theorem remove_key_root_offset_witness :
    run 2 exOps = some exTree ∧ run 2 ([] : List (Op Int)) = some { t := 2, root := none } ∧
    (exTree.empty = true ↔ exTree.stored = []) ∧
    (({ t := 2, root := none } : DiskBTree Int).empty = true →
      ∃ b1 b2, insert ({ t := 2, root := none } : DiskBTree Int) 7 70 = some b1 ∧
        b1.empty = false ∧ remove_key b1 7 = some b2 ∧ b2.empty = true ∧ b2.stored = []) :=
  ⟨rfl, rfl, (remove_key_root_offset 2 exOps exTree 3 30 run_exOps).2.1,
    (remove_key_root_offset 2 [] { t := 2, root := none } 7 70 (by rfl)).2.2⟩

end claim_root

end diskbtree

/-! ## The order of a range listing -/

namespace diskbtree

section range_lemmas
variable {K : Type} [LinearOrder K]

theorem scan_lt_cut (es : List (K × Int)) (k : K) :
    ∃ A B, es = A ++ B ∧ scan_lt es k = A.length :=
  ⟨es.takeWhile (fun e => decide (cmp_mem e.1 k < 0)),
    es.dropWhile (fun e => decide (cmp_mem e.1 k < 0)),
    (List.takeWhile_append_dropWhile _ es).symm, rfl⟩

theorem range_leaf_sub (a b : K) : ∀ es : List (K × Int),
    ∃ l : List (K × Int), l.Sublist es ∧ range_leaf a b es = l.map Prod.snd
  | [] => ⟨[], List.Sublist.slnil, rfl⟩
  | e :: es => by
    obtain ⟨l, hl, he⟩ := range_leaf_sub a b es
    unfold range_leaf
    split_ifs with h1 h2
    · exact ⟨l, hl.cons e, he⟩
    · exact ⟨[], List.nil_sublist _, rfl⟩
    · exact ⟨e :: l, hl.cons₂ e, by rw [he]; rfl⟩

theorem range_head_sub (rec : NodeDisk K → Option (List Int)) :
    ∀ (A : List (K × Int)) (L rest : List (NodeDisk K)), L.length = A.length →
      (∀ c ∈ L, ∃ l : List (K × Int), l.Sublist c.flat ∧ rec c = some (l.map Prod.snd)) →
      ∃ l : List (K × Int), l.Sublist (pre A L) ∧
        range_head rec A.length (L ++ rest) = some (l.map Prod.snd)
  | [], [], rest, _, _ => ⟨[], List.nil_sublist _, by simp [range_head]⟩
  | [], _ :: _, _, h, _ => by simp at h
  | _ :: _, [], _, h, _ => by simp at h
  | e :: A, c :: L, rest, h, hc => by
    obtain ⟨l1, hl1, hr1⟩ := hc c (List.mem_cons_self _ _)
    obtain ⟨l2, hl2, hr2⟩ := range_head_sub rec A L rest (by simpa using h)
      (fun d hd => hc d (List.mem_cons_of_mem _ hd))
    refine ⟨l1 ++ l2, ?_, ?_⟩
    · rw [pre_cons]
      exact hl1.append (hl2.cons e)
    · have e1 : range_head rec A.length (L.append rest) = some (l2.map Prod.snd) := hr2
      simp only [List.length_cons, List.cons_append, range_head, hr1, e1, List.map_append]

theorem range_tail_sub (rec : NodeDisk K → Option (List Int)) (b : K) :
    ∀ (B : List (K × Int)) (R : List (NodeDisk K)), R.length = B.length →
      (∀ c ∈ R, ∃ l : List (K × Int), l.Sublist c.flat ∧ rec c = some (l.map Prod.snd)) →
      ∃ l : List (K × Int), l.Sublist (post B R) ∧
        range_tail rec b B R = some (l.map Prod.snd)
  | [], _, _, _ => ⟨[], List.nil_sublist _, by simp [range_tail]⟩
  | _ :: _, [], h, _ => by simp at h
  | e :: B, c :: R, h, hc => by
    obtain ⟨l1, hl1, hr1⟩ := hc c (List.mem_cons_self _ _)
    obtain ⟨l2, hl2, hr2⟩ := range_tail_sub rec b B R (by simpa using h)
      (fun d hd => hc d (List.mem_cons_of_mem _ hd))
    unfold range_tail
    split_ifs with h1
    · refine ⟨e :: (l1 ++ l2), ?_, ?_⟩
      · rw [post_cons]
        exact (hl1.append hl2).cons₂ e
      · simp only [hr1, hr2, List.map_cons, List.map_append, List.cons_append]
    · exact ⟨[], List.nil_sublist _, rfl⟩

/-- The recursive range listing of a well-shaped subtree returns, and what it returns
are the values of a sublist of the subtree's in-order listing. -/
theorem range_rec_values_sub (t : Nat) (a b : K) :
    ∀ (h f : Nat) (x : NodeDisk K), h < f → WF t h x →
      ∃ l : List (K × Int), l.Sublist x.flat ∧ range_rec_values f x a b = some (l.map Prod.snd) := by
  intro h
  induction h with
  | zero =>
    intro f x hf hwf
    obtain ⟨es, rfl⟩ := (wf_zero_iff t x).mp hwf
    obtain ⟨f, rfl⟩ : ∃ f2, f = f2 + 1 := ⟨f - 1, by omega⟩
    obtain ⟨l, hl, he⟩ := range_leaf_sub a b es
    exact ⟨l, by rw [flat_leaf]; exact hl, by simp only [range_rec_values, he]⟩
  | succ h ih =>
    intro f x hf hwf
    obtain ⟨es, cs, rfl, hlen, hcs⟩ := (wf_succ_iff t h x).mp hwf
    obtain ⟨f, rfl⟩ : ∃ f2, f = f2 + 1 := ⟨f - 1, by omega⟩
    have hf2 : h < f := by omega
    obtain ⟨A, B, rfl, hscan⟩ := scan_lt_cut es a
    obtain ⟨L, c, R, rfl, hL, hR⟩ := focus_at A B cs hlen
    have hP : ∀ d ∈ L ++ c :: R, ∃ l : List (K × Int), l.Sublist d.flat ∧
        range_rec_values f d a b = some (l.map Prod.snd) :=
      fun d hd => ih f d hf2 (hcs d hd).1
    obtain ⟨l1, hl1, hr1⟩ := range_head_sub (fun d => range_rec_values f d a b) A L (c :: R) hL
      (fun d hd => hP d (List.mem_append_left _ hd))
    obtain ⟨lc, hlc, hrc⟩ := hP c (by simp)
    obtain ⟨l3, hl3, hr3⟩ := range_tail_sub (fun d => range_rec_values f d a b) b B R hR
      (fun d hd => hP d (List.mem_append_right _ (List.mem_cons_of_mem _ hd)))
    have hidx : (L ++ c :: R)[A.length]? = some c := by rw [← hL]; exact getElem?_app_len L c R
    have hdropE : (A ++ B).drop A.length = B := List.drop_left _ _
    have hdropC : (L ++ c :: R).drop (A.length + 1) = R := by
      rw [← hL, ← List.drop_drop, List.drop_left]
      rfl
    rw [flat_focus A B L R c hL]
    by_cases hi : A.length < (A ++ B).length
    · refine ⟨l1 ++ lc ++ l3, (hl1.append hlc).append hl3, ?_⟩
      simp only [range_rec_values, hscan, hr1, hi, if_true, hidx, Option.some_bind, hrc,
        hdropE, hdropC, hr3, List.map_append]
    · refine ⟨l1 ++ [] ++ l3, (hl1.append (List.nil_sublist _)).append hl3, ?_⟩
      simp only [range_rec_values, hscan, hr1, hi, if_false, hdropE, hdropC, hr3,
        List.map_append, List.map_nil]

end range_lemmas

section claim_range
variable {K : Type} [LinearOrder K]

/-- C24: on every index built by `insert` and `remove_key` calls and for all keys
`a`, `b`, `range_search_values(a, b)` returns, and the values it lists are those of
stored entries taken in the order of the in-order listing: the listed entries form a
sublist of the stored entries, so whenever one value is listed before another the key
of the first one's entry is `<=` the key of the second one's entry. -/
theorem range_search_values_ascending (t : Nat) (ops : List (Op K)) (bt : DiskBTree K)
    (a b : K) (hrun : run t ops = some bt) :
    ∃ l : List (K × Int), range_search_values bt a b = some (l.map Prod.snd) ∧
      l.Sublist bt.stored ∧ l.Pairwise (fun e1 e2 => e1.1 ≤ e2.1) := by
  obtain ⟨_, _, _, hinv, _⟩ := run_inv t ops bt hrun
  cases hr : bt.root with
  | none =>
    exact ⟨[], by simp [range_search_values, hr], List.nil_sublist _, List.Pairwise.nil⟩
  | some r =>
    unfold RootInv at hinv
    rw [hr] at hinv
    obtain ⟨h, hwf, -, -, hord⟩ := hinv
    have hd := depth_of_wf bt.t h r hwf
    obtain ⟨l, hl, he⟩ := range_rec_values_sub bt.t
      (if cmp_mem a b > 0 then b else a) (if cmp_mem a b > 0 then a else b)
      h r.depth r (by omega) hwf
    refine ⟨l, ?_, ?_, ?_⟩
    · simp only [range_search_values, hr, he]
    · simpa [DiskBTree.stored, hr] using hl
    · exact List.Pairwise.sublist hl hord

/-- Instance of C24: `range_search_values(1, 3)` on the index built by inserting the
keys 1, 2, 3, 4 with `t = 2`. -/
theorem range_search_values_ascending_witness :
    run 2 exOps = some exTree ∧ range_search_values exTree 1 3 = some [10, 20, 30] ∧
    ∃ l : List (Int × Int), range_search_values exTree 1 3 = some (l.map Prod.snd) ∧
      l.Sublist exTree.stored ∧ l.Pairwise (fun e1 e2 => e1.1 ≤ e2.1) :=
  ⟨rfl, by decide, range_search_values_ascending 2 exOps exTree 1 3 run_exOps⟩

end claim_range

end diskbtree

/-! ## Building an index -/

namespace minidb

open gft diskbtree gft.GenericFixedTable

variable {F : Type} [LinearOrder F] {of_bits : Nat → F} {fp : FloatProbe}

theorem detectar_tipo_columna_frame (ti : TablaInfo F) (col : String) :
    SameRows ti.tabla (detectar_tipo_columna ti col).2.tabla ∧
    (detectar_tipo_columna ti col).2.idx_int = ti.idx_int := by
  unfold detectar_tipo_columna
  have s1 := ReadChar_sameRows ti.tabla 0 col
  have s2 := ReadInt_sameRows (ti.tabla.ReadChar 0 col).2 0 col
  have s3 := ReadFloat_sameRows ((ti.tabla.ReadChar 0 col).2.ReadInt 0 col).2 0 col
  split
  · exact ⟨SameRows.refl_rows _, rfl⟩
  · split_ifs
    · simp only
      split
      · exact ⟨s1, rfl⟩
      · split
        · exact ⟨s1.trans_rows s2, rfl⟩
        · split
          · exact ⟨(s1.trans_rows s2).trans_rows s3, rfl⟩
          · exact ⟨(s1.trans_rows s2).trans_rows s3, rfl⟩
    · exact ⟨SameRows.refl_rows _, rfl⟩

end minidb

namespace minidb

open gft diskbtree gft.GenericFixedTable

variable {F : Type} [LinearOrder F] {of_bits : Nat → F} {fp : FloatProbe}

end minidb

namespace minidb

open gft diskbtree gft.GenericFixedTable

variable {F : Type} [LinearOrder F] {of_bits : Nat → F} {fp : FloatProbe}

end minidb

namespace minidb

open gft diskbtree gft.GenericFixedTable

variable {F : Type} [LinearOrder F] {of_bits : Nat → F} {fp : FloatProbe}

end minidb

namespace minidb

open gft diskbtree gft.GenericFixedTable

variable {F : Type} [LinearOrder F] {of_bits : Nat → F} {fp : FloatProbe}

end minidb

namespace minidb

open gft diskbtree gft.GenericFixedTable

variable {F : Type} [LinearOrder F] {of_bits : Nat → F} {fp : FloatProbe}

end minidb

namespace sqlmini

open gft diskbtree minidb gft.GenericFixedTable

variable {F : Type} [LinearOrder F] {of_bits : Nat → F} {fp : FloatProbe}

theorem is_tombstoned_congr (t t2 : GenericFixedTable) (q : Int) (hc : t2.cols = t.cols)
    (hr : (t2.ReadRowByPageID q).1 = (t.ReadRowByPageID q).1) :
    is_tombstoned t2 q = is_tombstoned t q := by
  unfold is_tombstoned
  rw [hr, hc]

/-- A call of `borrar_por_pageid` that returns false changes nothing that a read
sees, and the page was not live. -/
theorem borrar_false_inv (ti ti2 : TablaInfo F) (p : Int)
    (h : borrar_por_pageid of_bits ti p = some (false, ti2)) :
    SameRows ti.tabla ti2.tabla ∧ ti2.idx_int = ti.idx_int ∧ is_tombstoned ti.tabla p = true := by
  have s1 := ReadRowByPageID_sameRows ti.tabla p
  unfold borrar_por_pageid at h
  simp only at h
  split at h
  · rename_i hnone
    simp only [Option.some.injEq, Prod.mk.injEq, true_and] at h
    subst h
    exact ⟨s1, rfl, by simp [is_tombstoned, hnone]⟩
  · rename_i row hrow
    split_ifs at h with hg hw1
    · simp only [Option.some.injEq, Prod.mk.injEq, true_and] at h
      subst h
      refine ⟨s1, rfl, ?_⟩
      simp only [is_tombstoned, hrow, id_is_minus_one]
      simp only [GenericFixedTable.col_index, s1.1] at hg
      exact hg
    · simp at h

/-- After a call of `borrar_por_pageid` that returns true on a table whose `id`
column is INT32, the page reads back with `id = -1`. -/
theorem borrar_true_dead (ti ti2 : TablaInfo F) (p : Int) (i : Nat) (c : ColMetaDisk)
    (hs : ti.tabla.SchemaOk) (hid : ti.tabla.col_index "id" = some i)
    (hc : ti.tabla.cols[i]? = some c) (hty : c.type = ColType.INT32)
    (h : borrar_por_pageid of_bits ti p = some (true, ti2)) : is_tombstoned ti2.tabla p = true := by
  obtain ⟨hcols, -, -, -⟩ := borrar_true_frame ti ti2 p hs h
  obtain ⟨n, row, t1, hn, -, -, hval, -, hsr, hw1, hw2, -⟩ := borrar_true_inv ti ti2 p h
  subst hn
  rw [hid] at hw1 hw2
  simp only at hw1 hw2
  have hs1 := hsr.schemaOk hs
  have hne : t1.cols ≠ [] := by
    rw [hsr.1]
    intro he
    rw [he] at hc
    simp at hc
  have hv := WriteRowInDisk_true_valid _ _ _ hw1
  obtain ⟨out, hout, hread⟩ := ReadRowByPageID_after_write t1 n _ hs1 hne hv
  rw [← hw2] at hread
  have hil : i < row.length := by
    have := row_valid_length _ _ hval
    have := (List.getElem?_eq_some_iff.1 hc).1
    omega
  have hvi : (row.set i (Value.Int (-1)))[i]? = some (Value.Int (-1)) := by
    rw [List.getElem?_set_self hil]
  have hfield := unpack_int_field t1.cols _ out t1.row_size i c (Value.Int (-1)) hs1 hout
    (by rw [hsr.1]; exact hc) hvi hty (by decide) (by decide)
  have hfi : ti2.tabla.cols.findIdx? (fun c => c.name == "id") = some i := by
    rw [hcols]
    exact hid
  simp only [is_tombstoned, hread, id_is_minus_one, hfi, hfield, Value.Int]
  rfl

/-- On a table whose schema is laid out by `init_schema` and whose `id` column is
INT32, `borrar_por_pageid` does not throw. -/
theorem borrar_total (of_bits : Nat → F) (ti : TablaInfo F) (p : Int) (i : Nat)
    (c : ColMetaDisk)
    (hs : ti.tabla.SchemaOk) (hid : ti.tabla.col_index "id" = some i)
    (hc : ti.tabla.cols[i]? = some c) (hty : c.type = ColType.INT32) :
    ∃ r, borrar_por_pageid of_bits ti p = some r := by
  have s1 := ReadRowByPageID_sameRows ti.tabla p
  unfold borrar_por_pageid
  simp only
  split
  · exact ⟨_, rfl⟩
  · rename_i row hrow
    split_ifs with hg hw1
    · exact ⟨_, rfl⟩
    · exact ⟨_, rfl⟩
    · exfalso
      apply hw1
      obtain ⟨n, hn, -, hval⟩ := ReadRowByPageID_some_valid _ _ _ hrow
      subst hn
      obtain ⟨s2, -, -⟩ := remove_from_indexes_getElem n (ti.tabla.ReadRowByPageID n).2
        ti.idx_int (ti.tabla.ReadRowByPageID n).2 (SameRows.refl_rows _)
      have s3 := remove_from_indexes_of_sameRows (get_float of_bits)
        (get_float_sameRows of_bits) n ti.idx_float
        (remove_from_indexes n (ti.tabla.ReadRowByPageID n).2 ti.idx_int).2
      have s4 := remove_from_indexes_of_sameRows get_char get_char_sameRows n ti.idx_char
        (remove_from_indexes_of (get_float of_bits) n
          (remove_from_indexes n (ti.tabla.ReadRowByPageID n).2 ti.idx_int).2 ti.idx_float).2
      have hsr := SameRows.trans_rows s1
        (SameRows.trans_rows s2 (SameRows.trans_rows s3 s4))
      rw [s1.col_index, hid]
      simp only
      have hv : row_valid (remove_from_indexes_of get_char n
          (remove_from_indexes_of (get_float of_bits) n
            (remove_from_indexes n (ti.tabla.ReadRowByPageID n).2 ti.idx_int).2
            ti.idx_float).2 ti.idx_char).2.cols
          (row.set i (Value.Int (-1))) = true := by
        rw [hsr.1]
        exact row_valid_set _ _ i c _ hval hc (by rw [hty]; rfl)
      obtain ⟨-, -, -, w1, -⟩ := WriteRowInDisk_valid _ n _ (hsr.schemaOk hs) hv
      exact w1

/-- One call of `borrar_por_pageid` inside a DELETE: the schema and `Count()` stay,
the page is not live afterwards and no page that was not live becomes live. -/
theorem borrar_step (ti ti2 : TablaInfo F) (p : Int) (b : Bool) (i : Nat) (c : ColMetaDisk)
    (hs : ti.tabla.SchemaOk) (hid : ti.tabla.col_index "id" = some i)
    (hc : ti.tabla.cols[i]? = some c) (hty : c.type = ColType.INT32)
    (h : borrar_por_pageid of_bits ti p = some (b, ti2)) :
    ti2.tabla.cols = ti.tabla.cols ∧ ti2.tabla.SchemaOk ∧ ti2.tabla.Count = ti.tabla.Count ∧
    is_tombstoned ti2.tabla p = true ∧
    ∀ q, is_tombstoned ti.tabla q = true → is_tombstoned ti2.tabla q = true := by
  cases b with
  | false =>
    obtain ⟨hsr, -, hd⟩ := borrar_false_inv ti ti2 p h
    have hcg : ∀ q, is_tombstoned ti2.tabla q = is_tombstoned ti.tabla q :=
      fun q => is_tombstoned_congr _ _ q hsr.1 (hsr.read q)
    exact ⟨hsr.1, hsr.schemaOk hs, hsr.count, by rw [hcg]; exact hd, fun q hq => by rw [hcg]; exact hq⟩
  | true =>
    obtain ⟨hcols, hs2, hcnt, hframe⟩ := borrar_true_frame ti ti2 p hs h
    have hd := borrar_true_dead ti ti2 p i c hs hid hc hty h
    refine ⟨hcols, hs2, hcnt, hd, ?_⟩
    intro q hq
    by_cases hqp : q = p
    · rw [hqp]; exact hd
    · rw [is_tombstoned_congr _ _ q hcols (hframe q hqp)]
      exact hq

/-- The deletion loop does not throw; afterwards no page of the list is live and no
page that was not live has become live. -/
theorem delete_loop_spec (of_bits : Nat → F) (i : Nat) (c : ColMetaDisk)
    (hty : c.type = ColType.INT32) :
    ∀ (ps : List Int) (ti : TablaInfo F), ti.tabla.SchemaOk → ti.tabla.col_index "id" = some i →
      ti.tabla.cols[i]? = some c →
      ∃ del ti2, delete_loop of_bits ti ps = some (del, ti2) ∧
        ti2.tabla.cols = ti.tabla.cols ∧ ti2.tabla.Count = ti.tabla.Count ∧
        (∀ p ∈ del, p ∈ ps) ∧
        (∀ p ∈ ps, is_tombstoned ti2.tabla p = true) ∧
        ∀ q, is_tombstoned ti.tabla q = true → is_tombstoned ti2.tabla q = true := by
  intro ps
  induction ps with
  | nil =>
    intro ti _ _ _
    exact ⟨[], ti, rfl, rfl, rfl, by simp, by simp, fun q hq => hq⟩
  | cons p rest ih =>
    intro ti hs hid hc
    obtain ⟨r, hr⟩ := borrar_total of_bits ti p i c hs hid hc hty
    obtain ⟨b, ti1⟩ := r
    obtain ⟨c1, s1, n1, d1, st1⟩ := borrar_step ti ti1 p b i c hs hid hc hty hr
    have hid1 : ti1.tabla.col_index "id" = some i := by
      simp only [GenericFixedTable.col_index, c1]
      exact hid
    obtain ⟨del, ti2, hl, c2, n2, sub2, d2, st2⟩ := ih ti1 s1 hid1 (by rw [c1]; exact hc)
    refine ⟨if b then p :: del else del, ti2, ?_, c2.trans c1, n2.trans n1, ?_, ?_, ?_⟩
    · simp only [delete_loop, hr, hl, Option.map_some']
    · intro x hx
      split_ifs at hx
      · rcases List.mem_cons.1 hx with e | e
        · rw [e]; exact List.mem_cons_self _ _
        · exact List.mem_cons_of_mem _ (sub2 x e)
      · exact List.mem_cons_of_mem _ (sub2 x hx)
    · intro x hx
      rcases List.mem_cons.1 hx with e | e
      · rw [e]; exact st2 p d1
      · exact d2 x e
    · intro q hq
      exact st2 q (st1 q hq)

theorem mem_destutter_ne (l : List Int) : ∀ (a x : Int), x ∈ a :: l →
    x ∈ List.destutter' (fun a b => a ≠ b) a l := by
  induction l with
  | nil =>
    intro a x hx
    simpa using hx
  | cons b l ih =>
    intro a x hx
    by_cases hab : a ≠ b
    · rw [List.destutter'_cons_pos _ hab]
      rcases List.mem_cons.1 hx with e | e
      · rw [e]; exact List.mem_cons_self _ _
      · exact List.mem_cons_of_mem _ (ih b x e)
    · rw [List.destutter'_cons_neg _ hab]
      have hab2 : a = b := by simpa using hab
      apply ih a x
      rcases List.mem_cons.1 hx with e | e
      · rw [e]; exact List.mem_cons_self _ _
      · rw [hab2]; exact e

theorem mem_sort_unique (ps : List Int) (x : Int) (h : x ∈ ps) : x ∈ sort_unique ps := by
  unfold sort_unique
  have h1 : x ∈ ps.insertionSort (fun a b => a ≤ b) := (List.mem_insertionSort _).2 h
  generalize ps.insertionSort (fun a b => a ≤ b) = l at h1
  cases l with
  | nil => simp at h1
  | cons a l => exact mem_destutter_ne l a x h1

theorem printed_pids_live (tbl : GenericFixedTable) : ∀ (ps : List Int) (q : Int),
    q ∈ printed_pids tbl ps → is_tombstoned tbl q = false := by
  intro ps
  induction ps with
  | nil => intro q hq; simp [printed_pids] at hq
  | cons p rest ih =>
    intro q hq
    simp only [printed_pids] at hq
    split at hq
    · exact ih q hq
    · rename_i row hrow
      split_ifs at hq with hg
      · exact ih q hq
      · rcases List.mem_cons.1 hq with e | e
        · subst e
          simp only [is_tombstoned, hrow]
          simpa using hg
        · exact ih q e

theorem print_rows_dead (tbl : GenericFixedTable) (proj : List Nat) : ∀ ps : List Int,
    (∀ q ∈ ps, is_tombstoned tbl q = true) → print_rows tbl proj ps = [] := by
  intro ps
  induction ps with
  | nil => intro _; rfl
  | cons p rest ih =>
    intro h
    have hp := h p (List.mem_cons_self _ _)
    have hr := ih (fun q hq => h q (List.mem_cons_of_mem _ hq))
    simp only [print_rows]
    split
    · exact hr
    · rename_i row hrow
      simp only [is_tombstoned, hrow] at hp
      rw [if_pos hp]
      exact hr

/-- The rows `cmd_SELECT` prints are the rows of the page ids of `select_pids`, one
for one. -/
theorem print_rows_eq (tbl : GenericFixedTable) (proj : List Nat) : ∀ ps : List Int,
    print_rows tbl proj ps = (printed_pids tbl ps).map (fun pid =>
      proj.map (fun i => (((tbl.ReadRowByPageID pid).1).getD []).getD i default)) := by
  intro ps
  induction ps with
  | nil => rfl
  | cons p rest ih =>
    simp only [print_rows, printed_pids]
    split
    · exact ih
    · rename_i row hrow
      split_ifs
      · exact ih
      · simp only [List.map_cons, hrow, Option.getD_some, ih]

end sqlmini

namespace minidb

open gft diskbtree gft.GenericFixedTable

theorem index_rows_sameRows {K : Type} [LinearOrder K]
    (get : GenericFixedTable → Int → Option K × GenericFixedTable)
    (hget : ∀ t p, SameRows t (get t p).2) :
    ∀ (pids : List Int) (tbl : GenericFixedTable) (idx : DiskBTree K),
      SameRows tbl (index_rows get tbl pids idx).2 := by
  intro pids
  induction pids with
  | nil => intro tbl idx; exact SameRows.refl_rows tbl
  | cons p rest ih =>
    intro tbl idx
    have s1 := ReadRowByPageID_sameRows tbl p
    have s2 := hget (tbl.ReadRowByPageID p).2 p
    simp only [index_rows]
    split
    · exact s1.trans_rows (ih _ _)
    · split_ifs
      · exact s1.trans_rows (ih _ _)
      · split
        · exact s1.trans_rows s2
        · split
          · exact s1.trans_rows s2
          · exact (s1.trans_rows s2).trans_rows (ih _ _)

/-- A call of `crear_indice` leaves every row of the table as it was. -/
theorem crear_indice_sameRows {F : Type} [LinearOrder F] (of_bits : Nat → F) (ti : TablaInfo F)
    (col : String) (t : Nat) (ix : IndexFile F) (ti2 : TablaInfo F)
    (h : crear_indice of_bits ti col t = some (ix, ti2)) : SameRows ti.tabla ti2.tabla := by
  obtain ⟨d1, -⟩ := detectar_tipo_columna_frame ti col
  unfold crear_indice at h
  simp only at h
  split at h
  · simp at h
  · rename_i tipo _
    cases tipo with
    | INT32 =>
      simp only at h
      split at h
      · simp at h
      · split at h
        · simp at h
        · simp only [Option.some.injEq, Prod.mk.injEq] at h
          obtain ⟨-, e⟩ := h
          subst e
          exact d1.trans_rows (index_rows_sameRows _ (fun t2 p => ReadInt_sameRows t2 p col) _ _ _)
    | FLOAT32 =>
      simp only at h
      split at h
      · simp at h
      · split at h
        · simp at h
        · simp only [Option.some.injEq, Prod.mk.injEq] at h
          obtain ⟨-, e⟩ := h
          subst e
          exact d1.trans_rows
            (index_rows_sameRows _ (fun t2 p => get_float_sameRows of_bits col t2 p) _ _ _)
    | CHAR =>
      simp only at h
      split at h
      · simp at h
      · split at h
        · simp at h
        · simp only [Option.some.injEq, Prod.mk.injEq] at h
          obtain ⟨-, e⟩ := h
          subst e
          exact d1.trans_rows
            (index_rows_sameRows _ (fun t2 p => get_char_sameRows col t2 p) _ _ _)

end minidb

namespace sqlmini

open gft diskbtree minidb gft.GenericFixedTable

variable {F : Type} [LinearOrder F] {of_bits : Nat → F} {fp : FloatProbe}

/-- The projection step of `cmd_SELECT`, with the default index on `id` that
`SELECT *` may build, leaves every row of the table as it was. -/
theorem resolve_projection_sameRows (of_bits : Nat → F) (ti : TablaInfo F)
    (proj : Option (List Nat)) : SameRows ti.tabla (resolve_projection of_bits ti proj).2.tabla := by
  unfold resolve_projection
  cases proj with
  | some l => exact SameRows.refl_rows _
  | none =>
    simp only [ensure_default_id_index]
    split_ifs
    · exact SameRows.refl_rows _
    · cases h : crear_indice of_bits ti "id" 8 with
      | none => exact SameRows.refl_rows _
      | some r => exact crear_indice_sameRows of_bits ti "id" 8 r.1 r.2 h
    · exact SameRows.refl_rows _

theorem select_pids_live (fcmp : Cmp → Nat → String → Option Bool) (ti : TablaInfo F)
    (proj : Option (List Nat)) (wexpr : Option Where) (ps : List Int)
    (h : select_pids of_bits fp fcmp ti proj wexpr = some ps) (q : Int)
    (hq : q ∈ ps) : is_tombstoned ti.tabla q = false := by
  have hsr := resolve_projection_sameRows of_bits ti proj
  rw [← is_tombstoned_congr ti.tabla _ q hsr.1 (hsr.read q)]
  unfold select_pids at h
  simp only at h
  split at h
  · simp only [Option.some.injEq] at h
    subst h
    exact printed_pids_live _ _ q hq
  · split at h
    · simp at h
    · simp only [Option.map_eq_some'] at h
      obtain ⟨l, -, hl⟩ := h
      subst hl
      exact printed_pids_live _ _ q hq

theorem printed_pids_congr (t t2 : GenericFixedTable) (hc : t2.cols = t.cols)
    (hr : ∀ q, (t2.ReadRowByPageID q).1 = (t.ReadRowByPageID q).1) :
    ∀ ps : List Int, printed_pids t2 ps = printed_pids t ps := by
  intro ps
  induction ps with
  | nil => rfl
  | cons p rest ih => simp only [printed_pids, hr, hc, ih]

/-- C19: on a table laid out by `init_schema` whose `id` column is INT32 (as every
table made by CREATE TABLE), with any INT32, FLOAT32 and CHAR indexes loaded, after a
DELETE statement has deleted a row, no SELECT executed next on the table prints that
row, whatever its projection (`*` with its default index on `id`, or a column list),
whatever its WHERE expression and whether the candidates come from an index probe or
from the scan; DELETE without WHERE does not fail and leaves SELECT without WHERE, for
any projection, with zero rows.  The rows `cmd_SELECT` prints are those of the page
ids `select_pids`. -/
theorem cmd_DELETE_FROM_then_SELECT (of_bits : Nat → F) (fp : FloatProbe)
    (fcmp : Cmp → Nat → String → Option Bool) (ti : TablaInfo F)
    (i : Nat) (c : ColMetaDisk) (hs : ti.tabla.SchemaOk)
    (hid : ti.tabla.col_index "id" = some i) (hc : ti.tabla.cols[i]? = some c)
    (hty : c.type = ColType.INT32) :
    (∀ (wexpr : Option Where) (del : List Int) (ti2 : TablaInfo F),
      cmd_DELETE_FROM of_bits fp fcmp ti wexpr = some (del, ti2) →
      ∀ p ∈ del, ∀ (fp2 : FloatProbe) (fcmp2 : Cmp → Nat → String → Option Bool)
        (proj : Option (List Nat)) (wexpr2 : Option Where) (ps : List Int),
        select_pids of_bits fp2 fcmp2 ti2 proj wexpr2 = some ps → p ∉ ps) ∧
    (∃ (del : List Int) (ti2 : TablaInfo F),
      cmd_DELETE_FROM of_bits fp fcmp ti none = some (del, ti2) ∧
      ∀ (fp2 : FloatProbe) (fcmp2 : Cmp → Nat → String → Option Bool)
        (proj : Option (List Nat)),
        (cmd_SELECT of_bits fp2 fcmp2 ti2 proj none).map (fun r => r.1) = some []) ∧
    (∀ (fp2 : FloatProbe) (fcmp2 : Cmp → Nat → String → Option Bool) (ti2 : TablaInfo F)
      (proj : Option (List Nat)) (wexpr2 : Option Where),
      (cmd_SELECT of_bits fp2 fcmp2 ti2 proj wexpr2).map (fun r => r.1)
        = (select_pids of_bits fp2 fcmp2 ti2 proj wexpr2).map (fun ps =>
          ps.map (fun pid =>
            (resolve_projection of_bits ti2 proj).1.map (fun j =>
              (((ti2.tabla.ReadRowByPageID pid).1).getD []).getD j default)))) := by
  refine ⟨?_, ?_, ?_⟩
  · intro wexpr del ti2 h p hp fp2 fcmp2 proj wexpr2 ps hsel hmem
    have hlive := select_pids_live fcmp2 ti2 proj wexpr2 ps hsel p hmem
    have key : ∀ l, delete_loop of_bits ti l = some (del, ti2) →
        is_tombstoned ti2.tabla p = true := by
      intro l hl
      obtain ⟨del', ti2', hl', -, -, sub, dead, -⟩ :=
        delete_loop_spec of_bits i c hty l ti hs hid hc
      rw [hl] at hl'
      simp only [Option.some.injEq, Prod.mk.injEq] at hl'
      obtain ⟨e1, e2⟩ := hl'
      subst e1 e2
      exact dead p (sub p hp)
    have hdead : is_tombstoned ti2.tabla p = true := by
      unfold cmd_DELETE_FROM at h
      simp only at h
      split at h
      · simp at h
      · exact key _ h
    rw [hdead] at hlive
    exact absurd hlive (by simp)
  · obtain ⟨del, ti2, hl, hcols, hcnt, -, dead, stable⟩ :=
      delete_loop_spec of_bits i c hty
        (sort_unique ((all_pids ti.tabla.Count).filter (fun q => !is_tombstoned ti.tabla q)))
        ti hs hid hc
    refine ⟨del, ti2, by simp only [cmd_DELETE_FROM, hl], ?_⟩
    intro fp2 fcmp2 proj
    have hsr := resolve_projection_sameRows of_bits ti2 proj
    simp only [cmd_SELECT, Option.map_some', Option.some.injEq]
    apply print_rows_dead
    intro q hq
    rw [hsr.count, hcnt] at hq
    rw [is_tombstoned_congr ti2.tabla _ q hsr.1 (hsr.read q)]
    by_cases hd : is_tombstoned ti.tabla q = true
    · exact stable q hd
    · apply dead q
      apply mem_sort_unique
      rw [List.mem_filter]
      exact ⟨hq, by simpa using hd⟩
  · intro fp2 fcmp2 ti2 proj wexpr2
    have hsr := resolve_projection_sameRows of_bits ti2 proj
    have hread : ∀ pid, ((resolve_projection of_bits ti2 proj).2.tabla.ReadRowByPageID pid).1
        = (ti2.tabla.ReadRowByPageID pid).1 := fun pid => hsr.read pid
    unfold cmd_SELECT select_pids
    simp only
    split
    · simp only [Option.map_some', print_rows_eq, hread]
    · split
      · rfl
      · simp only [Option.map_map]
        congr 1
        funext l
        simp only [Function.comp, print_rows_eq, hread]

set_option maxRecDepth 1000000 in
/-- The sample table with the three kinds of index: `DELETE FROM t WHERE name ==
'bob'` finds page 1 through the CHAR index on `name` and deletes it; afterwards the
probe of the FLOAT32 index on `price` for `price >= 1.5` yields page 0, and
`SELECT * FROM t WHERE price >= 1.5` prints the row of page 0 only. -/
theorem exKinds_delete_then_select :
    candidates exOfBits exProbe exKinds { col := "name", cmp := .EQ, lit := "'bob'" } = [1] ∧
    (cmd_DELETE_FROM exOfBits exProbe exFcmpKinds exKinds (some exWhereBob)).map (fun r => r.1)
      = some [1] ∧
    candidates exOfBits exProbe
        ((cmd_DELETE_FROM exOfBits exProbe exFcmpKinds exKinds (some exWhereBob)).getD
          ([], exKinds)).2 { col := "price", cmp := .GE, lit := "1.5" } = [0] ∧
    (cmd_SELECT exOfBits exProbe exFcmpKinds
        ((cmd_DELETE_FROM exOfBits exProbe exFcmpKinds exKinds (some exWhereBob)).getD
          ([], exKinds)).2 none (some exWherePrice)).map (fun r => r.1)
      = some [[Value.Int 1, Value.Flt 1069547520, Value.Chr [97, 110, 110]]] :=
  ⟨by decide, by decide, by decide, by decide⟩

set_option maxRecDepth 1000000 in
/-- Instance of C19: `DELETE FROM t WHERE name == 'bob'` on the sample table with an
INT32, a FLOAT32 and a CHAR index deletes page 1, and the following
`SELECT * FROM t WHERE price >= 1.5`, whose candidates come from the FLOAT32 index,
does not print it. -/
theorem cmd_DELETE_FROM_then_SELECT_witness :
    exKinds.tabla.SchemaOk ∧ exKinds.tabla.col_index "id" = some 0 ∧
    (cmd_DELETE_FROM exOfBits exProbe exFcmpKinds exKinds (some exWhereBob)).map (fun r => r.1)
      = some [1] ∧
    (∀ ps, select_pids exOfBits exProbe exFcmpKinds
        ((cmd_DELETE_FROM exOfBits exProbe exFcmpKinds exKinds (some exWhereBob)).getD
          ([], exKinds)).2 none (some exWherePrice)
        = some ps → (1 : Int) ∉ ps) ∧
    select_pids exOfBits exProbe exFcmpKinds
        ((cmd_DELETE_FROM exOfBits exProbe exFcmpKinds exKinds (some exWhereBob)).getD
          ([], exKinds)).2 none (some exWherePrice)
      = some [0] :=
  ⟨rfl, by decide, by decide,
    fun ps hps =>
      (cmd_DELETE_FROM_then_SELECT exOfBits exProbe exFcmpKinds exKinds 0
        { name := "id", type := .INT32, width := 4, offset := 0 } rfl (by decide) (by decide)
        rfl).1 (some exWhereBob) [1]
        ((cmd_DELETE_FROM exOfBits exProbe exFcmpKinds exKinds (some exWhereBob)).getD
          ([], exKinds)).2
        rfl 1 (by decide) exProbe exFcmpKinds none (some exWherePrice) ps hps,
    by decide⟩

end sqlmini

/-! ## UPDATE and rows deleted by DELETE -/

namespace sqlmini

open gft diskbtree minidb gft.GenericFixedTable

set_option maxRecDepth 1000000 in
/-- C21 (the code at a failing input): on the sample table with its index on `qty`,
`DELETE FROM t WHERE id == 1` deletes page 0 (its `id` becomes `-1`, its entry leaves
the index).  `UPDATE t SET qty = 30` then hands the page ids 0, 1, 2 to
`update_filas_by_pageIDs`: it reports 3 rows, page 0 holds `(-1, 30)` and the index
holds the entry `(30, 0)`.  With `WHERE id < 3` the page ids are 0 and 1, and page 0
is rewritten, counted and indexed as well. -/
theorem cmd_UPDATE_rewrites_deleted_row :
    (cmd_DELETE_FROM exOfBits exProbe exFcmp exIndexed (some exWhereId1)).map (fun r => r.1) = some [0] ∧
    (cmd_DELETE_FROM exOfBits exProbe exFcmp exIndexed (some exWhereId1)).map (fun r => r.2.tabla)
      = some exDeleted.tabla ∧
    (cmd_DELETE_FROM exOfBits exProbe exFcmp exIndexed (some exWhereId1)).map
        (fun r => r.2.idx_int.map (fun x => (x.1, x.2.stored)))
      = some [("qty", [(10, 1), (20, 2)])] ∧
    exDeleted.idx_int.map (fun x => (x.1, x.2.stored)) = [("qty", [(10, 1), (20, 2)])] ∧
    (exDeleted.tabla.ReadRowByPageID 0).1 = some [Value.Int (-1), Value.Int 10] ∧
    is_tombstoned exDeleted.tabla 0 = true ∧
    select_pids exOfBits exProbe exFcmp exDeleted (some [0, 1]) none = some [1, 2] ∧
    update_pids exOfBits exProbe exFcmp exDeleted none = some [0, 1, 2] ∧
    (cmd_UPDATE exOfBits exProbe exFcmp exFloatOps exDeleted [("qty", Value.Int 30)] none).map (fun r => r.1)
      = some (some 3) ∧
    (cmd_UPDATE exOfBits exProbe exFcmp exFloatOps exDeleted [("qty", Value.Int 30)] none).map
        (fun r => (r.2.tabla.ReadRowByPageID 0).1) = some (some [Value.Int (-1), Value.Int 30]) ∧
    (cmd_UPDATE exOfBits exProbe exFcmp exFloatOps exDeleted [("qty", Value.Int 30)] none).map
        (fun r => r.2.idx_int.map (fun x => (x.1, x.2.stored)))
      = some [("qty", [(30, 0), (30, 1), (30, 2)])] ∧
    update_pids exOfBits exProbe exFcmp exDeleted (some exWhereIdLt) = some [0, 1] ∧
    (cmd_UPDATE exOfBits exProbe exFcmp exFloatOps exDeleted [("qty", Value.Int 30)] (some exWhereIdLt)).map
        (fun r => r.1) = some (some 2) ∧
    (cmd_UPDATE exOfBits exProbe exFcmp exFloatOps exDeleted [("qty", Value.Int 30)] (some exWhereIdLt)).map
        (fun r => (r.2.tabla.ReadRowByPageID 0).1) = some (some [Value.Int (-1), Value.Int 30]) ∧
    (cmd_UPDATE exOfBits exProbe exFcmp exFloatOps exDeleted [("qty", Value.Int 30)] (some exWhereIdLt)).map
        (fun r => r.2.idx_int.map (fun x => (x.1, x.2.stored)))
      = some [("qty", [(20, 2), (30, 0), (30, 1)])] := by
  refine ⟨by decide, by decide, by decide, by decide, by decide, by decide, by decide,
    by decide, by decide, by decide, by decide, by decide, by decide, by decide, by decide⟩

end sqlmini
/-! ## Candidate lists: order and repetitions -/

namespace sqlmini

open gft diskbtree minidb gft.GenericFixedTable

set_option maxRecDepth 1000000 in
/-- C22 (the code at failing inputs).  On the sample table with an INT32 index on
`id`, a FLOAT32 index on `price` and a CHAR index on `name` (rows `(1, 1.5, ann)` and
`(2, 2.5, bob)`), the NE probe of the CHAR index for `name != 'bob'` takes the ranges
`[lo, L]` and `[L, hi]`, which both hold the key of `bob`: the candidate list is
`[0, 1, 1]` and reaches the filter as it is.  With `name != 'bob' OR id > 0` SELECT
prints the row of page 1 twice and UPDATE counts 3 rows where 2 match; DELETE, which
sorts and deduplicates after the filter, deletes the pages 0 and 1 once each.
After `UPDATE t SET qty = 30 WHERE id == 2` on the sample table with an index on
`qty`, that index holds `(10, 1)`, `(20, 2)`, `(30, 1)`; for `qty >= 5` the candidate
list of the range probe is `[1, 2, 1]`: neither sorted nor free of repetitions.
SELECT prints the row of page 1 twice and UPDATE counts 3 rows where 2 match; DELETE
deletes the pages 1 and 2 once each. -/
theorem candidates_unsorted_with_repeats :
    exKinds.idx_char.map (fun x => (x.1, x.2.stored.map (fun e => (KeyChar32_get e.1, e.2))))
      = [("name", [([97, 110, 110], 0), ([98, 111, 98], 1)])] ∧
    candidates exOfBits exProbe exKinds { col := "name", cmp := .NE, lit := "'bob'" }
      = [0, 1, 1] ∧
    filter_pids exFcmpKinds exKinds.tabla exWhereNotBob
        (candidates exOfBits exProbe exKinds { col := "name", cmp := .NE, lit := "'bob'" })
      = some [0, 1, 1] ∧
    (cmd_SELECT exOfBits exProbe exFcmpKinds exKinds (some [0, 2]) (some exWhereNotBob)).map
        (fun r => r.1)
      = some [[Value.Int 1, Value.Chr [97, 110, 110]], [Value.Int 2, Value.Chr [98, 111, 98]],
          [Value.Int 2, Value.Chr [98, 111, 98]]] ∧
    update_pids exOfBits exProbe exFcmpKinds exKinds (some exWhereNotBob) = some [0, 1, 1] ∧
    (cmd_UPDATE exOfBits exProbe exFcmpKinds exFloatOps exKinds
        [("price", Value.Flt 1069547520)] (some exWhereNotBob)).map (fun r => r.1)
      = some (some 3) ∧
    (cmd_DELETE_FROM exOfBits exProbe exFcmpKinds exKinds (some exWhereNotBob)).map
        (fun r => r.1) = some [0, 1] ∧
    (cmd_UPDATE exOfBits exProbe exFcmp exFloatOps exIndexed [("qty", Value.Int 30)]
        (some exWhereId2)).map (fun r => r.2.tabla) = some exUpdated.tabla ∧
    (cmd_UPDATE exOfBits exProbe exFcmp exFloatOps exIndexed [("qty", Value.Int 30)]
        (some exWhereId2)).map (fun r => r.2.idx_int.map (fun x => (x.1, x.2.stored)))
      = some [("qty", [(10, 1), (20, 2), (30, 1)])] ∧
    exUpdated.idx_int.map (fun x => (x.1, x.2.stored)) = [("qty", [(10, 1), (20, 2), (30, 1)])] ∧
    candidates exOfBits exProbe exUpdated { col := "qty", cmp := .GE, lit := "5" } = [1, 2, 1] ∧
    filter_pids exFcmp exUpdated.tabla exWhereGe
        (candidates exOfBits exProbe exUpdated { col := "qty", cmp := .GE, lit := "5" })
      = some [1, 2, 1] ∧
    (cmd_SELECT exOfBits exProbe exFcmp exUpdated (some [0, 1]) (some exWhereGe)).map
        (fun r => r.1)
      = some [[Value.Int 2, Value.Int 30], [Value.Int 3, Value.Int 20],
          [Value.Int 2, Value.Int 30]] ∧
    update_pids exOfBits exProbe exFcmp exUpdated (some exWhereGe) = some [1, 2, 1] ∧
    (cmd_UPDATE exOfBits exProbe exFcmp exFloatOps exUpdated [("qty", Value.Int 40)]
        (some exWhereGe)).map (fun r => r.1) = some (some 3) ∧
    (cmd_DELETE_FROM exOfBits exProbe exFcmp exUpdated (some exWhereGe)).map (fun r => r.1)
      = some [1, 2] := by
  refine ⟨by decide, by decide, by decide, by decide, by decide, by decide, by decide, ?_⟩
  exact ⟨by decide, by decide, by decide, by decide, by decide, by decide, by decide,
    by decide, by decide⟩

end sqlmini

/-! ## The executor session -/

namespace sqlmini

open gft diskbtree minidb

variable {F : Type}

theorem prefix_exclusive (up P Q : List Char) (hP : starts_with up P = true)
    (h1 : Q.isPrefixOf P = false) (h2 : P.isPrefixOf Q = false) : starts_with up Q = false := by
  unfold starts_with at hP ⊢
  cases hq : Q.isPrefixOf up with
  | false => rfl
  | true =>
    rw [List.isPrefixOf_iff_prefix] at hP hq
    rcases List.prefix_or_prefix_of_prefix hP hq with h | h
    · rw [← List.isPrefixOf_iff_prefix, h2] at h
      cases h
    · rw [← List.isPrefixOf_iff_prefix, h1] at h
      cases h

theorem eq_exclusive (up P X : List Char) (hP : starts_with up P = true)
    (h1 : P.isPrefixOf X = false) : up ≠ X := by
  intro h
  subst h
  unfold starts_with at hP
  rw [h1] at hP
  cases hP

theorem statement_up_nonempty (sql : String) (h : statement_up sql ≠ []) :
    (trim sql.toList).isEmpty = false := by
  cases hs : trim sql.toList with
  | nil =>
    exfalso
    apply h
    simp only [statement_up, hs, to_upper]
    rfl
  | cons c cs => rfl

theorem ne_nil_of_starts_with (up P : List Char) (hP : starts_with up P = true) (hne : P ≠ []) :
    up ≠ [] := by
  intro h
  subst h
  unfold starts_with at hP
  cases P with
  | nil => exact hne rfl
  | cons c cs => simp [List.isPrefixOf] at hP

theorem guarded_idle (st : Session F) (body : Session F → Option (Session F)) (h : st.opened = false) :
    guarded st body = some (st.print no_database_open) := by
  simp [guarded, h]

theorem cmd_CREATE_TABLE_idle (E : Engine F) (st : Session F) (full : List Char)
    (h : st.opened = false) : cmd_CREATE_TABLE E st full = some (st.print no_database_open) := by
  simp [cmd_CREATE_TABLE, h]

theorem cmd_CREATE_DATABASE_opened (E : Engine F) (st : Session F) (name : List Char) :
    (cmd_CREATE_DATABASE E st name).opened = st.opened := by
  unfold cmd_CREATE_DATABASE
  simp only
  split_ifs <;> rfl

end sqlmini

namespace sqlmini

open gft diskbtree minidb

variable {F : Type}

theorem execute_USE (E : Engine F) (st : Session F) (sql : String)
    (h : starts_with (statement_up sql) "USE ".toList = true) :
    execute E st sql = some (cmd_USE st (trim ((statement sql).drop 4))) := by
  have hne := statement_up_nonempty sql (ne_nil_of_starts_with _ _ h (by decide))
  have a1 := prefix_exclusive _ _ "CREATE DATABASE ".toList h (by decide) (by decide)
  simp only [execute, hne, a1, h, Bool.false_eq_true, if_false, if_true]

theorem execute_CREATE_DATABASE (E : Engine F) (st : Session F) (sql : String)
    (h : starts_with (statement_up sql) "CREATE DATABASE ".toList = true) :
    execute E st sql = some (cmd_CREATE_DATABASE E st (trim ((statement sql).drop 16))) := by
  have hne := statement_up_nonempty sql (ne_nil_of_starts_with _ _ h (by decide))
  simp only [execute, hne, h, Bool.false_eq_true, if_false, if_true]

theorem execute_CLOSE (E : Engine F) (st : Session F) (sql : String)
    (h : statement_up sql = "CLOSE".toList ∨ statement_up sql = "CLOSE DATABASE".toList) :
    execute E st sql = some (cmd_CLOSE st) := by
  have hne : (trim sql.toList).isEmpty = false := by
    apply statement_up_nonempty
    rcases h with h | h <;> rw [h] <;> decide
  have a1 : starts_with (statement_up sql) "CREATE DATABASE ".toList = false := by
    rcases h with h | h <;> rw [h] <;> decide
  have a2 : starts_with (statement_up sql) "USE ".toList = false := by
    rcases h with h | h <;> rw [h] <;> decide
  have a3 : statement_up sql = "CLOSE DATABASE".toList ∨ statement_up sql = "CLOSE".toList :=
    h.symm
  simp only [execute, hne, a1, a2, a3, Bool.false_eq_true, if_false, if_true]

/-- From Idle, a statement that needs an open database only prints the diagnostic. -/
theorem execute_idle (E : Engine F) (st : Session F) (sql : String) (hst : st.opened = false)
    (h : needs_open (statement_up sql) = true) :
    execute E st sql = some (st.print no_database_open) := by
  have hg := fun body => guarded_idle st body hst
  have hc := fun full => cmd_CREATE_TABLE_idle E st full hst
  simp only [needs_open, Bool.or_eq_true, beq_iff_eq] at h
  rcases h with (((((h | h) | h) | h) | h) | h) | h
  · have hne : (trim sql.toList).isEmpty = false := by
      apply statement_up_nonempty
      rw [h]
      decide
    simp only [execute, hne, h, hg, Bool.false_eq_true, if_false, if_true]
    rw [if_neg (by decide), if_neg (by decide), if_neg (by decide)]
  · have hne := statement_up_nonempty sql (ne_nil_of_starts_with _ _ h (by decide))
    have a1 := prefix_exclusive _ _ "CREATE DATABASE ".toList h (by decide) (by decide)
    have a2 := prefix_exclusive _ _ "USE ".toList h (by decide) (by decide)
    have a3 : ¬ (statement_up sql = "CLOSE DATABASE".toList ∨ statement_up sql = "CLOSE".toList) := by
      rintro (e | e)
      · exact eq_exclusive _ _ _ h (by decide) e
      · exact eq_exclusive _ _ _ h (by decide) e
    have a4 : ¬ (statement_up sql = "SHOW TABLES".toList) := eq_exclusive _ _ _ h (by decide)
    simp only [execute, hne, a1, a2, a3, a4, h, hc, Bool.false_eq_true, if_false, if_true]
  · have hne := statement_up_nonempty sql (ne_nil_of_starts_with _ _ h (by decide))
    have a1 := prefix_exclusive _ _ "CREATE DATABASE ".toList h (by decide) (by decide)
    have a2 := prefix_exclusive _ _ "USE ".toList h (by decide) (by decide)
    have a3 : ¬ (statement_up sql = "CLOSE DATABASE".toList ∨ statement_up sql = "CLOSE".toList) := by
      rintro (e | e)
      · exact eq_exclusive _ _ _ h (by decide) e
      · exact eq_exclusive _ _ _ h (by decide) e
    have a4 : ¬ (statement_up sql = "SHOW TABLES".toList) := eq_exclusive _ _ _ h (by decide)
    have a5 := prefix_exclusive _ _ "CREATE TABLE".toList h (by decide) (by decide)
    simp only [execute, hne, a1, a2, a3, a4, a5, h, hg, Bool.false_eq_true, if_false, if_true]
  · have hne := statement_up_nonempty sql (ne_nil_of_starts_with _ _ h (by decide))
    have a1 := prefix_exclusive _ _ "CREATE DATABASE ".toList h (by decide) (by decide)
    have a2 := prefix_exclusive _ _ "USE ".toList h (by decide) (by decide)
    have a3 : ¬ (statement_up sql = "CLOSE DATABASE".toList ∨ statement_up sql = "CLOSE".toList) := by
      rintro (e | e)
      · exact eq_exclusive _ _ _ h (by decide) e
      · exact eq_exclusive _ _ _ h (by decide) e
    have a4 : ¬ (statement_up sql = "SHOW TABLES".toList) := eq_exclusive _ _ _ h (by decide)
    have a5 := prefix_exclusive _ _ "CREATE TABLE".toList h (by decide) (by decide)
    have a6 := prefix_exclusive _ _ "INSERT INTO".toList h (by decide) (by decide)
    simp only [execute, hne, a1, a2, a3, a4, a5, a6, h, hg, Bool.false_eq_true, if_false, if_true]
  · have hne := statement_up_nonempty sql (ne_nil_of_starts_with _ _ h (by decide))
    have a1 := prefix_exclusive _ _ "CREATE DATABASE ".toList h (by decide) (by decide)
    have a2 := prefix_exclusive _ _ "USE ".toList h (by decide) (by decide)
    have a3 : ¬ (statement_up sql = "CLOSE DATABASE".toList ∨ statement_up sql = "CLOSE".toList) := by
      rintro (e | e)
      · exact eq_exclusive _ _ _ h (by decide) e
      · exact eq_exclusive _ _ _ h (by decide) e
    have a4 : ¬ (statement_up sql = "SHOW TABLES".toList) := eq_exclusive _ _ _ h (by decide)
    have a5 := prefix_exclusive _ _ "CREATE TABLE".toList h (by decide) (by decide)
    have a6 := prefix_exclusive _ _ "INSERT INTO".toList h (by decide) (by decide)
    have a7 := prefix_exclusive _ _ "SELECT".toList h (by decide) (by decide)
    simp only [execute, hne, a1, a2, a3, a4, a5, a6, a7, h, hg, Bool.false_eq_true, if_false,
      if_true]
  · have hne := statement_up_nonempty sql (ne_nil_of_starts_with _ _ h (by decide))
    have a1 := prefix_exclusive _ _ "CREATE DATABASE ".toList h (by decide) (by decide)
    have a2 := prefix_exclusive _ _ "USE ".toList h (by decide) (by decide)
    have a3 : ¬ (statement_up sql = "CLOSE DATABASE".toList ∨ statement_up sql = "CLOSE".toList) := by
      rintro (e | e)
      · exact eq_exclusive _ _ _ h (by decide) e
      · exact eq_exclusive _ _ _ h (by decide) e
    have a4 : ¬ (statement_up sql = "SHOW TABLES".toList) := eq_exclusive _ _ _ h (by decide)
    have a5 := prefix_exclusive _ _ "CREATE TABLE".toList h (by decide) (by decide)
    have a6 := prefix_exclusive _ _ "INSERT INTO".toList h (by decide) (by decide)
    have a7 := prefix_exclusive _ _ "SELECT".toList h (by decide) (by decide)
    have a8 := prefix_exclusive _ _ "DELETE FROM".toList h (by decide) (by decide)
    simp only [execute, hne, a1, a2, a3, a4, a5, a6, a7, a8, h, hg, Bool.false_eq_true, if_false,
      if_true]
  · have hne := statement_up_nonempty sql (ne_nil_of_starts_with _ _ h (by decide))
    have a1 := prefix_exclusive _ _ "CREATE DATABASE ".toList h (by decide) (by decide)
    have a2 := prefix_exclusive _ _ "USE ".toList h (by decide) (by decide)
    have a3 : ¬ (statement_up sql = "CLOSE DATABASE".toList ∨ statement_up sql = "CLOSE".toList) := by
      rintro (e | e)
      · exact eq_exclusive _ _ _ h (by decide) e
      · exact eq_exclusive _ _ _ h (by decide) e
    have a4 : ¬ (statement_up sql = "SHOW TABLES".toList) := eq_exclusive _ _ _ h (by decide)
    have a5 := prefix_exclusive _ _ "CREATE TABLE".toList h (by decide) (by decide)
    have a6 := prefix_exclusive _ _ "INSERT INTO".toList h (by decide) (by decide)
    have a7 := prefix_exclusive _ _ "SELECT".toList h (by decide) (by decide)
    have a8 := prefix_exclusive _ _ "DELETE FROM".toList h (by decide) (by decide)
    have a9 := prefix_exclusive _ _ "UPDATE ".toList h (by decide) (by decide)
    simp only [execute, hne, a1, a2, a3, a4, a5, a6, a7, a8, a9, h, hg, Bool.false_eq_true,
      if_false, if_true]

end sqlmini

namespace sqlmini

open gft diskbtree minidb

variable {F : Type}

/-- C29: the executor session is a two-state machine.  A new executor is Idle
(`opened = false`); a statement recognised as USE whose argument is an existing
directory leaves the session Open; CLOSE leaves it Idle; CREATE DATABASE leaves
`opened` as it was; and from Idle each of SHOW TABLES, CREATE TABLE, INSERT, SELECT,
DELETE, UPDATE and CREATE INDEX returns with the session as it was except for one
more output line, the diagnostic `Abra una base con USE.`: no table is touched, no
part of the engine runs and the session stays Idle. -/
theorem execute_two_state (E : Engine F) (st : Session F) (sql : String) :
    (∀ dirs others, (SQLExecutor_new dirs others : Session F).opened = false) ∧
    (starts_with (statement_up sql) "USE ".toList = true →
      st.dirs.contains (trim ((statement sql).drop 4)) = true →
      ∃ st2, execute E st sql = some st2 ∧ st2.opened = true) ∧
    ((statement_up sql = "CLOSE".toList ∨ statement_up sql = "CLOSE DATABASE".toList) →
      ∃ st2, execute E st sql = some st2 ∧ st2.opened = false) ∧
    (starts_with (statement_up sql) "CREATE DATABASE ".toList = true →
      ∃ st2, execute E st sql = some st2 ∧ st2.opened = st.opened) ∧
    (st.opened = false → needs_open (statement_up sql) = true →
      execute E st sql = some { st with out := st.out ++ [no_database_open] } ∧
      ∀ st2, execute E st sql = some st2 →
        st2.opened = false ∧ st2.tablas = st.tablas ∧ st2.dirs = st.dirs ∧
        st2.others = st.others ∧ st2.abierta = st.abierta) := by
  refine ⟨fun _ _ => rfl, ?_, ?_, ?_, ?_⟩
  · intro h hd
    refine ⟨_, execute_USE E st sql h, ?_⟩
    simp only [cmd_USE, hd, Bool.not_true, Bool.false_eq_true, if_false, Session.print]
  · intro h
    refine ⟨_, execute_CLOSE E st sql h, ?_⟩
    unfold cmd_CLOSE
    cases ho : st.opened with
    | false => simp [Session.print, ho]
    | true => simp [Session.print]
  · intro h
    exact ⟨_, execute_CREATE_DATABASE E st sql h, cmd_CREATE_DATABASE_opened E st _⟩
  · intro hst h
    have he := execute_idle E st sql hst h
    refine ⟨he, ?_⟩
    intro st2 h2
    rw [he] at h2
    simp only [Option.some.injEq] at h2
    subst h2
    exact ⟨hst, rfl, rfl, rfl, rfl⟩

set_option maxRecDepth 1000000 in
/-- Instance of C29: a new executor where the directory `shop` exists runs
`SELECT * FROM t;`, `USE shop;` and `CLOSE;`. -/
theorem execute_two_state_witness :
    exIdle.opened = false ∧
    (execute exEngine exIdle "SELECT * FROM t;").map (fun s => (s.opened, s.out))
      = some (false, ["Abra una base con USE."]) ∧
    (execute exEngine exIdle "USE shop;").map (fun s => (s.opened, s.out))
      = some (true, ["Usando base de datos: shop"]) ∧
    (execute exEngine exOpen "create database shop2").map (fun s => s.opened) = some true ∧
    (execute exEngine exOpen "CLOSE;").map (fun s => s.opened) = some false ∧
    (exIdle.opened = false → needs_open (statement_up "SELECT * FROM t;") = true →
      execute exEngine exIdle "SELECT * FROM t;"
        = some { exIdle with out := exIdle.out ++ [no_database_open] } ∧
      ∀ st2, execute exEngine exIdle "SELECT * FROM t;" = some st2 →
        st2.opened = false ∧ st2.tablas = exIdle.tablas ∧ st2.dirs = exIdle.dirs ∧
        st2.others = exIdle.others ∧ st2.abierta = exIdle.abierta) :=
  ⟨rfl, by decide, by decide, by decide, by decide,
    (execute_two_state exEngine exIdle "SELECT * FROM t;").2.2.2.2⟩

set_option maxRecDepth 1000000 in
/-- C30 (the code at failing inputs): `execute` has no handler of its own.
`parse_type` lets the exception of `std::stoi` out for `CHAR(x)`, so with a database
open `CREATE TABLE t (a CHAR(x))` ends `execute` with an exception, whatever the
engine.  The body of SELECT throws for `WHERE qty == abc` on the sample table, with
and without an index on `qty`, and an exception that leaves the body of SELECT leaves
`execute`. -/
theorem execute_lets_exceptions_out :
    parse_type "CHAR(x)".toList = none ∧
    (parse_create_table "CREATE TABLE t (a CHAR(x))".toList).isNone = true ∧
    exOpen.opened = true ∧
    (execute exEngine exOpen "CREATE TABLE t (a CHAR(x))").isNone = true ∧
    (∀ (G : Type) (E : Engine G) (st : Session G), st.opened = true →
      execute E st "CREATE TABLE t (a CHAR(x))" = none) ∧
    (cmd_SELECT exOfBits exProbe exFcmp exPlain none (some exWhereAbc)).map (fun r => r.1)
      = none ∧
    (cmd_SELECT exOfBits exProbe exFcmp exIndexed none (some exWhereAbc)).map (fun r => r.1)
      = none ∧
    (∀ (G : Type) (E : Engine G) (st : Session G), st.opened = true →
      E.select st (statement "SELECT * FROM t WHERE qty == abc") = none →
      execute E st "SELECT * FROM t WHERE qty == abc" = none) := by
  refine ⟨by decide, by decide, by decide, by decide, ?_, by decide, by decide, ?_⟩
  · intro G E st hst
    have c0 : (trim "CREATE TABLE t (a CHAR(x))".toList).isEmpty = false := by decide
    have c1 : starts_with (statement_up "CREATE TABLE t (a CHAR(x))")
        "CREATE DATABASE ".toList = false := by decide
    have c2 : starts_with (statement_up "CREATE TABLE t (a CHAR(x))") "USE ".toList = false := by
      decide
    have c3 : ¬ (statement_up "CREATE TABLE t (a CHAR(x))" = "CLOSE DATABASE".toList ∨
        statement_up "CREATE TABLE t (a CHAR(x))" = "CLOSE".toList) := by decide
    have c4 : ¬ (statement_up "CREATE TABLE t (a CHAR(x))" = "SHOW TABLES".toList) := by decide
    have c5 : starts_with (statement_up "CREATE TABLE t (a CHAR(x))") "CREATE TABLE".toList
        = true := by decide
    have c6 : parse_create_table (statement "CREATE TABLE t (a CHAR(x))") = none :=
      Option.isNone_iff_eq_none.1 (by decide)
    simp only [execute, c0, c1, c2, c3, c4, c5, Bool.false_eq_true, if_false, if_true,
      cmd_CREATE_TABLE, hst, Bool.not_true, c6]
  · intro G E st hst hsel
    have c0 : (trim "SELECT * FROM t WHERE qty == abc".toList).isEmpty = false := by decide
    have c1 : starts_with (statement_up "SELECT * FROM t WHERE qty == abc")
        "CREATE DATABASE ".toList = false := by decide
    have c2 : starts_with (statement_up "SELECT * FROM t WHERE qty == abc") "USE ".toList
        = false := by decide
    have c3 : ¬ (statement_up "SELECT * FROM t WHERE qty == abc" = "CLOSE DATABASE".toList ∨
        statement_up "SELECT * FROM t WHERE qty == abc" = "CLOSE".toList) := by decide
    have c4 : ¬ (statement_up "SELECT * FROM t WHERE qty == abc" = "SHOW TABLES".toList) := by
      decide
    have c5 : starts_with (statement_up "SELECT * FROM t WHERE qty == abc")
        "CREATE TABLE".toList = false := by decide
    have c6 : starts_with (statement_up "SELECT * FROM t WHERE qty == abc")
        "INSERT INTO".toList = false := by decide
    have c7 : starts_with (statement_up "SELECT * FROM t WHERE qty == abc") "SELECT".toList
        = true := by decide
    simp only [execute, c0, c1, c2, c3, c4, c5, c6, c7, Bool.false_eq_true, if_false, if_true,
      guarded, hst, Bool.not_true, hsel]

end sqlmini

/-! ## Search-tree order at every internal node -/

namespace diskbtree

section claim_order
variable {K : Type} [LinearOrder K]

theorem split_at_index {α : Type} (l : List α) (i : Nat) (x : α) (h : l[i]? = some x) :
    l = l.take i ++ x :: l.drop (i + 1) ∧ (l.take i).length = i := by
  obtain ⟨hi, hx⟩ := List.getElem?_eq_some.1 h
  refine ⟨?_, by rw [List.length_take]; omega⟩
  have h1 : l.drop i = x :: l.drop (i + 1) := by
    rw [← hx]; exact List.drop_eq_getElem_cons hi
  rw [← h1, List.take_append_drop]

theorem split_at_pair {α : Type} (l : List α) (i : Nat) (x y : α) (h1 : l[i]? = some x)
    (h2 : l[i + 1]? = some y) :
    l = l.take i ++ x :: y :: l.drop (i + 2) ∧ (l.take i).length = i := by
  obtain ⟨e1, e2⟩ := split_at_index l i x h1
  refine ⟨?_, e2⟩
  obtain ⟨hi, hy⟩ := List.getElem?_eq_some.1 h2
  have h3 : l.drop (i + 1) = y :: l.drop (i + 1 + 1) := by
    rw [← hy]; exact List.drop_eq_getElem_cons hi
  rw [h3] at e1
  exact e1

theorem entries_subset_flat (x : NodeDisk K) : ∀ e ∈ x.entries, e ∈ x.flat := by
  intro e he
  cases x with
  | leaf es => simpa [NodeDisk.entries, flat_leaf] using he
  | inner es cs =>
    rw [flat_inner]
    exact (inorder_sublist es (cs.map NodeDisk.flat)).subset (by simpa [NodeDisk.entries] using he)

/-- In an internal node whose in-order listing is sorted, everything below child `i`
is `<=` separator `i`, and everything below child `i + 1` is `>=` separator `i`. -/
theorem ord_separator (es : List (K × Int)) (cs : List (NodeDisk K)) (i : Nat) (e : K × Int)
    (c1 c2 : NodeDisk K) (hord : Ord (NodeDisk.inner es cs).flat)
    (he : es[i]? = some e) (h1 : cs[i]? = some c1) (h2 : cs[i + 1]? = some c2) :
    (∀ p ∈ c1.flat, p.1 ≤ e.1) ∧ (∀ q ∈ c2.flat, e.1 ≤ q.1) := by
  obtain ⟨eE, lE⟩ := split_at_index es i e he
  obtain ⟨eC, lC⟩ := split_at_pair cs i c1 c2 h1 h2
  rw [eE, eC, flat_focus2 _ _ _ _ _ _ _ (by rw [lE, lC])] at hord
  rw [ord_append, ord_append, ord_append] at hord
  obtain ⟨⟨-, ⟨-, hr, hlr⟩, -⟩, -, -⟩ := hord
  constructor
  · intro p hp
    exact hlr p hp e (List.mem_cons_self _ _)
  · intro q hq
    exact (List.pairwise_cons.1 hr).1 q hq

/-- C36: for every sequence of `insert` and `remove_key` calls on a new index, all
calls return, and in the resulting index every internal node keeps the search-tree
order: each key stored in child `i` (and in the subtree below it) is `<=` separator
key `i`, each key stored in child `i + 1` (and in the subtree below it) is `>=`
separator key `i`; and the in-order listing of all stored entries is non-decreasing
in the key. -/
theorem search_tree_order (t : Nat) (ht1 : 2 ≤ t) (ht2 : t ≤ 128) (ops : List (Op K)) :
    ∃ bt : DiskBTree K, run t ops = some bt ∧
      bt.stored.Pairwise (fun e1 e2 => e1.1 ≤ e2.1) ∧
      ∀ r, bt.root = some r → ∀ d es cs, AtDepth r d (NodeDisk.inner es cs) →
        ∀ i e c1 c2, es[i]? = some e → cs[i]? = some c1 → cs[i + 1]? = some c2 →
          (∀ p ∈ c1.entries, p.1 ≤ e.1) ∧ (∀ q ∈ c2.entries, e.1 ≤ q.1) ∧
          (∀ p ∈ c1.flat, p.1 ≤ e.1) ∧ (∀ q ∈ c2.flat, e.1 ≤ q.1) := by
  obtain ⟨bt, hrun⟩ := run_total t ht1 ht2 ops
  refine ⟨bt, hrun, ?_⟩
  obtain ⟨_, _, h3, hinv, _⟩ := run_inv t ops bt hrun
  cases hr : bt.root with
  | none =>
    refine ⟨by simp [DiskBTree.stored, hr], ?_⟩
    intro r hr2
    cases hr2
  | some r0 =>
    unfold RootInv at hinv
    rw [hr, h3] at hinv
    obtain ⟨h, hwf, _, _, hord⟩ := hinv
    refine ⟨by simpa [DiskBTree.stored, hr] using hord, ?_⟩
    intro r hr2 d es cs hat i e c1 c2 he h1 h2
    obtain rfl : r0 = r := Option.some.inj hr2
    obtain ⟨h2x, _, _, hox⟩ := wf_atDepth t r0 (NodeDisk.inner es cs) d hat h hwf hord
    obtain ⟨hA, hB⟩ := ord_separator es cs i e c1 c2 hox he h1 h2
    exact ⟨fun p hp => hA p (entries_subset_flat c1 p hp),
      fun q hq => hB q (entries_subset_flat c2 q hq), hA, hB⟩

/-- Instance of C36: the index built by inserting the keys 1, 2, 3, 4 with `t = 2`. -/
theorem search_tree_order_witness :
    (2 ≤ 2 ∧ 2 ≤ 128) ∧
    ∃ bt : DiskBTree Int, run 2 exOps = some bt ∧
      bt.stored.Pairwise (fun e1 e2 => e1.1 ≤ e2.1) ∧
      ∀ r, bt.root = some r → ∀ d es cs, AtDepth r d (NodeDisk.inner es cs) →
        ∀ i e c1 c2, es[i]? = some e → cs[i]? = some c1 → cs[i + 1]? = some c2 →
          (∀ p ∈ c1.entries, p.1 ≤ e.1) ∧ (∀ q ∈ c2.entries, e.1 ≤ q.1) ∧
          (∀ p ∈ c1.flat, p.1 ≤ e.1) ∧ (∀ q ∈ c2.flat, e.1 ≤ q.1) :=
  ⟨by decide, search_tree_order 2 (by decide) (by decide) exOps⟩

end claim_order
end diskbtree

/-! ## Soundness of a range listing -/

namespace diskbtree

section range_sound
variable {K : Type} [LinearOrder K]

theorem range_leaf_in (a b : K) : ∀ es : List (K × Int),
    ∃ l : List (K × Int), l.Sublist es ∧ (∀ e ∈ l, a ≤ e.1 ∧ e.1 ≤ b) ∧
      range_leaf a b es = l.map Prod.snd
  | [] => ⟨[], List.Sublist.slnil, by simp, rfl⟩
  | e :: es => by
    obtain ⟨l, hl, hin, he⟩ := range_leaf_in a b es
    unfold range_leaf
    split_ifs with h1 h2
    · exact ⟨l, hl.cons e, hin, he⟩
    · exact ⟨[], List.nil_sublist _, by simp, rfl⟩
    · refine ⟨e :: l, hl.cons₂ e, ?_, by rw [he]; rfl⟩
      intro x hx
      rw [List.mem_cons] at hx
      rcases hx with hx | hx
      · rw [hx]
        rw [cmp_lt_iff] at h1
        rw [cmp_gt_iff] at h2
        exact ⟨not_lt.1 h1, not_lt.1 h2⟩
      · exact hin x hx

theorem range_head_in (rec : NodeDisk K → Option (List Int)) (Q : K × Int → Prop) :
    ∀ (A : List (K × Int)) (L rest : List (NodeDisk K)), L.length = A.length →
      (∀ c ∈ L, ∃ l : List (K × Int), l.Sublist c.flat ∧ (∀ e ∈ l, Q e) ∧
        rec c = some (l.map Prod.snd)) →
      ∃ l : List (K × Int), l.Sublist (pre A L) ∧ (∀ e ∈ l, Q e) ∧
        range_head rec A.length (L ++ rest) = some (l.map Prod.snd)
  | [], [], rest, _, _ => ⟨[], List.nil_sublist _, by simp, by simp [range_head]⟩
  | [], _ :: _, _, h, _ => by simp at h
  | _ :: _, [], _, h, _ => by simp at h
  | e :: A, c :: L, rest, h, hc => by
    obtain ⟨l1, hl1, hq1, hr1⟩ := hc c (List.mem_cons_self _ _)
    obtain ⟨l2, hl2, hq2, hr2⟩ := range_head_in rec Q A L rest (by simpa using h)
      (fun d hd => hc d (List.mem_cons_of_mem _ hd))
    refine ⟨l1 ++ l2, ?_, ?_, ?_⟩
    · rw [pre_cons]
      exact hl1.append (hl2.cons e)
    · intro x hx
      rw [List.mem_append] at hx
      rcases hx with hx | hx
      · exact hq1 x hx
      · exact hq2 x hx
    · have e1 : range_head rec A.length (L.append rest) = some (l2.map Prod.snd) := hr2
      simp only [List.length_cons, List.cons_append, range_head, hr1, e1, List.map_append]

theorem range_tail_in (rec : NodeDisk K → Option (List Int)) (a b : K) :
    ∀ (B : List (K × Int)) (R : List (NodeDisk K)), R.length = B.length →
      (∀ e ∈ B, a ≤ e.1) →
      (∀ c ∈ R, ∃ l : List (K × Int), l.Sublist c.flat ∧ (∀ e ∈ l, a ≤ e.1 ∧ e.1 ≤ b) ∧
        rec c = some (l.map Prod.snd)) →
      ∃ l : List (K × Int), l.Sublist (post B R) ∧ (∀ e ∈ l, a ≤ e.1 ∧ e.1 ≤ b) ∧
        range_tail rec b B R = some (l.map Prod.snd)
  | [], _, _, _, _ => ⟨[], List.nil_sublist _, by simp, by simp [range_tail]⟩
  | _ :: _, [], h, _, _ => by simp at h
  | e :: B, c :: R, h, hB, hc => by
    obtain ⟨l1, hl1, hq1, hr1⟩ := hc c (List.mem_cons_self _ _)
    obtain ⟨l2, hl2, hq2, hr2⟩ := range_tail_in rec a b B R (by simpa using h)
      (fun x hx => hB x (List.mem_cons_of_mem _ hx))
      (fun d hd => hc d (List.mem_cons_of_mem _ hd))
    unfold range_tail
    split_ifs with h1
    · refine ⟨e :: (l1 ++ l2), ?_, ?_, ?_⟩
      · rw [post_cons]
        exact (hl1.append hl2).cons₂ e
      · intro x hx
        rw [List.mem_cons, List.mem_append] at hx
        rcases hx with hx | hx | hx
        · rw [hx]
          exact ⟨hB e (List.mem_cons_self _ _), (cmp_le_iff _ _).1 h1⟩
        · exact hq1 x hx
        · exact hq2 x hx
      · simp only [hr1, hr2, List.map_cons, List.map_append, List.cons_append]
    · exact ⟨[], List.nil_sublist _, by simp, rfl⟩

/-- The recursive range listing of a well-shaped subtree whose in-order listing is
sorted returns the values of a sublist of that listing, and every listed entry has
its key in `[a, b]`. -/
theorem range_rec_values_in (t : Nat) (a b : K) :
    ∀ (h f : Nat) (x : NodeDisk K), h < f → WF t h x → Ord x.flat →
      ∃ l : List (K × Int), l.Sublist x.flat ∧ (∀ e ∈ l, a ≤ e.1 ∧ e.1 ≤ b) ∧
        range_rec_values f x a b = some (l.map Prod.snd) := by
  intro h
  induction h with
  | zero =>
    intro f x hf hwf _
    obtain ⟨es, rfl⟩ := (wf_zero_iff t x).mp hwf
    obtain ⟨f, rfl⟩ : ∃ f2, f = f2 + 1 := ⟨f - 1, by omega⟩
    obtain ⟨l, hl, hin, he⟩ := range_leaf_in a b es
    exact ⟨l, by rw [flat_leaf]; exact hl, hin, by simp only [range_rec_values, he]⟩
  | succ h ih =>
    intro f x hf hwf hord
    obtain ⟨es, cs, rfl, hlen, hcs⟩ := (wf_succ_iff t h x).mp hwf
    obtain ⟨f, rfl⟩ : ∃ f2, f = f2 + 1 := ⟨f - 1, by omega⟩
    have hf2 : h < f := by omega
    obtain ⟨A, B, rfl, hscan, -, hB⟩ := scan_lt_split es a (ord_entries_of_flat es cs hord)
    obtain ⟨L, c, R, rfl, hL, hR⟩ := focus_at A B cs hlen
    have hP : ∀ d ∈ L ++ c :: R, ∃ l : List (K × Int), l.Sublist d.flat ∧
        (∀ e ∈ l, a ≤ e.1 ∧ e.1 ≤ b) ∧ range_rec_values f d a b = some (l.map Prod.snd) :=
      fun d hd => ih f d hf2 (hcs d hd).1 (ord_child t h _ _ d hwf hord hd)
    obtain ⟨l1, hl1, hq1, hr1⟩ := range_head_in (fun d => range_rec_values f d a b)
      (fun e => a ≤ e.1 ∧ e.1 ≤ b) A L (c :: R) hL
      (fun d hd => hP d (List.mem_append_left _ hd))
    obtain ⟨lc, hlc, hqc, hrc⟩ := hP c (by simp)
    obtain ⟨l3, hl3, hq3, hr3⟩ := range_tail_in (fun d => range_rec_values f d a b) a b B R hR hB
      (fun d hd => hP d (List.mem_append_right _ (List.mem_cons_of_mem _ hd)))
    have hidx : (L ++ c :: R)[A.length]? = some c := by rw [← hL]; exact getElem?_app_len L c R
    have hdropE : (A ++ B).drop A.length = B := List.drop_left _ _
    have hdropC : (L ++ c :: R).drop (A.length + 1) = R := by
      rw [← hL, ← List.drop_drop, List.drop_left]
      rfl
    rw [flat_focus A B L R c hL]
    by_cases hi : A.length < (A ++ B).length
    · refine ⟨l1 ++ lc ++ l3, (hl1.append hlc).append hl3, ?_, ?_⟩
      · intro x hx
        rw [List.mem_append, List.mem_append] at hx
        rcases hx with (hx | hx) | hx
        · exact hq1 x hx
        · exact hqc x hx
        · exact hq3 x hx
      · simp only [range_rec_values, hscan, hr1, hi, if_true, hidx, Option.some_bind, hrc,
          hdropE, hdropC, hr3, List.map_append]
    · refine ⟨l1 ++ [] ++ l3, (hl1.append (List.nil_sublist _)).append hl3, ?_, ?_⟩
      · intro x hx
        rw [List.mem_append, List.mem_append] at hx
        rcases hx with (hx | hx) | hx
        · exact hq1 x hx
        · cases hx
        · exact hq3 x hx
      · simp only [range_rec_values, hscan, hr1, hi, if_false, hdropE, hdropC, hr3,
          List.map_append, List.map_nil]

theorem range_search_values_swap (bt : DiskBTree K) (a b : K) :
    range_search_values bt b a = range_search_values bt a b := by
  unfold range_search_values
  rcases lt_trichotomy a b with h | h | h
  · have h1 : ¬ cmp_mem a b > 0 := by rw [cmp_gt_iff]; exact not_lt.2 (le_of_lt h)
    have h2 : cmp_mem b a > 0 := by rw [cmp_gt_iff]; exact h
    simp only [h1, h2, if_true, if_false]
  · rw [h]
  · have h1 : cmp_mem a b > 0 := by rw [cmp_gt_iff]; exact h
    have h2 : ¬ cmp_mem b a > 0 := by rw [cmp_gt_iff]; exact not_lt.2 (le_of_lt h)
    simp only [h1, h2, if_true, if_false]

/-- C37: on every well-shaped index whose in-order listing is sorted by key (the
search-tree order) and for all keys `a`, `b`, `range_search_values(a, b)` returns,
and what it returns are the values of a sublist `l` of the stored entries (each
stored entry is taken at most once), every entry of `l` has its key in
`[min(a,b), max(a,b)]`, and `range_search_values(b, a)` returns the same list. -/
theorem range_search_values_sound (bt : DiskBTree K) (a b : K) (hinv : RootInv bt) :
    (∃ l : List (K × Int), range_search_values bt a b = some (l.map Prod.snd) ∧
      l.Sublist bt.stored ∧ ∀ e ∈ l, min a b ≤ e.1 ∧ e.1 ≤ max a b) ∧
    range_search_values bt b a = range_search_values bt a b := by
  refine ⟨?_, range_search_values_swap bt a b⟩
  cases hr : bt.root with
  | none =>
    exact ⟨[], by simp [range_search_values, hr], List.nil_sublist _, by simp⟩
  | some r =>
    unfold RootInv at hinv
    rw [hr] at hinv
    obtain ⟨h, hwf, -, -, hord⟩ := hinv
    have hd := depth_of_wf bt.t h r hwf
    obtain ⟨l, hl, hin, he⟩ := range_rec_values_in bt.t
      (if cmp_mem a b > 0 then b else a) (if cmp_mem a b > 0 then a else b)
      h r.depth r (by omega) hwf hord
    refine ⟨l, ?_, ?_, ?_⟩
    · simp only [range_search_values, hr, he]
    · simpa [DiskBTree.stored, hr] using hl
    · intro e hx
      obtain ⟨q1, q2⟩ := hin e hx
      by_cases hc : cmp_mem a b > 0
      · rw [if_pos hc] at q1 q2
        rw [cmp_gt_iff] at hc
        rw [min_eq_right (le_of_lt hc), max_eq_left (le_of_lt hc)]
        exact ⟨q1, q2⟩
      · rw [if_neg hc] at q1 q2
        rw [cmp_gt_iff] at hc
        rw [min_eq_left (not_lt.1 hc), max_eq_right (not_lt.1 hc)]
        exact ⟨q1, q2⟩

/-- Instance of C37: `range_search_values(3, 1)` on the index built by inserting the
keys 1, 2, 3, 4 with `t = 2` lists the values of the keys 1, 2, 3. -/
theorem range_search_values_sound_witness :
    RootInv exTree ∧ range_search_values exTree 3 1 = some [10, 20, 30] ∧
    (∃ l : List (Int × Int), range_search_values exTree 3 1 = some (l.map Prod.snd) ∧
      l.Sublist exTree.stored ∧ ∀ e ∈ l, min 3 1 ≤ e.1 ∧ e.1 ≤ max 3 1) ∧
    range_search_values exTree 1 3 = range_search_values exTree 3 1 :=
  ⟨(run_inv 2 exOps exTree run_exOps).2.2.2.1, by decide,
    range_search_values_sound exTree 3 1 (run_inv 2 exOps exTree run_exOps).2.2.2.1⟩

end range_sound
end diskbtree

/-! ## The key comparators -/

namespace diskbtree

section comparators

theorem memcmp_self (n : Nat) : ∀ a : List Nat, memcmp a a n = 0 := by
  induction n with
  | zero => intro a; cases a <;> rfl
  | succ n ih =>
    intro a
    cases a with
    | nil => rfl
    | cons x xs => simp only [memcmp, lt_irrefl, if_false, ih]

theorem memcmp_padded : ∀ (n : Nat) (s1 s2 : List Nat), s1.length < n → s2.length < n →
    (∀ c ∈ s1, c ≠ 0) → (∀ c ∈ s2, c ≠ 0) →
    memcmp (s1 ++ List.replicate (n - s1.length) 0) (s2 ++ List.replicate (n - s2.length) 0) n
      = lex_cmp s1 s2 := by
  intro n
  induction n with
  | zero => intro s1 s2 h1; omega
  | succ n ih =>
    intro s1 s2 h1 h2 z1 z2
    cases s1 with
    | nil =>
      cases s2 with
      | nil => exact memcmp_self _ _
      | cons b bs =>
        have hb : 0 < b := Nat.pos_of_ne_zero (z2 b (List.mem_cons_self _ _))
        simp only [List.length_nil, Nat.sub_zero, List.nil_append, List.replicate_succ,
          List.cons_append, memcmp, hb, if_true, lex_cmp]
    | cons a as =>
      have ha : 0 < a := Nat.pos_of_ne_zero (z1 a (List.mem_cons_self _ _))
      cases s2 with
      | nil =>
        have hn : ¬ a < 0 := Nat.not_lt_zero a
        simp only [List.length_nil, Nat.sub_zero, List.nil_append, List.replicate_succ,
          List.cons_append, memcmp, ha, hn, if_true, if_false, lex_cmp]
      | cons b bs =>
        simp only [List.length_cons] at h1 h2
        have e1 : n + 1 - (as.length + 1) = n - as.length := by omega
        have e2 : n + 1 - (bs.length + 1) = n - bs.length := by omega
        simp only [List.length_cons, e1, e2, List.cons_append, memcmp, lex_cmp]
        have e3 := ih as bs (by omega) (by omega) (fun c hc => z1 c (List.mem_cons_of_mem _ hc))
          (fun c hc => z2 c (List.mem_cons_of_mem _ hc))
        have e4 : memcmp (as.append (List.replicate (n - as.length) 0))
            (bs.append (List.replicate (n - bs.length) 0)) n = lex_cmp as bs := e3
        rw [e4]

theorem lex_cmp_neg : ∀ s1 s2 : List Nat,
    lex_cmp s1 s2 < 0 ↔ List.Lex (fun a b : Nat => a < b) s1 s2
  | [], [] => by simp [lex_cmp]
  | [], _ :: _ => by simp [lex_cmp, List.Lex.nil]
  | _ :: _, [] => by simp [lex_cmp]
  | a :: as, b :: bs => by
    unfold lex_cmp
    by_cases h1 : a < b
    · simp only [h1, if_true]
      exact ⟨fun _ => List.Lex.rel h1, fun _ => by decide⟩
    · by_cases h2 : b < a
      · simp only [h1, h2, if_true, if_false]
        constructor
        · intro h; exact absurd h (by decide)
        · intro h
          cases h with
          | cons h3 => exact absurd h2 (lt_irrefl _)
          | rel h3 => exact absurd h3 h1
      · have e : a = b := le_antisymm (not_lt.1 h2) (not_lt.1 h1)
        subst e
        simp only [lt_irrefl, if_false]
        rw [lex_cmp_neg as bs]
        exact List.Lex.cons_iff.symm

theorem lex_cmp_swap : ∀ s1 s2 : List Nat, lex_cmp s2 s1 = - lex_cmp s1 s2
  | [], [] => rfl
  | [], _ :: _ => rfl
  | _ :: _, [] => rfl
  | a :: as, b :: bs => by
    unfold lex_cmp
    by_cases h1 : a < b
    · have h2 : ¬ b < a := not_lt.2 (le_of_lt h1)
      simp only [h1, h2, if_true, if_false]
      rfl
    · by_cases h2 : b < a
      · simp only [h1, h2, if_true, if_false]
      · simp only [h1, h2, if_false]
        exact lex_cmp_swap as bs

theorem lex_cmp_zero : ∀ s1 s2 : List Nat, lex_cmp s1 s2 = 0 ↔ s1 = s2
  | [], [] => by simp [lex_cmp]
  | [], _ :: _ => by simp [lex_cmp]
  | _ :: _, [] => by simp [lex_cmp]
  | a :: as, b :: bs => by
    unfold lex_cmp
    by_cases h1 : a < b
    · simp only [h1, if_true]
      constructor
      · intro h; exact absurd h (by decide)
      · intro h
        rw [List.cons.injEq] at h
        exact absurd h.1 (ne_of_lt h1)
    · by_cases h2 : b < a
      · simp only [h1, h2, if_true, if_false]
        constructor
        · intro h; exact absurd h (by decide)
        · intro h
          rw [List.cons.injEq] at h
          exact absurd h.1.symm (ne_of_lt h2)
      · have e : a = b := le_antisymm (not_lt.1 h2) (not_lt.1 h1)
        subst e
        simp only [lt_irrefl, if_false, List.cons.injEq, true_and]
        exact lex_cmp_zero as bs

theorem lex_cmp_initial : ∀ s1 s2 : List Nat, s1 <+: s2 → s1 ≠ s2 → lex_cmp s1 s2 < 0
  | [], [], _, h => absurd rfl h
  | [], _ :: _, _, _ => by simp [lex_cmp]
  | _ :: _, [], h, _ => by simp at h
  | a :: as, b :: bs, h, hne => by
    rw [List.cons_prefix_cons] at h
    obtain ⟨e, hp⟩ := h
    subst e
    unfold lex_cmp
    simp only [lt_irrefl, if_false]
    exact lex_cmp_initial as bs hp (fun e => hne (by rw [e]))

theorem KeyChar32_put_short (s : List Nat) (h : s.length ≤ 31) :
    minidb.KeyChar32_put s = s ++ List.replicate (32 - s.length) 0 := by
  unfold minidb.KeyChar32_put
  rw [List.take_of_length_le h]

/-- C34: the key comparators order keys as specified.  For two INT32 keys, `cmp_mem`
on their 4-byte slots is the sign of the signed comparison of the keys (`-1`, `1` or
`0`).  For two strings of at most 31 bytes without a NUL byte, `cmp_mem` on their
32-byte NUL-padded slots is the raw-byte lexicographic comparison of the strings: it
is negative exactly when the first string is lexicographically smaller, positive
exactly when it is larger, `0` exactly when the strings are equal, and negative when
the first string is a proper prefix of the second. -/
theorem key_comparators_order (x y : Int)
    (hx : -2147483648 ≤ x ∧ x < 2147483648) (hy : -2147483648 ≤ y ∧ y < 2147483648)
    (s1 s2 : List Nat) (h1 : s1.length ≤ 31) (h2 : s2.length ≤ 31)
    (z1 : ∀ c ∈ s1, c ≠ 0) (z2 : ∀ c ∈ s2, c ≠ 0) :
    KeyInt_cmp_mem (KeyInt_put x) (KeyInt_put y)
      = (if x < y then -1 else if y < x then 1 else 0) ∧
    KeyChar32_cmp_mem (minidb.KeyChar32_put s1) (minidb.KeyChar32_put s2) = lex_cmp s1 s2 ∧
    (KeyChar32_cmp_mem (minidb.KeyChar32_put s1) (minidb.KeyChar32_put s2) < 0
      ↔ List.Lex (fun a b : Nat => a < b) s1 s2) ∧
    (KeyChar32_cmp_mem (minidb.KeyChar32_put s1) (minidb.KeyChar32_put s2) > 0
      ↔ List.Lex (fun a b : Nat => a < b) s2 s1) ∧
    (KeyChar32_cmp_mem (minidb.KeyChar32_put s1) (minidb.KeyChar32_put s2) = 0 ↔ s1 = s2) ∧
    (s1 <+: s2 → s1 ≠ s2 →
      KeyChar32_cmp_mem (minidb.KeyChar32_put s1) (minidb.KeyChar32_put s2) < 0) := by
  have hc : KeyChar32_cmp_mem (minidb.KeyChar32_put s1) (minidb.KeyChar32_put s2)
      = lex_cmp s1 s2 := by
    rw [KeyChar32_put_short s1 h1, KeyChar32_put_short s2 h2]
    exact memcmp_padded 32 s1 s2 (by omega) (by omega) z1 z2
  refine ⟨?_, hc, ?_, ?_, ?_, ?_⟩
  · have l1 : (gft.int32_bytes x).take 4 = gft.int32_bytes x := rfl
    have l2 : (gft.int32_bytes y).take 4 = gft.int32_bytes y := rfl
    simp only [KeyInt_cmp_mem, KeyInt_put, l1, l2, gft.int32_of_int32_bytes x hx.1 hx.2,
      gft.int32_of_int32_bytes y hy.1 hy.2, gt_iff_lt]
  · rw [hc]; exact lex_cmp_neg s1 s2
  · rw [hc, ← lex_cmp_neg s2 s1, lex_cmp_swap s1 s2]
    omega
  · rw [hc]; exact lex_cmp_zero s1 s2
  · intro hp hne
    rw [hc]; exact lex_cmp_initial s1 s2 hp hne

/-- Instance of C34: the keys 3 and -5, and the strings "ab" and "abc". -/
theorem key_comparators_order_witness :
    ((-2147483648 : Int) ≤ 3 ∧ (3 : Int) < 2147483648) ∧
    KeyInt_cmp_mem (KeyInt_put 3) (KeyInt_put (-5)) = 1 ∧
    KeyChar32_cmp_mem (minidb.KeyChar32_put [97, 98]) (minidb.KeyChar32_put [97, 98, 99]) = -1 ∧
    (KeyInt_cmp_mem (KeyInt_put 3) (KeyInt_put (-5))
      = (if (3 : Int) < -5 then -1 else if (-5 : Int) < 3 then 1 else 0) ∧
    KeyChar32_cmp_mem (minidb.KeyChar32_put [97, 98]) (minidb.KeyChar32_put [97, 98, 99])
      = lex_cmp [97, 98] [97, 98, 99] ∧
    (KeyChar32_cmp_mem (minidb.KeyChar32_put [97, 98]) (minidb.KeyChar32_put [97, 98, 99]) < 0
      ↔ List.Lex (fun a b : Nat => a < b) [97, 98] [97, 98, 99]) ∧
    (KeyChar32_cmp_mem (minidb.KeyChar32_put [97, 98]) (minidb.KeyChar32_put [97, 98, 99]) > 0
      ↔ List.Lex (fun a b : Nat => a < b) [97, 98, 99] [97, 98]) ∧
    (KeyChar32_cmp_mem (minidb.KeyChar32_put [97, 98]) (minidb.KeyChar32_put [97, 98, 99]) = 0
      ↔ [97, 98] = [97, 98, 99]) ∧
    ([97, 98] <+: [97, 98, 99] → [97, 98] ≠ [97, 98, 99] →
      KeyChar32_cmp_mem (minidb.KeyChar32_put [97, 98]) (minidb.KeyChar32_put [97, 98, 99]) < 0)) :=
  ⟨by decide, by decide, by decide,
    key_comparators_order 3 (-5) (by decide) (by decide) [97, 98] [97, 98, 99]
      (by decide) (by decide) (by decide) (by decide)⟩

end comparators
end diskbtree

/-! ## Removal next to a duplicated key -/

namespace diskbtree

section remove_duplicates

theorem run_sepOps : run 2 sepOps = some sepTree := rfl

/-- C35 (the code at a failing input): on the index built by inserting (1, 10),
(2, 20), (3, 30), (1, 11) with `t = 2`, `remove_key(2)` finds the key in the root,
copies the predecessor (1, 11) over it and then removes the first entry of key 1
from the left leaf, which is (1, 10): afterwards (1, 11) is stored twice and the
entry (1, 10), whose key is not 2, is gone. -/
theorem remove_key_drops_other_entry :
    run 2 sepOps = some sepTree ∧
    sepTree.stored = [(1, 10), (1, 11), (2, 20), (3, 30)] ∧
    (remove_key sepTree 2).map DiskBTree.stored = some [(1, 11), (1, 11), (3, 30)] ∧
    (remove_key sepTree 2).map (fun bt => decide ((1, 10) ∈ bt.stored)) = some false ∧
    (remove_key sepTree 2).map (fun bt => bt.stored.count (1, 11)) = some 2 :=
  ⟨rfl, by decide, by decide, by decide, by decide⟩

end remove_duplicates
end diskbtree

/-! ## The ranges probed for an INT32 drive predicate -/

namespace sqlmini

open gft diskbtree minidb

theorem range_queries_one (idx : DiskBTree Int) (r : Int × Int) :
    range_queries idx [r] = range_search_values idx r.1 r.2 := by
  unfold range_queries range_queries
  cases range_search_values idx r.1 r.2 with
  | none => rfl
  | some t => simp

theorem range_queries_two (idx : DiskBTree Int) (r s : Int × Int) :
    range_queries idx [r, s] =
      match range_search_values idx r.1 r.2, range_search_values idx s.1 s.2 with
      | some t1, some t2 => some (t1 ++ t2)
      | _, _ => none := by
  unfold range_queries
  rw [range_queries_one]

/-- C39: for an INT32 drive predicate `col op key` the index probe is a point lookup
for `EQ` and otherwise the range queries over `[key, INT32_MAX]` (GE),
`[INT32_MIN, key]` (LE), `[key+1, INT32_MAX]` (GT), `[INT32_MIN, key-1]` (LT), and
both `[INT32_MIN, key-1]` and `[key+1, INT32_MAX]` (NE), with `key + 1` and `key - 1`
taken modulo 2^32; and for all int32 `key` and `v` such that `v op key` holds, `v` is
the key of the point lookup (EQ) or lies between the bounds of one of the probed
ranges (the range query takes the bounds in either order). -/
theorem probe_int_ranges (idx : DiskBTree Int) (cmp : Cmp) (key v : Int)
    (hk : -2147483648 ≤ key ∧ key ≤ 2147483647) (hv : -2147483648 ≤ v ∧ v ≤ 2147483647) :
    probe_int idx cmp key = probe_by_ranges idx cmp key ∧
    (cmp_holds cmp v key = true →
      (cmp = Cmp.EQ ∧ v = key) ∨
      ∃ r ∈ probe_ranges cmp key, min r.1 r.2 ≤ v ∧ v ≤ max r.1 r.2) := by
  constructor
  · cases cmp
    · rfl
    · simp only [probe_int, probe_by_ranges, probe_ranges, range_queries_one]; rfl
    · simp only [probe_int, probe_by_ranges, probe_ranges, range_queries_one]; rfl
    · simp only [probe_int, probe_by_ranges, probe_ranges, range_queries_one]; rfl
    · simp only [probe_int, probe_by_ranges, probe_ranges, range_queries_one]; rfl
    · simp only [probe_int, probe_by_ranges, probe_ranges, range_queries_two]; rfl
  · intro h
    cases cmp
    · left
      exact ⟨rfl, by simpa [cmp_holds] using h⟩
    · right
      refine ⟨(key, 2147483647), by simp [probe_ranges], ?_⟩
      simp only [cmp_holds, decide_eq_true_eq] at h
      simp only [min_def, max_def]
      split_ifs <;> omega
    · right
      refine ⟨(-2147483648, key), by simp [probe_ranges], ?_⟩
      simp only [cmp_holds, decide_eq_true_eq] at h
      simp only [min_def, max_def]
      split_ifs <;> omega
    · right
      refine ⟨(wrap32 (key + 1), 2147483647), by simp [probe_ranges], ?_⟩
      simp only [cmp_holds, decide_eq_true_eq] at h
      simp only [min_def, max_def, wrap32]
      split_ifs <;> omega
    · right
      refine ⟨(-2147483648, wrap32 (key - 1)), by simp [probe_ranges], ?_⟩
      simp only [cmp_holds, decide_eq_true_eq] at h
      simp only [min_def, max_def, wrap32]
      split_ifs <;> omega
    · right
      simp only [cmp_holds, decide_eq_true_eq] at h
      rcases lt_or_gt_of_ne h with h1 | h1
      · refine ⟨(-2147483648, wrap32 (key - 1)), by simp [probe_ranges], ?_⟩
        simp only [min_def, max_def, wrap32]
        split_ifs <;> omega
      · refine ⟨(wrap32 (key + 1), 2147483647), by simp [probe_ranges], ?_⟩
        simp only [min_def, max_def, wrap32]
        split_ifs <;> omega

/-- Instance of C39: `id > INT32_MAX` probes `[INT32_MIN, INT32_MAX]`, and
`id != 2` holds for 7, which lies in the second probed range `[3, INT32_MAX]`. -/
theorem probe_int_ranges_witness :
    ((-2147483648 : Int) ≤ 2 ∧ (2 : Int) ≤ 2147483647) ∧
    probe_ranges Cmp.GT 2147483647 = [(-2147483648, 2147483647)] ∧
    probe_ranges Cmp.NE 2 = [(-2147483648, 1), (3, 2147483647)] ∧
    cmp_holds Cmp.NE (7 : Int) 2 = true ∧
    (probe_int exIndex Cmp.NE 2 = probe_by_ranges exIndex Cmp.NE 2 ∧
    (cmp_holds Cmp.NE (7 : Int) 2 = true →
      (Cmp.NE = Cmp.EQ ∧ (7 : Int) = 2) ∨
      ∃ r ∈ probe_ranges Cmp.NE 2, min r.1 r.2 ≤ 7 ∧ 7 ≤ max r.1 r.2)) :=
  ⟨by decide, by decide, by decide, by decide,
    probe_int_ranges exIndex Cmp.NE 2 7 (by decide) (by decide)⟩

end sqlmini

/-! ## `actualizar_por_pageid` on a column without index -/

namespace minidb

open gft diskbtree

variable {F : Type} [LinearOrder F] {of_bits : Nat → F} {fp : FloatProbe}

set_option maxRecDepth 1000000 in
/-- C38 (the code at a failing input): on the sample table, whose row 0 is the live
row `(id = 1, qty = 10)`, the call `actualizar_por_pageid(t, 0, [qty = 99])` changes a
stored value.  Without an index on `qty` the second loop compares the copy that
already holds 99 with 99, `any_change` stays false, no delta was recorded, and the
call returns false before `WriteRowInDisk`: `leer_fila(0)` still gives `qty = 10`.
With an index on `qty` loaded the same call returns true and `leer_fila(0)` gives
`qty = 99`. -/
theorem actualizar_por_pageid_drops_change :
    leer_fila exPlain 0 = some [Value.Int 1, Value.Int 10] ∧
    (∀ feq : Nat → Nat → Bool,
      (actualizar_por_pageid exOfBits feq exPlain 0 [("qty", Value.Int 99)]).map
          (fun r => (r.1, leer_fila r.2 0))
        = some (false, some [Value.Int 1, Value.Int 10])) ∧
    (∀ feq : Nat → Nat → Bool,
      (actualizar_por_pageid exOfBits feq exIndexed 0 [("qty", Value.Int 99)]).map
          (fun r => (r.1, leer_fila r.2 0))
        = some (true, some [Value.Int 1, Value.Int 99])) := by
  refine ⟨by decide, fun feq => ?_, fun feq => ?_⟩
  · rfl
  · rfl

end minidb

/-! ## Searching and trimming in statements -/

namespace sqlmini

open gft diskbtree minidb

section strings

theorem isPrefixOf_cons_ne (h a : Char) (pt rest : List Char) (hne : a ≠ h) :
    (h :: pt).isPrefixOf (a :: rest) = false := by
  rw [List.isPrefixOf_cons₂]
  have : (h == a) = false := beq_false_of_ne (fun e => hne e.symm)
  rw [this, Bool.false_and]

theorem find_sub_cons (pat : List Char) (c : Char) (cs : List Char) (i : Nat) :
    find_sub pat (c :: cs) i
      = if pat.isPrefixOf (c :: cs) then some i else find_sub pat cs (i + 1) := rfl

theorem find_sub_nil (pat : List Char) (i : Nat) :
    find_sub pat [] i = if pat.isEmpty then some i else none := rfl

/-- A search skips a stretch that does not contain the first character of the
pattern. -/
theorem find_sub_skip (h : Char) (pt : List Char) :
    ∀ (A rest : List Char) (i : Nat), (∀ x ∈ A, x ≠ h) →
      find_sub (h :: pt) (A ++ rest) i = find_sub (h :: pt) rest (i + A.length)
  | [], rest, i, _ => by simp
  | a :: A, rest, i, hA => by
    have h1 : (h :: pt).isPrefixOf (a :: (A ++ rest)) = false :=
      isPrefixOf_cons_ne h a pt _ (hA a (List.mem_cons_self _ _))
    have h2 := find_sub_skip h pt A rest (i + 1) (fun x hx => hA x (List.mem_cons_of_mem _ hx))
    have e : i + 1 + A.length = i + (A.length + 1) := by omega
    rw [List.cons_append, find_sub_cons, h1, if_neg (by decide), h2, e, List.length_cons]

theorem find_sub_absent (h : Char) (pt A : List Char) (i : Nat) (hA : ∀ x ∈ A, x ≠ h) :
    find_sub (h :: pt) A i = none := by
  have e := find_sub_skip h pt A [] i hA
  rw [List.append_nil] at e
  rw [e]
  simp [find_sub]

theorem find_char_absent (A : List Char) (c : Char) (hA : ∀ x ∈ A, x ≠ c) :
    find_char A c 0 = none := by
  have e : A.findIdx? (fun x => x == c) = none := by
    rw [List.findIdx?_eq_none_iff]
    intro x hx
    exact beq_false_of_ne (hA x hx)
  simp [find_char, e]

theorem find_char_skip (A B : List Char) (c : Char) (hA : ∀ x ∈ A, x ≠ c) :
    find_char (A ++ c :: B) c 0 = some A.length := by
  have e : A.findIdx? (fun x => x == c) = none := by
    rw [List.findIdx?_eq_none_iff]
    intro x hx
    exact beq_false_of_ne (hA x hx)
  simp [find_char, List.findIdx?_append, e, List.findIdx?_cons]

/-- The search returns the first position at which the pattern occurs. -/
theorem find_sub_first (pat : List Char) :
    ∀ (p : Nat) (s : List Char) (i : Nat), occurs_at pat s p → (∀ j, j < p → ¬ occurs_at pat s j) →
      find_sub pat s i = some (i + p)
  | 0, [], i, h0, _ => by
    have : pat = [] := by
      cases pat with
      | nil => rfl
      | cons x xs => simp [occurs_at, List.isPrefixOf] at h0
    simp [find_sub, this]
  | 0, c :: cs, i, h0, _ => by
    have h1 : pat.isPrefixOf (c :: cs) = true := by simpa [occurs_at] using h0
    simp only [find_sub, h1, if_true, Nat.add_zero]
  | p + 1, [], i, h0, hn => by
    exfalso
    apply hn 0 (Nat.succ_pos p)
    simpa [occurs_at] using h0
  | p + 1, c :: cs, i, h0, hn => by
    have h1 : pat.isPrefixOf (c :: cs) = false := by
      have := hn 0 (Nat.succ_pos p)
      simp only [occurs_at, List.drop_zero] at this
      exact Bool.eq_false_iff.2 this
    have h2 := find_sub_first pat p cs (i + 1) (by simpa [occurs_at] using h0)
      (fun j hj hocc => hn (j + 1) (Nat.succ_lt_succ hj) (by simpa [occurs_at] using hocc))
    have e : i + 1 + p = i + (p + 1) := by omega
    rw [find_sub_cons, h1, if_neg (by decide), h2, e]

/-- What the search returns is a position at which the pattern occurs, and the
pattern occurs at no earlier position. -/
theorem find_sub_sound (pat : List Char) :
    ∀ (s : List Char) (i q : Nat), find_sub pat s i = some q →
      i ≤ q ∧ occurs_at pat s (q - i) ∧ ∀ j, j < q - i → ¬ occurs_at pat s j
  | [], i, q, h => by
    by_cases he : pat.isEmpty = true
    · simp only [find_sub, he, if_true, Option.some.injEq] at h
      subst h
      have : pat = [] := List.isEmpty_iff.1 he
      simp [occurs_at, this]
    · simp [find_sub, he] at h
  | c :: cs, i, q, h => by
    by_cases h1 : pat.isPrefixOf (c :: cs) = true
    · simp only [find_sub, h1, if_true, Option.some.injEq] at h
      subst h
      simp [occurs_at, h1]
    · simp only [find_sub, h1, if_false] at h
      obtain ⟨a1, a2, a3⟩ := find_sub_sound pat cs (i + 1) q h
      have e : q - i = (q - (i + 1)) + 1 := by omega
      refine ⟨by omega, ?_, ?_⟩
      · rw [e]
        simpa [occurs_at] using a2
      · intro j hj hocc
        cases j with
        | zero => exact h1 (by simpa [occurs_at] using hocc)
        | succ j =>
          exact a3 j (by omega) (by simpa [occurs_at] using hocc)

theorem find_sub_none_iff (pat : List Char) :
    ∀ (s : List Char) (i : Nat), find_sub pat s i = none → ∀ j, ¬ occurs_at pat s j := by
  intro s i h j hocc
  -- the least position at which the pattern occurs is what the search returns
  have hex : ∃ p, occurs_at pat s p := ⟨j, hocc⟩
  classical
  have hmin := Nat.find_spec hex
  have hlt : ∀ k, k < Nat.find hex → ¬ occurs_at pat s k := fun k hk => Nat.find_min hex hk
  rw [find_sub_first pat (Nat.find hex) s i hmin hlt] at h
  cases h

end strings

end sqlmini

/-! ## Trimming -/

namespace sqlmini

open gft diskbtree minidb

section trimming

theorem trim_eq (s : List Char) :
    trim s = (s.dropWhile isspace).rdropWhile isspace := rfl

theorem dropWhile_append_stop (p : Char → Bool) (o : Char) (R : List Char) (ho : p o = false) :
    ∀ c : List Char, (c ++ o :: R).dropWhile p = c.dropWhile p ++ o :: R
  | [] => by simp [List.dropWhile_cons, ho]
  | a :: c => by
    by_cases ha : p a = true
    · rw [List.cons_append, List.dropWhile_cons_of_pos ha, List.dropWhile_cons_of_pos ha]
      exact dropWhile_append_stop p o R ho c
    · rw [List.cons_append, List.dropWhile_cons_of_neg ha, List.dropWhile_cons_of_neg ha]
      rfl

theorem rdropWhile_append_stop (p : Char → Bool) (z : Char) (X : List Char) (hz : p z = false) :
    ∀ l : List Char, (X ++ [z] ++ l).rdropWhile p = X ++ [z] ++ l.rdropWhile p := by
  intro l
  induction l using List.reverseRecOn with
  | nil =>
    rw [List.append_nil, List.rdropWhile_nil, List.append_nil]
    exact List.rdropWhile_concat_neg p X z (by simp [hz])
  | append_singleton L y ih =>
    rw [← List.append_assoc (X ++ [z]) L [y]]
    by_cases hy : p y = true
    · rw [List.rdropWhile_concat_pos p _ y hy, List.rdropWhile_concat_pos p L y hy, ih]
    · rw [List.rdropWhile_concat_neg p _ y hy, List.rdropWhile_concat_neg p L y hy]
      simp

/-- Trimming a text with a non-blank stretch `op` in it trims the part before `op`
on the left and the part after `op` on the right. -/
theorem trim_mid (c op l : List Char) (hne : op ≠ []) (hop : ∀ x ∈ op, isspace x = false) :
    trim (c ++ op ++ l) = c.dropWhile isspace ++ op ++ l.rdropWhile isspace := by
  rw [trim_eq]
  obtain ⟨o, ot, rfl⟩ : ∃ o ot, op = o :: ot := by
    cases op with
    | nil => exact absurd rfl hne
    | cons o ot => exact ⟨o, ot, rfl⟩
  have e1 : (c ++ o :: ot ++ l).dropWhile isspace = c.dropWhile isspace ++ o :: ot ++ l := by
    have := dropWhile_append_stop isspace o (ot ++ l) (hop o (List.mem_cons_self _ _)) c
    simpa using this
  rw [e1]
  obtain ⟨oi, z, hz⟩ : ∃ oi z, o :: ot = oi ++ [z] := by
    rcases List.eq_nil_or_concat (o :: ot) with h | ⟨oi, z, h⟩
    · cases h
    · exact ⟨oi, z, by rw [h, List.concat_eq_append]⟩
  have hzs : isspace z = false := hop z (by rw [hz]; simp)
  rw [hz]
  have := rdropWhile_append_stop isspace z (List.dropWhile isspace c ++ oi) hzs l
  simpa [List.append_assoc] using this

theorem trim_ltrim (c : List Char) : trim (c.dropWhile isspace) = trim c := by
  rw [trim_eq, trim_eq, List.dropWhile_idempotent]

theorem ltrim_rtrim (l : List Char) :
    (l.rdropWhile isspace).dropWhile isspace = (l.dropWhile isspace).rdropWhile isspace := by
  induction l using List.reverseRecOn with
  | nil => simp
  | append_singleton L y ih =>
    by_cases hy : isspace y = true
    · rw [List.rdropWhile_concat_pos isspace L y hy, ih, List.dropWhile_append]
      by_cases he : (List.dropWhile isspace L).isEmpty = true
      · rw [if_pos he]
        have e2 : List.dropWhile isspace L = [] := List.isEmpty_iff.1 he
        simp [e2, List.dropWhile_cons, hy]
      · rw [if_neg he, List.rdropWhile_concat_pos isspace _ y hy]
    · rw [List.rdropWhile_concat_neg isspace L y hy, List.dropWhile_append]
      by_cases he : (List.dropWhile isspace L).isEmpty = true
      · rw [if_pos he]
        have e3 : List.dropWhile isspace [y] = [y] := by simp [List.dropWhile_cons, hy]
        rw [e3]
        exact (List.rdropWhile_concat_neg isspace [] y hy).symm
      · rw [if_neg he, List.rdropWhile_concat_neg isspace _ y hy]

theorem trim_rtrim (l : List Char) : trim (l.rdropWhile isspace) = trim l := by
  rw [trim_eq, trim_eq, ltrim_rtrim, List.rdropWhile_idempotent]

theorem trim_cons_space (l : List Char) : trim (' ' :: l) = trim l := by
  rw [trim_eq, trim_eq, List.dropWhile_cons_of_pos (by decide)]

theorem trim_concat_space (c : List Char) : trim (c ++ [' ']) = trim c := by
  rw [trim_eq, trim_eq, List.dropWhile_append]
  by_cases he : (List.dropWhile isspace c).isEmpty = true
  · rw [if_pos he]
    have e2 : List.dropWhile isspace c = [] := List.isEmpty_iff.1 he
    rw [e2]
    rfl
  · rw [if_neg he, List.rdropWhile_concat_pos isspace _ ' ' (by decide)]

end trimming

end sqlmini

/-! ## The predicate parser -/

namespace sqlmini

open gft diskbtree minidb

section predicates

theorem isPrefixOf_one_append (k : Char) (os B : List Char) (hB : ∀ x ∈ B, x ≠ k) :
    [k].isPrefixOf (os ++ B) = [k].isPrefixOf os := by
  cases os with
  | nil =>
    cases B with
    | nil => rfl
    | cons b B =>
      rw [List.nil_append]
      exact isPrefixOf_cons_ne k b [] B (hB b (List.mem_cons_self _ _))
  | cons o os => simp [List.isPrefixOf_cons₂, List.isPrefixOf]

/-- A two-character pattern whose characters do not occur in `B` is found in
`op ++ B` where it is found in `op`. -/
theorem find_sub_two_tail (h k : Char) (B : List Char) (hB : ∀ x ∈ B, x ≠ h ∧ x ≠ k) :
    ∀ (op : List Char) (i : Nat), find_sub [h, k] (op ++ B) i = find_sub [h, k] op i
  | [], i => by
    rw [List.nil_append, find_sub_absent h [k] B i (fun x hx => (hB x hx).1)]
    rfl
  | o :: os, i => by
    rw [List.cons_append, find_sub_cons, find_sub_cons, find_sub_two_tail h k B hB os (i + 1),
      List.isPrefixOf_cons₂, List.isPrefixOf_cons₂,
      isPrefixOf_one_append k os B (fun x hx => (hB x hx).2)]

theorem find_sub_shift (pat : List Char) :
    ∀ (s : List Char) (i : Nat), find_sub pat s i = (find_sub pat s 0).map (fun q => q + i)
  | [], i => by
    rw [find_sub_nil, find_sub_nil]
    by_cases he : pat.isEmpty = true
    · simp [he]
    · simp [he]
  | c :: cs, i => by
    rw [find_sub_cons, find_sub_cons, find_sub_shift pat cs (i + 1), find_sub_shift pat cs (0 + 1)]
    by_cases h1 : pat.isPrefixOf (c :: cs) = true
    · simp [h1]
    · have h2 : pat.isPrefixOf (c :: cs) = false := Bool.eq_false_iff.2 h1
      rw [h2, if_neg (by decide), if_neg (by decide), Option.map_map]
      cases find_sub pat cs 0 with
      | none => rfl
      | some q =>
        simp only [Option.map_some', Function.comp, Option.some.injEq]
        omega

/-- Where a two-character operator pattern is found in `A ++ op ++ B` when `A` and `B`
hold no operator character. -/
theorem find_sub_two_mid (h k : Char) (A op B : List Char) (hA : ∀ x ∈ A, x ≠ h)
    (hB : ∀ x ∈ B, x ≠ h ∧ x ≠ k) :
    find_sub [h, k] (A ++ op ++ B) 0 = (find_sub [h, k] op 0).map (fun q => q + A.length) := by
  rw [List.append_assoc, find_sub_skip h [k] A (op ++ B) 0 hA, find_sub_two_tail h k B hB,
    find_sub_shift, Nat.zero_add]

theorem find_char_mid (c : Char) (A op B : List Char) (hA : ∀ x ∈ A, x ≠ c)
    (hB : ∀ x ∈ B, x ≠ c) :
    find_char (A ++ op ++ B) c 0 = (find_char op c 0).map (fun q => q + A.length) := by
  have eA : A.findIdx? (fun x => x == c) = none := by
    rw [List.findIdx?_eq_none_iff]
    intro x hx
    exact beq_false_of_ne (hA x hx)
  have eB : B.findIdx? (fun x => x == c) = none := by
    rw [List.findIdx?_eq_none_iff]
    intro x hx
    exact beq_false_of_ne (hB x hx)
  simp only [find_char, List.drop_zero, List.findIdx?_append, eA, eB, Option.map_none',
    Option.or_none, Option.none_or, Nat.add_zero, Option.map_map]
  congr 1

theorem pred_at_mid (A op B : List Char) (cmp : Cmp) (n : Nat) (hn : op.length = n) :
    pred_at (A ++ op ++ B) (0 + A.length) n cmp
      = { col := String.mk (trim A), cmp := cmp, lit := String.mk (trim B) } := by
  have e1 : (A ++ op ++ B).take (0 + A.length) = A := by
    rw [Nat.zero_add, List.append_assoc, List.take_left]
  have e2 : (A ++ op ++ B).drop (0 + A.length + n) = B := by
    have : 0 + A.length + n = (A ++ op).length := by simp [hn]
    rw [this, List.drop_left]
  simp only [pred_at, e1, e2]

/-- The predicate parser on a text whose trimmed form is `A ++ op ++ B`, with `op` one
of the seven operators and no operator character in `A` or `B`. -/
theorem parse_pred_mid (s0 A op B : List Char) (cmp : Cmp) (hs : trim s0 = A ++ op ++ B)
    (hA : no_op_char A) (hB : no_op_char B) (ho : cmp_of_op op = some cmp) :
    parse_pred s0 = some { col := String.mk (trim A), cmp := cmp, lit := String.mk (trim B) } := by
  have a1 : ∀ x ∈ A, x ≠ '!' := fun x hx => (hA x hx).1
  have a2 : ∀ x ∈ A, x ≠ '=' := fun x hx => (hA x hx).2.1
  have a3 : ∀ x ∈ A, x ≠ '<' := fun x hx => (hA x hx).2.2.1
  have a4 : ∀ x ∈ A, x ≠ '>' := fun x hx => (hA x hx).2.2.2
  have b1 : ∀ x ∈ B, x ≠ '!' ∧ x ≠ '=' := fun x hx => ⟨(hB x hx).1, (hB x hx).2.1⟩
  have b2 : ∀ x ∈ B, x ≠ '>' ∧ x ≠ '=' := fun x hx => ⟨(hB x hx).2.2.2, (hB x hx).2.1⟩
  have b3 : ∀ x ∈ B, x ≠ '<' ∧ x ≠ '=' := fun x hx => ⟨(hB x hx).2.2.1, (hB x hx).2.1⟩
  have b4 : ∀ x ∈ B, x ≠ '=' ∧ x ≠ '=' := fun x hx => ⟨(hB x hx).2.1, (hB x hx).2.1⟩
  have n1 : "!=".toList = ['!', '='] := rfl
  have n2 : ">=".toList = ['>', '='] := rfl
  have n3 : "<=".toList = ['<', '='] := rfl
  have n4 : "==".toList = ['=', '='] := rfl
  have f1 := find_sub_two_mid '!' '=' A op B a1 b1
  have f2 := find_sub_two_mid '>' '=' A op B a4 b2
  have f3 := find_sub_two_mid '<' '=' A op B a3 b3
  have f4 := find_sub_two_mid '=' '=' A op B a2 b4
  have f5 := find_char_mid '=' A op B a2 (fun x hx => (hB x hx).2.1)
  have f6 := find_char_mid '>' A op B a4 (fun x hx => (hB x hx).2.2.2)
  have f7 := find_char_mid '<' A op B a3 (fun x hx => (hB x hx).2.2.1)
  unfold parse_pred
  simp only [hs, n1, n2, n3, n4, f1, f2, f3, f4, f5, f6, f7]
  unfold cmp_of_op at ho
  by_cases o1 : op = "==".toList
  · rw [if_pos (Or.inl o1)] at ho
    cases ho
    subst o1
    exact congrArg some (pred_at_mid A _ B Cmp.EQ 2 rfl)
  by_cases o2 : op = "=".toList
  · rw [if_pos (Or.inr o2)] at ho
    cases ho
    subst o2
    exact congrArg some (pred_at_mid A _ B Cmp.EQ 1 rfl)
  rw [if_neg (by rintro (h | h); exact o1 h; exact o2 h)] at ho
  by_cases o3 : op = "!=".toList
  · rw [if_pos o3] at ho
    cases ho
    subst o3
    exact congrArg some (pred_at_mid A _ B Cmp.NE 2 rfl)
  rw [if_neg o3] at ho
  by_cases o4 : op = ">=".toList
  · rw [if_pos o4] at ho
    cases ho
    subst o4
    exact congrArg some (pred_at_mid A _ B Cmp.GE 2 rfl)
  rw [if_neg o4] at ho
  by_cases o5 : op = "<=".toList
  · rw [if_pos o5] at ho
    cases ho
    subst o5
    exact congrArg some (pred_at_mid A _ B Cmp.LE 2 rfl)
  rw [if_neg o5] at ho
  by_cases o6 : op = ">".toList
  · rw [if_pos o6] at ho
    cases ho
    subst o6
    exact congrArg some (pred_at_mid A _ B Cmp.GT 1 rfl)
  rw [if_neg o6] at ho
  by_cases o7 : op = "<".toList
  · rw [if_pos o7] at ho
    cases ho
    subst o7
    exact congrArg some (pred_at_mid A _ B Cmp.LT 1 rfl)
  rw [if_neg o7] at ho
  cases ho

end predicates

end sqlmini

/-! ## The WHERE parser -/

namespace sqlmini

open gft diskbtree minidb

section where_clause

theorem op_shape (op : List Char) (cmp : Cmp) (ho : cmp_of_op op = some cmp) :
    op ≠ [] ∧ (∀ x ∈ op, isspace x = false) ∧ no_op_char [' '] := by
  have hsp : no_op_char [' '] := by unfold no_op_char; decide
  unfold cmp_of_op at ho
  by_cases o1 : op = "==".toList
  · subst o1; exact ⟨by decide, by decide, hsp⟩
  by_cases o2 : op = "=".toList
  · subst o2; exact ⟨by decide, by decide, hsp⟩
  rw [if_neg (by rintro (h | h); exact o1 h; exact o2 h)] at ho
  by_cases o3 : op = "!=".toList
  · subst o3; exact ⟨by decide, by decide, hsp⟩
  rw [if_neg o3] at ho
  by_cases o4 : op = ">=".toList
  · subst o4; exact ⟨by decide, by decide, hsp⟩
  rw [if_neg o4] at ho
  by_cases o5 : op = "<=".toList
  · subst o5; exact ⟨by decide, by decide, hsp⟩
  rw [if_neg o5] at ho
  by_cases o6 : op = ">".toList
  · subst o6; exact ⟨by decide, by decide, hsp⟩
  rw [if_neg o6] at ho
  by_cases o7 : op = "<".toList
  · subst o7; exact ⟨by decide, by decide, hsp⟩
  rw [if_neg o7] at ho
  cases ho

/-- The predicate parser on `c ++ op ++ l`, for `c` and `l` without operator
characters. -/
theorem parse_pred_spec (c op l : List Char) (cmp : Cmp) (hc : no_op_char c)
    (hl : no_op_char l) (ho : cmp_of_op op = some cmp) :
    parse_pred (c ++ op ++ l) = some (pred_of c cmp l) := by
  obtain ⟨hne, hsp, -⟩ := op_shape op cmp ho
  have hA : no_op_char (c.dropWhile isspace) :=
    fun x hx => hc x ((List.dropWhile_sublist isspace).subset hx)
  have hB : no_op_char (l.rdropWhile isspace) :=
    fun x hx => hl x ((List.rdropWhile_prefix isspace l).subset hx)
  rw [parse_pred_mid (c ++ op ++ l) _ op _ cmp (trim_mid c op l hne hsp) hA hB ho,
    trim_ltrim, trim_rtrim]
  rfl

theorem parse_pred_text (c op l : List Char) (cmp : Cmp) (hc : no_op_char c)
    (hl : no_op_char l) (ho : cmp_of_op op = some cmp) :
    parse_pred (pred_text c op l) = some (pred_of c cmp l) := by
  have hsp : no_op_char [' '] := (op_shape op cmp ho).2.2
  have hc2 : no_op_char (c ++ [' ']) := by
    intro x hx
    rw [List.mem_append] at hx
    rcases hx with hx | hx
    · exact hc x hx
    · exact hsp x hx
  have hl2 : no_op_char (' ' :: l) := by
    intro x hx
    rw [List.mem_cons] at hx
    rcases hx with hx | hx
    · rw [hx]; exact hsp ' ' (List.mem_singleton_self _)
    · exact hl x hx
  have e : pred_text c op l = (c ++ [' ']) ++ op ++ (' ' :: l) := by
    simp [pred_text]
  rw [e, parse_pred_spec _ op _ cmp hc2 hl2 ho]
  simp only [pred_of, trim_concat_space, trim_cons_space]

theorem find_sub_none_of_absent (pat s : List Char) (i : Nat)
    (h : ∀ j, ¬ occurs_at pat s j) : find_sub pat s i = none := by
  cases hf : find_sub pat s i with
  | none => rfl
  | some q => exact absurd (find_sub_sound pat s i q hf).2.1 (h _)

theorem occurs_at_append (pat A B : List Char) : occurs_at pat (A ++ pat ++ B) A.length := by
  unfold occurs_at
  rw [List.append_assoc, List.drop_left, List.isPrefixOf_iff_prefix]
  exact List.prefix_append _ _

/-- A connective keyword `kw` that is the first occurrence of its upper-case form in
the upper-cased expression is where the expression is cut. -/
theorem find_connective (pat kw P1 P2 : List Char) (hk : to_upper kw = pat)
    (hfirst : ∀ j, j < P1.length → ¬ occurs_at pat (to_upper (P1 ++ kw ++ P2)) j) :
    find_sub pat (to_upper (P1 ++ kw ++ P2)) 0 = some P1.length ∧
    (P1 ++ kw ++ P2).take P1.length = P1 ∧
    (P1 ++ kw ++ P2).drop (P1.length + pat.length) = P2 := by
  have hlen : kw.length = pat.length := by rw [← hk]; simp [to_upper]
  have hup : to_upper (P1 ++ kw ++ P2) = to_upper P1 ++ pat ++ to_upper P2 := by
    simp only [to_upper, List.map_append] at hk ⊢
    rw [hk]
  have hl1 : (to_upper P1).length = P1.length := by simp [to_upper]
  refine ⟨?_, ?_, ?_⟩
  · have hocc : occurs_at pat (to_upper (P1 ++ kw ++ P2)) P1.length := by
      rw [hup, ← hl1]
      exact occurs_at_append pat _ _
    have := find_sub_first pat P1.length _ 0 hocc hfirst
    rw [this, Nat.zero_add]
  · rw [List.append_assoc, List.take_left]
  · have : P1.length + pat.length = (P1 ++ kw).length := by simp [hlen]
    rw [this, List.drop_left]

/-- C40 (amended): `parse_where` recognises the seven operators with at most one
connective, which it looks for as a plain substring.  For column names `c` and
literals `l` that contain none of `!`, `=`, `<`, `>` and operators among `==`, `=`,
`!=`, `>=`, `<=`, `>`, `<`: (1) when the upper-cased text `c op l` contains neither
` AND ` nor ` OR `, `parse_where("c op l")` succeeds with the single predicate
`(c, cmp(op), l)`, `c` and `l` taken without surrounding white space and both `=` and
`==` giving EQ; (2) for a keyword whose upper-case form is ` AND ` and that is the
first occurrence of ` AND ` in the upper-cased expression, `parse_where("P1 AND P2")`
succeeds with `p1 = P1`, `p2 = P2` and connective AND; (3) for a keyword whose
upper-case form is ` OR `, when the upper-cased expression contains no ` AND ` and
the keyword is its first ` OR `, `parse_where("P1 OR P2")` succeeds with `p1 = P1`,
`p2 = P2` and connective OR. -/
theorem parse_where_forms (c1 op1 l1 c2 op2 l2 kw : List Char) (cmp1 cmp2 : Cmp) (w : Where)
    (hc1 : no_op_char c1) (hl1 : no_op_char l1) (hc2 : no_op_char c2) (hl2 : no_op_char l2)
    (ho1 : cmp_of_op op1 = some cmp1) (ho2 : cmp_of_op op2 = some cmp2) :
    ((∀ j, ¬ occurs_at " AND ".toList (to_upper (pred_text c1 op1 l1)) j) →
      (∀ j, ¬ occurs_at " OR ".toList (to_upper (pred_text c1 op1 l1)) j) →
      parse_where (pred_text c1 op1 l1) w
        = (true, { w with p1 := some (pred_of c1 cmp1 l1), op := "" })) ∧
    (to_upper kw = " AND ".toList →
      (∀ j, j < (pred_text c1 op1 l1).length → ¬ occurs_at " AND ".toList
        (to_upper (pred_text c1 op1 l1 ++ kw ++ pred_text c2 op2 l2)) j) →
      parse_where (pred_text c1 op1 l1 ++ kw ++ pred_text c2 op2 l2) w
        = (true, { p1 := some (pred_of c1 cmp1 l1), p2 := some (pred_of c2 cmp2 l2),
                   op := "AND" })) ∧
    (to_upper kw = " OR ".toList →
      (∀ j, ¬ occurs_at " AND ".toList
        (to_upper (pred_text c1 op1 l1 ++ kw ++ pred_text c2 op2 l2)) j) →
      (∀ j, j < (pred_text c1 op1 l1).length → ¬ occurs_at " OR ".toList
        (to_upper (pred_text c1 op1 l1 ++ kw ++ pred_text c2 op2 l2)) j) →
      parse_where (pred_text c1 op1 l1 ++ kw ++ pred_text c2 op2 l2) w
        = (true, { p1 := some (pred_of c1 cmp1 l1), p2 := some (pred_of c2 cmp2 l2),
                   op := "OR" })) := by
  have q1 := parse_pred_text c1 op1 l1 cmp1 hc1 hl1 ho1
  have q2 := parse_pred_text c2 op2 l2 cmp2 hc2 hl2 ho2
  refine ⟨?_, ?_, ?_⟩
  · intro hand hor
    simp only [parse_where, find_sub_none_of_absent _ _ 0 hand,
      find_sub_none_of_absent _ _ 0 hor, q1, Option.isSome_some]
  · intro hk hfirst
    obtain ⟨f1, f2, f3⟩ := find_connective " AND ".toList kw _ (pred_text c2 op2 l2) hk hfirst
    have f4 : (pred_text c1 op1 l1 ++ kw ++ pred_text c2 op2 l2).drop
        ((pred_text c1 op1 l1).length + 5) = pred_text c2 op2 l2 := f3
    simp only [parse_where, f1, f2, f4, q1, q2, Option.isSome_some, Bool.and_self]
  · intro hk hand hfirst
    obtain ⟨f1, f2, f3⟩ := find_connective " OR ".toList kw _ (pred_text c2 op2 l2) hk hfirst
    have f4 : (pred_text c1 op1 l1 ++ kw ++ pred_text c2 op2 l2).drop
        ((pred_text c1 op1 l1).length + 4) = pred_text c2 op2 l2 := f3
    simp only [parse_where, find_sub_none_of_absent _ _ 0 hand, f1, f2, f4, q1, q2,
      Option.isSome_some, Bool.and_self]

/-- C40 (counterexample): the column name `name` and the literal `'salt and pepper'`
contain none of `!`, `=`, `<`, `>`, yet `parse_where("name == 'salt and pepper'")`
fails: it cuts the expression at the ` and ` inside the literal, reads the predicate
`(name, EQ, 'salt)` and finds no operator in `pepper'`. -/
theorem parse_where_splits_literal :
    no_op_char "name".toList ∧ no_op_char "'salt and pepper'".toList ∧
    cmp_of_op "==".toList = some Cmp.EQ ∧
    pred_text "name".toList "==".toList "'salt and pepper'".toList
      = "name == 'salt and pepper'".toList ∧
    (parse_where "name == 'salt and pepper'".toList Where.empty).1 = false ∧
    (parse_where "name == 'salt and pepper'".toList Where.empty).2.op = "AND" ∧
    ((parse_where "name == 'salt and pepper'".toList Where.empty).2.p1.map (fun p => p.lit))
      = some "'salt" ∧
    (parse_where "name == 'salt and pepper'".toList Where.empty).2.p2.isNone = true := by
  refine ⟨by unfold no_op_char; decide, by unfold no_op_char; decide, by decide, by decide,
    by decide, by decide, by decide, by decide⟩

/-- Instance of C40: `a >= 3` alone and `a >= 3 and b != 'x'`. -/
theorem parse_where_forms_witness :
    (no_op_char "a".toList ∧ no_op_char "3".toList ∧ no_op_char "b".toList ∧
      no_op_char "'x'".toList ∧ cmp_of_op ">=".toList = some Cmp.GE ∧
      cmp_of_op "!=".toList = some Cmp.NE) ∧
    parse_where "a >= 3".toList Where.empty
      = (true, { p1 := some { col := "a", cmp := Cmp.GE, lit := "3" }, p2 := none, op := "" }) ∧
    parse_where "a >= 3 and b != 'x'".toList Where.empty
      = (true, { p1 := some { col := "a", cmp := Cmp.GE, lit := "3" },
                 p2 := some { col := "b", cmp := Cmp.NE, lit := "'x'" }, op := "AND" }) :=
  have h1 : no_op_char "a".toList := by unfold no_op_char; decide
  have h2 : no_op_char "3".toList := by unfold no_op_char; decide
  have h3 : no_op_char "b".toList := by unfold no_op_char; decide
  have h4 : no_op_char "'x'".toList := by unfold no_op_char; decide
  ⟨⟨h1, h2, h3, h4, by decide, by decide⟩,
    (parse_where_forms "a".toList ">=".toList "3".toList "b".toList "!=".toList "'x'".toList
      " and ".toList Cmp.GE Cmp.NE Where.empty h1 h2 h3 h4 (by decide) (by decide)).1
      (find_sub_none_iff _ _ 0 (by decide)) (find_sub_none_iff _ _ 0 (by decide)),
    (parse_where_forms "a".toList ">=".toList "3".toList "b".toList "!=".toList "'x'".toList
      " and ".toList Cmp.GE Cmp.NE Where.empty h1 h2 h3 h4 (by decide) (by decide)).2.1
      (by decide) (find_sub_sound " AND ".toList _ 0 6 (by decide)).2.2⟩

end where_clause

end sqlmini

/-! ## The column types `parse_type` accepts -/

namespace sqlmini

open gft diskbtree minidb

section column_types

theorem isDigit_range (d : Char) (h : d.isDigit = true) : 48 ≤ d.toNat ∧ d.toNat ≤ 57 := by
  simp only [Char.isDigit, Bool.and_eq_true, decide_eq_true_eq] at h
  exact ⟨h.1, h.2⟩

theorem ne_of_toNat (d c : Char) (h : d.toNat ≠ c.toNat) : d ≠ c := fun e => h (by rw [e])

theorem isspace_digit (d : Char) (h : d.isDigit = true) : isspace d = false := by
  obtain ⟨h1, h2⟩ := isDigit_range d h
  have n1 : d ≠ ' ' := ne_of_toNat d ' ' (by have : (' ' : Char).toNat = 32 := rfl; omega)
  have n2 : d ≠ '\t' := ne_of_toNat d '\t' (by have : ('\t' : Char).toNat = 9 := rfl; omega)
  have n3 : d ≠ '\n' := ne_of_toNat d '\n' (by have : ('\n' : Char).toNat = 10 := rfl; omega)
  have n4 : d ≠ '\r' := ne_of_toNat d '\r' (by have : ('\r' : Char).toNat = 13 := rfl; omega)
  have n5 : d.toNat ≠ 11 := by omega
  have n6 : d.toNat ≠ 12 := by omega
  simp [isspace, n1, n2, n3, n4, n5, n6]

/-- The call `std::stoi` on a non-empty string of decimal digits whose value fits an
`int` returns that value. -/
theorem stoi_digits (ds : List Char) (hne : ds ≠ []) (hd : ∀ d ∈ ds, d.isDigit = true)
    (hv : decimal_value ds ≤ 2147483647) (h0 : 0 ≤ decimal_value ds) :
    stoi (String.mk ds) = some (decimal_value ds) := by
  obtain ⟨d, dt, rfl⟩ : ∃ d dt, ds = d :: dt := by
    cases ds with
    | nil => exact absurd rfl hne
    | cons d dt => exact ⟨d, dt, rfl⟩
  have hdd := hd d (List.mem_cons_self _ _)
  obtain ⟨r1, r2⟩ := isDigit_range d hdd
  have e1 : (d :: dt).dropWhile isspace = d :: dt :=
    List.dropWhile_cons_of_neg (by rw [isspace_digit d hdd]; decide)
  have n1 : d ≠ '-' := ne_of_toNat d '-' (by have : ('-' : Char).toNat = 45 := rfl; omega)
  have n2 : d ≠ '+' := ne_of_toNat d '+' (by have : ('+' : Char).toNat = 43 := rfl; omega)
  have e2 : (d :: dt).takeWhile Char.isDigit = d :: dt := by
    rw [List.takeWhile_eq_self_iff]
    exact hd
  have e3 : ((some d : Option Char) == some '-') = false := by
    simp [n1]
  have e4 : ((some d : Option Char) == some '+') = false := by
    simp [n2]
  have hv2 : ¬ (decimal_value (d :: dt) < -2147483648 ∨ decimal_value (d :: dt) > 2147483647) := by
    omega
  unfold decimal_value at hv2
  have e0 : (String.mk (d :: dt)).toList = d :: dt := rfl
  simp only [stoi, e0, e1, List.head?_cons, e3, e4, Bool.or_self, Bool.false_eq_true, if_false, e2,
    List.isEmpty_cons, hv2, decimal_value]

theorem trim_length_le (s : List Char) : (trim s).length ≤ s.length := by
  rw [trim_eq]
  exact le_trans (List.rdropWhile_prefix isspace _).length_le
    (List.dropWhile_sublist isspace).length_le

theorem not_digit_rparen (d : Char) (h : d.isDigit = true) : d ≠ ')' :=
  ne_of_toNat d ')' (by
    have := isDigit_range d h
    have e : (')' : Char).toNat = 41 := rfl
    omega)

/-- The outcome of `parse_type` on `CHAR(` digits `)`. -/
theorem parse_type_char (t ds : List Char)
    (hT : to_upper (trim t) = "CHAR(".toList ++ ds ++ [')']) (hne : ds ≠ [])
    (hd : ∀ d ∈ ds, d.isDigit = true) (h0 : 0 < decimal_value ds)
    (hv : decimal_value ds ≤ 2147483647) (hlen : t.length < 18446744073709551616) :
    parse_type t = some (some (ColType.CHAR, decimal_value ds)) := by
  have hTl : (to_upper (trim t)).length ≤ t.length := by
    simp only [to_upper, List.length_map]
    exact trim_length_le t
  have hform : to_upper (trim t) = 'C' :: 'H' :: 'A' :: 'R' :: '(' :: (ds ++ [')']) := by
    rw [hT]; rfl
  have hl : (to_upper (trim t)).length = ds.length + 6 := by
    rw [hform]; simp
  have c1 : ¬ (to_upper (trim t) = "INT".toList ∨ to_upper (trim t) = "INTEGER".toList) := by
    rw [hform]
    rintro (h | h) <;> exact absurd (List.cons.inj h).1 (by decide)
  have c2 : ¬ (to_upper (trim t) = "FLOAT".toList ∨ to_upper (trim t) = "REAL".toList) := by
    rw [hform]
    rintro (h | h) <;> exact absurd (List.cons.inj h).1 (by decide)
  have c3 : starts_with (to_upper (trim t)) "CHAR".toList = true := by
    rw [hform]; rfl
  have f1 : find_char (to_upper (trim t)) '(' 0 = some 4 := by
    have := find_char_skip ['C', 'H', 'A', 'R'] (ds ++ [')']) '(' (by decide)
    rw [hform]
    exact this
  have f2 : find_char (to_upper (trim t)) ')' 0 = some (ds.length + 5) := by
    have := find_char_skip ('C' :: 'H' :: 'A' :: 'R' :: '(' :: ds) [] ')' (by
      intro x hx
      simp only [List.mem_cons] at hx
      rcases hx with hx | hx | hx | hx | hx | hx
      · rw [hx]; decide
      · rw [hx]; decide
      · rw [hx]; decide
      · rw [hx]; decide
      · rw [hx]; decide
      · exact not_digit_rparen x (hd x hx))
    rw [hform]
    simpa using this
  have s1 : size_sub (size_sub (ds.length + 5) 4) 1 = ds.length := by
    unfold size_sub
    omega
  have s2 : substr (to_upper (trim t)) (4 + 1) ds.length = some ds := by
    have hp : ¬ (4 + 1 > (to_upper (trim t)).length) := by omega
    rw [substr, if_neg hp, hform]
    simp
  have hgt : ds.length + 5 > 4 + 1 := by
    have : 0 < ds.length := List.length_pos.2 hne
    omega
  have hn : decimal_value ds > 0 := h0
  simp only [parse_type, c1, c2, c3, if_true, if_false, f1, f2, hgt, s1, s2,
    stoi_digits ds hne hd hv (le_of_lt h0), hn]

/-- What `parse_type` has found when it accepts. -/
theorem parse_type_accepted (t : List Char) (ty : ColType) (n : Int)
    (h : parse_type t = some (some (ty, n))) :
    (ty = ColType.INT32 ∧ n = 0 ∧
      (to_upper (trim t) = "INT".toList ∨ to_upper (trim t) = "INTEGER".toList)) ∨
    (ty = ColType.FLOAT32 ∧ n = 0 ∧
      (to_upper (trim t) = "FLOAT".toList ∨ to_upper (trim t) = "REAL".toList)) ∨
    (ty = ColType.CHAR ∧ 0 < n ∧ starts_with (to_upper (trim t)) "CHAR".toList = true ∧
      ∃ p q inner, find_char (to_upper (trim t)) '(' 0 = some p ∧
        find_char (to_upper (trim t)) ')' 0 = some q ∧ p + 1 < q ∧
        substr (to_upper (trim t)) (p + 1) (size_sub (size_sub q p) 1) = some inner ∧
        stoi (String.mk inner) = some n) := by
  unfold parse_type at h
  simp only at h
  by_cases c1 : to_upper (trim t) = "INT".toList ∨ to_upper (trim t) = "INTEGER".toList
  · rw [if_pos c1] at h
    simp only [Option.some.injEq, Prod.mk.injEq] at h
    exact Or.inl ⟨h.1.symm, h.2.symm, c1⟩
  rw [if_neg c1] at h
  by_cases c2 : to_upper (trim t) = "FLOAT".toList ∨ to_upper (trim t) = "REAL".toList
  · rw [if_pos c2] at h
    simp only [Option.some.injEq, Prod.mk.injEq] at h
    exact Or.inr (Or.inl ⟨h.1.symm, h.2.symm, c2⟩)
  rw [if_neg c2] at h
  by_cases c3 : starts_with (to_upper (trim t)) "CHAR".toList = true
  · rw [if_pos c3] at h
    cases hp : find_char (to_upper (trim t)) '(' 0 with
    | none => rw [hp] at h; simp at h
    | some p =>
      cases hq : find_char (to_upper (trim t)) ')' 0 with
      | none => rw [hp, hq] at h; simp at h
      | some q =>
        rw [hp, hq] at h
        simp only at h
        by_cases hg : q > p + 1
        · rw [if_pos hg] at h
          cases hs : substr (to_upper (trim t)) (p + 1) (size_sub (size_sub q p) 1) with
          | none => rw [hs] at h; simp at h
          | some inner =>
            rw [hs] at h
            simp only at h
            cases hn : stoi (String.mk inner) with
            | none => rw [hn] at h; simp at h
            | some m =>
              rw [hn] at h
              simp only at h
              by_cases hm : m > 0
              · rw [if_pos hm] at h
                simp only [Option.some.injEq, Prod.mk.injEq] at h
                refine Or.inr (Or.inr ⟨h.1.symm, by rw [← h.2]; exact hm, c3, p, q, inner,
                  rfl, rfl, hg, hs, by rw [hn, h.2]⟩)
              · rw [if_neg hm] at h
                simp at h
        · rw [if_neg hg] at h
          simp at h
  · rw [if_neg c3] at h
    simp at h

/-- C31 (amended): after trimming and upper-casing, `parse_type` accepts INT and
INTEGER as INT32, FLOAT and REAL as FLOAT32, and `CHAR(n)` with `n` a positive decimal
integer up to 2147483647 as CHAR of width `n`.  Whatever it accepts is one of the four
words or begins with CHAR and has a first `(` and a first `)` further right, between
which `std::stoi` reads a positive number, the width (the text need not be `CHAR(n)`).
It returns false for every string that is none of the four words and does not begin
with CHAR, and for one that begins with CHAR but has no `(` or no `)`. -/
theorem parse_type_outcomes (t : List Char) (hlen : t.length < 18446744073709551616) :
    ((to_upper (trim t) = "INT".toList ∨ to_upper (trim t) = "INTEGER".toList) →
      parse_type t = some (some (ColType.INT32, 0))) ∧
    ((to_upper (trim t) = "FLOAT".toList ∨ to_upper (trim t) = "REAL".toList) →
      parse_type t = some (some (ColType.FLOAT32, 0))) ∧
    (∀ ds : List Char, to_upper (trim t) = "CHAR(".toList ++ ds ++ [')'] → ds ≠ [] →
      (∀ d ∈ ds, d.isDigit = true) → 0 < decimal_value ds → decimal_value ds ≤ 2147483647 →
      parse_type t = some (some (ColType.CHAR, decimal_value ds))) ∧
    (∀ (ty : ColType) (n : Int), parse_type t = some (some (ty, n)) →
      (ty = ColType.INT32 ∧ n = 0 ∧
        (to_upper (trim t) = "INT".toList ∨ to_upper (trim t) = "INTEGER".toList)) ∨
      (ty = ColType.FLOAT32 ∧ n = 0 ∧
        (to_upper (trim t) = "FLOAT".toList ∨ to_upper (trim t) = "REAL".toList)) ∨
      (ty = ColType.CHAR ∧ 0 < n ∧ starts_with (to_upper (trim t)) "CHAR".toList = true ∧
        ∃ p q inner, find_char (to_upper (trim t)) '(' 0 = some p ∧
          find_char (to_upper (trim t)) ')' 0 = some q ∧ p + 1 < q ∧
          substr (to_upper (trim t)) (p + 1) (size_sub (size_sub q p) 1) = some inner ∧
          stoi (String.mk inner) = some n)) ∧
    (¬ (to_upper (trim t) = "INT".toList ∨ to_upper (trim t) = "INTEGER".toList) →
      ¬ (to_upper (trim t) = "FLOAT".toList ∨ to_upper (trim t) = "REAL".toList) →
      (starts_with (to_upper (trim t)) "CHAR".toList = false ∨
        find_char (to_upper (trim t)) '(' 0 = none ∨
        find_char (to_upper (trim t)) ')' 0 = none) →
      parse_type t = some none) := by
  refine ⟨?_, ?_, ?_, parse_type_accepted t, ?_⟩
  · intro h
    simp only [parse_type, h, if_true]
  · intro h
    by_cases c1 : to_upper (trim t) = "INT".toList ∨ to_upper (trim t) = "INTEGER".toList
    · rcases h with h | h <;> rcases c1 with c | c <;> rw [h] at c <;> exact absurd c (by decide)
    · simp only [parse_type, c1, h, if_true, if_false]
  · intro ds hT hne hd h0 hv
    exact parse_type_char t ds hT hne hd h0 hv hlen
  · intro c1 c2 h3
    rcases h3 with h | h | h
    · simp only [parse_type, c1, c2, h, if_false, Bool.false_eq_true]
    · by_cases c3 : starts_with (to_upper (trim t)) "CHAR".toList = true
      · simp only [parse_type, c1, c2, c3, h, if_true, if_false]
      · simp only [parse_type, c1, c2, c3, if_false, Bool.false_eq_true]
    · by_cases c3 : starts_with (to_upper (trim t)) "CHAR".toList = true
      · simp only [parse_type, c1, c2, c3, h, if_true, if_false]
        cases find_char (to_upper (trim t)) '(' 0 <;> rfl
      · simp only [parse_type, c1, c2, c3, if_false, Bool.false_eq_true]

/-- C31 (counterexample): `CHARACTER(5)` and `char(5x)` are not of the form `CHAR(n)`
after trimming and upper-casing, yet `parse_type` accepts both as CHAR of width 5. -/
theorem parse_type_accepts_other_strings :
    parse_type "CHARACTER(5)".toList = some (some (ColType.CHAR, 5)) ∧
    parse_type "char(5x)".toList = some (some (ColType.CHAR, 5)) ∧
    to_upper (trim "CHARACTER(5)".toList) = "CHARACTER(5)".toList ∧
    to_upper (trim "char(5x)".toList) = "CHAR(5X)".toList := by
  refine ⟨by decide, by decide, by decide, by decide⟩

/-- Instance of C31: ` char(12) ` is accepted as CHAR of width 12. -/
theorem parse_type_outcomes_witness :
    " char(12) ".toList.length < 18446744073709551616 ∧
    parse_type " char(12) ".toList = some (some (ColType.CHAR, 12)) ∧
    parse_type "Integer".toList = some (some (ColType.INT32, 0)) :=
  ⟨by decide,
    (parse_type_outcomes " char(12) ".toList (by decide)).2.2.1 "12".toList (by decide)
      (by decide) (by decide) (by decide) (by decide),
    (parse_type_outcomes "Integer".toList (by decide)).1 (by decide)⟩

end column_types

end sqlmini

/-! ## The row an INSERT builds -/

namespace sqlmini

open gft diskbtree minidb gft.GenericFixedTable

variable {F : Type} [LinearOrder F] {of_bits : Nat → F} {fp : FloatProbe}

section insert_lemmas

theorem cix_find_some (sc : List ColMetaDisk) (name : String) (i : Nat)
    (h : cix_find sc name = some i) : ∃ cm, sc[i]? = some cm ∧ cm.name = name := by
  unfold cix_find at h
  cases hl : (sc.enum.filter (fun p => p.2.name == name)).getLast? with
  | none => rw [hl] at h; cases h
  | some p =>
    rw [hl] at h
    simp only [Option.map_some', Option.some.injEq] at h
    obtain ⟨ys, hys⟩ := List.getLast?_eq_some_iff.1 hl
    have hm : p ∈ sc.enum.filter (fun p => p.2.name == name) := by rw [hys]; simp
    rw [List.mem_filter] at hm
    obtain ⟨j, cm⟩ := p
    have h1 : sc[j]? = some cm := List.mk_mem_enum_iff_getElem?.1 hm.1
    simp only at h
    subst h
    exact ⟨cm, h1, by simpa using hm.2⟩

theorem parse_value_literal_tag (stof : List Char → Option Nat) (l : List Char) (t : ColType)
    (x : Value) (h : parse_value_literal stof l t = some x) : x.t = t := by
  unfold parse_value_literal at h
  cases t with
  | INT32 =>
    simp only at h
    cases hs : stoi (String.mk (trim l)) with
    | none => rw [hs] at h; cases h
    | some v => rw [hs] at h; cases h; rfl
  | FLOAT32 =>
    simp only at h
    cases hs : stof (trim l) with
    | none => rw [hs] at h; cases h
    | some v => rw [hs] at h; cases h; rfl
  | CHAR =>
    simp only [Option.some.injEq] at h
    rw [← h]; rfl

theorem default_row_valid : ∀ sc : List ColMetaDisk, row_valid sc (sc.map default_value) = true
  | [] => rfl
  | c :: sc => by
    have h1 : (default_value c).t = c.type := by
      unfold default_value
      cases c.type <;> rfl
    simp only [List.map_cons, row_valid, h1, decide_True, Bool.true_and]
    exact default_row_valid sc

/-- The loop that assigns the given values, when every named column is a column of
the table and every literal parses: each column ends with the literal of its last
mention, parsed at the column's type, and is otherwise left as it was. -/
theorem insert_values_spec (stof : List Char → Option Nat) (sc : List ColMetaDisk) :
    ∀ (cs vs : List (List Char)) (row : List Value) (idp : Bool), cs.length = vs.length →
      row_valid sc row = true →
      (∀ (k : Nat) (c v : List Char), cs[k]? = some c → vs[k]? = some v →
        ∃ i cm x, cix_find sc (String.mk (trim c)) = some i ∧ sc[i]? = some cm ∧
          parse_value_literal stof v cm.type = some x) →
      ∃ row2 idp2, insert_values stof sc cs vs row idp = some (.ok (row2, idp2)) ∧
        row_valid sc row2 = true ∧
        (∀ (i : Nat) (cm : ColMetaDisk), sc[i]? = some cm →
          row2[i]? = match literal_for sc cs vs i with
            | some l => parse_value_literal stof l cm.type
            | none => row[i]?) ∧
        (idp2 = true ↔ idp = true ∨
          ∃ j, cix_find sc "id" = some j ∧ literal_for sc cs vs j ≠ none)
  | [], [], row, idp, _, hv, _ =>
    ⟨row, idp, rfl, hv, fun i cm _ => rfl, by simp [literal_for]⟩
  | [], _ :: _, _, _, hl, _, _ => by simp at hl
  | _ :: _, [], _, _, hl, _, _ => by simp at hl
  | c :: cs, v :: vs, row, idp, hl, hv, hall => by
    obtain ⟨i, cm, x, h1, h2, h3⟩ := hall 0 c v (List.getElem?_cons_zero) (List.getElem?_cons_zero)
    have hx : x.t = cm.type := parse_value_literal_tag stof v cm.type x h3
    have hv2 : row_valid sc (row.set i x) = true := row_valid_set sc row i cm x hv h2 hx
    obtain ⟨row2, idp2, e1, e2, e3, e4⟩ := insert_values_spec stof sc cs vs (row.set i x)
      (idp || decide (cix_find sc "id" = some i)) (by simpa using hl) hv2
      (fun k c2 v2 hc2 hv2 => hall (k + 1) c2 v2 (by simpa using hc2) (by simpa using hv2))
    have hrl : row.length = sc.length := row_valid_length sc row hv
    refine ⟨row2, idp2, ?_, e2, ?_, ?_⟩
    · simp only [insert_values, h1, h2, h3, e1]
    · intro j cmj hj
      rw [e3 j cmj hj]
      cases hlf : literal_for sc cs vs j with
      | some l => simp only [literal_for, hlf]
      | none =>
        simp only [literal_for, hlf, h1, Option.some.injEq]
        by_cases hij : i = j
        · subst hij
          have hlt : i < row.length := by
            rw [hrl]
            exact (List.getElem?_eq_some.1 h2).1
          rw [h2] at hj
          cases hj
          simp only [if_true, List.getElem?_set, hlt, h3]
        · simp only [hij, if_false, List.getElem?_set]
    · rw [e4]
      constructor
      · rintro (h | ⟨j, hj1, hj2⟩)
        · rw [Bool.or_eq_true, decide_eq_true_eq] at h
          rcases h with h | h
          · exact Or.inl h
          · refine Or.inr ⟨i, h, ?_⟩
            cases hlf : literal_for sc cs vs i with
            | some l => simp [literal_for, hlf]
            | none => simp [literal_for, hlf, h1]
        · refine Or.inr ⟨j, hj1, ?_⟩
          cases hlf : literal_for sc cs vs j with
          | some l => simp [literal_for, hlf]
          | none => exact absurd hlf hj2
      · rintro (h | ⟨j, hj1, hj2⟩)
        · exact Or.inl (by rw [h]; rfl)
        · cases hlf : literal_for sc cs vs j with
          | some l => exact Or.inr ⟨j, hj1, by rw [hlf]; simp⟩
          | none =>
            simp only [literal_for, hlf, h1, Option.some.injEq] at hj2
            have hij : i = j := by
              by_contra hne
              simp [hne] at hj2
            subst hij
            exact Or.inl (by rw [Bool.or_eq_true, decide_eq_true_eq]; exact Or.inr hj1)

/-- A statement that names an unknown column never reaches `insertar_fila`. -/
theorem insert_values_unknown (stof : List Char → Option Nat) (sc : List ColMetaDisk) :
    ∀ (cs vs : List (List Char)) (row : List Value) (idp : Bool), cs.length = vs.length →
      (∃ c ∈ cs, cix_find sc (String.mk (trim c)) = none) →
      ∀ r, insert_values stof sc cs vs row idp ≠ some (.ok r)
  | [], _, _, _, _, h, _ => by simp at h
  | _ :: _, [], _, _, hl, _, _ => by simp at hl
  | c :: cs, v :: vs, row, idp, hl, hex, r => by
    intro hr
    cases h1 : cix_find sc (String.mk (trim c)) with
    | none => simp [insert_values, h1] at hr
    | some i =>
      have hex2 : ∃ c2 ∈ cs, cix_find sc (String.mk (trim c2)) = none := by
        obtain ⟨c2, hc2, hn⟩ := hex
        rw [List.mem_cons] at hc2
        rcases hc2 with hc2 | hc2
        · subst hc2; rw [h1] at hn; cases hn
        · exact ⟨c2, hc2, hn⟩
      simp only [insert_values, h1] at hr
      cases h2 : sc[i]? with
      | none => simp [h2] at hr
      | some cm =>
        simp only [h2] at hr
        cases h3 : parse_value_literal stof v cm.type with
        | none => simp [h3] at hr
        | some x =>
          simp only [h3] at hr
          exact insert_values_unknown stof sc cs vs _ _ (by simpa using hl) hex2 r hr

/-- What `insertar_fila` does with a valid row: the page id is the old `Count()`,
`Count()` grows by one, the schema stays and the new page reads as the packed row. -/
theorem insertar_fila_appends (of_bits : Nat → F) (ti : TablaInfo F) (row : List Value)
    (hs : ti.tabla.SchemaOk) (hne : ti.tabla.cols ≠ []) (hv : row_valid ti.tabla.cols row = true) :
    (insertar_fila of_bits ti row).1 = some ti.tabla.Count ∧
    (insertar_fila of_bits ti row).2.tabla.Count = ti.tabla.Count + 1 ∧
    (insertar_fila of_bits ti row).2.tabla.SchemaOk ∧
    (insertar_fila of_bits ti row).2.tabla.cols = ti.tabla.cols ∧
    ∃ out, pack_row ti.tabla.cols row (List.replicate ti.tabla.row_size 0) = some out ∧
      ((insertar_fila of_bits ti row).2.tabla.ReadRowByPageID ti.tabla.Count).1
        = some (unpack_row ti.tabla.cols out) := by
  obtain ⟨n, out, hn, hout, a1, hs2, c1, hread⟩ := AppendRow_read ti.tabla row hs hne hv
  obtain ⟨p1, p2, -⟩ := AppendRow_page_id ti.tabla row hs hne hv
  obtain ⟨si, -, -⟩ := insert_into_indexes_getElem n (ti.tabla.AppendRow row).2 ti.idx_int
    (ti.tabla.AppendRow row).2 (SameRows.refl_rows _)
  obtain ⟨sf, -, -⟩ := insert_into_indexes_of_getElem (get_float of_bits)
    (get_float_sameRows of_bits) (get_float_congr of_bits) n (ti.tabla.AppendRow row).2
    ti.idx_float _ si
  obtain ⟨sr, -, -⟩ := insert_into_indexes_of_getElem get_char
    get_char_sameRows get_char_congr n (ti.tabla.AppendRow row).2
    ti.idx_char _ sf
  have e : insertar_fila of_bits ti row = (some (n : Int),
      { ti with
        tabla := (insert_into_indexes_of get_char n
          (insert_into_indexes_of (get_float of_bits) n
            (insert_into_indexes n (ti.tabla.AppendRow row).2 ti.idx_int).2 ti.idx_float).2
          ti.idx_char).2,
        idx_int := (insert_into_indexes n (ti.tabla.AppendRow row).2 ti.idx_int).1,
        idx_float := (insert_into_indexes_of (get_float of_bits) n
          (insert_into_indexes n (ti.tabla.AppendRow row).2 ti.idx_int).2 ti.idx_float).1,
        idx_char := (insert_into_indexes_of get_char n
          (insert_into_indexes_of (get_float of_bits) n
            (insert_into_indexes n (ti.tabla.AppendRow row).2 ti.idx_int).2 ti.idx_float).2
          ti.idx_char).1 }) := by
    simp only [insertar_fila, a1]
  rw [e]
  refine ⟨by rw [hn], ?_, sr.schemaOk hs2, sr.1.trans c1, out, hout, ?_⟩
  · simp only
    rw [sr.count, p2]
  · simp only
    rw [sr.read, hn]
    exact hread

end insert_lemmas

end sqlmini

/-! ## Assignment by column name in INSERT -/

namespace sqlmini

open gft diskbtree minidb gft.GenericFixedTable

variable {F : Type} [LinearOrder F] {of_bits : Nat → F} {fp : FloatProbe}

section insert_claim

/-- The row an INSERT hands to `insertar_fila`, when every named column is a column of
the table and every literal parses. -/
theorem insert_parts_spec (stof : List Char → Option Nat) (ti : TablaInfo F)
    (cols vals : List (List Char)) (hs : ti.tabla.SchemaOk) (hne : ti.tabla.cols ≠ [])
    (hid : ∀ c ∈ ti.tabla.cols, c.name = "id" → c.type = ColType.INT32)
    (hl : cols.length = vals.length)
    (hall : ∀ (k : Nat) (c v : List Char), cols[k]? = some c → vals[k]? = some v →
      ∃ i cm x, cix_find ti.tabla.cols (String.mk (trim c)) = some i ∧
        ti.tabla.cols[i]? = some cm ∧ parse_value_literal stof v cm.type = some x) :
    ∃ out, insert_parts of_bits stof ti cols vals = some (.ok out) ∧
      out.pid = some ti.tabla.Count ∧ out.ti.tabla.Count = ti.tabla.Count + 1 ∧
      out.ti.tabla.SchemaOk ∧ out.ti.tabla.cols = ti.tabla.cols ∧
      row_valid ti.tabla.cols out.row = true ∧
      (out.auto_id = none ∨ out.auto_id = some (wrap32 (to_int32 ti.tabla.Count + 1))) ∧
      (∀ (i : Nat) (cm : ColMetaDisk), ti.tabla.cols[i]? = some cm →
        out.row[i]? = match literal_for ti.tabla.cols cols vals i with
          | some l => parse_value_literal stof l cm.type
          | none =>
            if cix_find ti.tabla.cols "id" = some i then
              some (Value.Int (wrap32 (to_int32 ti.tabla.Count + 1)))
            else some (default_value cm)) ∧
      ∃ packed, pack_row ti.tabla.cols out.row (List.replicate ti.tabla.row_size 0) = some packed ∧
        (out.ti.tabla.ReadRowByPageID ti.tabla.Count).1
          = some (unpack_row ti.tabla.cols packed) := by
  obtain ⟨row1, idp, e1, v1, r1, i1⟩ := insert_values_spec stof ti.tabla.cols cols vals
    (ti.tabla.cols.map default_value) false hl (default_row_valid _) hall
  have hdef : ∀ (i : Nat) (cm : ColMetaDisk), ti.tabla.cols[i]? = some cm →
      (ti.tabla.cols.map default_value)[i]? = some (default_value cm) := by
    intro i cm h
    rw [List.getElem?_map, h]
    rfl
  have hnl : ¬ cols.length ≠ vals.length := fun h => h hl
  have hlen1 : row1.length = ti.tabla.cols.length := row_valid_length _ _ v1
  -- the row handed over and the id assigned
  cases hj : cix_find ti.tabla.cols "id" with
  | none =>
    obtain ⟨a1, a2, a3, a4, packed, a5, a6⟩ := insertar_fila_appends of_bits ti row1 hs hne v1
    refine ⟨{ row := row1, auto_id := none, pid := (insertar_fila of_bits ti row1).1,
              ti := (insertar_fila of_bits ti row1).2 }, ?_, a1, a2, a3, a4, v1, Or.inl rfl, ?_,
            packed, a5, a6⟩
    · simp only [insert_parts, hnl, if_false, e1, hj, Option.map_none']
    · intro i cm hi
      rw [r1 i cm hi, hdef i cm hi]
      cases literal_for ti.tabla.cols cols vals i with
      | some l => rfl
      | none => simp
  | some j =>
    obtain ⟨cmj, hcj, hnj⟩ := cix_find_some _ _ _ hj
    have htj : cmj.type = ColType.INT32 := hid cmj (by obtain ⟨hlt, he⟩ := List.getElem?_eq_some.1 hcj; rw [← he]; exact List.getElem_mem _) hnj
    have hjl : j < row1.length := by
      rw [hlen1]; exact (List.getElem?_eq_some.1 hcj).1
    cases hp : idp with
    | true =>
      have hlit : literal_for ti.tabla.cols cols vals j ≠ none := by
        rcases (i1.1 hp) with h | ⟨j2, h2, h3⟩
        · cases h
        · rw [hj] at h2
          cases h2
          exact h3
      obtain ⟨a1, a2, a3, a4, packed, a5, a6⟩ := insertar_fila_appends of_bits ti row1 hs hne v1
      refine ⟨{ row := row1, auto_id := none, pid := (insertar_fila of_bits ti row1).1,
                ti := (insertar_fila of_bits ti row1).2 }, ?_, a1, a2, a3, a4, v1, Or.inl rfl, ?_,
              packed, a5, a6⟩
      · simp only [insert_parts, hnl, if_false, e1, hj, hp, Bool.not_true, Bool.false_eq_true,
          Option.map_none']
      · intro i cm hi
        rw [r1 i cm hi, hdef i cm hi]
        cases hlf : literal_for ti.tabla.cols cols vals i with
        | some l => rfl
        | none =>
          have hij : j ≠ i := fun e => hlit (by rw [e]; exact hlf)
          simp [hij]
    | false =>
      have hlit : literal_for ti.tabla.cols cols vals j = none := by
        by_contra hne2
        have := i1.2 (Or.inr ⟨j, hj, hne2⟩)
        rw [hp] at this
        cases this
      have v2 : row_valid ti.tabla.cols
          (row1.set j (Value.Int (wrap32 (to_int32 ti.tabla.Count + 1)))) = true :=
        row_valid_set _ _ j cmj _ v1 hcj (by rw [htj]; rfl)
      obtain ⟨a1, a2, a3, a4, packed, a5, a6⟩ := insertar_fila_appends of_bits ti _ hs hne v2
      refine ⟨{ row := row1.set j (Value.Int (wrap32 (to_int32 ti.tabla.Count + 1))),
                auto_id := some (wrap32 (to_int32 ti.tabla.Count + 1)),
                pid := (insertar_fila of_bits ti
                  (row1.set j (Value.Int (wrap32 (to_int32 ti.tabla.Count + 1))))).1,
                ti := (insertar_fila of_bits ti
                  (row1.set j (Value.Int (wrap32 (to_int32 ti.tabla.Count + 1))))).2 },
              ?_, a1, a2, a3, a4, v2, Or.inr rfl, ?_, packed, a5, a6⟩
      · simp only [insert_parts, hnl, if_false, e1, hj, hp, Bool.not_false, if_true,
          Option.map_some']
      · intro i cm hi
        by_cases hij : j = i
        · subst hij
          simp only [List.getElem?_set, if_true, hjl, hlit]
        · simp only [List.getElem?_set, hij, if_false]
          rw [r1 i cm hi, hdef i cm hi]
          cases hlf : literal_for ti.tabla.cols cols vals i with
          | some l => rfl
          | none =>
            have : ¬ some j = some i := fun e => hij (Option.some.inj e)
            simp [this]

/-- C32 (amended): with `cols` and `vals` the lists that `cmd_INSERT_INTO` extracts
from the statement (the comma-separated items between the first `(` and the next `)`,
and between the first `(` after VALUES and the next `)`), on a table whose id columns
are INT32: (1) a statement whose lists differ in length is answered with a diagnostic;
(2) a statement that names an unknown column never reaches `insertar_fila`, so it
appends nothing; (3) when the lengths agree, every named column is a column of the
table and every literal parses at its column's type, the command appends one row at
page id `Count()`: in it every named column holds the literal of its last mention
parsed at the column's type, an id column that is not named holds `Count() + 1` as an
`int`, and every other unnamed column holds its default (INT 0, FLOAT 0.0, CHAR
empty); the new page reads as that row packed. -/
theorem cmd_INSERT_INTO_assigns (of_bits : Nat → F) (stof : List Char → Option Nat)
    (ti : TablaInfo F)
    (full tname : List Char) (cols vals : List (List Char))
    (hp : parse_insert full = some (.parts tname cols vals))
    (hs : ti.tabla.SchemaOk) (hne : ti.tabla.cols ≠ [])
    (hid : ∀ c ∈ ti.tabla.cols, c.name = "id" → c.type = ColType.INT32) :
    (cols.length ≠ vals.length →
      cmd_INSERT_INTO of_bits stof ti full = some (.error "Número de columnas/valores no coincide.")) ∧
    ((∃ c ∈ cols, cix_find ti.tabla.cols (String.mk (trim c)) = none) →
      ∀ out, cmd_INSERT_INTO of_bits stof ti full ≠ some (.ok out)) ∧
    (cols.length = vals.length →
      (∀ (k : Nat) (c v : List Char), cols[k]? = some c → vals[k]? = some v →
        ∃ i cm x, cix_find ti.tabla.cols (String.mk (trim c)) = some i ∧
          ti.tabla.cols[i]? = some cm ∧ parse_value_literal stof v cm.type = some x) →
      ∃ out, cmd_INSERT_INTO of_bits stof ti full = some (.ok out) ∧
        out.pid = some ti.tabla.Count ∧ out.ti.tabla.Count = ti.tabla.Count + 1 ∧
        row_valid ti.tabla.cols out.row = true ∧
        (∀ (i : Nat) (cm : ColMetaDisk), ti.tabla.cols[i]? = some cm →
          out.row[i]? = match literal_for ti.tabla.cols cols vals i with
            | some l => parse_value_literal stof l cm.type
            | none =>
              if cix_find ti.tabla.cols "id" = some i then
                some (Value.Int (wrap32 (to_int32 ti.tabla.Count + 1)))
              else some (default_value cm)) ∧
        (0 ≤ ti.tabla.Count → ti.tabla.Count < 2147483647 →
          wrap32 (to_int32 ti.tabla.Count + 1) = ti.tabla.Count + 1) ∧
        ∃ packed,
          pack_row ti.tabla.cols out.row (List.replicate ti.tabla.row_size 0) = some packed ∧
          (out.ti.tabla.ReadRowByPageID ti.tabla.Count).1
            = some (unpack_row ti.tabla.cols packed)) := by
  have hc : cmd_INSERT_INTO of_bits stof ti full = insert_parts of_bits stof ti cols vals := by
    simp only [cmd_INSERT_INTO, hp]
  rw [hc]
  refine ⟨?_, ?_, ?_⟩
  · intro hl
    simp only [insert_parts, hl, ne_eq, not_false_eq_true, if_true]
  · intro hex out
    by_cases hl : cols.length = vals.length
    · have hu := insert_values_unknown stof ti.tabla.cols cols vals
        (ti.tabla.cols.map default_value) false hl hex
      have hnl : ¬ cols.length ≠ vals.length := fun h => h hl
      simp only [insert_parts, hnl, if_false]
      cases hv : insert_values stof ti.tabla.cols cols vals
          (ti.tabla.cols.map default_value) false with
      | none => simp
      | some r =>
        cases r with
        | error m => simp
        | ok r => exact absurd hv (hu r)
    · simp only [insert_parts, hl, ne_eq, not_false_eq_true, if_true]
      simp
  · intro hl hall
    obtain ⟨out, o1, o2, o3, -, -, o6, -, o8, o9⟩ :=
      insert_parts_spec stof ti cols vals hs hne hid hl hall
    refine ⟨out, o1, o2, o3, o6, o8, ?_, o9⟩
    intro h0 h1
    unfold wrap32 to_int32
    omega

set_option maxRecDepth 1000000 in
/-- C32 (counterexample): `INSERT INTO t (name) VALUES ('a)b')` on the table
`(id INT, name CHAR(40))` names the column `name` with the literal `'a)b'`, which
parsed at type CHAR is the string `a)b` (bytes 97, 41, 98).  The value list is cut at
the `)` inside the literal, so the row that is appended holds the two bytes `'a`
(39, 97) in `name`. -/
theorem cmd_INSERT_INTO_cuts_literal :
    (parse_insert "INSERT INTO t (name) VALUES ('a)b')".toList).bind InsertParts.lists
      = some ("t".toList, ["name".toList], ["'a".toList]) ∧
    parse_value_literal exStof "'a)b'".toList ColType.CHAR = some (Value.Chr [97, 41, 98]) ∧
    insert_summary (cmd_INSERT_INTO exOfBits exStof exNames "INSERT INTO t (name) VALUES ('a)b')".toList)
      = some ([Value.Int 3, Value.Chr [39, 97]], some 3, some 2, 3) := by
  refine ⟨by decide, by decide, by decide⟩

set_option maxRecDepth 1000000 in
/-- Instance of C32: `INSERT INTO t (qty) VALUES (5)` on the sample table
`(id INT, qty INT)` with three rows appends `(id = 4, qty = 5)` at page id 3. -/
theorem cmd_INSERT_INTO_assigns_witness :
    parse_insert "INSERT INTO t (qty) VALUES (5)".toList
      = some (.parts "t".toList ["qty".toList] ["5".toList]) ∧
    exPlain.tabla.SchemaOk ∧ exPlain.tabla.cols ≠ [] ∧
    (∀ c ∈ exPlain.tabla.cols, c.name = "id" → c.type = ColType.INT32) ∧
    insert_summary (cmd_INSERT_INTO exOfBits exStof exPlain "INSERT INTO t (qty) VALUES (5)".toList)
      = some ([Value.Int 4, Value.Int 5], some 4, some 3, 4) ∧
    ∃ out, cmd_INSERT_INTO exOfBits exStof exPlain "INSERT INTO t (qty) VALUES (5)".toList
        = some (.ok out) ∧
      out.pid = some exPlain.tabla.Count ∧ out.ti.tabla.Count = exPlain.tabla.Count + 1 ∧
      row_valid exPlain.tabla.cols out.row = true ∧
      (∀ (i : Nat) (cm : ColMetaDisk), exPlain.tabla.cols[i]? = some cm →
        out.row[i]? = match literal_for exPlain.tabla.cols ["qty".toList] ["5".toList] i with
          | some l => parse_value_literal exStof l cm.type
          | none =>
            if cix_find exPlain.tabla.cols "id" = some i then
              some (Value.Int (wrap32 (to_int32 exPlain.tabla.Count + 1)))
            else some (default_value cm)) ∧
      (0 ≤ exPlain.tabla.Count → exPlain.tabla.Count < 2147483647 →
        wrap32 (to_int32 exPlain.tabla.Count + 1) = exPlain.tabla.Count + 1) ∧
      ∃ packed,
        pack_row exPlain.tabla.cols out.row (List.replicate exPlain.tabla.row_size 0)
          = some packed ∧
        (out.ti.tabla.ReadRowByPageID exPlain.tabla.Count).1
          = some (unpack_row exPlain.tabla.cols packed) :=
  ⟨rfl, rfl, by decide, by decide, by decide,
    (cmd_INSERT_INTO_assigns exOfBits exStof exPlain "INSERT INTO t (qty) VALUES (5)".toList "t".toList
      ["qty".toList] ["5".toList] rfl rfl (by decide) (by decide)).2.2 rfl
      (fun k c v hc hv => by
        cases k with
        | zero =>
          simp only [List.getElem?_cons_zero, Option.some.injEq] at hc hv
          subst hc
          subst hv
          exact ⟨1, { name := "qty", type := .INT32, width := 4, offset := 4 }, Value.Int 5,
            by decide, rfl, by decide⟩
        | succ k => simp at hc)⟩

end insert_claim

end sqlmini

/-! ## Auto-assigned ids over a session -/

namespace sqlmini

open gft diskbtree minidb gft.GenericFixedTable

variable {F : Type} [LinearOrder F] {of_bits : Nat → F} {fp : FloatProbe}

section auto_ids

theorem idTable_congr {t t2 : GenericFixedTable} (h : IdTable t) (hc : t2.cols = t.cols)
    (hs : t2.SchemaOk) : IdTable t2 :=
  ⟨hs, by rw [hc]; exact h.2.1, by rw [hc]; exact h.2.2⟩

theorem idTable_id_column {t : GenericFixedTable} (h : IdTable t) :
    t.cols ≠ [] ∧ ∃ i c, t.col_index "id" = some i ∧ t.cols[i]? = some c ∧
      c.type = ColType.INT32 := by
  obtain ⟨c0, hc0, hn0⟩ := h.2.1
  refine ⟨List.ne_nil_of_mem hc0, ?_⟩
  cases hf : t.cols.findIdx? (fun c => c.name == "id") with
  | none =>
    rw [List.findIdx?_eq_none_iff] at hf
    have := hf c0 hc0
    simp [hn0] at this
  | some i =>
    obtain ⟨hlt, hp, -⟩ := List.findIdx?_eq_some_iff_getElem.1 hf
    refine ⟨i, t.cols[i], hf, List.getElem?_eq_getElem hlt, ?_⟩
    exact h.2.2 _ (List.getElem_mem _) (by simpa using hp)

theorem Count_nonneg (t : GenericFixedTable) : 0 ≤ t.Count := by
  rw [Count_eq_div]
  exact Int.ofNat_nonneg _

/-- The deletion loop keeps the schema and `Count()`. -/
theorem delete_loop_keeps : ∀ (ps : List Int) (ti ti2 : TablaInfo F) (del : List Int),
    IdTable ti.tabla → delete_loop of_bits ti ps = some (del, ti2) →
    ti2.tabla.cols = ti.tabla.cols ∧ ti2.tabla.SchemaOk ∧ ti2.tabla.Count = ti.tabla.Count
  | [], ti, ti2, del, hid, h => by
    simp only [delete_loop, Option.some.injEq, Prod.mk.injEq] at h
    rw [← h.2]
    exact ⟨rfl, hid.1, rfl⟩
  | p :: ps, ti, ti2, del, hid, h => by
    obtain ⟨-, i, c, hi, hc, hty⟩ := idTable_id_column hid
    unfold delete_loop at h
    cases hb : borrar_por_pageid of_bits ti p with
    | none => rw [hb] at h; simp at h
    | some r =>
      rw [hb] at h
      simp only at h
      obtain ⟨b, ti1⟩ := r
      obtain ⟨c1, s1, n1, -, -⟩ := borrar_step ti ti1 p b i c hid.1 hi hc hty hb
      cases hd : delete_loop of_bits ti1 ps with
      | none => rw [hd] at h; simp at h
      | some d =>
        rw [hd] at h
        simp only [Option.map_some', Option.some.injEq, Prod.mk.injEq] at h
        obtain ⟨c2, s2, n2⟩ := delete_loop_keeps ps ti1 d.2 d.1 (idTable_congr hid c1 s1) (by rw [hd])
        rw [← h.2]
        exact ⟨c2.trans c1, s2, n2.trans n1⟩

/-- A DELETE statement that returns keeps the schema and `Count()`: rows are deleted
in place. -/
theorem cmd_DELETE_FROM_keeps (fcmp : Cmp → Nat → String → Option Bool) (ti ti2 : TablaInfo F)
    (wexpr : Option Where) (del : List Int) (hid : IdTable ti.tabla)
    (h : cmd_DELETE_FROM of_bits fp fcmp ti wexpr = some (del, ti2)) :
    IdTable ti2.tabla ∧ ti2.tabla.Count = ti.tabla.Count := by
  unfold cmd_DELETE_FROM at h
  simp only at h
  split at h
  · cases h
  · obtain ⟨c2, s2, n2⟩ := delete_loop_keeps _ ti ti2 del hid h
    exact ⟨idTable_congr hid c2 s2, n2⟩

theorem insert_values_valid (stof : List Char → Option Nat) (sc : List ColMetaDisk) :
    ∀ (cs vs : List (List Char)) (row : List Value) (idp : Bool) (r : List Value × Bool),
      row_valid sc row = true → insert_values stof sc cs vs row idp = some (.ok r) →
      row_valid sc r.1 = true
  | [], _, row, idp, r, hv, h => by
    simp only [insert_values, Option.some.injEq, Except.ok.injEq] at h
    rw [← h]; exact hv
  | _ :: _, [], row, idp, r, hv, h => by
    simp only [insert_values, Option.some.injEq, Except.ok.injEq] at h
    rw [← h]; exact hv
  | c :: cs, v :: vs, row, idp, r, hv, h => by
    simp only [insert_values] at h
    cases h1 : cix_find sc (String.mk (trim c)) with
    | none => simp [h1] at h
    | some i =>
      simp only [h1] at h
      cases h2 : sc[i]? with
      | none => simp [h2] at h
      | some cm =>
        simp only [h2] at h
        cases h3 : parse_value_literal stof v cm.type with
        | none => simp [h3] at h
        | some x =>
          simp only [h3] at h
          exact insert_values_valid stof sc cs vs _ _ r
            (row_valid_set sc row i cm x hv h2 (parse_value_literal_tag stof v cm.type x h3)) h

/-- An INSERT that reached `insertar_fila` appended one row at page id `Count()`; if
it assigned an id, the id is `Count() + 1` as an `int`. -/
theorem cmd_INSERT_INTO_step (stof : List Char → Option Nat) (ti : TablaInfo F)
    (full : List Char) (out : Inserted F) (hid : IdTable ti.tabla)
    (h : cmd_INSERT_INTO of_bits stof ti full = some (.ok out)) :
    IdTable out.ti.tabla ∧ out.ti.tabla.Count = ti.tabla.Count + 1 ∧
    out.pid = some ti.tabla.Count ∧
    (out.auto_id = none ∨ out.auto_id = some (wrap32 (to_int32 ti.tabla.Count + 1))) := by
  obtain ⟨hne, -⟩ := idTable_id_column hid
  unfold cmd_INSERT_INTO at h
  cases hp : parse_insert full with
  | none => rw [hp] at h; simp at h
  | some parts =>
    rw [hp] at h
    cases parts with
    | diag m => simp at h
    | parts tname cols vals =>
      simp only [insert_parts] at h
      by_cases hl : cols.length ≠ vals.length
      · rw [if_pos hl] at h; simp at h
      · rw [if_neg hl] at h
        cases hv : insert_values stof ti.tabla.cols cols vals
            (ti.tabla.cols.map default_value) false with
        | none => rw [hv] at h; simp at h
        | some r =>
          rw [hv] at h
          cases r with
          | error m => simp at h
          | ok r =>
            obtain ⟨row1, idp⟩ := r
            have v1 : row_valid ti.tabla.cols row1 = true :=
              insert_values_valid stof _ cols vals _ false (row1, idp) (default_row_valid _) hv
            simp only [Option.some.injEq, Except.ok.injEq] at h
            cases hj : cix_find ti.tabla.cols "id" with
            | none =>
              rw [hj] at h
              simp only [Option.map_none'] at h
              obtain ⟨a1, a2, a3, a4, -⟩ := insertar_fila_appends of_bits ti row1 hid.1 hne v1
              rw [← h]
              exact ⟨idTable_congr hid a4 a3, a2, a1, Or.inl rfl⟩
            | some j =>
              rw [hj] at h
              obtain ⟨cmj, hcj, hnj⟩ := cix_find_some _ _ _ hj
              have htj : cmj.type = ColType.INT32 := hid.2.2 cmj (by
                obtain ⟨hlt, he⟩ := List.getElem?_eq_some.1 hcj
                rw [← he]; exact List.getElem_mem _) hnj
              cases hpi : idp with
              | true =>
                rw [hpi] at h
                simp only [Bool.not_true, Bool.false_eq_true, if_false, Option.map_none'] at h
                obtain ⟨a1, a2, a3, a4, -⟩ := insertar_fila_appends of_bits ti row1 hid.1 hne v1
                rw [← h]
                exact ⟨idTable_congr hid a4 a3, a2, a1, Or.inl rfl⟩
              | false =>
                rw [hpi] at h
                simp only [Bool.not_false, if_true, Option.map_some'] at h
                have v2 : row_valid ti.tabla.cols
                    (row1.set j (Value.Int (wrap32 (to_int32 ti.tabla.Count + 1)))) = true :=
                  row_valid_set _ _ j cmj _ v1 hcj (by rw [htj]; rfl)
                obtain ⟨a1, a2, a3, a4, -⟩ := insertar_fila_appends of_bits ti _ hid.1 hne v2
                rw [← h]
                exact ⟨idTable_congr hid a4 a3, a2, a1, Or.inr rfl⟩

/-- Over a run of INSERT and DELETE statements `Count()` never decreases and every
auto-assigned id lies above the `Count()` before the run and is larger than the ids
assigned before it. -/
theorem run_stmts_ids (stof : List Char → Option Nat) (fcmp : Cmp → Nat → String → Option Bool) :
    ∀ (stmts : List Stmt) (ti : TablaInfo F), IdTable ti.tabla →
      (run_stmts of_bits fp stof fcmp ti stmts).2.tabla.Count ≤ 2147483647 →
      ti.tabla.Count ≤ (run_stmts of_bits fp stof fcmp ti stmts).2.tabla.Count ∧
      (∀ id ∈ (run_stmts of_bits fp stof fcmp ti stmts).1,
        ti.tabla.Count < id ∧ id ≤ (run_stmts of_bits fp stof fcmp ti stmts).2.tabla.Count) ∧
      (run_stmts of_bits fp stof fcmp ti stmts).1.Pairwise (fun a b => a < b)
  | [], ti, _, _ => ⟨le_refl _, by simp [run_stmts], by simp [run_stmts]⟩
  | .insert full :: rest, ti, hid, hb => by
    cases hc : cmd_INSERT_INTO of_bits stof ti full with
    | none => simp [run_stmts, hc]
    | some r =>
      cases r with
      | error m =>
        have e : run_stmts of_bits fp stof fcmp ti (.insert full :: rest) = run_stmts of_bits fp stof fcmp ti rest := by
          simp only [run_stmts, hc]
        rw [e] at hb ⊢
        exact run_stmts_ids stof fcmp rest ti hid hb
      | ok out =>
        obtain ⟨hid2, hcnt, hpid, hauto⟩ := cmd_INSERT_INTO_step stof ti full out hid hc
        have e : run_stmts of_bits fp stof fcmp ti (.insert full :: rest)
            = ((match out.auto_id, out.pid with
                | some id, some _ => [id]
                | _, _ => []) ++ (run_stmts of_bits fp stof fcmp out.ti rest).1,
               (run_stmts of_bits fp stof fcmp out.ti rest).2) := by
          simp only [run_stmts, hc]
        rw [e] at hb ⊢
        simp only at hb ⊢
        obtain ⟨m1, m2, m3⟩ := run_stmts_ids stof fcmp rest out.ti hid2 hb
        have h0 := Count_nonneg ti.tabla
        rcases hauto with ha | ha
        · rw [ha]
          simp only [List.nil_append]
          exact ⟨by omega, fun id hx => by have := m2 id hx; omega, m3⟩
        · rw [ha, hpid]
          simp only [List.singleton_append, List.mem_cons, List.pairwise_cons]
          have hw : wrap32 (to_int32 ti.tabla.Count + 1) = ti.tabla.Count + 1 := by
            unfold wrap32 to_int32
            omega
          rw [hw]
          refine ⟨by omega, ?_, ?_, m3⟩
          · rintro id (hx | hx)
            · omega
            · have := m2 id hx; omega
          · intro id hx
            have := m2 id hx
            omega
  | .delete wexpr :: rest, ti, hid, hb => by
    cases hc : cmd_DELETE_FROM of_bits fp fcmp ti wexpr with
    | none => simp [run_stmts, hc]
    | some r =>
      obtain ⟨del, ti2⟩ := r
      obtain ⟨hid2, hcnt⟩ := cmd_DELETE_FROM_keeps fcmp ti ti2 wexpr del hid hc
      have e : run_stmts of_bits fp stof fcmp ti (.delete wexpr :: rest) = run_stmts of_bits fp stof fcmp ti2 rest := by
        simp only [run_stmts, hc]
      rw [e] at hb ⊢
      obtain ⟨m1, m2, m3⟩ := run_stmts_ids stof fcmp rest ti2 hid2 hb
      rw [hcnt] at m1 m2
      exact ⟨m1, m2, m3⟩

/-- C33 (amended): auto-assigned ids stay unique after deletes followed by inserts.
On a table with an INT32 id column that ends with at most 2^31 - 1 rows, for every
sequence of INSERT and DELETE statements the ids that the autoincrement assigns are
strictly increasing in the order of the statements, so no two rows are assigned the
same id: DELETE rewrites rows in place and leaves the physical row count as it is,
and every INSERT that assigns an id appends one row. -/
theorem auto_ids_unique (of_bits : Nat → F) (fp : FloatProbe) (stof : List Char → Option Nat)
    (fcmp : Cmp → Nat → String → Option Bool) (ti : TablaInfo F) (stmts : List Stmt)
    (hid : IdTable ti.tabla)
    (hb : (run_stmts of_bits fp stof fcmp ti stmts).2.tabla.Count ≤ 2147483647) :
    (run_stmts of_bits fp stof fcmp ti stmts).1.Pairwise (fun a b => a < b) ∧
    (run_stmts of_bits fp stof fcmp ti stmts).1.Nodup ∧
    (∀ id ∈ (run_stmts of_bits fp stof fcmp ti stmts).1,
      ti.tabla.Count < id ∧ id ≤ (run_stmts of_bits fp stof fcmp ti stmts).2.tabla.Count) := by
  obtain ⟨m1, m2, m3⟩ := run_stmts_ids stof fcmp stmts ti hid hb
  refine ⟨m3, m3.imp (fun h => ne_of_lt h), ?_⟩
  exact m2

set_option maxRecDepth 1000000 in
/-- C33 (what the code does in the claimed scenario): on the sample table with three
rows, an INSERT without id, `DELETE FROM t WHERE id == 1`, a second INSERT, a DELETE
of every row and a third INSERT assign the ids 4, 5 and 6.  The deletes leave
`Count()` as it is (it ends at 6 with one live row, page 5), so `Count() + 1` is new
each time and no id is assigned twice. -/
theorem auto_ids_after_deletes :
    (run_stmts exOfBits exProbe exStof exFcmp exPlain exSession).1 = [4, 5, 6] ∧
    (run_stmts exOfBits exProbe exStof exFcmp exPlain exSession).2.tabla.Count = 6 ∧
    printed_pids (run_stmts exOfBits exProbe exStof exFcmp exPlain exSession).2.tabla (all_pids 6) = [5] ∧
    printed_pids (run_stmts exOfBits exProbe exStof exFcmp exPlain (exSession.take 4)).2.tabla (all_pids 6) = [] ∧
    (run_stmts exOfBits exProbe exStof exFcmp exPlain (exSession.take 4)).2.tabla.Count = 5 := by
  refine ⟨by decide, by decide, by decide, by decide, by decide⟩

set_option maxRecDepth 1000000 in
/-- Instance of C33: the sample session on the sample table. -/
theorem auto_ids_unique_witness :
    IdTable exPlain.tabla ∧
    (run_stmts exOfBits exProbe exStof exFcmp exPlain exSession).2.tabla.Count ≤ 2147483647 ∧
    (run_stmts exOfBits exProbe exStof exFcmp exPlain exSession).1.Pairwise (fun a b => a < b) ∧
    (run_stmts exOfBits exProbe exStof exFcmp exPlain exSession).1.Nodup ∧
    (∀ id ∈ (run_stmts exOfBits exProbe exStof exFcmp exPlain exSession).1,
      exPlain.tabla.Count < id ∧
        id ≤ (run_stmts exOfBits exProbe exStof exFcmp exPlain exSession).2.tabla.Count) :=
  have hid : IdTable exPlain.tabla :=
    ⟨rfl, ⟨{ name := "id", type := .INT32, width := 4, offset := 0 }, by decide, rfl⟩,
      by decide⟩
  ⟨hid, by decide, auto_ids_unique exOfBits exProbe exStof exFcmp exPlain exSession hid (by decide)⟩

end auto_ids

end sqlmini
